import Mathlib

/-!
Verification of the sparse Merkle Patricia trie engine
(`crates/trie/sparse/src/trie.rs`).

Shallow embedding conventions:
* A nibble path (`Nibbles`) is a `List Nat`.
* A 32-byte digest (`B256`) is a `List Nat` of bytes.
* The node table and value table (Rust `HashMap`) are functions
  `List Nat → Option _`; insertion and removal are pointwise updates.
* The prefix set (`PrefixSetMut`) is the list of inserted paths; its frozen
  query `contains` asks whether some stored path extends the query path.
* Rust panics (`unreachable!`, `unwrap`, out-of-bounds indexing) are modelled
  by an explicit `crashed` outcome; `while` loops that are not structurally
  recursive take a fuel parameter, `none` meaning the fuel ran out.
* The RLP codec and Keccak-256 are external primitives (out of scope per the
  spec); they are passed in as an abstract `Prims` record.
-/

set_option maxHeartbeats 1000000

/-- Pointwise insertion into a map modelled as a function. -/
def mset {α : Type} (m : List Nat → Option α) (k : List Nat) (v : α) :
    List Nat → Option α :=
  fun q => if q = k then some v else m q

/-- Pointwise removal from a map modelled as a function. -/
def mdel {α : Type} (m : List Nat → Option α) (k : List Nat) :
    List Nat → Option α :=
  fun q => if q = k then none else m q

/-- The empty map. -/
def mempty {α : Type} : List Nat → Option α := fun _ => none

/-- `isPre a b` decides whether `a` is a prefix of `b`
(Rust `b.starts_with(&a)` on nibble paths). -/
def isPre : List Nat → List Nat → Bool
  | [], _ => true
  | _ :: _, [] => false
  | a :: as, b :: bs => a = b && isPre as bs

/-- Length of the longest common prefix of two nibble paths
(Rust `Nibbles::common_prefix_length`). -/
def cpl : List Nat → List Nat → Nat
  | a :: as, b :: bs => if a = b then cpl as bs + 1 else 0
  | _, _ => 0

/-- `nslice l i j` is Rust `l.slice(i..j)`. -/
def nslice (l : List Nat) (i j : Nat) : List Nat := (l.take j).drop i

/-- A 32-byte digest, as a byte list. -/
abbrev B256 := List Nat

/-- Trie nodes of the sparse trie (`SparseNode` in the source).  The second
argument of `leaf`, `ext` and `branch` is the cached hash. -/
inductive SparseNode : Type
  | empty : SparseNode
  | hash (h : B256) : SparseNode
  | leaf (key : List Nat) (h : Option B256) : SparseNode
  | ext (key : List Nat) (h : Option B256) : SparseNode
  | branch (stateMask : Nat) (h : Option B256) : SparseNode
deriving DecidableEq, Repr

/-- `SparseNode::new_leaf`. -/
def SparseNode.new_leaf (key : List Nat) : SparseNode := .leaf key none

/-- `SparseNode::new_ext`. -/
def SparseNode.new_ext (key : List Nat) : SparseNode := .ext key none

/-- `SparseNode::new_branch`. -/
def SparseNode.new_branch (stateMask : Nat) : SparseNode := .branch stateMask none

/-- `SparseNode::new_split_branch`. -/
def SparseNode.new_split_branch (a b : Nat) : SparseNode :=
  .branch ((1 <<< a) ||| (1 <<< b)) none

/-- Errors of the engine (`SparseTrieError`). -/
inductive SparseTrieError : Type
  | blind : SparseTrieError
  | blindedNode (path : List Nat) (h : B256) : SparseTrieError
  | rlp : SparseTrieError
deriving DecidableEq, Repr

/-- Outcome of one engine operation: normal return, typed error,
or a Rust panic. -/
inductive RunResult : Type
  | ok : RunResult
  | err (e : SparseTrieError) : RunResult
  | crashed : RunResult
deriving DecidableEq, Repr

/-- Node table. -/
abbrev NodeMap := List Nat → Option SparseNode

/-- Value table. -/
abbrev ValMap := List Nat → Option (List Nat)

/-- The revealed sparse trie state: node table, value table and prefix set.
The reusable `rlp_buf` scratch buffer is cleared before every use in the
source and has no observable effect, so it is not part of the state. -/
structure RevealedSparseTrie : Type where
  nodes : NodeMap
  values : ValMap
  prefixSet : List (List Nat)

/-- `RevealedSparseTrie::default()` / `SparseTrie::revealed_empty()`:
only the `Empty` root node. -/
def revealedEmpty : RevealedSparseTrie :=
  { nodes := mset mempty [] .empty, values := mempty, prefixSet := [] }

/-! ### The `update_leaf` walk -/

/-- Result of one iteration of the `update_leaf` walk: continue with a new
cursor, break / exit the loop with the updated node table, fail with a typed
error, or panic.  The node table is carried in every outcome because the
source mutates it in place. -/
inductive UStep : Type
  | cont (current : List Nat) (nodes : NodeMap) : UStep
  | stop (nodes : NodeMap) : UStep
  | fail (e : SparseTrieError) (nodes : NodeMap) : UStep
  | crash (nodes : NodeMap) : UStep

/-- One iteration of the `while let Some(node) = self.nodes.get_mut(&current)`
loop in `RevealedSparseTrie::update_leaf`.  A `none` lookup exits the loop
(`stop`). -/
def updateStep (path : List Nat) (nodes : NodeMap) (current : List Nat) : UStep :=
  match nodes current with
  | none => .stop nodes
  | some .empty => .stop (mset nodes current (SparseNode.new_leaf path))
  | some (.hash h) => .fail (.blindedNode current h) nodes
  | some (.leaf ckey _) =>
    let cur' := current ++ ckey
    if cur' = path then .crash nodes
    else
      let common := cpl cur' path
      let n1 := mset nodes current
        (SparseNode.new_ext (nslice cur' (cur'.length - ckey.length) common))
      match cur'.get? common, path.get? common with
      | some a, some b =>
        let n2 := mset n1 (cur'.take common) (SparseNode.new_split_branch a b)
        let n3 := mset n2 (path.take (common + 1))
          (SparseNode.new_leaf (path.drop (common + 1)))
        let n4 := mset n3 (cur'.take (common + 1))
          (SparseNode.new_leaf (cur'.drop (common + 1)))
        .stop n4
      | _, _ => .crash n1
  | some (.ext key h) =>
    let cur' := current ++ key
    if isPre cur' path then .cont cur' nodes
    else
      let common := cpl cur' path
      let n1 := mset nodes current
        (.ext (nslice cur' (cur'.length - key.length) common) h)
      match cur'.get? common, path.get? common with
      | some a, some b =>
        let n2 := mset n1 (cur'.take common) (SparseNode.new_split_branch a b)
        let n3 := mset n2 (path.take (common + 1))
          (SparseNode.new_leaf (path.drop (common + 1)))
        let k2 := cur'.drop (common + 1)
        let n4 := if k2 = [] then n3
          else mset n3 (cur'.take (common + 1)) (SparseNode.new_ext k2)
        .stop n4
      | _, _ => .crash n1
  | some (.branch mask h) =>
    match path.get? current.length with
    | none => .crash nodes
    | some nibble =>
      let cur' := current ++ [nibble]
      if mask.testBit nibble then .cont cur' nodes
      else
        let n1 := mset nodes current (.branch (mask ||| (1 <<< nibble)) h)
        let n2 := mset n1 cur'
          (SparseNode.new_leaf (path.drop cur'.length))
        .stop n2

/-- Result of the whole walk. -/
inductive WalkRes : Type
  | okW (nodes : NodeMap) : WalkRes
  | errW (e : SparseTrieError) (nodes : NodeMap) : WalkRes
  | crashW (nodes : NodeMap) : WalkRes

/-- The `update_leaf` walk, iterated with fuel (`none` = fuel exhausted). -/
def updateWalk (path : List Nat) : Nat → NodeMap → List Nat → Option WalkRes
  | 0, _, _ => none
  | fuel + 1, nodes, current =>
    match updateStep path nodes current with
    | .cont c' n' => updateWalk path fuel n' c'
    | .stop n' => some (.okW n')
    | .fail e n' => some (.errW e n')
    | .crash n' => some (.crashW n')

/-- `RevealedSparseTrie::update_leaf`.  Returns the outcome together with the
post-state (the source mutates in place, so the state is meaningful even when
an error is returned). -/
def update_leaf (t : RevealedSparseTrie) (path value : List Nat) (fuel : Nat) :
    Option (RunResult × RevealedSparseTrie) :=
  let t1 : RevealedSparseTrie :=
    { t with prefixSet := t.prefixSet ++ [path], values := mset t.values path value }
  if (t.values path).isSome then some (.ok, t1)
  else
    match updateWalk path fuel t.nodes [] with
    | none => none
    | some (.okW n') => some (.ok, { t1 with nodes := n' })
    | some (.errW e n') => some (.err e, { t1 with nodes := n' })
    | some (.crashW n') => some (.crashed, { t1 with nodes := n' })

/-! ### The `remove_leaf` machinery -/

/-- An entry of the stack collected by `take_nodes_for_path`
(`RemovedSparseNode` in the source). -/
structure RemovedSparseNode : Type where
  path : List Nat
  node : SparseNode
  unsetBranchNibble : Option Nat
deriving DecidableEq, Repr

/-- Result of `take_nodes_for_path`. -/
inductive TakeRes : Type
  | okT (nodes : NodeMap) (removed : List RemovedSparseNode) : TakeRes
  | errT (e : SparseTrieError) (nodes : NodeMap) : TakeRes
  | crashT (nodes : NodeMap) : TakeRes

/-- Popcount of the low 16 bits of a branch state mask
(`TrieMask::count_bits`). -/
def countBits16 (m : Nat) : Nat :=
  ((List.range 16).filter (fun i => m.testBit i)).length

/-- Index of the first set bit among the low 16
(`TrieMask::first_set_bit_index`). -/
def firstSetBit16 (m : Nat) : Option Nat :=
  (List.range 16).find? (fun i => m.testBit i)

/-- Clear one bit of a state mask (`TrieMask::unset_bit`). -/
def unsetBit (m i : Nat) : Nat := m &&& (Nat.pred (2 ^ 16) - (1 <<< i))

/-- `RevealedSparseTrie::take_nodes_for_path`: walk from the root towards
`path`, removing every spine node from the table and recording it.  The
`cfg(debug_assertions)` blocks of the source are compiled out in release
builds and are not modelled. -/
def takeNodesLoop (path : List Nat) :
    Nat → NodeMap → List Nat → List RemovedSparseNode → Option TakeRes
  | 0, _, _, _ => none
  | fuel + 1, nodes, current, acc =>
    match nodes current with
    | none => some (.okT nodes acc)
    | some n =>
      let nodes' := mdel nodes current
      match n with
      | .empty => some (.errT .blind nodes')
      | .hash h => some (.errT (.blindedNode current h) nodes')
      | .leaf k h => some (.okT nodes' (acc ++ [⟨current, .leaf k h, none⟩]))
      | .ext k h =>
        takeNodesLoop path fuel nodes' (current ++ k) (acc ++ [⟨current, .ext k h, none⟩])
      | .branch m h =>
        match path.get? current.length with
        | none => some (.crashT nodes')
        | some nib =>
          let childPath := current ++ [nib]
          let unset : Option Nat :=
            match nodes' childPath with
            | some (.leaf lk _) => if childPath ++ lk = path then some nib else none
            | _ => none
          takeNodesLoop path fuel nodes' childPath
            (acc ++ [⟨current, .branch m h, unset⟩])

/-- The re-insertion walk of `remove_leaf` (the
`while let Some(removed_node) = removed_nodes.pop()` loop).  `stack` is in
pop order, deepest ancestor first; `child` is the record of the node placed
just below the entry currently being processed. -/
def collapseLoop : List RemovedSparseNode → RemovedSparseNode → NodeMap →
    RunResult × NodeMap
  | [], _, nodes => (.ok, nodes)
  | r :: rest, child, nodes =>
    match r.node with
    | .empty => (.err .blind, nodes)
    | .hash h => (.err (.blindedNode r.path h), nodes)
    | .leaf _ _ => (.crashed, nodes)
    | .ext k _ =>
      match child.node with
      | .empty => (.err .blind, nodes)
      | .hash h => (.err (.blindedNode child.path h), nodes)
      | .leaf lk _ =>
        let nodes1 := mdel nodes child.path
        let nn := SparseNode.new_leaf (k ++ lk)
        collapseLoop rest ⟨r.path, nn, none⟩ (mset nodes1 r.path nn)
      | .ext ek _ =>
        let nodes1 := mdel nodes child.path
        let nn := SparseNode.new_ext (k ++ ek)
        collapseLoop rest ⟨r.path, nn, none⟩ (mset nodes1 r.path nn)
      | .branch _ _ =>
        collapseLoop rest ⟨r.path, r.node, none⟩ (mset nodes r.path r.node)
    | .branch m _ =>
      let m1 := match r.unsetBranchNibble with
        | some nib => unsetBit m nib
        | none => m
      if countBits16 m1 = 1 then
        match firstSetBit16 m1 with
        | none => (.crashed, nodes)
        | some c =>
          let childPath := r.path ++ [c]
          match nodes childPath with
          | none => (.crashed, nodes)
          | some .empty => (.err .blind, nodes)
          | some (.hash h) => (.err (.blindedNode childPath h), nodes)
          | some (.leaf ck _) =>
            let nn := SparseNode.new_leaf (c :: ck)
            collapseLoop rest ⟨r.path, nn, none⟩ (mset (mdel nodes childPath) r.path nn)
          | some (.ext ek _) =>
            let nn := SparseNode.new_ext (c :: ek)
            collapseLoop rest ⟨r.path, nn, none⟩ (mset (mdel nodes childPath) r.path nn)
          | some (.branch _ _) =>
            let nn := SparseNode.new_ext [c]
            collapseLoop rest ⟨r.path, nn, none⟩ (mset nodes r.path nn)
      else
        let nn := SparseNode.new_branch m1
        collapseLoop rest ⟨r.path, nn, none⟩ (mset nodes r.path nn)

/-- `RevealedSparseTrie::remove_leaf`. -/
def remove_leaf (t : RevealedSparseTrie) (path : List Nat) (fuel : Nat) :
    Option (RunResult × RevealedSparseTrie) :=
  let pfx := t.prefixSet ++ [path]
  if (t.values path).isNone then some (.ok, { t with prefixSet := pfx })
  else
    let values' := mdel t.values path
    match takeNodesLoop path fuel t.nodes [] [] with
    | none => none
    | some (.errT e n') => some (.err e, ⟨n', values', pfx⟩)
    | some (.crashT n') => some (.crashed, ⟨n', values', pfx⟩)
    | some (.okT n' removed) =>
      match removed.getLast? with
      | none => some (.crashed, ⟨n', values', pfx⟩)
      | some child0 =>
        let rest := removed.dropLast
        if rest.isEmpty then some (.ok, ⟨mset n' [] .empty, values', pfx⟩)
        else
          let (res, n'') := collapseLoop rest.reverse child0 n'
          some (res, ⟨n'', values', pfx⟩)

/-! ### The reveal engine -/

/-- Decoded trie nodes (`reth_trie_common::TrieNode`).  A branch node carries
its 16-bit state mask and the stack of encoded children, in ascending nibble
order. -/
inductive TrieNode : Type
  | emptyRoot : TrieNode
  | branch (stateMask : Nat) (stack : List (List Nat)) : TrieNode
  | extension (key : List Nat) (child : List Nat) : TrieNode
  | leaf (key : List Nat) (value : List Nat) : TrieNode
deriving DecidableEq, Repr

/-- A decoder for RLP-encoded trie nodes: the RLP codec is an external
primitive (out of scope per the spec), so it is a parameter; `none` models a
decode error. -/
abbrev TrieDecoder := List Nat → Option TrieNode

/-- Tasks of the mutually recursive reveal walk: reveal a decoded node,
reveal encoded bytes (`reveal_node_or_hash`), or process the remaining child
indices of a branch. -/
inductive RevealTask : Type
  | node (path : List Nat) (n : TrieNode) : RevealTask
  | orHash (path : List Nat) (bytes : List Nat) : RevealTask
  | children (path : List Nat) (stateMask : Nat) (stack : List (List Nat))
      (ptr : Nat) (idxs : List Nat) : RevealTask

/-- The reveal walk (`reveal_node` / `reveal_node_or_hash`), with fuel.
For a branch the children are processed first (consuming the branch's child
stack in ascending nibble order), then the branch entry itself is inserted,
exactly as in the source. -/
def revealLoop (dec : TrieDecoder) :
    Nat → RevealedSparseTrie → RevealTask → Option (RunResult × RevealedSparseTrie)
  | 0, _, _ => none
  | fuel + 1, t, task =>
    match task with
    | .node path .emptyRoot =>
      some (.ok, { t with nodes := mset t.nodes path .empty })
    | .node path (.branch mask stack) =>
      match revealLoop dec fuel t (.children path mask stack 0 (List.range 16)) with
      | none => none
      | some (.ok, t') =>
        some (.ok, { t' with nodes := mset t'.nodes path (.branch mask none) })
      | some r => some r
    | .node path (.extension key child) =>
      match revealLoop dec fuel t (.orHash (path ++ key) child) with
      | none => none
      | some (.ok, t') =>
        some (.ok, { t' with nodes := mset t'.nodes path (.ext key none) })
      | some r => some r
    | .node path (.leaf key value) =>
      some (.ok, { t with
        values := mset t.values (path ++ key) value,
        nodes := mset t.nodes path (SparseNode.new_leaf key) })
    | .orHash path bytes =>
      if bytes.length = 33 then
        some (.ok, { t with nodes := mset t.nodes path (.hash (bytes.drop 1)) })
      else
        match dec bytes with
        | none => some (.err .rlp, t)
        | some n => revealLoop dec fuel t (.node path n)
    | .children _ _ _ _ [] => some (.ok, t)
    | .children path mask stack ptr (i :: is) =>
      if mask.testBit i then
        match stack.get? ptr with
        | none => some (.crashed, t)
        | some bytes =>
          match revealLoop dec fuel t (.orHash (path ++ [i]) bytes) with
          | none => none
          | some (.ok, t') =>
            revealLoop dec fuel t' (.children path mask stack (ptr + 1) is)
          | some r => some r
      else revealLoop dec fuel t (.children path mask stack ptr is)

/-- `RevealedSparseTrie::reveal_node`. -/
def reveal_node (dec : TrieDecoder) (t : RevealedSparseTrie)
    (path : List Nat) (n : TrieNode) (fuel : Nat) :
    Option (RunResult × RevealedSparseTrie) :=
  revealLoop dec fuel t (.node path n)

/-- `RevealedSparseTrie::reveal_node_or_hash`. -/
def reveal_node_or_hash (dec : TrieDecoder) (t : RevealedSparseTrie)
    (path : List Nat) (child : List Nat) (fuel : Nat) :
    Option (RunResult × RevealedSparseTrie) :=
  revealLoop dec fuel t (.orHash path child)

/-! ### The root encoder -/

/-- The external encoding primitives: RLP encodings of the three node kinds
(already in `RlpNode` child-reference form, i.e. inline if shorter than 32
bytes, otherwise a hash reference), the `word_rlp` hash-reference form, the
partial inverse `as_hash`, Keccak-256, and the empty-trie root hash. -/
structure Prims : Type where
  leafRlp : List Nat → List Nat → List Nat
  extRlp : List Nat → List Nat → List Nat
  branchRlp : List (List Nat) → Nat → List Nat
  wordRlp : B256 → List Nat
  asHash : List Nat → Option B256
  keccak : List Nat → B256
  emptyRootHash : B256

/-- The frozen prefix-set query `PrefixSet::contains`: does some stored path
start with `q`? -/
def psContains (ps : List (List Nat)) (q : List Nat) : Bool :=
  ps.any (fun k => isPre q k)

/-- Pop the pending RLP results for the expected branch children, in
ascending order, off the result stack (the `for child_path in
&branch_child_buf` loop of `rlp_node`).  Returns the collected child
encodings and the remaining stack, or `none` on the first mismatch together
with the stack as consumed so far (the source then recomputes all
children). -/
def popChildren : List (List Nat) → List (List Nat × List Nat) → List (List Nat) →
    Option (List (List Nat)) × List (List Nat × List Nat)
  | [], stk, acc => (some acc, stk)
  | _ :: _, [], _ => (none, [])
  | c :: cs, (q, r) :: stk', acc =>
    if q = c then popChildren cs stk' (acc ++ [r]) else (none, (q, r) :: stk')

/-- Result of the iterative encoder loop. -/
inductive RlpOut : Type
  | okR (rlp : List Nat) (nodes : NodeMap) : RlpOut
  | crashR (nodes : NodeMap) : RlpOut

/-- The iterative `rlp_node` loop, with its explicit work stack of paths and
result stack of `(path, rlp)` pairs.  Cached hashes are consulted only if the
node's invalidation path is not in the frozen prefix set, and are written
back (`*hash = rlp_node.as_hash()`) after each fresh encoding. -/
def rlpLoop (P : Prims) (values : ValMap) (ps : List (List Nat)) :
    Nat → NodeMap → List (List Nat) → List (List Nat × List Nat) → Option RlpOut
  | 0, _, _, _ => none
  | fuel + 1, nodes, pathStack, rlpStack =>
    match pathStack with
    | [] =>
      match rlpStack with
      | (_, r) :: _ => some (.okR r nodes)
      | [] => some (.crashR nodes)
    | path :: rest =>
      match nodes path with
      | none => some (.crashR nodes)
      | some .empty =>
        rlpLoop P values ps fuel nodes rest ((path, P.wordRlp P.emptyRootHash) :: rlpStack)
      | some (.hash h) =>
        rlpLoop P values ps fuel nodes rest ((path, P.wordRlp h) :: rlpStack)
      | some (.leaf key hc) =>
        let full := path ++ key
        match hc, psContains ps full with
        | some h, false =>
          rlpLoop P values ps fuel nodes rest ((path, P.wordRlp h) :: rlpStack)
        | _, _ =>
          match values full with
          | none => some (.crashR nodes)
          | some v =>
            let r := P.leafRlp key v
            rlpLoop P values ps fuel (mset nodes path (.leaf key (P.asHash r)))
              rest ((path, r) :: rlpStack)
      | some (.ext key hc) =>
        let child := path ++ key
        match hc, psContains ps path with
        | some h, false =>
          rlpLoop P values ps fuel nodes rest ((path, P.wordRlp h) :: rlpStack)
        | _, _ =>
          match rlpStack with
          | (q, c) :: stk' =>
            if q = child then
              let r := P.extRlp key c
              rlpLoop P values ps fuel (mset nodes path (.ext key (P.asHash r)))
                rest ((path, r) :: stk')
            else rlpLoop P values ps fuel nodes (child :: path :: rest) rlpStack
          | [] => rlpLoop P values ps fuel nodes (child :: path :: rest) rlpStack
      | some (.branch mask hc) =>
        match hc, psContains ps path with
        | some h, false =>
          rlpLoop P values ps fuel nodes rest ((path, P.wordRlp h) :: rlpStack)
        | _, _ =>
          let childPaths := (List.range 16).filterMap
            (fun i => if mask.testBit i then some (path ++ [i]) else none)
          match popChildren childPaths rlpStack [] with
          | (some vals, stk') =>
            let r := P.branchRlp vals mask
            rlpLoop P values ps fuel (mset nodes path (.branch mask (P.asHash r)))
              rest ((path, r) :: stk')
          | (none, stk') =>
            rlpLoop P values ps fuel nodes (childPaths.reverse ++ path :: rest) stk'

/-- `RevealedSparseTrie::rlp_node` on a start path and a frozen prefix set. -/
def rlp_node (P : Prims) (values : ValMap) (ps : List (List Nat))
    (nodes : NodeMap) (path : List Nat) (fuel : Nat) : Option RlpOut :=
  rlpLoop P values ps fuel nodes [path] []

/-- Result of `root`. -/
inductive RootOut : Type
  | okRoot (digest : B256) (t : RevealedSparseTrie) : RootOut
  | crashRoot (t : RevealedSparseTrie) : RootOut

/-- `RevealedSparseTrie::root`: take (and thereby empty) the prefix set,
encode from the empty path, and either return the 32-byte reference directly
or hash the inline encoding. -/
def root (P : Prims) (t : RevealedSparseTrie) (fuel : Nat) : Option RootOut :=
  let ps := t.prefixSet
  match rlp_node P t.values ps t.nodes [] fuel with
  | none => none
  | some (.crashR n') => some (.crashRoot ⟨n', t.values, []⟩)
  | some (.okR r n') =>
    let digest := match P.asHash r with
      | some h => h
      | none => P.keccak r
    some (.okRoot digest ⟨n', t.values, []⟩)

/-- Result of the target-collection walk of `update_rlp_node_level`. -/
inductive TargetsOut : Type
  | okTg (targets : List (List Nat)) : TargetsOut
  | crashTg : TargetsOut

/-- The target-collection walk of `update_rlp_node_level`.  The source
accumulates targets in a `HashSet`, whose iteration order is unspecified;
the model keeps first-insertion order (any fixed order is a sound choice for
the properties stated about this function). -/
def collectTargets (nodes : NodeMap) (minLen : Nat) :
    Nat → List (List Nat) → List (List Nat) → Option TargetsOut
  | 0, _, _ => none
  | _ + 1, [], targets => some (.okTg targets)
  | fuel + 1, path :: rest, targets =>
    match nodes path with
    | none => some .crashTg
    | some .empty => collectTargets nodes minLen fuel rest targets
    | some (.hash _) => collectTargets nodes minLen fuel rest targets
    | some (.leaf _ _) =>
      collectTargets nodes minLen fuel rest
        (if targets.contains path then targets else targets ++ [path])
    | some (.ext key _) =>
      if minLen ≤ path.length then
        collectTargets nodes minLen fuel rest
          (if targets.contains path then targets else targets ++ [path])
      else collectTargets nodes minLen fuel ((path ++ key) :: rest) targets
    | some (.branch mask _) =>
      if minLen ≤ path.length then
        collectTargets nodes minLen fuel rest
          (if targets.contains path then targets else targets ++ [path])
      else
        let children := (List.range 16).filterMap
          (fun i => if mask.testBit i then some (path ++ [i]) else none)
        collectTargets nodes minLen fuel (children.reverse ++ rest) targets

/-- Run `rlp_node` at each collected target against a clone of the current
prefix set (the `for target in targets` loop). -/
def rlpAtTargets (P : Prims) (values : ValMap) (ps : List (List Nat))
    (fuel : Nat) : List (List Nat) → NodeMap → Option (Option NodeMap)
  | [], nodes => some (some nodes)
  | tg :: tgs, nodes =>
    match rlp_node P values ps nodes tg fuel with
    | none => none
    | some (.crashR _) => some (none)
    | some (.okR _ n') => rlpAtTargets P values ps fuel tgs n'

/-- `RevealedSparseTrie::update_rlp_node_level`.  Note that the prefix set is
only cloned, never consumed. -/
def update_rlp_node_level (P : Prims) (t : RevealedSparseTrie) (minLen : Nat)
    (fuel : Nat) : Option (RunResult × RevealedSparseTrie) :=
  match collectTargets t.nodes minLen fuel [[]] [] with
  | none => none
  | some .crashTg => some (.crashed, t)
  | some (.okTg targets) =>
    match rlpAtTargets P t.values t.prefixSet fuel targets t.nodes with
    | none => none
    | some none => some (.crashed, t)
    | some (some n') => some (.ok, { t with nodes := n' })

/-! ### The canonical trie of a finite map

Modelled from the spec: the reference full-trie hash builder
(`hash_builder` in §8) is not part of `src/`; per the spec it computes the
canonical Merkle Patricia trie of a finite key→value mapping.  The following
definitions give, for a finite prefix-free key set, the canonical node table
(§3 data model together with the §4.2/§4.3 canonicalisation rules: branches
at every divergence point, extensions compressing single-child chains,
leaves carrying the remaining suffix) and the reference root computed by
recursively RLP-encoding that canonical trie. -/

/-- `branchPosB keys c`: two keys extend `c` and diverge immediately after
it, so the canonical trie has a branch at `c`. -/
def branchPosB (keys : List (List Nat)) (c : List Nat) : Bool :=
  keys.any fun k1 => keys.any fun k2 =>
    isPre c k1 && isPre c k2 &&
      match k1.get? c.length, k2.get? c.length with
      | some a, some b => decide (a ≠ b)
      | _, _ => false

/-- `nodePosB keys p`: the canonical trie of `keys` has a node at `p` (the
root, a branch position, or the child slot of a branch position). -/
def nodePosB (keys : List (List Nat)) (p : List Nat) : Bool :=
  keys.any (fun k => isPre p k) &&
    (p.isEmpty || branchPosB keys p || branchPosB keys p.dropLast)

/-- Longest common prefix of a list of paths. -/
def lcpList : List (List Nat) → List Nat
  | [] => []
  | k :: ks => ks.foldl (fun acc k' => acc.take (cpl acc k')) k

/-- State mask of the canonical branch at `p` over the keys extending `p`. -/
def maskOfS (S : List (List Nat)) (p : List Nat) : Nat :=
  (List.range 16).foldl
    (fun m i => if S.any (fun k => k.get? p.length = some i) then m ||| (1 <<< i) else m) 0

/-- The canonical node at `p` given the keys `S` extending `p`. -/
def canonNodeOf (S : List (List Nat)) (p : List Nat) : SparseNode :=
  match S with
  | [] => .empty
  | [k] => SparseNode.new_leaf (k.drop p.length)
  | _ :: _ :: _ =>
    let c := lcpList S
    if c.length = p.length then SparseNode.new_branch (maskOfS S p)
    else SparseNode.new_ext (c.drop p.length)

/-- The canonical node table of a prefix-free key set. -/
def canonNodes (keys : List (List Nat)) : NodeMap :=
  fun p =>
    if keys.isEmpty then (if p.isEmpty then some .empty else none)
    else if nodePosB keys p then
      some (canonNodeOf (keys.filter (fun k => isPre p k)) p)
    else none

/-- Value lookup in an association list of key/value pairs. -/
def lookupV (M : List (List Nat × List Nat)) (k : List Nat) : Option (List Nat) :=
  (M.find? (fun kv => kv.1 = k)).map Prod.snd

/-- Pairwise prefix-freedom of a key set (no key is a prefix of another;
implies the keys are distinct). -/
def PrefFree (keys : List (List Nat)) : Prop :=
  keys.Pairwise (fun a b => ¬ a <+: b ∧ ¬ b <+: a)

/-- All entries of a path are nibbles. -/
def NibList (l : List Nat) : Prop := ∀ x ∈ l, x < 16

/-- The node table carried by either encoder outcome. -/
def RlpOut.nodesOf : RlpOut → NodeMap
  | .okR _ n => n
  | .crashR n => n

/-- `p` is fresh for `keys` and prefix-free against them. -/
def FreshKey (keys : List (List Nat)) (p : List Nat) : Prop :=
  ∀ k ∈ keys, ¬ k <+: p ∧ ¬ p <+: k

/-- All keys consist of nibbles. -/
def NibAll (keys : List (List Nat)) : Prop := ∀ k ∈ keys, NibList k

/-- Context of the leaf-split case of the `update_leaf` walk on a canonical
trie: the walk has reached `current`, a node position whose subtree contains
exactly the key `k0`, while inserting the fresh prefix-free path `p`;
`a`/`b` are the nibbles of `k0`/`p` at their divergence point. -/
structure LeafCtx (keys : List (List Nat)) (p current k0 : List Nat)
    (a b : Nat) : Prop where
  hpf : PrefFree keys
  hnib : NibAll keys
  hnp : NibList p
  hfresh : FreshKey keys p
  hkeys : keys ≠ []
  hS : keys.filter (fun k => isPre current k) = [k0]
  hcp : current <+: p
  hpos : nodePosB keys current = true
  hInv : ∀ j, j < current.length → ∃ k ∈ keys, p.take (j + 1) <+: k
  ha : k0.get? (cpl k0 p) = some a
  hb : p.get? (cpl k0 p) = some b

/-- Context of the extension-split case of the `update_leaf` walk on a
canonical trie: the walk has reached `current`, whose subtree keys (at least
two of them) all extend `e`, the longest common prefix, while the inserted
path `p` diverges from `e` at index `cpl e p` with nibbles `a` (key side)
and `b` (new side). -/
structure ExtCtx (keys : List (List Nat)) (p current e : List Nat)
    (a b : Nat) : Prop where
  hpf : PrefFree keys
  hnib : NibAll keys
  hnp : NibList p
  hfresh : FreshKey keys p
  hkeys : keys ≠ []
  hcp : current <+: p
  hpos : nodePosB keys current = true
  hInv : ∀ j, j < current.length → ∃ k ∈ keys, p.take (j + 1) <+: k
  hcur_e : current <+: e
  hlen_ce : current.length < e.length
  hlcp : lcpList (keys.filter (fun k => isPre current k)) = e
  hS2 : 2 ≤ (keys.filter (fun k => isPre current k)).length
  hnpre : ¬ e <+: p
  ha : e.get? (cpl e p) = some a
  hb : p.get? (cpl e p) = some b

/-- Context of the branch case of the `update_leaf` walk on a canonical
trie when the child bit for the next nibble of `p` is unset: the walk has
reached a canonical branch position `current`, and no existing key takes
the nibble `nib` that `p` takes there. -/
structure BranchCtx (keys : List (List Nat)) (p current : List Nat)
    (nib : Nat) : Prop where
  hpf : PrefFree keys
  hnib : NibAll keys
  hnp : NibList p
  hfresh : FreshKey keys p
  hkeys : keys ≠ []
  hcp : current <+: p
  hpos : nodePosB keys current = true
  hInv : ∀ j, j < current.length → ∃ k ∈ keys, p.take (j + 1) <+: k
  hS2 : 2 ≤ (keys.filter (fun k => isPre current k)).length
  hlcp : lcpList (keys.filter (fun k => isPre current k)) = current
  hg : p.get? current.length = some nib
  hunset : ∀ k ∈ keys, current <+: k → k.get? current.length ≠ some nib

/-- Tries reachable from `revealed_empty()` by successful (`Ok`-returning)
`update_leaf` calls on nibble paths. -/
inductive UBuilt : RevealedSparseTrie → Prop where
  | base : UBuilt revealedEmpty
  | step {t : RevealedSparseTrie} {p v : List Nat} {fuel : Nat}
      {t' : RevealedSparseTrie} :
      UBuilt t → NibList p → update_leaf t p v fuel = some (.ok, t') →
      UBuilt t'

/-- The branch structural invariant of the spec: every branch in the node
table has at least two children and a present node at every set child
slot. -/
def BranchInv (N : NodeMap) : Prop :=
  ∀ p mask hh, N p = some (.branch mask hh) →
    2 ≤ countBits16 mask ∧
      ∀ i, i < 16 → mask.testBit i = true → (N (p ++ [i])).isSome = true

/-- The spine of records collected by `take_nodes_for_path` on a canonical
trie while walking from `current` towards the stored key `l`: the canonical
node at every node position on the way, ending at the leaf of `l`.  A branch
record carries `unset = some nib` exactly when its child along `l` is that
final leaf. -/
inductive Spine (keys : List (List Nat)) (l : List Nat) :
    List Nat → List RemovedSparseNode → Prop where
  | leafEnd {current : List Nat} :
      keys.filter (fun k => isPre current k) = [l] →
      Spine keys l current
        [⟨current, .leaf (l.drop current.length) none, none⟩]
  | extStep {current : List Nat} {recs : List RemovedSparseNode} :
      2 ≤ (keys.filter (fun k => isPre current k)).length →
      current <+: lcpList (keys.filter (fun k => isPre current k)) →
      current.length <
        (lcpList (keys.filter (fun k => isPre current k))).length →
      Spine keys l (lcpList (keys.filter (fun k => isPre current k))) recs →
      Spine keys l current
        (⟨current,
          .ext ((lcpList (keys.filter (fun k => isPre current k))).drop
            current.length) none, none⟩ :: recs)
  | branchStep {current : List Nat} {nib : Nat} {u : Option Nat}
      {recs : List RemovedSparseNode} :
      2 ≤ (keys.filter (fun k => isPre current k)).length →
      lcpList (keys.filter (fun k => isPre current k)) = current →
      l.get? current.length = some nib →
      u = (if (keys.filter (fun k => isPre (current ++ [nib]) k)).length = 1
        then some nib else none) →
      Spine keys l (current ++ [nib]) recs →
      Spine keys l current
        (⟨current,
          .branch (maskOfS (keys.filter (fun k => isPre current k)) current)
          none, u⟩ :: recs)

/-- Sequentially remove a list of keys, requiring each `remove_leaf` call to
succeed (`Ok`). -/
def removeSeq : RevealedSparseTrie → List (List Nat) →
    Option RevealedSparseTrie
  | t, [] => some t
  | t, p :: rest =>
    match remove_leaf t p (p.length + 2) with
    | some (.ok, t2) => removeSeq t2 rest
    | _ => none

/-- Intermediate node table of the upward collapse of `remove_leaf` on the
canonical trie of `l :: K0`, just after the whole subtree spine at `P` has
been processed: ancestors of `P` on the spine are still deleted, everything
strictly below `P` already agrees with the canonical table of `K0`, and the
entry at `P` holds the processed child node (or nothing if the subtree of
`P` contained only `l`). -/
def collapseTab (K0 : List (List Nat)) (l P : List Nat) : NodeMap := fun q =>
  if isPre q P = true ∧ q ≠ P ∧ nodePosB (l :: K0) q = true then none
  else if q = P then
    (if (l :: K0).filter (fun k => isPre P k) = [l] then none
     else some (canonNodeOf (K0.filter (fun k => isPre P k)) P))
  else if isPre P q = true then canonNodes K0 q
  else canonNodes (l :: K0) q

/-- The pending child node carried by the collapse loop of `remove_leaf`
once the subtree at `P` has been processed. -/
def childNode (K0 : List (List Nat)) (l P : List Nat) : SparseNode :=
  if (l :: K0).filter (fun k => isPre P k) = [l] then
    .leaf (l.drop P.length) none
  else canonNodeOf (K0.filter (fun k => isPre P k)) P

/-- Sequentially insert a list of key/value pairs via `update_leaf`,
requiring each call to succeed (`Ok`). -/
def insertSeq : RevealedSparseTrie → List (List Nat × List Nat) →
    Option RevealedSparseTrie
  | t, [] => some t
  | t, kv :: rest =>
    match update_leaf t kv.1 kv.2 (kv.1.length + 2) with
    | some (.ok, t2) => insertSeq t2 rest
    | _ => none

/-- Modelled from the spec: the child positions the reference full-trie
hash builder recurses into below the canonical node at `p` (the extension
target, or a branch's set child slots in ascending nibble order). -/
def hbChildPaths (keys : List (List Nat)) (p : List Nat) : List (List Nat) :=
  match canonNodes keys p with
  | some (.ext key _) => [p ++ key]
  | some (.branch mask _) =>
    (List.range 16).filterMap
      (fun i => if mask.testBit i then some (p ++ [i]) else none)
  | _ => []

/-- Modelled from the spec: assemble the reference encoding of the
canonical node at `p` from its children's encodings `cs` (empty root,
leaf over the stored value, extension over its single child, branch over
its children in ascending nibble order). -/
def hbAssemble (P : Prims) (M : List (List Nat × List Nat)) (p : List Nat)
    (cs : List (List Nat)) : Option (List Nat) :=
  match canonNodes (M.map Prod.fst) p with
  | none => none
  | some .empty => some (P.wordRlp P.emptyRootHash)
  | some (.hash _) => none
  | some (.leaf key _) =>
    match lookupV M (p ++ key) with
    | none => none
    | some v => some (P.leafRlp key v)
  | some (.ext key _) =>
    match cs with
    | [c] => some (P.extRlp key c)
    | _ => none
  | some (.branch mask _) => some (P.branchRlp cs mask)

/-- Modelled from the spec: the reference full-trie hash builder's
encodings of a list of canonical positions, each computed recursively from
its children's encodings (fuel-bounded; `none` = fuel exhausted or a
malformed position). -/
def hbSteps (P : Prims) (M : List (List Nat × List Nat)) :
    Nat → List (List Nat) → Option (List (List Nat))
  | _, [] => some []
  | 0, _ :: _ => none
  | fuel + 1, p :: prest =>
    match hbSteps P M fuel (hbChildPaths (M.map Prod.fst) p) with
    | none => none
    | some cs =>
      match hbAssemble P M p cs, hbSteps P M fuel prest with
      | some r, some rs => some (r :: rs)
      | _, _ => none

/-- Modelled from the spec: `hash_builder(M, keys(M)).root` — the root
digest the reference full-trie hash builder computes over the finite
mapping `M`: recursively encode the canonical trie of `M` from the empty
path and return the 32-byte reference (or the hash of the inline root
encoding). -/
def hbRoot (P : Prims) (M : List (List Nat × List Nat)) (fuel : Nat) :
    Option B256 :=
  match hbSteps P M fuel [[]] with
  | some [r] =>
    some (match P.asHash r with
      | some h => h
      | none => P.keccak r)
  | _ => none

/-- A concrete choice of the encoding primitives, for evaluating the
root computation on concrete tries. -/
def prims0 : Prims :=
  ⟨fun key v => 1 :: key ++ v,
   fun key c => 2 :: key ++ c,
   fun cs mask => 3 :: mask :: cs.join,
   fun h => 4 :: h,
   fun _ => none,
   fun r => r.take 32,
   [0]⟩

/-! ### Structural shape of a node table entry, and concrete instances -/

/-- The shape of a node, with the cached hash erased. -/
def nodeShape : SparseNode → SparseNode
  | .empty => .empty
  | .hash h => .hash h
  | .leaf k _ => .leaf k none
  | .ext k _ => .ext k none
  | .branch m _ => .branch m none

/-- Sample primitives: any concrete instantiation of the external RLP and
Keccak interfaces. -/
def dummyPrims : Prims :=
  { leafRlp := fun _ _ => [], extRlp := fun _ _ => [], branchRlp := fun _ _ => [],
    wordRlp := fun h => h, asHash := fun _ => none, keccak := fun _ => [],
    emptyRootHash := [] }

/-- A decoder that rejects everything (no embedded-node decoding needed for
the scenarios below). -/
def noDec : TrieDecoder := fun _ => none

/-- A trie with a non-Hash (leaf) node at path `[1]`, about to be
re-revealed as a 33-byte hash reference. -/
def c2Trie : RevealedSparseTrie :=
  { nodes := mset (mset mempty [] (SparseNode.new_ext [1])) [1] (SparseNode.new_leaf [2]),
    values := mset mempty [1, 2] [9],
    prefixSet := [] }

/-- A 33-byte child blob (`0xa0` length prefix plus a 32-byte digest). -/
def c2Bytes : List Nat := 160 :: List.replicate 32 7

/-- A trie whose root is a blinded hash placeholder but whose value table
has an entry, so that `remove_leaf` must cross the placeholder. -/
def cxHashRootTrie : RevealedSparseTrie :=
  { nodes := mset mempty [] (.hash [7]),
    values := mset mempty [5] [1],
    prefixSet := [] }

/-- A single-leaf trie used for the overwrite scenario. -/
def c4Trie : RevealedSparseTrie :=
  { nodes := mset mempty [] (SparseNode.new_leaf [1, 2]),
    values := mset mempty [1, 2] [7],
    prefixSet := [] }

/-- A trie whose value-table keys all have length 1, but whose root
extension reaches past that length. -/
def c10Trie : RevealedSparseTrie :=
  { nodes := mset (mset mempty [] (SparseNode.new_ext [1, 2, 3]))
      [1, 2, 3] (SparseNode.new_leaf []),
    values := mset mempty [5] [7],
    prefixSet := [] }

/-- A decoded branch node with a single child (state mask `0b1`). -/
def c6Node : TrieNode := .branch 1 [c2Bytes]

/-- A trie satisfying the documented structural invariants (including the
branch invariant) that contains a disconnected branch at `[5]` whose child
slot 3 points into the spine of the leaf at `[5,3,1]`. -/
def c6Trie : RevealedSparseTrie :=
  { nodes :=
      mset (mset (mset (mset (mset (mset mempty
        [] (SparseNode.new_ext [5, 3]))
        [5, 3] (SparseNode.new_branch 6))
        [5, 3, 1] (SparseNode.new_leaf []))
        [5, 3, 2] (SparseNode.new_leaf []))
        [5] (SparseNode.new_branch 9))
        [5, 0] (.hash [4]),
    values := mset (mset mempty [5, 3, 1] [1]) [5, 3, 2] [1],
    prefixSet := [] }

/-! ### Basic lemmas about prefixes, common prefixes and map updates -/

theorem nilPre (l : List Nat) : [] <+: l := ⟨l, rfl⟩

theorem takePre (n : Nat) (l : List Nat) : l.take n <+: l := List.take_prefix n l

theorem isPre_iff {a b : List Nat} : isPre a b = true ↔ a <+: b := by
  induction a generalizing b with
  | nil => simp [isPre, nilPre]
  | cons x as ih =>
    cases b with
    | nil => simp [isPre]
    | cons y bs =>
      simp only [isPre, Bool.and_eq_true, decide_eq_true_eq, ih,
        List.cons_prefix_cons]

theorem isPre_false_iff {a b : List Nat} : isPre a b = false ↔ ¬ a <+: b := by
  rw [← isPre_iff]; cases isPre a b <;> simp

theorem cpl_comm (a b : List Nat) : cpl a b = cpl b a := by
  induction a generalizing b with
  | nil => cases b <;> simp [cpl]
  | cons x as ih =>
    cases b with
    | nil => simp [cpl]
    | cons y bs =>
      simp only [cpl]
      by_cases h : x = y
      · subst h; simp [ih]
      · have h' : ¬ y = x := fun hh => h hh.symm
        simp [h, h']

theorem cpl_le_left (a b : List Nat) : cpl a b ≤ a.length := by
  induction a generalizing b with
  | nil => cases b <;> simp [cpl]
  | cons x as ih =>
    cases b with
    | nil => simp [cpl]
    | cons y bs =>
      simp only [cpl]
      by_cases h : x = y
      · simpa [h] using ih bs
      · simp [h]

theorem cpl_le_right (a b : List Nat) : cpl a b ≤ b.length := by
  rw [cpl_comm]; exact cpl_le_left b a

theorem take_cpl_eq (a b : List Nat) : a.take (cpl a b) = b.take (cpl a b) := by
  induction a generalizing b with
  | nil => cases b <;> simp [cpl]
  | cons x as ih =>
    cases b with
    | nil => simp [cpl]
    | cons y bs =>
      simp only [cpl]
      by_cases h : x = y
      · subst h; simp [ih]
      · simp [h]

theorem cpl_self (a : List Nat) : cpl a a = a.length := by
  induction a with
  | nil => simp [cpl]
  | cons x as ih => simp [cpl, ih]

theorem pre_cpl_le {c a b : List Nat} (ha : c <+: a) (hb : c <+: b) :
    c.length ≤ cpl a b := by
  induction c generalizing a b with
  | nil => simp
  | cons x cs ih =>
    obtain ⟨ta, rfl⟩ := ha
    obtain ⟨tb, rfl⟩ := hb
    simpa [cpl] using ih ⟨ta, rfl⟩ ⟨tb, rfl⟩

theorem cpl_eq_length_of_pre {a b : List Nat} (h : a <+: b) :
    cpl a b = a.length :=
  le_antisymm (cpl_le_left a b) (pre_cpl_le (List.prefix_refl a) h)

theorem pre_of_cpl_eq_length {a b : List Nat} (h : cpl a b = a.length) :
    a <+: b := by
  have h1 : a.take (cpl a b) = a := by rw [h]; exact List.take_length a
  have h2 := take_cpl_eq a b
  rw [h1] at h2
  exact h2 ▸ takePre _ b

theorem get_cpl_ne {a b : List Nat} {x y : Nat}
    (hx : a.get? (cpl a b) = some x) (hy : b.get? (cpl a b) = some y) : x ≠ y := by
  induction a generalizing b with
  | nil => simp at hx
  | cons u as ih =>
    cases b with
    | nil => simp at hy
    | cons v bs =>
      by_cases h : u = v
      · subst h
        simp only [cpl, if_pos rfl] at hx hy
        exact ih (by simpa using hx) (by simpa using hy)
      · simp only [cpl, if_neg h] at hx hy
        simp only [List.get?, Option.some.injEq] at hx hy
        omega
        
theorem cpl_append_same (c a b : List Nat) :
    cpl (c ++ a) (c ++ b) = c.length + cpl a b := by
  induction c with
  | nil => simp
  | cons x cs ih => simp [cpl, ih]; omega

theorem cpl_ge_of_pre_both {c a b : List Nat} (ha : c <+: a) (hb : c <+: b) :
    c.length ≤ cpl a b := pre_cpl_le ha hb

theorem take_cpl_pre_right (a b : List Nat) : a.take (cpl a b) <+: b := by
  rw [take_cpl_eq]; exact takePre _ b

theorem pre_trans_cases {a b c : List Nat} (ha : a <+: c) (hb : b <+: c) :
    a <+: b ∨ b <+: a := by
  rcases Nat.le_total a.length b.length with h | h
  · exact Or.inl (List.prefix_of_prefix_length_le ha hb h)
  · exact Or.inr (List.prefix_of_prefix_length_le hb ha h)

theorem pre_antisymm {a b : List Nat} (h1 : a <+: b) (h2 : b <+: a) : a = b :=
  List.IsPrefix.eq_of_length h1 (le_antisymm h1.length_le h2.length_le)

theorem mset_self {α : Type} (m : List Nat → Option α) (k : List Nat) (v : α) :
    mset m k v k = some v := by simp [mset]

theorem mset_ne {α : Type} (m : List Nat → Option α) {k q : List Nat} (v : α)
    (h : q ≠ k) : mset m k v q = m q := by simp [mset, h]

theorem mdel_self {α : Type} (m : List Nat → Option α) (k : List Nat) :
    mdel m k k = none := by simp [mdel]

theorem mdel_ne {α : Type} (m : List Nat → Option α) {k q : List Nat}
    (h : q ≠ k) : mdel m k q = m q := by simp [mdel, h]

/-! ### Characterisation of the `update_leaf` walk steps -/

theorem updateStep_cont {path : List Nat} {nodes : NodeMap} {current c' : List Nat}
    {n' : NodeMap} (h : updateStep path nodes current = .cont c' n') :
    n' = nodes ∧
      ((∃ key hh, nodes current = some (.ext key hh) ∧ c' = current ++ key ∧
          isPre (current ++ key) path = true) ∨
       (∃ mask hh nib, nodes current = some (.branch mask hh) ∧
          path.get? current.length = some nib ∧ c' = current ++ [nib] ∧
          mask.testBit nib = true)) := by
  unfold updateStep at h
  split at h
  · exact absurd h (by simp)
  · exact absurd h (by simp)
  · exact absurd h (by simp)
  · rename_i heq
    simp only at h
    split at h
    · exact absurd h (by simp)
    · split at h <;> exact absurd h (by simp)
  · rename_i key hh heq
    simp only at h
    split at h
    · rename_i hp
      cases h
      exact ⟨rfl, Or.inl ⟨key, hh, heq, rfl, hp⟩⟩
    · split at h <;> exact absurd h (by simp)
  · rename_i mask hh heq
    simp only at h
    split at h
    · exact absurd h (by simp)
    · rename_i nib hnib
      split at h
      · rename_i hbit
        cases h
        exact ⟨rfl, Or.inr ⟨mask, hh, nib, heq, hnib, rfl, hbit⟩⟩
      · exact absurd h (by simp)

theorem updateStep_fail {path : List Nat} {nodes : NodeMap} {current : List Nat}
    {e : SparseTrieError} {n' : NodeMap}
    (h : updateStep path nodes current = .fail e n') :
    n' = nodes ∧ ∃ hh, nodes current = some (.hash hh) ∧ e = .blindedNode current hh := by
  unfold updateStep at h
  split at h
  · exact absurd h (by simp)
  · exact absurd h (by simp)
  · rename_i hh heq
    cases h
    exact ⟨rfl, hh, heq, rfl⟩
  · simp only at h
    split at h
    · exact absurd h (by simp)
    · split at h <;> exact absurd h (by simp)
  · simp only at h
    split at h
    · exact absurd h (by simp)
    · split at h <;> exact absurd h (by simp)
  · simp only at h
    split at h
    · exact absurd h (by simp)
    · split at h <;> exact absurd h (by simp)

theorem updateWalk_err {path : List Nat} {fuel : Nat} {nodes : NodeMap}
    {current : List Nat} {e : SparseTrieError} {n' : NodeMap}
    (h : updateWalk path fuel nodes current = some (.errW e n')) :
    n' = nodes ∧ ∃ q hh, nodes q = some (.hash hh) ∧ e = .blindedNode q hh := by
  induction fuel generalizing nodes current with
  | zero => simp [updateWalk] at h
  | succ f ih =>
    unfold updateWalk at h
    split at h
    · rename_i c' nn hstep
      obtain ⟨rfl, _⟩ := updateStep_cont hstep
      exact ih h
    · exact absurd h (by simp)
    · rename_i e' nn hstep
      simp only [Option.some.injEq, WalkRes.errW.injEq] at h
      obtain ⟨rfl, rfl⟩ := h
      obtain ⟨rfl, hh, hq, he⟩ := updateStep_fail hstep
      exact ⟨rfl, _, hh, hq, he⟩
    · exact absurd h (by simp)

/-! ### Overwrite, blinded-node and reveal-overwrite claims -/

/-- C4: if the value table already contains an entry at `p`, then
`update_leaf(p, v2)` overwrites the stored value, returns `Ok`, and leaves
the node table exactly unchanged: only the value table and the prefix set
change. -/
theorem update_leaf_overwrite (t : RevealedSparseTrie) (p v1 v2 : List Nat)
    (fuel : Nat) (h : t.values p = some v1) :
    update_leaf t p v2 fuel =
      some (.ok, { nodes := t.nodes, values := mset t.values p v2,
                   prefixSet := t.prefixSet ++ [p] }) := by
  unfold update_leaf
  simp [h]

/-- Witness for C4 on a concrete one-leaf trie. -/
theorem update_leaf_overwrite_witness :
    c4Trie.values [1, 2] = some [7] ∧
    update_leaf c4Trie [1, 2] [9] 5 =
      some (.ok, { nodes := c4Trie.nodes, values := mset c4Trie.values [1, 2] [9],
                   prefixSet := c4Trie.prefixSet ++ [[1, 2]] }) :=
  ⟨rfl, update_leaf_overwrite c4Trie [1, 2] [7] [9] 5 rfl⟩

/-- C9: when `update_leaf(p, v)` returns the `BlindedNode` error for a path
`p` that was not in the value table, the value table nonetheless contains
`p ↦ v` and the prefix set contains `p`, while the node table is completely
unchanged; if no leaf for `p` existed before the call, none exists after it,
so the leaf/value bijection is broken in the post-error state. -/
theorem update_leaf_blinded_partial (t : RevealedSparseTrie) (p v : List Nat)
    (fuel : Nat) (e : SparseTrieError) (t' : RevealedSparseTrie)
    (hv : t.values p = none)
    (hnl : ∀ q k hh, t.nodes q = some (.leaf k hh) → q ++ k ≠ p)
    (hrun : update_leaf t p v fuel = some (.err e, t')) :
    t'.values p = some v ∧ p ∈ t'.prefixSet ∧ t'.nodes = t.nodes ∧
      (∃ q hh, t.nodes q = some (.hash hh) ∧ e = .blindedNode q hh) ∧
      ∀ q k hh, t'.nodes q = some (.leaf k hh) → q ++ k ≠ p := by
  unfold update_leaf at hrun
  simp only [hv, Option.isSome_none, Bool.false_eq_true, if_false] at hrun
  split at hrun
  · exact absurd hrun (by simp)
  · exact absurd hrun (by simp)
  · rename_i e' n' hw
    simp only [Option.some.injEq, Prod.mk.injEq, RunResult.err.injEq] at hrun
    obtain ⟨rfl, rfl⟩ := hrun
    obtain ⟨rfl, q, hh, hq, he⟩ := updateWalk_err hw
    refine ⟨mset_self _ _ _, by simp, rfl, ⟨q, hh, hq, he⟩, hnl⟩
  · exact absurd hrun (by simp)

/-- Witness for C9: updating under a blinded root records the value and the
dirty path but installs no leaf. -/
theorem update_leaf_blinded_partial_witness :
    cxHashRootTrie.values [1] = none ∧
    (update_leaf cxHashRootTrie [1] [9] 3).map
        (fun r => (r.1, r.2.values [1], r.2.prefixSet, r.2.nodes [])) =
      some (.err (.blindedNode [] [7]), some [9], [[1]],
        some (.hash [7])) := by
  constructor
  · rfl
  · have h := update_leaf_blinded_partial cxHashRootTrie [1] [9] 3
      (.blindedNode [] [7])
      ⟨cxHashRootTrie.nodes, mset cxHashRootTrie.values [1] [9],
        cxHashRootTrie.prefixSet ++ [[1]]⟩
      rfl
      (by
        intro q k hh hq
        unfold cxHashRootTrie mset mempty at hq
        simp only at hq
        split at hq <;> simp_all)
      rfl
    rfl

theorem takeNodesLoop_err {path : List Nat} {fuel : Nat} {nodes : NodeMap}
    {current : List Nat} {acc : List RemovedSparseNode} {q : List Nat}
    {hh : B256} {n' : NodeMap}
    (h : takeNodesLoop path fuel nodes current acc =
      some (.errT (.blindedNode q hh) n')) :
    nodes q = some (.hash hh) ∧ n' q = none ∧
      ∀ r, n' r = nodes r ∨ n' r = none := by
  induction fuel generalizing nodes current acc with
  | zero => simp [takeNodesLoop] at h
  | succ f ih =>
    unfold takeNodesLoop at h
    split at h
    · exact absurd h (by simp)
    · rename_i n hn
      cases n with
      | empty => exact absurd h (by simp)
      | hash hh2 =>
        simp only [Option.some.injEq, TakeRes.errT.injEq,
          SparseTrieError.blindedNode.injEq] at h
        obtain ⟨⟨rfl, rfl⟩, rfl⟩ := h
        refine ⟨hn, mdel_self _ _, fun r => ?_⟩
        by_cases hr : r = current
        · subst hr; exact Or.inr (mdel_self _ _)
        · exact Or.inl (mdel_ne _ hr)
      | leaf k h2 => exact absurd h (by simp)
      | ext k h2 =>
        obtain ⟨hq, hq2, hfr⟩ := ih h
        have hqc : q ≠ current := by
          intro hcontra; subst hcontra
          rw [mdel_self] at hq; exact absurd hq (by simp)
        refine ⟨by rw [← mdel_ne nodes hqc]; exact hq, hq2, fun r => ?_⟩
        rcases hfr r with hr | hr
        · by_cases hrc : r = current
          · subst hrc; rw [hr, mdel_self]; exact Or.inr rfl
          · rw [hr, mdel_ne _ hrc]; exact Or.inl rfl
        · exact Or.inr hr
      | branch m h2 =>
        simp only at h
        split at h
        · exact absurd h (by simp)
        · obtain ⟨hq, hq2, hfr⟩ := ih h
          have hqc : q ≠ current := by
            intro hcontra; subst hcontra
            rw [mdel_self] at hq; exact absurd hq (by simp)
          refine ⟨by rw [← mdel_ne nodes hqc]; exact hq, hq2, fun r => ?_⟩
          rcases hfr r with hr | hr
          · by_cases hrc : r = current
            · subst hrc; rw [hr, mdel_self]; exact Or.inr rfl
            · rw [hr, mdel_ne _ hrc]; exact Or.inl rfl
          · exact Or.inr hr

/-- C3 counterexample: `remove_leaf` crossing a blinded root returns the
`BlindedNode` error with the right path and digest, but the root node —
present before the call — has been *removed* from the node table, refuting
the claim that nodes present before the failing call remain present. -/
theorem remove_leaf_blinded_removes_nodes :
    cxHashRootTrie.nodes [] = some (.hash [7]) ∧
    (remove_leaf cxHashRootTrie [5] 5).map
        (fun r => (r.1, r.2.nodes [])) =
      some (.err (.blindedNode [] [7]), none) :=
  ⟨rfl, rfl⟩

/-- C3 (amended): an `update_leaf` whose walk reaches a `Hash` placeholder
returns the `BlindedNode` error carrying that placeholder's path and digest
and leaves the node table unchanged (the value table and prefix set retain
the pre-walk mutations); a `remove_leaf` whose spine walk reaches a `Hash`
placeholder returns the `BlindedNode` error carrying that placeholder's path
and digest, but the spine nodes visited by the walk — including the
placeholder itself — have been removed from the node table, so the failing
call performs no mutations beyond those that occurred before the blinded
node was encountered, but nodes present before the call need not remain
present. -/
theorem blinded_refusal :
    (∀ (t : RevealedSparseTrie) (p v : List Nat) (fuel : Nat) (q : List Nat)
        (hh : B256) (n1 : NodeMap),
      t.values p = none →
      updateWalk p fuel t.nodes [] = some (.errW (.blindedNode q hh) n1) →
      t.nodes q = some (.hash hh) ∧
        update_leaf t p v fuel =
          some (.err (.blindedNode q hh),
            { nodes := t.nodes, values := mset t.values p v,
              prefixSet := t.prefixSet ++ [p] })) ∧
    (∀ (t : RevealedSparseTrie) (p : List Nat) (fuel : Nat) (q : List Nat)
        (hh : B256) (n' : NodeMap),
      (t.values p).isSome = true →
      takeNodesLoop p fuel t.nodes [] [] = some (.errT (.blindedNode q hh) n') →
      t.nodes q = some (.hash hh) ∧ n' q = none ∧
        (∀ r, n' r = t.nodes r ∨ n' r = none) ∧
        remove_leaf t p fuel =
          some (.err (.blindedNode q hh),
            { nodes := n', values := mdel t.values p,
              prefixSet := t.prefixSet ++ [p] })) := by
  constructor
  · intro t p v fuel q hh n1 hv hw
    obtain ⟨rfl, q2, hh2, hq2, he2⟩ := updateWalk_err hw
    obtain ⟨rfl, rfl⟩ : q2 = q ∧ hh2 = hh := by
      simpa [SparseTrieError.blindedNode.injEq] using he2.symm
    refine ⟨hq2, ?_⟩
    unfold update_leaf
    simp [hv, hw]
  · intro t p fuel q hh n' hv ht
    obtain ⟨hq, hq2, hfr⟩ := takeNodesLoop_err ht
    refine ⟨hq, hq2, hfr, ?_⟩
    unfold remove_leaf
    simp only [Option.isSome_iff_ne_none] at hv
    simp [hv, ht]

/-- Witness for the amended C3 on a concrete trie with a blinded root. -/
theorem blinded_refusal_witness :
    cxHashRootTrie.values [1] = none ∧
    updateWalk [1] 3 cxHashRootTrie.nodes [] =
      some (.errW (.blindedNode [] [7]) cxHashRootTrie.nodes) ∧
    (cxHashRootTrie.values [5]).isSome = true ∧
    takeNodesLoop [5] 5 cxHashRootTrie.nodes [] [] =
      some (.errT (.blindedNode [] [7]) (mdel cxHashRootTrie.nodes [])) ∧
    cxHashRootTrie.nodes [] = some (.hash [7]) ∧
    update_leaf cxHashRootTrie [1] [9] 3 =
      some (.err (.blindedNode [] [7]),
        { nodes := cxHashRootTrie.nodes,
          values := mset cxHashRootTrie.values [1] [9],
          prefixSet := cxHashRootTrie.prefixSet ++ [[1]] }) ∧
    remove_leaf cxHashRootTrie [5] 5 =
      some (.err (.blindedNode [] [7]),
        { nodes := mdel cxHashRootTrie.nodes [],
          values := mdel cxHashRootTrie.values [5],
          prefixSet := cxHashRootTrie.prefixSet ++ [[5]] }) :=
  ⟨rfl, rfl, rfl, rfl, rfl,
    (blinded_refusal.1 cxHashRootTrie [1] [9] 3 [] [7]
      cxHashRootTrie.nodes rfl rfl).2,
    (blinded_refusal.2 cxHashRootTrie [5] 5 [] [7]
      (mdel cxHashRootTrie.nodes []) rfl rfl).2.2.2⟩

/-- C2: evaluation of `reveal_node_or_hash` at the failing input.  The trie
holds a non-Hash (leaf) node at `[1]`; revealing a 33-byte hash reference at
the same path *overwrites* the leaf with a `Hash` placeholder, contradicting
the documented "reveal the trie node only if it was not known already"
behaviour (the `TODO: revise insert to not overwrite existing entries`
comments in the source mark this as a known slip). -/
theorem reveal_node_or_hash_overwrites :
    c2Trie.nodes [1] = some (SparseNode.new_leaf [2]) ∧
    c2Bytes.length = 33 ∧
    (reveal_node_or_hash noDec c2Trie [1] c2Bytes 1).map
        (fun r => (r.1, r.2.nodes [1])) =
      some (.ok, some (.hash (List.replicate 32 7))) :=
  ⟨rfl, rfl, rfl⟩

/-- C10 counterexample: in `c10Trie` every value-table key and the new path
have nibble length 1 (the value table is exactly `{[5] ↦ [7]}`), yet
`update_leaf([1], ..)` reaches the extension-split case with
`common = cpl([1,2,3],[1]) = 1` and the indexing `path[common]` is out of
bounds: the call panics, refuting the claim that the same-length hypothesis
alone keeps all nibble indexing in bounds. -/
theorem update_leaf_oob_counterexample :
    c10Trie.values = mset mempty [5] [7] ∧
    ([1] : List Nat).length = 1 ∧ ([5] : List Nat).length = 1 ∧
    ([1] : List Nat).get? (cpl ([1, 2, 3] : List Nat) [1]) = none ∧
    (update_leaf c10Trie [1] [9] 3).map Prod.fst = some .crashed :=
  ⟨rfl, rfl, rfl, rfl, rfl⟩

/-- C6 counterexample, both halves.  (i) Revealing a decoded branch node
with a single child into a fresh revealed-empty trie succeeds and leaves a
branch whose state mask has exactly one set bit.  (ii) On a trie satisfying
the documented structural invariants, a successful `remove_leaf` leaves the
(disconnected) branch at `[5]` with bit 3 set while the node at `[5,3]` has
been consumed by the collapse, so a set bit no longer has a node. -/
theorem branch_invariant_counterexample :
    (reveal_node noDec revealedEmpty [] c6Node 40).map
        (fun r => (r.1, r.2.nodes [])) = some (.ok, some (.branch 1 none)) ∧
    countBits16 1 = 1 ∧
    c6Trie.nodes [5] = some (SparseNode.new_branch 9) ∧
    c6Trie.nodes [5, 3] = some (SparseNode.new_branch 6) ∧
    (9 : Nat).testBit 3 = true ∧
    (remove_leaf c6Trie [5, 3, 1] 9).map
        (fun r => (r.1, r.2.nodes [5], r.2.nodes [5, 3])) =
      some (.ok, some (SparseNode.new_branch 9), none) :=
  ⟨rfl, rfl, rfl, rfl, rfl, rfl⟩

theorem pre_get_snoc {current p : List Nat} {x : Nat} (hp : current <+: p)
    (hx : p.get? current.length = some x) : current ++ [x] <+: p := by
  have hcur : current = p.take current.length := List.prefix_iff_eq_take.mp hp
  have htake : p.take (current.length + 1) = current ++ [x] := by
    rw [List.get?_eq_getElem?] at hx
    rw [List.take_succ, hx, ← hcur]
    rfl
  rw [← htake]
  exact takePre _ p

/-- C7: on a trie whose extension keys are all non-empty, every iteration of
the `update_leaf` walk either ends the loop or strictly lengthens the cursor
while keeping it a prefix of the target path and leaving the node table
untouched; consequently the walk terminates (with fuel `p.length + 2` it
never runs out). -/
theorem update_walk_progress (p : List Nat) (nodes : NodeMap)
    (hext : ∀ q k hh, nodes q = some (.ext k hh) → k ≠ []) :
    (∀ current c' n', current <+: p →
        updateStep p nodes current = .cont c' n' →
        n' = nodes ∧ current.length < c'.length ∧ c' <+: p) ∧
    (∀ fuel, p.length + 2 ≤ fuel → (updateWalk p fuel nodes []).isSome = true) := by
  have step : ∀ current c' n', current <+: p →
      updateStep p nodes current = .cont c' n' →
      n' = nodes ∧ current.length < c'.length ∧ c' <+: p := by
    intro current c' n' hpre hstep
    obtain ⟨rfl, hcase⟩ := updateStep_cont hstep
    refine ⟨rfl, ?_⟩
    rcases hcase with ⟨key, hh, hq, rfl, hipre⟩ | ⟨mask, hh, nib, hq, hnib, rfl, _⟩
    · have hk : key ≠ [] := hext _ _ _ hq
      constructor
      · simp only [List.length_append]
        have : 0 < key.length := List.length_pos.mpr hk
        omega
      · exact isPre_iff.mp hipre
    · constructor
      · simp
      · exact pre_get_snoc hpre hnib
  have main : ∀ fuel current, current <+: p →
      p.length + 1 - current.length < fuel →
      (updateWalk p fuel nodes current).isSome = true := by
    intro fuel
    induction fuel with
    | zero => intro current _ hlt; omega
    | succ f ih =>
      intro current hpre _
      unfold updateWalk
      cases hstep : updateStep p nodes current with
      | cont c' n' =>
        obtain ⟨rfl, hlen, hpre'⟩ := step current c' n' hpre hstep
        have hle : c'.length ≤ p.length := hpre'.length_le
        exact ih c' hpre' (by omega)
      | stop n' => simp
      | fail e n' => simp
      | crash n' => simp
  exact ⟨step, fun fuel hf => main fuel [] (nilPre p) (by simp; omega)⟩

/-- Witness for C7 on a concrete one-leaf trie. -/
theorem update_walk_progress_witness :
    (updateWalk [1, 2] 4 c4Trie.nodes []).isSome = true :=
  (update_walk_progress [1, 2] c4Trie.nodes
    (by
      intro q k hh hq
      unfold c4Trie mset mempty at hq
      simp only at hq
      split at hq <;> simp_all [SparseNode.new_leaf])).2 4 (by decide)

theorem rlpLoop_shape {P : Prims} {values : ValMap} {ps : List (List Nat)}
    {fuel : Nat} {nodes : NodeMap} {stk : List (List Nat)}
    {rstk : List (List Nat × List Nat)} {out : RlpOut}
    (h : rlpLoop P values ps fuel nodes stk rstk = some out) :
    ∀ q, (out.nodesOf q).map nodeShape = (nodes q).map nodeShape := by
  induction fuel generalizing nodes stk rstk with
  | zero => simp [rlpLoop] at h
  | succ f ih =>
    unfold rlpLoop at h
    split at h
    · split at h <;>
      · simp only [Option.some.injEq] at h
        subst h
        intro q; rfl
    · rename_i path rest
      split at h
      · simp only [Option.some.injEq] at h
        subst h
        intro q; rfl
      · exact ih h
      · exact ih h
      · rename_i key hc heq
        dsimp only at h
        split at h
        · exact ih h
        · split at h
          · simp only [Option.some.injEq] at h
            subst h
            intro q; rfl
          · intro q
            rw [ih h q]
            by_cases hq : q = path
            · subst hq
              rw [mset_self, heq]
              rfl
            · rw [mset_ne _ _ hq]
      · rename_i key hc heq
        dsimp only at h
        split at h
        · exact ih h
        · split at h
          · split at h
            · intro q
              rw [ih h q]
              by_cases hq : q = path
              · subst hq
                rw [mset_self, heq]
                rfl
              · rw [mset_ne _ _ hq]
            · exact ih h
          · exact ih h
      · rename_i mask hc heq
        dsimp only at h
        split at h
        · exact ih h
        · split at h
          · intro q
            rw [ih h q]
            by_cases hq : q = path
            · subst hq
              rw [mset_self, heq]
              rfl
            · rw [mset_ne _ _ hq]
          · exact ih h

theorem rlpAtTargets_shape {P : Prims} {values : ValMap} {ps : List (List Nat)}
    {fuel : Nat} {tgs : List (List Nat)} {nodes n' : NodeMap}
    (h : rlpAtTargets P values ps fuel tgs nodes = some (some n')) :
    ∀ q, (n' q).map nodeShape = (nodes q).map nodeShape := by
  induction tgs generalizing nodes with
  | nil =>
    simp only [rlpAtTargets, Option.some.injEq] at h
    subst h
    intro q; rfl
  | cons tg tgs ih =>
    unfold rlpAtTargets at h
    split at h
    · exact absurd h (by simp)
    · exact absurd h (by simp)
    · rename_i r n2 hr
      intro q
      rw [ih h q]
      have := rlpLoop_shape hr q
      exact this

/-- C8: `update_rlp_node_level` leaves the prefix set (and the value table)
exactly as they were; only the per-node cached hashes may change (the shape
of every node-table entry is preserved). -/
theorem update_rlp_node_level_frame (P : Prims) (t : RevealedSparseTrie)
    (minLen fuel : Nat) (r : RunResult) (t' : RevealedSparseTrie)
    (h : update_rlp_node_level P t minLen fuel = some (r, t')) :
    t'.prefixSet = t.prefixSet ∧ t'.values = t.values ∧
      ∀ q, (t'.nodes q).map nodeShape = (t.nodes q).map nodeShape := by
  unfold update_rlp_node_level at h
  split at h
  · exact absurd h (by simp)
  · simp only [Option.some.injEq, Prod.mk.injEq] at h
    obtain ⟨rfl, rfl⟩ := h
    exact ⟨rfl, rfl, fun q => rfl⟩
  · split at h
    · exact absurd h (by simp)
    · simp only [Option.some.injEq, Prod.mk.injEq] at h
      obtain ⟨rfl, rfl⟩ := h
      exact ⟨rfl, rfl, fun q => rfl⟩
    · rename_i n' hn
      simp only [Option.some.injEq, Prod.mk.injEq] at h
      obtain ⟨rfl, rfl⟩ := h
      exact ⟨rfl, rfl, rlpAtTargets_shape hn⟩

/-- Witness for C8 on the revealed-empty trie with sample primitives. -/
theorem update_rlp_node_level_frame_witness :
    update_rlp_node_level dummyPrims revealedEmpty 0 3 =
      some (.ok, revealedEmpty) ∧
    revealedEmpty.prefixSet = revealedEmpty.prefixSet :=
  ⟨rfl, (update_rlp_node_level_frame dummyPrims revealedEmpty 0 3 .ok
    revealedEmpty rfl).1⟩

/-! ### Toolkit: filters, branch positions, lcp, masks -/

theorem get?_of_pre {q l : List Nat} {i : Nat} (h : q <+: l) (hi : i < q.length) :
    l.get? i = q.get? i := by
  obtain ⟨tl, rfl⟩ := h
  exact (List.get?_append hi)

theorem pre_take {q l : List Nat} (h : q <+: l) : l.take q.length = q :=
  (List.prefix_iff_eq_take.mp h).symm

theorem take_pre_take {l : List Nat} {i j : Nat} (h : i ≤ j) :
    l.take i <+: l.take j := by
  have he : l.take i = (l.take j).take i := by
    rw [List.take_take, min_eq_left h]
  rw [he]
  exact takePre i (l.take j)

theorem take_pre_of_pre {q l : List Nat} {i : Nat} (h : q <+: l)
    (hi : q.length ≤ i) : q <+: l.take i := by
  rw [← pre_take h]
  exact take_pre_take hi

theorem pre_of_take_pre {q l : List Nat} {i : Nat} (h : q <+: l.take i) :
    q <+: l := h.trans (takePre i l)

theorem take_ne_of_get_ne {a b : List Nat} {n : Nat} {x y : Nat}
    (hx : a.get? n = some x) (hy : b.get? n = some y) (hne : x ≠ y) :
    ∀ i, n < i → a.take i ≠ b.take i := by
  intro i hi he
  have hxa : (a.take i).get? n = some x := by
    rw [List.get?_take hi]; exact hx
  have hya : (b.take i).get? n = some y := by
    rw [List.get?_take hi]; exact hy
  rw [he, hya] at hxa
  exact hne (by simpa using hxa.symm)

theorem filter_cons_pre {p q : List Nat} {keys : List (List Nat)}
    (h : q <+: p) :
    (p :: keys).filter (fun k => isPre q k) = p :: keys.filter (fun k => isPre q k) := by
  simp [List.filter_cons, isPre_iff.mpr h]

theorem filter_cons_not {p q : List Nat} {keys : List (List Nat)}
    (h : ¬ q <+: p) :
    (p :: keys).filter (fun k => isPre q k) = keys.filter (fun k => isPre q k) := by
  simp [List.filter_cons, isPre_false_iff.mpr h]

theorem filter_eq_nil_pre {q : List Nat} {keys : List (List Nat)}
    (h : ∀ k ∈ keys, ¬ q <+: k) :
    keys.filter (fun k => isPre q k) = [] := by
  rw [List.filter_eq_nil]
  intro k hk
  simpa [isPre_false_iff] using h k hk

theorem filter_eq_singleton {q k0 : List Nat} {keys : List (List Nat)}
    (hmem : k0 ∈ keys) (hnd : keys.Nodup) (hpre : q <+: k0)
    (huniq : ∀ k ∈ keys, q <+: k → k = k0) :
    keys.filter (fun k => isPre q k) = [k0] := by
  induction keys with
  | nil => simp at hmem
  | cons a keys ih =>
    rcases List.mem_cons.mp hmem with rfl | hmem'
    · rw [List.filter_cons, if_pos (by simpa using isPre_iff.mpr hpre)]
      have : keys.filter (fun k => isPre q k) = [] := by
        apply filter_eq_nil_pre
        intro k hk hqk
        have := huniq k (List.mem_cons_of_mem _ hk) hqk
        subst this
        exact (List.nodup_cons.mp hnd).1 hk
      rw [this]
    · rw [List.filter_cons]
      have hna : ¬ q <+: a := by
        intro hqa
        have := huniq a (List.mem_cons_self a keys) hqa
        subst this
        exact (List.nodup_cons.mp hnd).1 hmem'
      rw [if_neg (by simpa using isPre_false_iff.mpr hna)]
      exact ih hmem' (List.nodup_cons.mp hnd).2
        (fun k hk hqk => huniq k (List.mem_cons_of_mem _ hk) hqk)

theorem branchPos_iff {keys : List (List Nat)} {c : List Nat} :
    branchPosB keys c = true ↔
      ∃ k1 ∈ keys, ∃ k2 ∈ keys, c <+: k1 ∧ c <+: k2 ∧
        ∃ a b, k1.get? c.length = some a ∧ k2.get? c.length = some b ∧ a ≠ b := by
  unfold branchPosB
  rw [List.any_eq_true]
  constructor
  · rintro ⟨k1, h1, hh⟩
    rw [List.any_eq_true] at hh
    obtain ⟨k2, h2, hh⟩ := hh
    simp only [Bool.and_eq_true, isPre_iff] at hh
    obtain ⟨⟨hp1, hp2⟩, hm⟩ := hh
    rcases hg1 : k1.get? c.length with _ | a <;> rw [hg1] at hm
    · simp at hm
    · rcases hg2 : k2.get? c.length with _ | b <;> rw [hg2] at hm
      · simp at hm
      · exact ⟨k1, h1, k2, h2, hp1, hp2, a, b, hg1, hg2, by simpa using hm⟩
  · rintro ⟨k1, h1, k2, h2, hp1, hp2, a, b, hg1, hg2, hne⟩
    refine ⟨k1, h1, ?_⟩
    rw [List.any_eq_true]
    refine ⟨k2, h2, ?_⟩
    have hg1' : k1[c.length]? = some a := by
      rw [← List.get?_eq_getElem?]; exact hg1
    have hg2' : k2[c.length]? = some b := by
      rw [← List.get?_eq_getElem?]; exact hg2
    simp [isPre_iff.mpr hp1, isPre_iff.mpr hp2, hg1', hg2', hne]

theorem branchPos_mono {keys : List (List Nat)} {p c : List Nat}
    (h : branchPosB keys c = true) : branchPosB (p :: keys) c = true := by
  rw [branchPos_iff] at h ⊢
  obtain ⟨k1, h1, k2, h2, rest⟩ := h
  exact ⟨k1, List.mem_cons_of_mem _ h1, k2, List.mem_cons_of_mem _ h2, rest⟩

theorem branchPos_cons_iff {keys : List (List Nat)} {p c : List Nat} :
    branchPosB (p :: keys) c = true ↔
      branchPosB keys c = true ∨
      (c <+: p ∧ ∃ k ∈ keys, c <+: k ∧
        ∃ a b, p.get? c.length = some a ∧ k.get? c.length = some b ∧ a ≠ b) := by
  constructor
  · intro h
    rw [branchPos_iff] at h
    obtain ⟨k1, h1, k2, h2, hp1, hp2, a, b, hg1, hg2, hne⟩ := h
    rcases List.mem_cons.mp h1 with rfl | h1' <;> rcases List.mem_cons.mp h2 with rfl | h2'
    · rw [hg1] at hg2
      exact absurd (by simpa using hg2) hne
    · exact Or.inr ⟨hp1, k2, h2', hp2, a, b, hg1, hg2, hne⟩
    · exact Or.inr ⟨hp2, k1, h1', hp1, b, a, hg2, hg1, hne.symm⟩
    · exact Or.inl (branchPos_iff.mpr ⟨k1, h1', k2, h2', hp1, hp2, a, b, hg1, hg2, hne⟩)
  · intro h
    rcases h with h | ⟨hcp, k, hk, hck, a, b, hga, hgb, hne⟩
    · exact branchPos_mono h
    · exact branchPos_iff.mpr ⟨p, List.mem_cons_self _ _, k,
        List.mem_cons_of_mem _ hk, hcp, hck, a, b, hga, hgb, hne⟩

theorem nodePos_iff {keys : List (List Nat)} {p : List Nat} :
    nodePosB keys p = true ↔
      (∃ k ∈ keys, p <+: k) ∧
        (p = [] ∨ branchPosB keys p = true ∨ branchPosB keys p.dropLast = true) := by
  unfold nodePosB
  rw [Bool.and_eq_true, List.any_eq_true]
  constructor
  · rintro ⟨⟨k, hk, hik⟩, hor⟩
    refine ⟨⟨k, hk, isPre_iff.mp hik⟩, ?_⟩
    rcases Bool.or_eq_true_iff.mp hor with hor | h3
    · rcases Bool.or_eq_true_iff.mp hor with h1 | h2
      · exact Or.inl (by simpa using h1)
      · exact Or.inr (Or.inl h2)
    · exact Or.inr (Or.inr h3)
  · rintro ⟨⟨k, hk, hik⟩, hor⟩
    refine ⟨⟨k, hk, isPre_iff.mpr hik⟩, ?_⟩
    rcases hor with h1 | h2 | h3
    · subst h1; simp
    · simp [h2]
    · simp [h3]

theorem lcpFold_pre_acc (ks : List (List Nat)) (acc : List Nat) :
    ks.foldl (fun a k' => a.take (cpl a k')) acc <+: acc := by
  induction ks generalizing acc with
  | nil => exact List.prefix_refl acc
  | cons k ks ih =>
    exact (ih (acc.take (cpl acc k))).trans (takePre _ acc)

theorem lcpFold_pre_mem (ks : List (List Nat)) (acc : List Nat) :
    ∀ k ∈ ks, ks.foldl (fun a k' => a.take (cpl a k')) acc <+: k := by
  induction ks generalizing acc with
  | nil => intro k hk; simp at hk
  | cons k' ks ih =>
    intro k hk
    rcases List.mem_cons.mp hk with rfl | hk'
    · exact (lcpFold_pre_acc ks _).trans (take_cpl_pre_right acc k)
    · exact ih _ k hk'

theorem pre_lcpFold (ks : List (List Nat)) (acc c : List Nat)
    (hacc : c <+: acc) (hall : ∀ k ∈ ks, c <+: k) :
    c <+: ks.foldl (fun a k' => a.take (cpl a k')) acc := by
  induction ks generalizing acc with
  | nil => exact hacc
  | cons k' ks ih =>
    refine ih _ ?_ (fun k hk => hall k (List.mem_cons_of_mem _ hk))
    exact take_pre_of_pre hacc (pre_cpl_le hacc (hall k' (List.mem_cons_self _ _)))

theorem lcpList_pre {S : List (List Nat)} : ∀ k ∈ S, lcpList S <+: k := by
  cases S with
  | nil => intro k hk; simp at hk
  | cons k0 ks =>
    intro k hk
    rcases List.mem_cons.mp hk with rfl | hk'
    · exact lcpFold_pre_acc ks k
    · exact lcpFold_pre_mem ks k0 k hk'

theorem pre_lcpList {S : List (List Nat)} {c : List Nat} (hne : S ≠ [])
    (hall : ∀ k ∈ S, c <+: k) : c <+: lcpList S := by
  cases S with
  | nil => exact absurd rfl hne
  | cons k0 ks =>
    exact pre_lcpFold ks k0 c (hall k0 (List.mem_cons_self _ _))
      (fun k hk => hall k (List.mem_cons_of_mem _ hk))

theorem lcpList_eq {S : List (List Nat)} {c : List Nat} (hne : S ≠ [])
    (hall : ∀ k ∈ S, c <+: k)
    (hmax : ∀ d, (∀ k ∈ S, d <+: k) → d <+: c) : lcpList S = c :=
  pre_antisymm (hmax _ lcpList_pre) (pre_lcpList hne hall)

theorem pairwise_forall_ne {keys : List (List Nat)}
    (h : PrefFree keys) :
    ∀ a ∈ keys, ∀ b ∈ keys, a ≠ b → ¬ a <+: b ∧ ¬ b <+: a := by
  have hsym : Symmetric (fun a b : List Nat => ¬ a <+: b ∧ ¬ b <+: a) := by
    intro a b hab; exact ⟨hab.2, hab.1⟩
  intro a ha b hb hne
  exact List.Pairwise.forall hsym h ha hb hne

theorem PrefFree.ndup {keys : List (List Nat)} (h : PrefFree keys) :
    keys.Nodup := by
  refine h.imp ?_
  intro a b hab he
  exact hab.1 (he ▸ List.prefix_refl a)

theorem lcp_diverge {S : List (List Nat)} (h2 : 2 ≤ S.length)
    (hpf : PrefFree S) :
    ∃ k1 ∈ S, ∃ k2 ∈ S, ∃ a b,
      k1.get? (lcpList S).length = some a ∧
      k2.get? (lcpList S).length = some b ∧ a ≠ b := by
  by_contra hcon
  push_neg at hcon
  have hnone : ∀ k ∈ S, k.get? (lcpList S).length ≠ none := by
    intro k hk hkn
    have hck : lcpList S <+: k := lcpList_pre k hk
    have hlen : k.length ≤ (lcpList S).length := by
      by_contra hlt
      push_neg at hlt
      rw [List.get?_eq_getElem?, List.getElem?_eq_none_iff] at hkn
      omega
    have hkc : k = lcpList S :=
      (hck.eq_of_length (le_antisymm hck.length_le hlen)).symm
    obtain ⟨x, y, rest, hS⟩ : ∃ x y rest, S = x :: y :: rest := by
      cases S with
      | nil => simp at h2
      | cons x s' =>
        cases s' with
        | nil => simp at h2
        | cons y rest => exact ⟨x, y, rest, rfl⟩
    subst hS
    have hxy : x ≠ y := by
      intro he
      have := (List.pairwise_cons.mp hpf).1 y (List.mem_cons_self _ _)
      exact this.1 (he ▸ List.prefix_refl x)
    rcases Classical.em (k = x) with rfl | hkx
    · have hR := pairwise_forall_ne hpf k (List.mem_cons_self _ _) y
        (List.mem_cons_of_mem _ (List.mem_cons_self _ _)) hxy
      exact hR.1 (hkc ▸ lcpList_pre y (List.mem_cons_of_mem _ (List.mem_cons_self _ _)))
    · have hR := pairwise_forall_ne hpf k hk x (List.mem_cons_self _ _) hkx
      exact hR.1 (hkc ▸ lcpList_pre x (List.mem_cons_self _ _))
  obtain ⟨k0, hk0, hne0⟩ : ∃ k0, k0 ∈ S ∧ S ≠ [] := by
    cases S with
    | nil => simp at h2
    | cons x s' => exact ⟨x, List.mem_cons_self _ _, by simp⟩
  obtain ⟨a0, ha0⟩ : ∃ a0, k0.get? (lcpList S).length = some a0 := by
    cases hg : k0.get? (lcpList S).length with
    | none => exact absurd hg (hnone k0 hk0)
    | some a => exact ⟨a, rfl⟩
  have hall : ∀ k ∈ S, lcpList S ++ [a0] <+: k := by
    intro k hk
    obtain ⟨a, ha⟩ : ∃ a, k.get? (lcpList S).length = some a := by
      cases hg : k.get? (lcpList S).length with
      | none => exact absurd hg (hnone k hk)
      | some a => exact ⟨a, rfl⟩
    have := hcon k0 hk0 k hk a0 a ha0 ha
    subst this
    exact pre_get_snoc (lcpList_pre k hk) ha
  have := pre_lcpList hne0 hall
  have hlen := this.length_le
  simp at hlen

theorem foldl_orbit_testBit (P : Nat → Prop) [DecidablePred P]
    (l : List Nat) (m : Nat) (i : Nat) :
    ((l.foldl (fun m j => if P j then m ||| 1 <<< j else m) m).testBit i) =
      (m.testBit i || (l.contains i && decide (P i))) := by
  induction l generalizing m with
  | nil => simp
  | cons j l ih =>
    rw [List.foldl_cons, ih]
    by_cases hj : P j
    · rw [if_pos hj]
      rw [Nat.testBit_or]
      by_cases hij : j = i
      · subst hij
        simp [Nat.testBit_shiftLeft, hj]
      · have : (1 <<< j).testBit i = false := by
          simp [Nat.shiftLeft_eq, Nat.one_mul, Nat.testBit_two_pow, hij]
        have hij' : i ≠ j := fun h => hij h.symm
        simp [this, List.contains_cons, hij']
    · rw [if_neg hj]
      by_cases hij : j = i
      · subst hij
        simp [List.contains_cons, hj]
      · have hij' : i ≠ j := fun h => hij h.symm
        simp [List.contains_cons, hij']

theorem maskOfS_testBit_iff {S : List (List Nat)} {p : List Nat} {i : Nat} :
    (maskOfS S p).testBit i = true ↔
      i < 16 ∧ ∃ k ∈ S, k.get? p.length = some i := by
  unfold maskOfS
  rw [foldl_orbit_testBit (fun j => S.any (fun k => k.get? p.length = some j) = true)]
  simp only [Nat.zero_testBit, Bool.false_or, Bool.and_eq_true, decide_eq_true_eq,
    List.any_eq_true, decide_eq_true_eq]
  constructor
  · rintro ⟨hc, hex⟩
    refine ⟨by simpa [List.mem_range] using hc, hex⟩
  · rintro ⟨hi, hex⟩
    exact ⟨by simpa [List.mem_range] using hi, hex⟩

theorem new_split_branch_testBit {a b i : Nat} :
    (((1 : Nat) <<< a) ||| (1 <<< b)).testBit i = true ↔ (i = a ∨ i = b) := by
  rw [Nat.testBit_or]
  simp [Nat.shiftLeft_eq, Nat.one_mul, Nat.testBit_two_pow]
  constructor
  · rintro (h | h) <;> [exact Or.inl h.symm; exact Or.inr h.symm]
  · rintro (h | h) <;> [exact Or.inl h.symm; exact Or.inr h.symm]

/-! ### Characterisation of the canonical node table -/

theorem mem_filter_pre {keys : List (List Nat)} {q k : List Nat} :
    k ∈ keys.filter (fun k => isPre q k) ↔ k ∈ keys ∧ q <+: k := by
  rw [List.mem_filter]
  simp [isPre_iff]

theorem filter_ne_nil_pre {keys : List (List Nat)} {q : List Nat} :
    keys.filter (fun k => isPre q k) ≠ [] ↔ ∃ k ∈ keys, q <+: k := by
  constructor
  · intro hne
    rcases hl : keys.filter (fun k => isPre q k) with _ | ⟨k, rest⟩
    · exact absurd hl hne
    · have hk : k ∈ keys.filter (fun k => isPre q k) :=
        hl ▸ List.mem_cons_self _ _
      exact ⟨k, (mem_filter_pre.mp hk).1, (mem_filter_pre.mp hk).2⟩
  · rintro ⟨k, hk, hqk⟩ hnil
    have hm : k ∈ keys.filter (fun k => isPre q k) := mem_filter_pre.mpr ⟨hk, hqk⟩
    rw [hnil] at hm
    simp at hm

theorem canonNodes_of_ne {keys : List (List Nat)} (h : keys ≠ []) (p : List Nat) :
    canonNodes keys p =
      if nodePosB keys p then
        some (canonNodeOf (keys.filter (fun k => isPre p k)) p)
      else none := by
  unfold canonNodes
  rw [if_neg (by simpa using h)]

theorem canonNodes_some_iff {keys : List (List Nat)} (h : keys ≠ [])
    {p : List Nat} {n : SparseNode} :
    canonNodes keys p = some n ↔
      nodePosB keys p = true ∧ n = canonNodeOf (keys.filter (fun k => isPre p k)) p := by
  rw [canonNodes_of_ne h]
  split
  · rename_i hp
    constructor
    · intro he
      exact ⟨hp, (Option.some.inj he).symm⟩
    · rintro ⟨_, rfl⟩
      rfl
  · rename_i hp
    constructor
    · intro he
      simp at he
    · rintro ⟨hpos, _⟩
      exact absurd hpos hp

theorem lcpList_filter_pre {keys : List (List Nat)} {q : List Nat}
    (hne : keys.filter (fun k => isPre q k) ≠ []) :
    q <+: lcpList (keys.filter (fun k => isPre q k)) :=
  pre_lcpList hne (fun k hk => (mem_filter_pre.mp hk).2)

theorem canon_no_hash {keys : List (List Nat)} {p : List Nat} {hh : B256} :
    canonNodes keys p ≠ some (.hash hh) := by
  intro h
  unfold canonNodes at h
  split at h
  · split at h <;> simp at h
  · split at h
    · simp only [Option.some.injEq] at h
      unfold canonNodeOf at h
      split at h
      · simp at h
      · simp [SparseNode.new_leaf] at h
      · dsimp only at h
        split at h <;> simp [SparseNode.new_branch, SparseNode.new_ext] at h
    · simp at h

theorem canon_empty_inv {keys : List (List Nat)} {p : List Nat}
    (h : canonNodes keys p = some .empty) : keys = [] ∧ p = [] := by
  unfold canonNodes at h
  split at h
  · rename_i hk
    split at h
    · exact ⟨by simpa using hk, by rename_i hp; simpa using hp⟩
    · simp at h
  · rename_i hk
    split at h
    · rename_i hp
      simp only [Option.some.injEq] at h
      have hex := (nodePos_iff.mp hp).1
      obtain ⟨k, hkm, hkp⟩ := hex
      have hfne : keys.filter (fun k => isPre p k) ≠ [] :=
        filter_ne_nil_pre.mpr ⟨k, hkm, hkp⟩
      unfold canonNodeOf at h
      split at h
      · rename_i hS; exact absurd hS hfne
      · simp [SparseNode.new_leaf] at h
      · dsimp only at h
        split at h <;> simp [SparseNode.new_branch, SparseNode.new_ext] at h
    · simp at h

theorem canon_leaf_inv {keys : List (List Nat)} (hkeys : keys ≠ [])
    {p ckey : List Nat} {hh : Option B256}
    (h : canonNodes keys p = some (.leaf ckey hh)) :
    hh = none ∧ nodePosB keys p = true ∧
      ∃ k0, keys.filter (fun k => isPre p k) = [k0] ∧ ckey = k0.drop p.length := by
  rw [canonNodes_some_iff hkeys] at h
  obtain ⟨hpos, hco⟩ := h
  unfold canonNodeOf at hco
  split at hco
  · simp at hco
  · rename_i k0 hS
    simp only [SparseNode.new_leaf, SparseNode.leaf.injEq] at hco
    exact ⟨hco.2, hpos, k0, hS, hco.1⟩
  · dsimp only at hco
    split at hco <;> simp [SparseNode.new_branch, SparseNode.new_ext] at hco

theorem canon_ext_inv {keys : List (List Nat)} (hkeys : keys ≠ [])
    {p key : List Nat} {hh : Option B256}
    (h : canonNodes keys p = some (.ext key hh)) :
    hh = none ∧ nodePosB keys p = true ∧
      2 ≤ (keys.filter (fun k => isPre p k)).length ∧
      key = (lcpList (keys.filter (fun k => isPre p k))).drop p.length ∧
      (lcpList (keys.filter (fun k => isPre p k))).length ≠ p.length := by
  rw [canonNodes_some_iff hkeys] at h
  obtain ⟨hpos, hco⟩ := h
  unfold canonNodeOf at hco
  split at hco
  · simp at hco
  · simp [SparseNode.new_leaf] at hco
  · rename_i x y S hS
    dsimp only at hco
    split at hco
    · simp [SparseNode.new_branch] at hco
    · rename_i hlen
      simp only [SparseNode.new_ext, SparseNode.ext.injEq] at hco
      exact ⟨hco.2, hpos, by rw [hS]; simp, hco.1, hlen⟩

theorem canon_branch_inv {keys : List (List Nat)} (hkeys : keys ≠ [])
    {p : List Nat} {mask : Nat} {hh : Option B256}
    (h : canonNodes keys p = some (.branch mask hh)) :
    hh = none ∧ nodePosB keys p = true ∧
      2 ≤ (keys.filter (fun k => isPre p k)).length ∧
      mask = maskOfS (keys.filter (fun k => isPre p k)) p ∧
      (lcpList (keys.filter (fun k => isPre p k))).length = p.length := by
  rw [canonNodes_some_iff hkeys] at h
  obtain ⟨hpos, hco⟩ := h
  unfold canonNodeOf at hco
  split at hco
  · simp at hco
  · simp [SparseNode.new_leaf] at hco
  · rename_i x y S hS
    dsimp only at hco
    split at hco
    · rename_i hlen
      simp only [SparseNode.new_branch, SparseNode.branch.injEq] at hco
      exact ⟨hco.2, hpos, by rw [hS]; simp, hco.1, hlen⟩
    · simp [SparseNode.new_ext] at hco

theorem canon_nodePos_some {keys : List (List Nat)} (hkeys : keys ≠ [])
    {p : List Nat} (h : nodePosB keys p = true) :
    canonNodes keys p = some (canonNodeOf (keys.filter (fun k => isPre p k)) p) := by
  rw [canonNodes_of_ne hkeys, if_pos h]

theorem canon_not_nodePos {keys : List (List Nat)} (hkeys : keys ≠ [])
    {p : List Nat} (h : ¬ nodePosB keys p = true) :
    canonNodes keys p = none := by
  rw [canonNodes_of_ne hkeys, if_neg h]

/-! ### Inserting a fresh key: the leaf-split case -/

theorem bool_eq_of_iff {a b : Bool} (h : a = true ↔ b = true) : a = b := by
  cases a <;> cases b <;> simp_all

namespace LeafCtx

variable {keys : List (List Nat)} {p current k0 : List Nat} {a b : Nat}

theorem k0_mem (ctx : LeafCtx keys p current k0 a b) : k0 ∈ keys := by
  have : k0 ∈ keys.filter (fun k => isPre current k) := by
    rw [ctx.hS]; exact List.mem_cons_self _ _
  exact (mem_filter_pre.mp this).1

theorem ck0 (ctx : LeafCtx keys p current k0 a b) : current <+: k0 := by
  have : k0 ∈ keys.filter (fun k => isPre current k) := by
    rw [ctx.hS]; exact List.mem_cons_self _ _
  exact (mem_filter_pre.mp this).2

theorem uniq (ctx : LeafCtx keys p current k0 a b) :
    ∀ k ∈ keys, current <+: k → k = k0 := by
  intro k hk hck
  have : k ∈ keys.filter (fun k => isPre current k) := mem_filter_pre.mpr ⟨hk, hck⟩
  rw [ctx.hS] at this
  simpa using this

theorem d_lt_k0 (ctx : LeafCtx keys p current k0 a b) : cpl k0 p < k0.length := by
  have := ctx.ha
  rw [List.get?_eq_getElem?] at this
  exact List.getElem?_eq_some_iff.mp this |>.1

theorem d_lt_p (ctx : LeafCtx keys p current k0 a b) : cpl k0 p < p.length := by
  have := ctx.hb
  rw [List.get?_eq_getElem?] at this
  exact List.getElem?_eq_some_iff.mp this |>.1

theorem ab_ne (ctx : LeafCtx keys p current k0 a b) : a ≠ b :=
  get_cpl_ne ctx.ha ctx.hb

theorem cur_le_d (ctx : LeafCtx keys p current k0 a b) :
    current.length ≤ cpl k0 p :=
  pre_cpl_le ctx.ck0 ctx.hcp

theorem a_lt (ctx : LeafCtx keys p current k0 a b) : a < 16 :=
  ctx.hnib k0 ctx.k0_mem a (List.get?_mem ctx.ha)

theorem b_lt (ctx : LeafCtx keys p current k0 a b) : b < 16 :=
  ctx.hnp b (List.get?_mem ctx.hb)

theorem t_eq (ctx : LeafCtx keys p current k0 a b) :
    k0.take (cpl k0 p) = p.take (cpl k0 p) :=
  take_cpl_eq k0 p

theorem ndup_l (ctx : LeafCtx keys p current k0 a b) : keys.Nodup :=
  ctx.hpf.ndup

theorem p_not_mem (ctx : LeafCtx keys p current k0 a b) : p ∉ keys := by
  intro hp
  exact (ctx.hfresh p hp).1 (List.prefix_refl p)

/-- No new branch position arises strictly away from the divergence point
`p.take (cpl k0 p)`. -/
theorem nodiv (ctx : LeafCtx keys p current k0 a b) :
    ∀ c, c <+: p → c ≠ p.take (cpl k0 p) →
      branchPosB (p :: keys) c = branchPosB keys c := by
  intro c hcpre hcne
  apply bool_eq_of_iff
  rw [branchPos_cons_iff]
  constructor
  · rintro (h | ⟨hcp', k, hk, hck, x, y, hgx, hgy, hxy⟩)
    · exact h
    · rcases Nat.lt_or_ge c.length current.length with hlt | hge
      · obtain ⟨k', hk', hk'pre⟩ := ctx.hInv c.length hlt
        have hclp : c.length < p.length := by
          have := ctx.hcp.length_le
          omega
        have hck' : c <+: k' :=
          (take_pre_of_pre hcpre (Nat.le_succ _)).trans hk'pre
        have hgk' : k'.get? c.length = some x := by
          rw [get?_of_pre hk'pre (by simp [List.length_take]; omega)]
          rw [List.get?_take (Nat.lt_succ_self _)]
          exact hgx
        exact branchPos_iff.mpr ⟨k, hk, k', hk', hck, hck', y, x, hgy, hgk', hxy.symm⟩
      · have hcc : current <+: c :=
          List.prefix_of_prefix_length_le ctx.hcp hcpre hge
        have hkk0 : k = k0 := ctx.uniq k hk (hcc.trans hck)
        rw [hkk0] at hck hgy
        rcases Nat.lt_trichotomy c.length (cpl k0 p) with hlt | heq | hgt
        · have heq1 : k0.get? c.length = p.get? c.length := by
            have h1 : (k0.take (cpl k0 p)).get? c.length = k0.get? c.length :=
              List.get?_take hlt
            have h2 : (p.take (cpl k0 p)).get? c.length = p.get? c.length :=
              List.get?_take hlt
            rw [← h1, ← h2, ctx.t_eq]
          rw [heq1, hgx] at hgy
          exact absurd (by simpa using hgy) hxy
        · exact absurd (by
            rw [← heq]
            exact List.prefix_iff_eq_take.mp hcpre) hcne
        · have hdp : cpl k0 p < p.length := ctx.d_lt_p
          have hpc : p.take (cpl k0 p + 1) <+: c := by
            have hc : c = p.take c.length := List.prefix_iff_eq_take.mp hcpre
            rw [hc]
            exact take_pre_take (by omega)
          have hpk0 : p.take (cpl k0 p + 1) <+: k0 := hpc.trans hck
          have hgp : k0.get? (cpl k0 p) = p.get? (cpl k0 p) := by
            rw [get?_of_pre hpk0 (by simp [List.length_take]; omega)]
            rw [List.get?_take (Nat.lt_succ_self _)]
          rw [ctx.ha, ctx.hb] at hgp
          exact absurd (by simpa using hgp) ctx.ab_ne
  · intro h
    exact Or.inl h

end LeafCtx

theorem length_take_of_le {l : List Nat} {i : Nat} (h : i ≤ l.length) :
    (l.take i).length = i := by
  simp [List.length_take]
  omega

theorem dropLast_take {l : List Nat} {n : Nat} (h : n < l.length) :
    (l.take (n + 1)).dropLast = l.take n := by
  rw [List.dropLast_eq_take, length_take_of_le (by omega)]
  simp [List.take_take]

theorem take_succ_get {p : List Nat} {n : Nat} {x : Nat}
    (h : p.get? n = some x) : p.take (n + 1) = p.take n ++ [x] := by
  rw [List.take_succ]
  rw [List.get?_eq_getElem?] at h
  rw [h]
  rfl

theorem no_branchPos_of_singleton {keys : List (List Nat)} {q k0 : List Nat}
    (h : keys.filter (fun k => isPre q k) = [k0]) :
    branchPosB keys q = false := by
  by_contra hb
  rw [Bool.not_eq_false] at hb
  obtain ⟨k1, h1, k2, h2, hp1, hp2, x, y, hg1, hg2, hxy⟩ := branchPos_iff.mp hb
  have hk1 : k1 = k0 := by
    have : k1 ∈ keys.filter (fun k => isPre q k) := mem_filter_pre.mpr ⟨h1, hp1⟩
    rw [h] at this; simpa using this
  have hk2 : k2 = k0 := by
    have : k2 ∈ keys.filter (fun k => isPre q k) := mem_filter_pre.mpr ⟨h2, hp2⟩
    rw [h] at this; simpa using this
  subst hk1; subst hk2
  rw [hg1] at hg2
  have hxy2 : x = y := by simpa using hg2
  exact hxy hxy2

theorem branchPos_false_of_no_keys {keys : List (List Nat)} {q : List Nat}
    (h : ∀ k ∈ keys, ¬ q <+: k) : branchPosB keys q = false := by
  by_contra hb
  rw [Bool.not_eq_false] at hb
  obtain ⟨k1, h1, _, _, hp1, _⟩ := branchPos_iff.mp hb
  exact h k1 h1 hp1

theorem branchPos_cons_not_pre {keys : List (List Nat)} {p c : List Nat}
    (h : ¬ c <+: p) : branchPosB (p :: keys) c = branchPosB keys c := by
  apply bool_eq_of_iff
  rw [branchPos_cons_iff]
  constructor
  · rintro (hb | ⟨hcp, _⟩)
    · exact hb
    · exact absurd hcp h
  · exact Or.inl

namespace LeafCtx

variable {keys : List (List Nat)} {p current k0 : List Nat} {a b : Nat}

theorem cur_pre_t (ctx : LeafCtx keys p current k0 a b) :
    current <+: p.take (cpl k0 p) :=
  take_pre_of_pre ctx.hcp ctx.cur_le_d

theorem t_pre_k0 (ctx : LeafCtx keys p current k0 a b) :
    p.take (cpl k0 p) <+: k0 := by
  rw [← ctx.t_eq]
  exact takePre _ k0

theorem filter_between (ctx : LeafCtx keys p current k0 a b) {q : List Nat}
    (h1 : current <+: q) (h2 : q <+: k0) :
    keys.filter (fun k => isPre q k) = [k0] :=
  filter_eq_singleton ctx.k0_mem ctx.ndup_l h2
    (fun k hk hqk => ctx.uniq k hk (h1.trans hqk))

theorem filter_deep_nil (ctx : LeafCtx keys p current k0 a b) {q : List Nat}
    (h1 : current <+: q) (h2 : ¬ q <+: k0) :
    keys.filter (fun k => isPre q k) = [] := by
  apply filter_eq_nil_pre
  intro k hk hqk
  rw [ctx.uniq k hk (h1.trans hqk)] at hqk
  exact h2 hqk

theorem qp_eq (ctx : LeafCtx keys p current k0 a b) :
    p.take (cpl k0 p + 1) = p.take (cpl k0 p) ++ [b] :=
  take_succ_get ctx.hb

theorem qk_eq (ctx : LeafCtx keys p current k0 a b) :
    k0.take (cpl k0 p + 1) = p.take (cpl k0 p) ++ [a] := by
  rw [take_succ_get ctx.ha, ctx.t_eq]

theorem lcp_pair (ctx : LeafCtx keys p current k0 a b) :
    lcpList [p, k0] = p.take (cpl k0 p) := by
  show [k0].foldl (fun a k' => a.take (cpl a k')) p = p.take (cpl k0 p)
  rw [List.foldl_cons, List.foldl_nil, cpl_comm]

theorem branchPos_t (ctx : LeafCtx keys p current k0 a b) :
    branchPosB (p :: keys) (p.take (cpl k0 p)) = true := by
  apply branchPos_iff.mpr
  have hlt : (p.take (cpl k0 p)).length = cpl k0 p :=
    length_take_of_le (le_of_lt ctx.d_lt_p)
  refine ⟨p, List.mem_cons_self _ _, k0, List.mem_cons_of_mem _ ctx.k0_mem,
    takePre _ p, ctx.t_pre_k0, b, a, ?_, ?_, (ctx.ab_ne).symm⟩
  · rw [hlt]; exact ctx.hb
  · rw [hlt]; exact ctx.ha

theorem qk_not_pre_p (ctx : LeafCtx keys p current k0 a b) :
    ¬ k0.take (cpl k0 p + 1) <+: p := by
  intro hc
  have hlen : (k0.take (cpl k0 p + 1)).length = cpl k0 p + 1 :=
    length_take_of_le ctx.d_lt_k0
  have hg : p.get? (cpl k0 p) = (k0.take (cpl k0 p + 1)).get? (cpl k0 p) :=
    get?_of_pre hc (by omega)
  rw [List.get?_take (Nat.lt_succ_self _)] at hg
  rw [ctx.ha, ctx.hb] at hg
  have hba : b = a := by simpa using hg
  exact ctx.ab_ne hba.symm

theorem cur_pre_qk (ctx : LeafCtx keys p current k0 a b) :
    current <+: k0.take (cpl k0 p + 1) :=
  take_pre_of_pre ctx.ck0 (Nat.le_succ_of_le ctx.cur_le_d)

theorem cur_pre_qp (ctx : LeafCtx keys p current k0 a b) :
    current <+: p.take (cpl k0 p + 1) :=
  take_pre_of_pre ctx.hcp (Nat.le_succ_of_le ctx.cur_le_d)

theorem qp_not_pre_k0 (ctx : LeafCtx keys p current k0 a b) :
    ¬ p.take (cpl k0 p + 1) <+: k0 := by
  intro hc
  have hlen : (p.take (cpl k0 p + 1)).length = cpl k0 p + 1 :=
    length_take_of_le ctx.d_lt_p
  have hg : k0.get? (cpl k0 p) = (p.take (cpl k0 p + 1)).get? (cpl k0 p) :=
    get?_of_pre hc (by omega)
  rw [List.get?_take (Nat.lt_succ_self _)] at hg
  rw [ctx.ha, ctx.hb] at hg
  exact ctx.ab_ne (by simpa using hg)

end LeafCtx

namespace LeafCtx

variable {keys : List (List Nat)} {p current k0 : List Nat} {a b : Nat}

theorem case_qk (ctx : LeafCtx keys p current k0 a b) :
    canonNodes (p :: keys) (k0.take (cpl k0 p + 1)) =
      some (.leaf (k0.drop (cpl k0 p + 1)) none) := by
  have hne : (p :: keys) ≠ ([] : List (List Nat)) := by simp
  have hfil : (p :: keys).filter (fun k => isPre (k0.take (cpl k0 p + 1)) k) = [k0] := by
    rw [filter_cons_not ctx.qk_not_pre_p,
      ctx.filter_between ctx.cur_pre_qk (takePre _ k0)]
  have hpos : nodePosB (p :: keys) (k0.take (cpl k0 p + 1)) = true := by
    rw [nodePos_iff]
    refine ⟨⟨k0, List.mem_cons_of_mem _ ctx.k0_mem, takePre _ k0⟩,
      Or.inr (Or.inr ?_)⟩
    rw [dropLast_take ctx.d_lt_k0, ctx.t_eq]
    exact ctx.branchPos_t
  rw [canon_nodePos_some hne hpos, hfil]
  unfold canonNodeOf
  rw [length_take_of_le ctx.d_lt_k0]
  rfl

theorem case_qp (ctx : LeafCtx keys p current k0 a b) :
    canonNodes (p :: keys) (p.take (cpl k0 p + 1)) =
      some (.leaf (p.drop (cpl k0 p + 1)) none) := by
  have hne : (p :: keys) ≠ ([] : List (List Nat)) := by simp
  have hfil : (p :: keys).filter (fun k => isPre (p.take (cpl k0 p + 1)) k) = [p] := by
    rw [filter_cons_pre (takePre _ p),
      ctx.filter_deep_nil ctx.cur_pre_qp ctx.qp_not_pre_k0]
  have hpos : nodePosB (p :: keys) (p.take (cpl k0 p + 1)) = true := by
    rw [nodePos_iff]
    refine ⟨⟨p, List.mem_cons_self _ _, takePre _ p⟩, Or.inr (Or.inr ?_)⟩
    rw [dropLast_take ctx.d_lt_p]
    exact ctx.branchPos_t
  rw [canon_nodePos_some hne hpos, hfil]
  unfold canonNodeOf
  rw [length_take_of_le ctx.d_lt_p]
  rfl

theorem mask_pair (ctx : LeafCtx keys p current k0 a b) :
    maskOfS [p, k0] (p.take (cpl k0 p)) = (1 <<< a) ||| (1 <<< b) := by
  apply Nat.eq_of_testBit_eq
  intro i
  apply bool_eq_of_iff
  rw [maskOfS_testBit_iff, new_split_branch_testBit]
  have hlt : (p.take (cpl k0 p)).length = cpl k0 p :=
    length_take_of_le (le_of_lt ctx.d_lt_p)
  constructor
  · rintro ⟨hi, k, hk, hg⟩
    rw [hlt] at hg
    rcases List.mem_cons.mp hk with rfl | hk'
    · rw [ctx.hb] at hg
      exact Or.inr (by simpa using hg.symm)
    · have : k = k0 := by simpa using hk'
      subst this
      rw [ctx.ha] at hg
      exact Or.inl (by simpa using hg.symm)
  · rintro (rfl | rfl)
    · exact ⟨ctx.a_lt, k0, by simp, by rw [hlt]; exact ctx.ha⟩
    · exact ⟨ctx.b_lt, p, by simp, by rw [hlt]; exact ctx.hb⟩

theorem case_t (ctx : LeafCtx keys p current k0 a b) :
    canonNodes (p :: keys) (p.take (cpl k0 p)) =
      some (.branch ((1 <<< a) ||| (1 <<< b)) none) := by
  have hne : (p :: keys) ≠ ([] : List (List Nat)) := by simp
  have hfil : (p :: keys).filter (fun k => isPre (p.take (cpl k0 p)) k) = [p, k0] := by
    rw [filter_cons_pre (takePre _ p),
      ctx.filter_between ctx.cur_pre_t ctx.t_pre_k0]
  have hpos : nodePosB (p :: keys) (p.take (cpl k0 p)) = true := by
    rw [nodePos_iff]
    exact ⟨⟨p, List.mem_cons_self _ _, takePre _ p⟩,
      Or.inr (Or.inl ctx.branchPos_t)⟩
  rw [canon_nodePos_some hne hpos, hfil]
  unfold canonNodeOf
  dsimp only
  rw [ctx.lcp_pair, if_pos rfl, ctx.mask_pair]
  rfl

theorem case_current (ctx : LeafCtx keys p current k0 a b)
    (hnec : current ≠ p.take (cpl k0 p)) :
    canonNodes (p :: keys) current =
      some (.ext ((p.take (cpl k0 p)).drop current.length) none) := by
  have hne : (p :: keys) ≠ ([] : List (List Nat)) := by simp
  have hcd : current.length < cpl k0 p := by
    rcases lt_or_eq_of_le ctx.cur_le_d with h | h
    · exact h
    · exfalso
      apply hnec
      have := List.prefix_iff_eq_take.mp ctx.hcp
      rw [this, h]
  have hfil : (p :: keys).filter (fun k => isPre current k) = [p, k0] := by
    rw [filter_cons_pre ctx.hcp, ctx.hS]
  have hpos : nodePosB (p :: keys) current = true := by
    rw [nodePos_iff]
    refine ⟨⟨p, List.mem_cons_self _ _, ctx.hcp⟩, ?_⟩
    rcases (nodePos_iff.mp ctx.hpos).2 with h | h | h
    · exact Or.inl h
    · rw [no_branchPos_of_singleton ctx.hS] at h
      exact absurd h (by simp)
    · exact Or.inr (Or.inr (branchPos_mono h))
  rw [canon_nodePos_some hne hpos, hfil]
  unfold canonNodeOf
  dsimp only
  rw [ctx.lcp_pair]
  rw [if_neg (by rw [length_take_of_le (le_of_lt ctx.d_lt_p)]; omega)]
  rfl

end LeafCtx

theorem get_snoc (t : List Nat) (x : Nat) : (t ++ [x]).get? t.length = some x := by
  rw [List.get?_eq_getElem?, List.getElem?_append_right (le_refl _)]
  simp

theorem two_mem_le_length {S : List (List Nat)} {k1 k2 : List Nat}
    (h1 : k1 ∈ S) (h2 : k2 ∈ S) (hne : k1 ≠ k2) : 2 ≤ S.length := by
  rcases S with _ | ⟨x, _ | ⟨y, rest⟩⟩
  · simp at h1
  · simp at h1 h2
    exact absurd (h1.trans h2.symm) hne
  · simp

theorem lcpList_cons_eq {Sold : List (List Nat)} {p : List Nat}
    (hne : Sold ≠ []) (hlcp_p : lcpList Sold <+: p) :
    lcpList (p :: Sold) = lcpList Sold := by
  apply lcpList_eq (by simp)
  · intro k hk
    rcases List.mem_cons.mp hk with rfl | hk'
    · exact hlcp_p
    · exact lcpList_pre k hk'
  · intro d hd
    exact pre_lcpList hne (fun k hk => hd k (List.mem_cons_of_mem _ hk))

theorem maskOfS_cons_eq {Sold : List (List Nat)} {p q : List Nat}
    (hmask : ∀ i, p.get? q.length = some i → ∃ k ∈ Sold, k.get? q.length = some i) :
    maskOfS (p :: Sold) q = maskOfS Sold q := by
  apply Nat.eq_of_testBit_eq
  intro i
  apply bool_eq_of_iff
  rw [maskOfS_testBit_iff, maskOfS_testBit_iff]
  constructor
  · rintro ⟨hi, k, hk, hg⟩
    rcases List.mem_cons.mp hk with rfl | hk'
    · exact ⟨hi, hmask i hg⟩
    · exact ⟨hi, k, hk', hg⟩
  · rintro ⟨hi, k, hk, hg⟩
    exact ⟨hi, k, List.mem_cons_of_mem _ hk, hg⟩

theorem canonNodeOf_cons_eq {Sold : List (List Nat)} {p q : List Nat}
    (h2 : 2 ≤ Sold.length)
    (hlcp_p : lcpList Sold <+: p)
    (hmask : ∀ i, p.get? q.length = some i → ∃ k ∈ Sold, k.get? q.length = some i) :
    canonNodeOf (p :: Sold) q = canonNodeOf Sold q := by
  rcases Sold with _ | ⟨s1, _ | ⟨s2, rest⟩⟩
  · simp at h2
  · simp at h2
  · have hL : lcpList (p :: s1 :: s2 :: rest) = lcpList (s1 :: s2 :: rest) :=
      lcpList_cons_eq (by simp) hlcp_p
    show canonNodeOf (p :: s1 :: s2 :: rest) q = canonNodeOf (s1 :: s2 :: rest) q
    unfold canonNodeOf
    dsimp only
    rw [hL, maskOfS_cons_eq hmask]

theorem dropLastPre (l : List Nat) : l.dropLast <+: l := List.dropLast_prefix l

theorem canon_cons_eq_of_same {keys : List (List Nat)} {p q : List Nat}
    (hkeys : keys ≠ []) (hqp : ¬ q <+: p)
    (hbdl : branchPosB (p :: keys) q.dropLast = branchPosB keys q.dropLast) :
    canonNodes (p :: keys) q = canonNodes keys q := by
  have hne : (p :: keys) ≠ ([] : List (List Nat)) := by simp
  have hfil : (p :: keys).filter (fun k => isPre q k) =
      keys.filter (fun k => isPre q k) := filter_cons_not hqp
  have hbq : branchPosB (p :: keys) q = branchPosB keys q :=
    branchPos_cons_not_pre hqp
  have hexeq : (∃ k ∈ p :: keys, q <+: k) ↔ (∃ k ∈ keys, q <+: k) := by
    constructor
    · rintro ⟨k, hk, hqk⟩
      rcases List.mem_cons.mp hk with rfl | hk'
      · exact absurd hqk hqp
      · exact ⟨k, hk', hqk⟩
    · rintro ⟨k, hk, hqk⟩
      exact ⟨k, List.mem_cons_of_mem _ hk, hqk⟩
  have hnpos : nodePosB (p :: keys) q = nodePosB keys q := by
    apply bool_eq_of_iff
    rw [nodePos_iff, nodePos_iff, hexeq, hbq, hbdl]
  by_cases hnp : nodePosB keys q = true
  · rw [canon_nodePos_some hne (by rw [hnpos]; exact hnp),
      canon_nodePos_some hkeys hnp, hfil]
  · rw [canon_not_nodePos hne (by rw [hnpos]; exact hnp),
      canon_not_nodePos hkeys hnp]

namespace LeafCtx

variable {keys : List (List Nat)} {p current k0 : List Nat} {a b : Nat}

theorem take_agree (ctx : LeafCtx keys p current k0 a b) {i : Nat}
    (h : i ≤ cpl k0 p) : p.take i = k0.take i := by
  calc p.take i = (p.take (cpl k0 p)).take i := by
        rw [List.take_take, min_eq_left h]
    _ = (k0.take (cpl k0 p)).take i := by rw [ctx.t_eq]
    _ = k0.take i := by rw [List.take_take, min_eq_left h]

theorem case_other (ctx : LeafCtx keys p current k0 a b) (q : List Nat)
    (h1 : q ≠ k0.take (cpl k0 p + 1)) (h2 : q ≠ p.take (cpl k0 p + 1))
    (h3 : q ≠ p.take (cpl k0 p)) (h4 : q ≠ current) :
    canonNodes (p :: keys) q = canonNodes keys q := by
  have hne : (p :: keys) ≠ ([] : List (List Nat)) := by simp
  have hdp := ctx.d_lt_p
  have hcld := ctx.cur_le_d
  by_cases hqp : q <+: p
  · have hq_take : q = p.take q.length := List.prefix_iff_eq_take.mp hqp
    have hqlen : q.length ≤ p.length := hqp.length_le
    by_cases hql : q.length ≤ current.length
    · -- q is a strict prefix of the cursor
      have hqlt : q.length < current.length := by
        rcases lt_or_eq_of_le hql with h | h
        · exact h
        · exfalso
          apply h4
          rw [hq_take, h, ← List.prefix_iff_eq_take.mp ctx.hcp]
      have hcur_nil : current ≠ [] := by
        intro h
        rw [h] at hqlt
        simp at hqlt
      have hbq := ctx.nodiv q hqp h3
      have hdl_pre : q.dropLast <+: p := (dropLastPre q).trans hqp
      have hdl_ne : q.dropLast ≠ p.take (cpl k0 p) := by
        intro he
        have hlen := congrArg List.length he
        rw [List.length_dropLast, length_take_of_le (le_of_lt hdp)] at hlen
        omega
      have hbdl := ctx.nodiv q.dropLast hdl_pre hdl_ne
      have hbdc : branchPosB keys current.dropLast = true := by
        rcases (nodePos_iff.mp ctx.hpos).2 with h | h | h
        · exact absurd h hcur_nil
        · rw [no_branchPos_of_singleton ctx.hS] at h
          exact absurd h (by simp)
        · exact h
      obtain ⟨k1, hk1, k2, hk2, hp1, hp2, x, y, hg1, hg2, hxy⟩ :=
        branchPos_iff.mp hbdc
      have hq_dl : q <+: current.dropLast := by
        refine List.prefix_of_prefix_length_le hqp
          ((dropLastPre current).trans ctx.hcp) ?_
        rw [List.length_dropLast]
        omega
      have hk1q : q <+: k1 := hq_dl.trans hp1
      have hk2q : q <+: k2 := hq_dl.trans hp2
      have hk12 : k1 ≠ k2 := by
        intro he
        rw [he, hg2] at hg1
        have hyx : y = x := by simpa using hg1
        exact hxy hyx.symm
      have hnpos_eq : nodePosB (p :: keys) q = nodePosB keys q := by
        apply bool_eq_of_iff
        rw [nodePos_iff, nodePos_iff, hbq, hbdl]
        constructor
        · rintro ⟨_, hd⟩
          exact ⟨⟨k1, hk1, hk1q⟩, hd⟩
        · rintro ⟨_, hd⟩
          exact ⟨⟨k1, List.mem_cons_of_mem _ hk1, hk1q⟩, hd⟩
      by_cases hnp : nodePosB keys q = true
      · rw [canon_nodePos_some hne (by rw [hnpos_eq]; exact hnp),
          canon_nodePos_some ctx.hkeys hnp, filter_cons_pre hqp]
        refine congrArg some (canonNodeOf_cons_eq ?_ ?_ ?_)
        · exact two_mem_le_length (mem_filter_pre.mpr ⟨hk1, hk1q⟩)
            (mem_filter_pre.mpr ⟨hk2, hk2q⟩) hk12
        · have hm1 : k1 ∈ keys.filter (fun k => isPre q k) :=
            mem_filter_pre.mpr ⟨hk1, hk1q⟩
          have hm2 : k2 ∈ keys.filter (fun k => isPre q k) :=
            mem_filter_pre.mpr ⟨hk2, hk2q⟩
          have hlcp1 := lcpList_pre k1 hm1
          have hlcp2 := lcpList_pre k2 hm2
          have hlen_le : (lcpList (keys.filter (fun k => isPre q k))).length ≤
              current.dropLast.length := by
            by_contra hlt
            push_neg at hlt
            have e1 : k1.get? current.dropLast.length =
                (lcpList (keys.filter (fun k => isPre q k))).get? current.dropLast.length :=
              get?_of_pre hlcp1 hlt
            have e2 : k2.get? current.dropLast.length =
                (lcpList (keys.filter (fun k => isPre q k))).get? current.dropLast.length :=
              get?_of_pre hlcp2 hlt
            rw [hg1] at e1
            rw [hg2] at e2
            rw [← e1] at e2
            have hyx : y = x := by simpa using e2
            exact hxy hyx.symm
          have hlcp_cd : lcpList (keys.filter (fun k => isPre q k)) <+: current.dropLast :=
            List.prefix_of_prefix_length_le hlcp1 hp1 hlen_le
          exact hlcp_cd.trans ((dropLastPre current).trans ctx.hcp)
        · intro i hg
          obtain ⟨k', hk', hk'pre⟩ := ctx.hInv q.length (by omega)
          refine ⟨k', mem_filter_pre.mpr
            ⟨hk', (take_pre_of_pre hqp (Nat.le_succ _)).trans hk'pre⟩, ?_⟩
          rw [get?_of_pre hk'pre
            (by rw [length_take_of_le (by omega)]; omega)]
          rw [List.get?_take (Nat.lt_succ_self _)]
          exact hg
      · rw [canon_not_nodePos hne (by rw [hnpos_eq]; exact hnp),
          canon_not_nodePos ctx.hkeys hnp]
    · push_neg at hql
      have hcq : current <+: q :=
        List.prefix_of_prefix_length_le ctx.hcp hqp (le_of_lt hql)
      have hq_nil : q ≠ [] := by
        intro h
        rw [h] at hql
        simp at hql
      by_cases hqd : q.length ≤ cpl k0 p
      · -- between the cursor and the divergence point: no node on either side
        have hqd_lt : q.length < cpl k0 p := by
          rcases lt_or_eq_of_le hqd with h | h
          · exact h
          · exact absurd (by rw [hq_take, h]) h3
        have hqk0 : q <+: k0 := by
          rw [hq_take, ctx.take_agree (le_of_lt hqd_lt)]
          exact takePre _ k0
        have hfil_q : keys.filter (fun k => isPre q k) = [k0] :=
          ctx.filter_between hcq hqk0
        have hbq_old : branchPosB keys q = false := no_branchPos_of_singleton hfil_q
        have hdl_pre_cur : current <+: q.dropLast := by
          refine List.prefix_of_prefix_length_le ctx.hcp
            ((dropLastPre q).trans hqp) ?_
          rw [List.length_dropLast]
          omega
        have hdl_eq : q.dropLast = p.take (q.length - 1) := by
          have he1 : q.dropLast = (p.take ((q.length - 1) + 1)).dropLast := by
            rw [show (q.length - 1) + 1 = q.length by omega, ← hq_take]
          rw [he1, dropLast_take (by omega)]
        have hdlk0 : q.dropLast <+: k0 := by
          rw [hdl_eq, ctx.take_agree (by omega)]
          exact takePre _ k0
        have hfil_dl : keys.filter (fun k => isPre q.dropLast k) = [k0] :=
          ctx.filter_between hdl_pre_cur hdlk0
        have hbdl_old : branchPosB keys q.dropLast = false :=
          no_branchPos_of_singleton hfil_dl
        have hdl_ne_t : q.dropLast ≠ p.take (cpl k0 p) := by
          intro he
          have hlen := congrArg List.length he
          rw [List.length_dropLast, length_take_of_le (le_of_lt hdp)] at hlen
          omega
        have hnpos_old : ¬ nodePosB keys q = true := by
          intro h
          rcases (nodePos_iff.mp h).2 with h' | h' | h'
          · exact hq_nil h'
          · rw [hbq_old] at h'
            exact absurd h' (by simp)
          · rw [hbdl_old] at h'
            exact absurd h' (by simp)
        have hnpos_new : ¬ nodePosB (p :: keys) q = true := by
          intro h
          rcases (nodePos_iff.mp h).2 with h' | h' | h'
          · exact hq_nil h'
          · rw [ctx.nodiv q hqp h3, hbq_old] at h'
            exact absurd h' (by simp)
          · rw [ctx.nodiv q.dropLast ((dropLastPre q).trans hqp) hdl_ne_t,
              hbdl_old] at h'
            exact absurd h' (by simp)
        rw [canon_not_nodePos hne hnpos_new, canon_not_nodePos ctx.hkeys hnpos_old]
      · -- strictly below the new leaf position: no node on either side
        push_neg at hqd
        have hq_len2 : cpl k0 p + 2 ≤ q.length := by
          by_contra hlt
          push_neg at hlt
          apply h2
          rw [hq_take]
          congr 1
          omega
        have hqp1 : p.take (cpl k0 p + 1) <+: q := by
          rw [hq_take]
          exact take_pre_take (by omega)
        have hdl_eq : q.dropLast = p.take (q.length - 1) := by
          have he1 : q.dropLast = (p.take ((q.length - 1) + 1)).dropLast := by
            rw [show (q.length - 1) + 1 = q.length by omega, ← hq_take]
          rw [he1, dropLast_take (by omega)]
        have hnok : ∀ k ∈ keys, ¬ q <+: k := by
          intro k hk hqk
          rw [ctx.uniq k hk (hcq.trans hqk)] at hqk
          exact ctx.qp_not_pre_k0 (hqp1.trans hqk)
        have hdl_cur : current <+: q.dropLast := by
          refine List.prefix_of_prefix_length_le ctx.hcp
            ((dropLastPre q).trans hqp) ?_
          rw [List.length_dropLast]
          omega
        have hnok_dl : ∀ k ∈ keys, ¬ q.dropLast <+: k := by
          intro k hk hqk
          have hqp1' : p.take (cpl k0 p + 1) <+: q.dropLast := by
            rw [hdl_eq]
            exact take_pre_take (by omega)
          rw [ctx.uniq k hk (hdl_cur.trans hqk)] at hqk
          exact ctx.qp_not_pre_k0 (hqp1'.trans hqk)
        have hnpos_old : ¬ nodePosB keys q = true := by
          intro h
          obtain ⟨⟨k, hk, hqk⟩, _⟩ := nodePos_iff.mp h
          exact hnok k hk hqk
        have hdl_ne_t : q.dropLast ≠ p.take (cpl k0 p) := by
          intro he
          have hlen := congrArg List.length he
          rw [List.length_dropLast, length_take_of_le (le_of_lt hdp)] at hlen
          omega
        have hnpos_new : ¬ nodePosB (p :: keys) q = true := by
          intro h
          rcases (nodePos_iff.mp h).2 with h' | h' | h'
          · exact hq_nil h'
          · rw [ctx.nodiv q hqp h3, branchPos_false_of_no_keys hnok] at h'
            exact absurd h' (by simp)
          · rw [ctx.nodiv q.dropLast ((dropLastPre q).trans hqp) hdl_ne_t,
              branchPos_false_of_no_keys hnok_dl] at h'
            exact absurd h' (by simp)
        rw [canon_not_nodePos hne hnpos_new, canon_not_nodePos ctx.hkeys hnpos_old]
  · -- q is not a prefix of p
    have hq_nil : q ≠ [] := fun h => hqp (h ▸ nilPre p)
    by_cases hdl : q.dropLast <+: p
    · by_cases hdlt : q.dropLast = p.take (cpl k0 p)
      · -- q is a sibling slot of the new split branch: no node on either side
        have hqd : q = p.take (cpl k0 p) ++ [q.getLast hq_nil] := by
          conv_lhs => rw [← List.dropLast_append_getLast hq_nil]
          rw [hdlt]
        have hxa : q.getLast hq_nil ≠ a := by
          intro hxeq
          apply h1
          rw [hqd, hxeq, ← ctx.qk_eq]
        have htq : p.take (cpl k0 p) <+: q := by
          rw [hqd]
          exact ⟨[q.getLast hq_nil], rfl⟩
        have hqlen : q.length = cpl k0 p + 1 := by
          rw [hqd]
          simp [length_take_of_le (le_of_lt hdp)]
        have hnok : ∀ k ∈ keys, ¬ q <+: k := by
          intro k hk hqk
          rw [ctx.uniq k hk ((ctx.cur_pre_t.trans htq).trans hqk)] at hqk
          have hg : k0.get? (cpl k0 p) = q.get? (cpl k0 p) :=
            get?_of_pre hqk (by omega)
          have hgq : q.get? (cpl k0 p) = some (q.getLast hq_nil) := by
            conv_lhs => rw [hqd]
            have hgs := get_snoc (p.take (cpl k0 p)) (q.getLast hq_nil)
            rw [length_take_of_le (le_of_lt hdp)] at hgs
            exact hgs
          rw [ctx.ha, hgq] at hg
          have hax : a = q.getLast hq_nil := by simpa using hg
          exact hxa hax.symm
        have hnpos_old : ¬ nodePosB keys q = true := by
          intro h
          obtain ⟨⟨k, hk, hqk⟩, _⟩ := nodePos_iff.mp h
          exact hnok k hk hqk
        have hnpos_new : ¬ nodePosB (p :: keys) q = true := by
          intro h
          obtain ⟨⟨k, hk, hqk⟩, _⟩ := nodePos_iff.mp h
          rcases List.mem_cons.mp hk with rfl | hk'
          · exact hqp hqk
          · exact hnok k hk' hqk
        rw [canon_not_nodePos hne hnpos_new, canon_not_nodePos ctx.hkeys hnpos_old]
      · exact canon_cons_eq_of_same ctx.hkeys hqp (ctx.nodiv q.dropLast hdl hdlt)
    · exact canon_cons_eq_of_same ctx.hkeys hqp (branchPos_cons_not_pre hdl)

end LeafCtx

namespace LeafCtx

variable {keys : List (List Nat)} {p current k0 : List Nat} {a b : Nat}

/-- The canonical node table after inserting the fresh key `p` into a trie
whose walk ended at a leaf for `k0`: exactly the four node-table writes of
the leaf-split case of `update_leaf`. -/
theorem canon_insert_leaf (ctx : LeafCtx keys p current k0 a b) :
    canonNodes (p :: keys) =
      mset (mset (mset (mset (canonNodes keys)
        current (SparseNode.new_ext ((k0.take (cpl k0 p)).drop current.length)))
        (k0.take (cpl k0 p)) (SparseNode.new_split_branch a b))
        (p.take (cpl k0 p + 1)) (SparseNode.new_leaf (p.drop (cpl k0 p + 1))))
        (k0.take (cpl k0 p + 1)) (SparseNode.new_leaf (k0.drop (cpl k0 p + 1))) := by
  funext q
  by_cases hq1 : q = k0.take (cpl k0 p + 1)
  · subst hq1
    rw [mset_self]
    exact ctx.case_qk
  · rw [mset_ne _ _ hq1]
    by_cases hq2 : q = p.take (cpl k0 p + 1)
    · subst hq2
      rw [mset_self]
      exact ctx.case_qp
    · rw [mset_ne _ _ hq2]
      by_cases hq3 : q = k0.take (cpl k0 p)
      · subst hq3
        rw [mset_self]
        have hct := ctx.case_t
        rw [← ctx.t_eq] at hct
        exact hct
      · rw [mset_ne _ _ hq3]
        by_cases hq4 : q = current
        · subst hq4
          rw [mset_self]
          have hnec : q ≠ p.take (cpl k0 p) := by
            rw [← ctx.t_eq]
            exact hq3
          rw [ctx.case_current hnec, ctx.t_eq]
          rfl
        · rw [mset_ne _ _ hq4]
          refine ctx.case_other q hq1 hq2 ?_ hq4
          rw [← ctx.t_eq]
          exact hq3

end LeafCtx

/-! ### Inserting a fresh key: the extension-split case -/

theorem branchPos_false_of_same {keys : List (List Nat)} {q : List Nat}
    (h : ∀ k1 ∈ keys, ∀ k2 ∈ keys, q <+: k1 → q <+: k2 →
      k1.get? q.length = k2.get? q.length) : branchPosB keys q = false := by
  by_contra hb
  rw [Bool.not_eq_false] at hb
  obtain ⟨k1, h1, k2, h2, hp1, hp2, x, y, hg1, hg2, hxy⟩ := branchPos_iff.mp hb
  have := h k1 h1 k2 h2 hp1 hp2
  rw [hg1, hg2] at this
  exact hxy (by simpa using this)

namespace ExtCtx

variable {keys : List (List Nat)} {p current e : List Nat} {a b : Nat}

theorem all_e (ctx : ExtCtx keys p current e a b) :
    ∀ k ∈ keys, current <+: k → e <+: k := by
  intro k hk hck
  rw [← ctx.hlcp]
  exact lcpList_pre k (mem_filter_pre.mpr ⟨hk, hck⟩)

theorem d_lt_e (ctx : ExtCtx keys p current e a b) : cpl e p < e.length := by
  have := ctx.ha
  rw [List.get?_eq_getElem?] at this
  exact (List.getElem?_eq_some_iff.mp this).1

theorem d_lt_p_e (ctx : ExtCtx keys p current e a b) : cpl e p < p.length := by
  have := ctx.hb
  rw [List.get?_eq_getElem?] at this
  exact (List.getElem?_eq_some_iff.mp this).1

theorem ab_ne_e (ctx : ExtCtx keys p current e a b) : a ≠ b :=
  get_cpl_ne ctx.ha ctx.hb

theorem cur_le_d_e (ctx : ExtCtx keys p current e a b) :
    current.length ≤ cpl e p :=
  pre_cpl_le ctx.hcur_e ctx.hcp

theorem t_eq_e (ctx : ExtCtx keys p current e a b) :
    e.take (cpl e p) = p.take (cpl e p) :=
  take_cpl_eq e p

theorem ndup_e (ctx : ExtCtx keys p current e a b) : keys.Nodup :=
  ctx.hpf.ndup

theorem ex_mem (ctx : ExtCtx keys p current e a b) :
    ∃ k ∈ keys, current <+: k := by
  have h2 := ctx.hS2
  rcases hl : keys.filter (fun k => isPre current k) with _ | ⟨k, rest⟩
  · rw [hl] at h2
    simp at h2
  · have : k ∈ keys.filter (fun k => isPre current k) := by
      rw [hl]; exact List.mem_cons_self _ _
    exact ⟨k, (mem_filter_pre.mp this).1, (mem_filter_pre.mp this).2⟩

theorem a_lt_e (ctx : ExtCtx keys p current e a b) : a < 16 := by
  obtain ⟨k, hk, hck⟩ := ctx.ex_mem
  have hek := ctx.all_e k hk hck
  have : k.get? (cpl e p) = some a := by
    rw [get?_of_pre hek ctx.d_lt_e]
    exact ctx.ha
  exact ctx.hnib k hk a (List.get?_mem this)

theorem b_lt_e (ctx : ExtCtx keys p current e a b) : b < 16 :=
  ctx.hnp b (List.get?_mem ctx.hb)

theorem take_agree_e (ctx : ExtCtx keys p current e a b) {i : Nat}
    (h : i ≤ cpl e p) : p.take i = e.take i := by
  calc p.take i = (p.take (cpl e p)).take i := by
        rw [List.take_take, min_eq_left h]
    _ = (e.take (cpl e p)).take i := by rw [ctx.t_eq_e]
    _ = e.take i := by rw [List.take_take, min_eq_left h]

theorem cur_pre_t_e (ctx : ExtCtx keys p current e a b) :
    current <+: p.take (cpl e p) :=
  take_pre_of_pre ctx.hcp ctx.cur_le_d_e

theorem t_pre_e (ctx : ExtCtx keys p current e a b) :
    p.take (cpl e p) <+: e := by
  rw [← ctx.t_eq_e]
  exact takePre _ e

theorem filter_congr_between (ctx : ExtCtx keys p current e a b) {q : List Nat}
    (h1 : current <+: q) (h2 : q <+: e) :
    keys.filter (fun k => isPre q k) = keys.filter (fun k => isPre current k) := by
  apply List.filter_congr
  intro k hk
  apply bool_eq_of_iff
  rw [isPre_iff, isPre_iff]
  constructor
  · intro hq
    exact h1.trans hq
  · intro hc
    exact h2.trans (ctx.all_e k hk hc)

theorem qp_eq_e (ctx : ExtCtx keys p current e a b) :
    p.take (cpl e p + 1) = p.take (cpl e p) ++ [b] :=
  take_succ_get ctx.hb

theorem e1_eq (ctx : ExtCtx keys p current e a b) :
    e.take (cpl e p + 1) = p.take (cpl e p) ++ [a] := by
  rw [take_succ_get ctx.ha, ctx.t_eq_e]

theorem qp_not_pre_e (ctx : ExtCtx keys p current e a b) :
    ¬ p.take (cpl e p + 1) <+: e := by
  intro hc
  have hg : e.get? (cpl e p) = (p.take (cpl e p + 1)).get? (cpl e p) :=
    get?_of_pre hc (by rw [length_take_of_le ctx.d_lt_p_e]; omega)
  rw [List.get?_take (Nat.lt_succ_self _)] at hg
  rw [ctx.ha, ctx.hb] at hg
  have hab : a = b := by simpa using hg
  exact ctx.ab_ne_e hab

theorem e1_not_pre_p (ctx : ExtCtx keys p current e a b) :
    ¬ e.take (cpl e p + 1) <+: p := by
  intro hc
  have hg : p.get? (cpl e p) = (e.take (cpl e p + 1)).get? (cpl e p) :=
    get?_of_pre hc (by rw [length_take_of_le ctx.d_lt_e]; omega)
  rw [List.get?_take (Nat.lt_succ_self _)] at hg
  rw [ctx.ha, ctx.hb] at hg
  have hba : b = a := by simpa using hg
  exact ctx.ab_ne_e hba.symm

theorem gets_agree (ctx : ExtCtx keys p current e a b) {k : List Nat}
    (hk : k ∈ keys) (hck : current <+: k) {j : Nat} (hj : j < e.length) :
    k.get? j = e.get? j :=
  get?_of_pre (ctx.all_e k hk hck) hj

theorem branchPos_t_e (ctx : ExtCtx keys p current e a b) :
    branchPosB (p :: keys) (p.take (cpl e p)) = true := by
  obtain ⟨k, hk, hck⟩ := ctx.ex_mem
  apply branchPos_iff.mpr
  have hlt : (p.take (cpl e p)).length = cpl e p :=
    length_take_of_le (le_of_lt ctx.d_lt_p_e)
  have hgk : k.get? (cpl e p) = some a := by
    rw [ctx.gets_agree hk hck ctx.d_lt_e]
    exact ctx.ha
  refine ⟨p, List.mem_cons_self _ _, k, List.mem_cons_of_mem _ hk,
    takePre _ p, ctx.t_pre_e.trans (ctx.all_e k hk hck), b, a, ?_, ?_,
    (ctx.ab_ne_e).symm⟩
  · rw [hlt]; exact ctx.hb
  · rw [hlt]; exact hgk

/-- No new branch position arises away from the divergence point. -/
theorem nodiv_e (ctx : ExtCtx keys p current e a b) :
    ∀ c, c <+: p → c ≠ p.take (cpl e p) →
      branchPosB (p :: keys) c = branchPosB keys c := by
  intro c hcpre hcne
  apply bool_eq_of_iff
  rw [branchPos_cons_iff]
  constructor
  · rintro (h | ⟨hcp', k, hk, hck, x, y, hgx, hgy, hxy⟩)
    · exact h
    · rcases Nat.lt_or_ge c.length current.length with hlt | hge
      · obtain ⟨k', hk', hk'pre⟩ := ctx.hInv c.length hlt
        have hclp : c.length < p.length := by
          have := ctx.hcp.length_le
          omega
        have hck' : c <+: k' :=
          (take_pre_of_pre hcpre (Nat.le_succ _)).trans hk'pre
        have hgk' : k'.get? c.length = some x := by
          rw [get?_of_pre hk'pre (by rw [length_take_of_le (by omega)]; omega)]
          rw [List.get?_take (Nat.lt_succ_self _)]
          exact hgx
        exact branchPos_iff.mpr ⟨k, hk, k', hk', hck, hck', y, x, hgy, hgk', hxy.symm⟩
      · have hcc : current <+: c :=
          List.prefix_of_prefix_length_le ctx.hcp hcpre hge
        have hek : e <+: k := ctx.all_e k hk (hcc.trans hck)
        have hde : cpl e p < e.length := ctx.d_lt_e
        rcases Nat.lt_trichotomy c.length (cpl e p) with hlt | heq | hgt
        · have heq1 : k.get? c.length = p.get? c.length := by
            rw [ctx.gets_agree hk (hcc.trans hck) (by omega)]
            have h1 : (e.take (cpl e p)).get? c.length = e.get? c.length :=
              List.get?_take hlt
            have h2 : (p.take (cpl e p)).get? c.length = p.get? c.length :=
              List.get?_take hlt
            rw [← h1, ← h2, ctx.t_eq_e]
          rw [heq1, hgx] at hgy
          have hxy2 : x = y := by simpa using hgy
          exact absurd hxy2 hxy
        · exact absurd (by
            rw [← heq]
            exact List.prefix_iff_eq_take.mp hcpre) hcne
        · have hdp : cpl e p < p.length := ctx.d_lt_p_e
          have hpc : p.take (cpl e p + 1) <+: c := by
            have hc : c = p.take c.length := List.prefix_iff_eq_take.mp hcpre
            rw [hc]
            exact take_pre_take (by omega)
          have h1 : p.take (cpl e p + 1) <+: k := hpc.trans hck
          have h2 : p.take (cpl e p + 1) <+: e :=
            List.prefix_of_prefix_length_le h1 hek
              (by rw [length_take_of_le (by omega)]; omega)
          exact absurd h2 ctx.qp_not_pre_e
  · intro h
    exact Or.inl h

end ExtCtx

theorem canonNodeOf_two {S : List (List Nat)} {q : List Nat}
    (h2 : 2 ≤ S.length) :
    canonNodeOf S q =
      (if (lcpList S).length = q.length then SparseNode.new_branch (maskOfS S q)
       else SparseNode.new_ext ((lcpList S).drop q.length)) := by
  rcases S with _ | ⟨s1, _ | ⟨s2, rest⟩⟩
  · simp at h2
  · simp at h2
  · rfl

theorem PrefFree.filter_sub {keys : List (List Nat)}
    (h : PrefFree keys) (pred : List Nat → Bool) :
    PrefFree (keys.filter pred) :=
  List.Pairwise.sublist (List.filter_sublist keys) h

namespace ExtCtx

variable {keys : List (List Nat)} {p current e : List Nat} {a b : Nat}

theorem S_pf_e (ctx : ExtCtx keys p current e a b) :
    PrefFree (keys.filter (fun k => isPre current k)) :=
  ctx.hpf.filter_sub _

theorem e_div (ctx : ExtCtx keys p current e a b) :
    branchPosB keys e = true := by
  obtain ⟨k1, hk1, k2, hk2, x, y, hg1, hg2, hxy⟩ := lcp_diverge ctx.hS2 ctx.S_pf_e
  rw [ctx.hlcp] at hg1 hg2
  exact branchPos_iff.mpr ⟨k1, (mem_filter_pre.mp hk1).1, k2,
    (mem_filter_pre.mp hk2).1,
    ctx.hlcp ▸ lcpList_pre k1 hk1, ctx.hlcp ▸ lcpList_pre k2 hk2,
    x, y, hg1, hg2, hxy⟩

theorem cur_pre_qp_e (ctx : ExtCtx keys p current e a b) :
    current <+: p.take (cpl e p + 1) :=
  take_pre_of_pre ctx.hcp (Nat.le_succ_of_le ctx.cur_le_d_e)

theorem cur_pre_e1 (ctx : ExtCtx keys p current e a b) :
    current <+: e.take (cpl e p + 1) :=
  take_pre_of_pre ctx.hcur_e (Nat.le_succ_of_le ctx.cur_le_d_e)

theorem filter_qp_nil (ctx : ExtCtx keys p current e a b) :
    keys.filter (fun k => isPre (p.take (cpl e p + 1)) k) = [] := by
  apply filter_eq_nil_pre
  intro k hk hqk
  have hek : e <+: k := ctx.all_e k hk (ctx.cur_pre_qp_e.trans hqk)
  have hqe : p.take (cpl e p + 1) <+: e :=
    List.prefix_of_prefix_length_le hqk hek
      (by have hde := ctx.d_lt_e
          rw [length_take_of_le ctx.d_lt_p_e]
          omega)
  exact ctx.qp_not_pre_e hqe

theorem case_qp_e (ctx : ExtCtx keys p current e a b) :
    canonNodes (p :: keys) (p.take (cpl e p + 1)) =
      some (.leaf (p.drop (cpl e p + 1)) none) := by
  have hne : (p :: keys) ≠ ([] : List (List Nat)) := by simp
  have hfil : (p :: keys).filter (fun k => isPre (p.take (cpl e p + 1)) k) = [p] := by
    rw [filter_cons_pre (takePre _ p), ctx.filter_qp_nil]
  have hpos : nodePosB (p :: keys) (p.take (cpl e p + 1)) = true := by
    rw [nodePos_iff]
    refine ⟨⟨p, List.mem_cons_self _ _, takePre _ p⟩, Or.inr (Or.inr ?_)⟩
    rw [dropLast_take ctx.d_lt_p_e]
    exact ctx.branchPos_t_e
  rw [canon_nodePos_some hne hpos, hfil]
  unfold canonNodeOf
  rw [length_take_of_le ctx.d_lt_p_e]
  rfl

theorem lcp_cons_t (ctx : ExtCtx keys p current e a b) :
    lcpList (p :: keys.filter (fun k => isPre current k)) = p.take (cpl e p) := by
  apply lcpList_eq (by simp)
  · intro k hk
    rcases List.mem_cons.mp hk with rfl | hk'
    · exact takePre _ k
    · exact (ctx.t_eq_e ▸ takePre (cpl e p) e).trans (ctx.hlcp ▸ lcpList_pre k hk')
  · intro c hc
    have hcp' : c <+: p := hc p (List.mem_cons_self _ _)
    have hS2 := ctx.hS2
    rcases hl : keys.filter (fun k => isPre current k) with _ | ⟨k1, rest⟩
    · rw [hl] at hS2
      exact absurd hS2 (by simp)
    · have hk1 : k1 ∈ keys.filter (fun k => isPre current k) := by
        rw [hl]; exact List.mem_cons_self _ _
      have hck1 : c <+: k1 := hc k1 (List.mem_cons_of_mem _ (by rw [hl]; exact List.mem_cons_self _ _))
      have hek1 : e <+: k1 := ctx.hlcp ▸ lcpList_pre k1 hk1
      rcases le_or_lt c.length (cpl e p) with hle | hgt
      · exact take_pre_of_pre hcp' hle
      · exfalso
        have hqpc : p.take (cpl e p + 1) <+: c := by
          rw [List.prefix_iff_eq_take.mp hcp']
          exact take_pre_take (by omega)
        have hqpk : p.take (cpl e p + 1) <+: k1 := hqpc.trans hck1
        have : p.take (cpl e p + 1) <+: e :=
          List.prefix_of_prefix_length_le hqpk hek1
            (by have hde := ctx.d_lt_e
                rw [length_take_of_le ctx.d_lt_p_e]
                omega)
        exact ctx.qp_not_pre_e this

theorem mask_pair_e (ctx : ExtCtx keys p current e a b) :
    maskOfS (p :: keys.filter (fun k => isPre current k)) (p.take (cpl e p)) =
      (1 <<< a) ||| (1 <<< b) := by
  apply Nat.eq_of_testBit_eq
  intro i
  apply bool_eq_of_iff
  rw [maskOfS_testBit_iff, new_split_branch_testBit]
  have hlt : (p.take (cpl e p)).length = cpl e p :=
    length_take_of_le (le_of_lt ctx.d_lt_p_e)
  obtain ⟨kw, hkw, hckw⟩ := ctx.ex_mem
  constructor
  · rintro ⟨hi, k, hk, hg⟩
    rw [hlt] at hg
    rcases List.mem_cons.mp hk with rfl | hk'
    · rw [ctx.hb] at hg
      exact Or.inr (by simpa using hg.symm)
    · have hek : e <+: k := ctx.hlcp ▸ lcpList_pre k hk'
      rw [get?_of_pre hek ctx.d_lt_e, ctx.ha] at hg
      exact Or.inl (by simpa using hg.symm)
  · rintro (rfl | rfl)
    · refine ⟨ctx.a_lt_e, kw, List.mem_cons_of_mem _ (mem_filter_pre.mpr ⟨hkw, hckw⟩), ?_⟩
      rw [hlt, ctx.gets_agree hkw hckw ctx.d_lt_e]
      exact ctx.ha
    · exact ⟨ctx.b_lt_e, p, by simp, by rw [hlt]; exact ctx.hb⟩

theorem case_t_e (ctx : ExtCtx keys p current e a b) :
    canonNodes (p :: keys) (p.take (cpl e p)) =
      some (.branch ((1 <<< a) ||| (1 <<< b)) none) := by
  have hne : (p :: keys) ≠ ([] : List (List Nat)) := by simp
  have hfil : (p :: keys).filter (fun k => isPre (p.take (cpl e p)) k) =
      p :: keys.filter (fun k => isPre current k) := by
    rw [filter_cons_pre (takePre _ p),
      ctx.filter_congr_between ctx.cur_pre_t_e (ctx.t_eq_e ▸ takePre (cpl e p) e)]
  have hpos : nodePosB (p :: keys) (p.take (cpl e p)) = true := by
    rw [nodePos_iff]
    exact ⟨⟨p, List.mem_cons_self _ _, takePre _ p⟩,
      Or.inr (Or.inl ctx.branchPos_t_e)⟩
  rw [canon_nodePos_some hne hpos, hfil]
  rw [canonNodeOf_two (by have := ctx.hS2; simp; omega)]
  rw [ctx.lcp_cons_t, if_pos rfl, ctx.mask_pair_e]
  rfl

theorem case_current_e (ctx : ExtCtx keys p current e a b)
    (hnec : current ≠ p.take (cpl e p)) :
    canonNodes (p :: keys) current =
      some (.ext ((p.take (cpl e p)).drop current.length) none) := by
  have hne : (p :: keys) ≠ ([] : List (List Nat)) := by simp
  have hcd : current.length < cpl e p := by
    rcases lt_or_eq_of_le ctx.cur_le_d_e with h | h
    · exact h
    · exfalso
      apply hnec
      have := List.prefix_iff_eq_take.mp ctx.hcp
      rw [this, h]
  have hfil : (p :: keys).filter (fun k => isPre current k) =
      p :: keys.filter (fun k => isPre current k) := filter_cons_pre ctx.hcp
  have hpos : nodePosB (p :: keys) current = true := by
    rw [nodePos_iff]
    refine ⟨⟨p, List.mem_cons_self _ _, ctx.hcp⟩, ?_⟩
    rcases (nodePos_iff.mp ctx.hpos).2 with h | h | h
    · exact Or.inl h
    · exact Or.inr (Or.inl (branchPos_mono h))
    · exact Or.inr (Or.inr (branchPos_mono h))
  rw [canon_nodePos_some hne hpos, hfil]
  rw [canonNodeOf_two (by have := ctx.hS2; simp; omega)]
  rw [ctx.lcp_cons_t,
    if_neg (by rw [length_take_of_le (le_of_lt ctx.d_lt_p_e)]; omega)]
  rfl

theorem case_e1_ext (ctx : ExtCtx keys p current e a b)
    (hk2 : e.drop (cpl e p + 1) ≠ []) :
    canonNodes (p :: keys) (e.take (cpl e p + 1)) =
      some (.ext (e.drop (cpl e p + 1)) none) := by
  have hne : (p :: keys) ≠ ([] : List (List Nat)) := by simp
  have hd1e : cpl e p + 1 < e.length := by
    by_contra hge
    push_neg at hge
    exact hk2 (List.drop_eq_nil_of_le hge)
  obtain ⟨kw, hkw, hckw⟩ := ctx.ex_mem
  have hekw : e <+: kw := ctx.all_e kw hkw hckw
  have hfil : (p :: keys).filter (fun k => isPre (e.take (cpl e p + 1)) k) =
      keys.filter (fun k => isPre current k) := by
    rw [filter_cons_not ctx.e1_not_pre_p,
      ctx.filter_congr_between ctx.cur_pre_e1 (takePre _ e)]
  have hpos : nodePosB (p :: keys) (e.take (cpl e p + 1)) = true := by
    rw [nodePos_iff]
    refine ⟨⟨kw, List.mem_cons_of_mem _ hkw, (takePre _ e).trans hekw⟩,
      Or.inr (Or.inr ?_)⟩
    rw [dropLast_take ctx.d_lt_e, ctx.t_eq_e]
    exact ctx.branchPos_t_e
  rw [canon_nodePos_some hne hpos, hfil]
  rw [canonNodeOf_two ctx.hS2, ctx.hlcp,
    if_neg (by rw [length_take_of_le (le_of_lt hd1e)]; omega)]
  have hdt : e.drop ((e.take (cpl e p + 1)).length) = e.drop (cpl e p + 1) := by
    rw [length_take_of_le (le_of_lt hd1e)]
  rw [hdt]
  rfl

theorem case_e1_keep (ctx : ExtCtx keys p current e a b)
    (hk2 : e.drop (cpl e p + 1) = []) :
    canonNodes (p :: keys) (e.take (cpl e p + 1)) =
      canonNodes keys (e.take (cpl e p + 1)) := by
  have hne : (p :: keys) ≠ ([] : List (List Nat)) := by simp
  have hlen : e.length = cpl e p + 1 := by
    have hd := ctx.d_lt_e
    have := List.drop_eq_nil_iff_le.mp hk2
    omega
  have hte : e.take (cpl e p + 1) = e := by
    rw [← hlen]
    exact List.take_length e
  rw [hte]
  obtain ⟨kw, hkw, hckw⟩ := ctx.ex_mem
  have hekw : e <+: kw := ctx.all_e kw hkw hckw
  have hbe := ctx.e_div
  have hfil : (p :: keys).filter (fun k => isPre e k) =
      keys.filter (fun k => isPre e k) := filter_cons_not ctx.hnpre
  have hpos_old : nodePosB keys e = true := by
    rw [nodePos_iff]
    exact ⟨⟨kw, hkw, hekw⟩, Or.inr (Or.inl hbe)⟩
  have hpos_new : nodePosB (p :: keys) e = true := by
    rw [nodePos_iff]
    exact ⟨⟨kw, List.mem_cons_of_mem _ hkw, hekw⟩,
      Or.inr (Or.inl (branchPos_mono hbe))⟩
  rw [canon_nodePos_some hne hpos_new, canon_nodePos_some ctx.hkeys hpos_old, hfil]

end ExtCtx

namespace ExtCtx

variable {keys : List (List Nat)} {p current e : List Nat} {a b : Nat}

theorem bq_cur_false (ctx : ExtCtx keys p current e a b) :
    branchPosB keys current = false := by
  apply branchPos_false_of_same
  intro k1 h1 k2 h2 hp1 hp2
  rw [ctx.gets_agree h1 hp1 ctx.hlen_ce, ctx.gets_agree h2 hp2 ctx.hlen_ce]

theorem case_other_e (ctx : ExtCtx keys p current e a b) (q : List Nat)
    (h1 : q ≠ e.take (cpl e p + 1)) (h2 : q ≠ p.take (cpl e p + 1))
    (h3 : q ≠ p.take (cpl e p)) (h4 : q ≠ current) :
    canonNodes (p :: keys) q = canonNodes keys q := by
  have hne : (p :: keys) ≠ ([] : List (List Nat)) := by simp
  have hdp := ctx.d_lt_p_e
  have hde := ctx.d_lt_e
  have hcld := ctx.cur_le_d_e
  have hce := ctx.hlen_ce
  by_cases hqp : q <+: p
  · have hq_take : q = p.take q.length := List.prefix_iff_eq_take.mp hqp
    have hqlen : q.length ≤ p.length := hqp.length_le
    by_cases hql : q.length ≤ current.length
    · -- q is a strict prefix of the cursor
      have hqlt : q.length < current.length := by
        rcases lt_or_eq_of_le hql with h | h
        · exact h
        · exfalso
          apply h4
          rw [hq_take, h, ← List.prefix_iff_eq_take.mp ctx.hcp]
      have hcur_nil : current ≠ [] := by
        intro h
        rw [h] at hqlt
        simp at hqlt
      have hbq := ctx.nodiv_e q hqp h3
      have hdl_pre : q.dropLast <+: p := (dropLastPre q).trans hqp
      have hdl_ne : q.dropLast ≠ p.take (cpl e p) := by
        intro he
        have hlen := congrArg List.length he
        rw [List.length_dropLast, length_take_of_le (le_of_lt hdp)] at hlen
        omega
      have hbdl := ctx.nodiv_e q.dropLast hdl_pre hdl_ne
      have hbdc : branchPosB keys current.dropLast = true := by
        rcases (nodePos_iff.mp ctx.hpos).2 with h | h | h
        · exact absurd h hcur_nil
        · rw [ctx.bq_cur_false] at h
          exact absurd h (by simp)
        · exact h
      obtain ⟨k1, hk1, k2, hk2, hp1, hp2, x, y, hg1, hg2, hxy⟩ :=
        branchPos_iff.mp hbdc
      have hq_dl : q <+: current.dropLast := by
        refine List.prefix_of_prefix_length_le hqp
          ((dropLastPre current).trans ctx.hcp) ?_
        rw [List.length_dropLast]
        omega
      have hk1q : q <+: k1 := hq_dl.trans hp1
      have hk2q : q <+: k2 := hq_dl.trans hp2
      have hk12 : k1 ≠ k2 := by
        intro he
        rw [he, hg2] at hg1
        have hyx : y = x := by simpa using hg1
        exact hxy hyx.symm
      have hnpos_eq : nodePosB (p :: keys) q = nodePosB keys q := by
        apply bool_eq_of_iff
        rw [nodePos_iff, nodePos_iff, hbq, hbdl]
        constructor
        · rintro ⟨_, hd⟩
          exact ⟨⟨k1, hk1, hk1q⟩, hd⟩
        · rintro ⟨_, hd⟩
          exact ⟨⟨k1, List.mem_cons_of_mem _ hk1, hk1q⟩, hd⟩
      by_cases hnp : nodePosB keys q = true
      · rw [canon_nodePos_some hne (by rw [hnpos_eq]; exact hnp),
          canon_nodePos_some ctx.hkeys hnp, filter_cons_pre hqp]
        refine congrArg some (canonNodeOf_cons_eq ?_ ?_ ?_)
        · exact two_mem_le_length (mem_filter_pre.mpr ⟨hk1, hk1q⟩)
            (mem_filter_pre.mpr ⟨hk2, hk2q⟩) hk12
        · have hm1 : k1 ∈ keys.filter (fun k => isPre q k) :=
            mem_filter_pre.mpr ⟨hk1, hk1q⟩
          have hm2 : k2 ∈ keys.filter (fun k => isPre q k) :=
            mem_filter_pre.mpr ⟨hk2, hk2q⟩
          have hlcp1 := lcpList_pre k1 hm1
          have hlcp2 := lcpList_pre k2 hm2
          have hlen_le : (lcpList (keys.filter (fun k => isPre q k))).length ≤
              current.dropLast.length := by
            by_contra hlt
            push_neg at hlt
            have e1 : k1.get? current.dropLast.length =
                (lcpList (keys.filter (fun k => isPre q k))).get? current.dropLast.length :=
              get?_of_pre hlcp1 hlt
            have e2 : k2.get? current.dropLast.length =
                (lcpList (keys.filter (fun k => isPre q k))).get? current.dropLast.length :=
              get?_of_pre hlcp2 hlt
            rw [hg1] at e1
            rw [hg2] at e2
            rw [← e1] at e2
            have hyx : y = x := by simpa using e2
            exact hxy hyx.symm
          have hlcp_cd : lcpList (keys.filter (fun k => isPre q k)) <+: current.dropLast :=
            List.prefix_of_prefix_length_le hlcp1 hp1 hlen_le
          exact hlcp_cd.trans ((dropLastPre current).trans ctx.hcp)
        · intro i hg
          obtain ⟨k', hk', hk'pre⟩ := ctx.hInv q.length (by omega)
          refine ⟨k', mem_filter_pre.mpr
            ⟨hk', (take_pre_of_pre hqp (Nat.le_succ _)).trans hk'pre⟩, ?_⟩
          rw [get?_of_pre hk'pre
            (by rw [length_take_of_le (by omega)]; omega)]
          rw [List.get?_take (Nat.lt_succ_self _)]
          exact hg
      · rw [canon_not_nodePos hne (by rw [hnpos_eq]; exact hnp),
          canon_not_nodePos ctx.hkeys hnp]
    · push_neg at hql
      have hcq : current <+: q :=
        List.prefix_of_prefix_length_le ctx.hcp hqp (le_of_lt hql)
      have hq_nil : q ≠ [] := by
        intro h
        rw [h] at hql
        simp at hql
      by_cases hqd : q.length ≤ cpl e p
      · -- between the cursor and the divergence point: no node on either side
        have hqd_lt : q.length < cpl e p := by
          rcases lt_or_eq_of_le hqd with h | h
          · exact h
          · exact absurd (by rw [hq_take, h]) h3
        have hbq_old : branchPosB keys q = false := by
          apply branchPos_false_of_same
          intro u1 hu1 u2 hu2 hpu1 hpu2
          rw [ctx.gets_agree hu1 (hcq.trans hpu1) (by omega),
            ctx.gets_agree hu2 (hcq.trans hpu2) (by omega)]
        have hdl_pre_cur : current <+: q.dropLast := by
          refine List.prefix_of_prefix_length_le ctx.hcp
            ((dropLastPre q).trans hqp) ?_
          rw [List.length_dropLast]
          omega
        have hbdl_old : branchPosB keys q.dropLast = false := by
          apply branchPos_false_of_same
          intro u1 hu1 u2 hu2 hpu1 hpu2
          rw [List.length_dropLast]
          rw [ctx.gets_agree hu1 (hdl_pre_cur.trans hpu1) (by omega),
            ctx.gets_agree hu2 (hdl_pre_cur.trans hpu2) (by omega)]
        have hdl_ne_t : q.dropLast ≠ p.take (cpl e p) := by
          intro he
          have hlen := congrArg List.length he
          rw [List.length_dropLast, length_take_of_le (le_of_lt hdp)] at hlen
          omega
        have hnpos_old : ¬ nodePosB keys q = true := by
          intro h
          rcases (nodePos_iff.mp h).2 with h' | h' | h'
          · exact hq_nil h'
          · rw [hbq_old] at h'
            exact absurd h' (by simp)
          · rw [hbdl_old] at h'
            exact absurd h' (by simp)
        have hnpos_new : ¬ nodePosB (p :: keys) q = true := by
          intro h
          rcases (nodePos_iff.mp h).2 with h' | h' | h'
          · exact hq_nil h'
          · rw [ctx.nodiv_e q hqp h3, hbq_old] at h'
            exact absurd h' (by simp)
          · rw [ctx.nodiv_e q.dropLast ((dropLastPre q).trans hqp) hdl_ne_t,
              hbdl_old] at h'
            exact absurd h' (by simp)
        rw [canon_not_nodePos hne hnpos_new, canon_not_nodePos ctx.hkeys hnpos_old]
      · -- strictly below the new leaf position: no node on either side
        push_neg at hqd
        have hq_len2 : cpl e p + 2 ≤ q.length := by
          by_contra hlt
          push_neg at hlt
          apply h2
          rw [hq_take]
          congr 1
          omega
        have hqp1 : p.take (cpl e p + 1) <+: q := by
          rw [hq_take]
          exact take_pre_take (by omega)
        have hdl_eq : q.dropLast = p.take (q.length - 1) := by
          have he1 : q.dropLast = (p.take ((q.length - 1) + 1)).dropLast := by
            rw [show (q.length - 1) + 1 = q.length by omega, ← hq_take]
          rw [he1, dropLast_take (by omega)]
        have hnok : ∀ k ∈ keys, ¬ q <+: k := by
          intro k hk hqk
          have hek : e <+: k := ctx.all_e k hk (hcq.trans hqk)
          exact ctx.qp_not_pre_e
            (List.prefix_of_prefix_length_le (hqp1.trans hqk) hek
              (by rw [length_take_of_le hdp]; omega))
        have hdl_cur : current <+: q.dropLast := by
          refine List.prefix_of_prefix_length_le ctx.hcp
            ((dropLastPre q).trans hqp) ?_
          rw [List.length_dropLast]
          omega
        have hnok_dl : ∀ k ∈ keys, ¬ q.dropLast <+: k := by
          intro k hk hqk
          have hqp1' : p.take (cpl e p + 1) <+: q.dropLast := by
            rw [hdl_eq]
            exact take_pre_take (by omega)
          have hek : e <+: k := ctx.all_e k hk (hdl_cur.trans hqk)
          exact ctx.qp_not_pre_e
            (List.prefix_of_prefix_length_le (hqp1'.trans hqk) hek
              (by rw [length_take_of_le hdp]; omega))
        have hnpos_old : ¬ nodePosB keys q = true := by
          intro h
          obtain ⟨⟨k, hk, hqk⟩, _⟩ := nodePos_iff.mp h
          exact hnok k hk hqk
        have hdl_ne_t : q.dropLast ≠ p.take (cpl e p) := by
          intro he
          have hlen := congrArg List.length he
          rw [List.length_dropLast, length_take_of_le (le_of_lt hdp)] at hlen
          omega
        have hnpos_new : ¬ nodePosB (p :: keys) q = true := by
          intro h
          rcases (nodePos_iff.mp h).2 with h' | h' | h'
          · exact hq_nil h'
          · rw [ctx.nodiv_e q hqp h3, branchPos_false_of_no_keys hnok] at h'
            exact absurd h' (by simp)
          · rw [ctx.nodiv_e q.dropLast ((dropLastPre q).trans hqp) hdl_ne_t,
              branchPos_false_of_no_keys hnok_dl] at h'
            exact absurd h' (by simp)
        rw [canon_not_nodePos hne hnpos_new, canon_not_nodePos ctx.hkeys hnpos_old]
  · -- q is not a prefix of p
    have hq_nil : q ≠ [] := fun h => hqp (h ▸ nilPre p)
    by_cases hdl : q.dropLast <+: p
    · by_cases hdlt : q.dropLast = p.take (cpl e p)
      · -- q is a sibling slot of the new split branch: no node on either side
        have hqd : q = p.take (cpl e p) ++ [q.getLast hq_nil] := by
          conv_lhs => rw [← List.dropLast_append_getLast hq_nil]
          rw [hdlt]
        have hxa : q.getLast hq_nil ≠ a := by
          intro hxeq
          apply h1
          rw [hqd, hxeq, ← ctx.e1_eq]
        have htq : p.take (cpl e p) <+: q := by
          rw [hqd]
          exact ⟨[q.getLast hq_nil], rfl⟩
        have hqlen : q.length = cpl e p + 1 := by
          rw [hqd]
          simp [length_take_of_le (le_of_lt hdp)]
        have hnok : ∀ k ∈ keys, ¬ q <+: k := by
          intro k hk hqk
          have hek : e <+: k := ctx.all_e k hk ((ctx.cur_pre_t_e.trans htq).trans hqk)
          have hg : k.get? (cpl e p) = q.get? (cpl e p) :=
            get?_of_pre hqk (by omega)
          have hgq : q.get? (cpl e p) = some (q.getLast hq_nil) := by
            conv_lhs => rw [hqd]
            have hgs := get_snoc (p.take (cpl e p)) (q.getLast hq_nil)
            rw [length_take_of_le (le_of_lt hdp)] at hgs
            exact hgs
          rw [ctx.gets_agree hk ((ctx.cur_pre_t_e.trans htq).trans hqk) hde,
            ctx.ha, hgq] at hg
          have hax : a = q.getLast hq_nil := by simpa using hg
          exact hxa hax.symm
        have hnpos_old : ¬ nodePosB keys q = true := by
          intro h
          obtain ⟨⟨k, hk, hqk⟩, _⟩ := nodePos_iff.mp h
          exact hnok k hk hqk
        have hnpos_new : ¬ nodePosB (p :: keys) q = true := by
          intro h
          obtain ⟨⟨k, hk, hqk⟩, _⟩ := nodePos_iff.mp h
          rcases List.mem_cons.mp hk with rfl | hk'
          · exact hqp hqk
          · exact hnok k hk' hqk
        rw [canon_not_nodePos hne hnpos_new, canon_not_nodePos ctx.hkeys hnpos_old]
      · exact canon_cons_eq_of_same ctx.hkeys hqp (ctx.nodiv_e q.dropLast hdl hdlt)
    · exact canon_cons_eq_of_same ctx.hkeys hqp (branchPos_cons_not_pre hdl)

end ExtCtx

namespace ExtCtx

variable {keys : List (List Nat)} {p current e : List Nat} {a b : Nat}

theorem e1_ne_qp (ctx : ExtCtx keys p current e a b) :
    e.take (cpl e p + 1) ≠ p.take (cpl e p + 1) := by
  intro h
  rw [ctx.e1_eq, ctx.qp_eq_e] at h
  have hab := List.append_cancel_left h
  have : a = b := by simpa using hab
  exact ctx.ab_ne_e this

theorem e1_ne_t (ctx : ExtCtx keys p current e a b) :
    e.take (cpl e p + 1) ≠ e.take (cpl e p) := by
  intro h
  have hlen := congrArg List.length h
  rw [length_take_of_le ctx.d_lt_e,
    length_take_of_le (le_of_lt ctx.d_lt_e)] at hlen
  omega

theorem e1_ne_cur (ctx : ExtCtx keys p current e a b) :
    e.take (cpl e p + 1) ≠ current := by
  intro h
  have hlen := congrArg List.length h
  rw [length_take_of_le ctx.d_lt_e] at hlen
  have := ctx.cur_le_d_e
  omega

/-- Canonical-table surgery for the extension-split case when the remaining
extension key is non-empty: exactly the four node-table writes of the
extension-split case of `update_leaf`. -/
theorem canon_insert_ext_long (ctx : ExtCtx keys p current e a b)
    (hk2 : e.drop (cpl e p + 1) ≠ []) :
    canonNodes (p :: keys) =
      mset (mset (mset (mset (canonNodes keys)
        current (.ext ((e.take (cpl e p)).drop current.length) none))
        (e.take (cpl e p)) (SparseNode.new_split_branch a b))
        (p.take (cpl e p + 1)) (SparseNode.new_leaf (p.drop (cpl e p + 1))))
        (e.take (cpl e p + 1)) (SparseNode.new_ext (e.drop (cpl e p + 1))) := by
  funext q
  by_cases hq1 : q = e.take (cpl e p + 1)
  · subst hq1
    rw [mset_self]
    exact ctx.case_e1_ext hk2
  · rw [mset_ne _ _ hq1]
    by_cases hq2 : q = p.take (cpl e p + 1)
    · subst hq2
      rw [mset_self]
      exact ctx.case_qp_e
    · rw [mset_ne _ _ hq2]
      by_cases hq3 : q = e.take (cpl e p)
      · subst hq3
        rw [mset_self]
        have hct := ctx.case_t_e
        rw [← ctx.t_eq_e] at hct
        exact hct
      · rw [mset_ne _ _ hq3]
        by_cases hq4 : q = current
        · subst hq4
          rw [mset_self]
          have hnec : q ≠ p.take (cpl e p) := by
            rw [← ctx.t_eq_e]
            exact hq3
          rw [ctx.case_current_e hnec, ctx.t_eq_e]
        · rw [mset_ne _ _ hq4]
          refine ctx.case_other_e q hq1 hq2 ?_ hq4
          rw [← ctx.t_eq_e]
          exact hq3

/-- Canonical-table surgery for the extension-split case when the split point
is the last nibble of the old extension target: three node-table writes, the
old child node staying in place. -/
theorem canon_insert_ext_short (ctx : ExtCtx keys p current e a b)
    (hk2 : e.drop (cpl e p + 1) = []) :
    canonNodes (p :: keys) =
      mset (mset (mset (canonNodes keys)
        current (.ext ((e.take (cpl e p)).drop current.length) none))
        (e.take (cpl e p)) (SparseNode.new_split_branch a b))
        (p.take (cpl e p + 1)) (SparseNode.new_leaf (p.drop (cpl e p + 1))) := by
  funext q
  by_cases hq1 : q = e.take (cpl e p + 1)
  · subst hq1
    rw [mset_ne _ _ ctx.e1_ne_qp, mset_ne _ _ ctx.e1_ne_t,
      mset_ne _ _ ctx.e1_ne_cur]
    exact ctx.case_e1_keep hk2
  · by_cases hq2 : q = p.take (cpl e p + 1)
    · subst hq2
      rw [mset_self]
      exact ctx.case_qp_e
    · rw [mset_ne _ _ hq2]
      by_cases hq3 : q = e.take (cpl e p)
      · subst hq3
        rw [mset_self]
        have hct := ctx.case_t_e
        rw [← ctx.t_eq_e] at hct
        exact hct
      · rw [mset_ne _ _ hq3]
        by_cases hq4 : q = current
        · subst hq4
          rw [mset_self]
          have hnec : q ≠ p.take (cpl e p) := by
            rw [← ctx.t_eq_e]
            exact hq3
          rw [ctx.case_current_e hnec, ctx.t_eq_e]
        · rw [mset_ne _ _ hq4]
          refine ctx.case_other_e q hq1 hq2 ?_ hq4
          rw [← ctx.t_eq_e]
          exact hq3

end ExtCtx

/-! ### Inserting a fresh key: the branch case with an unset child bit -/

theorem one_shl_testBit {n i : Nat} :
    ((1 : Nat) <<< n).testBit i = true ↔ i = n := by
  rw [Nat.shiftLeft_eq, Nat.one_mul, Nat.testBit_two_pow]
  simp
  constructor
  · exact fun h => h.symm
  · exact fun h => h.symm

namespace BranchCtx

variable {keys : List (List Nat)} {p current : List Nat} {nib : Nat}

theorem S_pf_b (ctx : BranchCtx keys p current nib) :
    PrefFree (keys.filter (fun k => isPre current k)) :=
  ctx.hpf.filter_sub _

theorem cur_lt_p (ctx : BranchCtx keys p current nib) :
    current.length < p.length := by
  have := ctx.hg
  rw [List.get?_eq_getElem?] at this
  exact (List.getElem?_eq_some_iff.mp this).1

theorem nib_lt (ctx : BranchCtx keys p current nib) : nib < 16 :=
  ctx.hnp nib (List.get?_mem ctx.hg)

theorem cur1_eq (ctx : BranchCtx keys p current nib) :
    current ++ [nib] = p.take (current.length + 1) := by
  rw [take_succ_get ctx.hg, ← List.prefix_iff_eq_take.mp ctx.hcp]

theorem div_cur (ctx : BranchCtx keys p current nib) :
    branchPosB keys current = true := by
  obtain ⟨k1, hk1, k2, hk2, x, y, hg1, hg2, hxy⟩ := lcp_diverge ctx.hS2 ctx.S_pf_b
  rw [ctx.hlcp] at hg1 hg2
  exact branchPos_iff.mpr ⟨k1, (mem_filter_pre.mp hk1).1, k2,
    (mem_filter_pre.mp hk2).1, (mem_filter_pre.mp hk1).2,
    (mem_filter_pre.mp hk2).2, x, y, hg1, hg2, hxy⟩

theorem case_cur1 (ctx : BranchCtx keys p current nib) :
    canonNodes (p :: keys) (current ++ [nib]) =
      some (.leaf (p.drop (current.length + 1)) none) := by
  have hne : (p :: keys) ≠ ([] : List (List Nat)) := by simp
  have hpre : current ++ [nib] <+: p := by
    rw [ctx.cur1_eq]
    exact takePre _ p
  have hfil : (p :: keys).filter (fun k => isPre (current ++ [nib]) k) = [p] := by
    rw [filter_cons_pre hpre]
    rw [filter_eq_nil_pre]
    intro k hk hqk
    have hck : current <+: k := (List.prefix_append current [nib]).trans hqk
    have hgk : k.get? current.length = some nib := by
      rw [get?_of_pre hqk (by simp)]
      exact get_snoc current nib
    exact ctx.hunset k hk hck hgk
  have hpos : nodePosB (p :: keys) (current ++ [nib]) = true := by
    rw [nodePos_iff]
    refine ⟨⟨p, List.mem_cons_self _ _, hpre⟩, Or.inr (Or.inr ?_)⟩
    rw [List.dropLast_concat]
    exact branchPos_mono ctx.div_cur
  rw [canon_nodePos_some hne hpos, hfil]
  unfold canonNodeOf
  have hlen : (current ++ [nib]).length = current.length + 1 := by simp
  rw [hlen]
  rfl

theorem mask_or (ctx : BranchCtx keys p current nib) :
    maskOfS (p :: keys.filter (fun k => isPre current k)) current =
      maskOfS (keys.filter (fun k => isPre current k)) current ||| (1 <<< nib) := by
  apply Nat.eq_of_testBit_eq
  intro i
  apply bool_eq_of_iff
  rw [maskOfS_testBit_iff, Nat.testBit_or]
  constructor
  · rintro ⟨hi, k, hk, hgk⟩
    rcases List.mem_cons.mp hk with rfl | hk'
    · rw [ctx.hg] at hgk
      have : nib = i := by simpa using hgk
      subst this
      simp [one_shl_testBit]
    · rw [Bool.or_eq_true, maskOfS_testBit_iff]
      exact Or.inl ⟨hi, k, hk', hgk⟩
  · intro h
    rw [Bool.or_eq_true] at h
    rcases h with h' | h'
    · obtain ⟨hi, k, hk, hgk⟩ := maskOfS_testBit_iff.mp h'
      exact ⟨hi, k, List.mem_cons_of_mem _ hk, hgk⟩
    · have : i = nib := one_shl_testBit.mp h'
      subst this
      exact ⟨ctx.nib_lt, p, List.mem_cons_self _ _, ctx.hg⟩

theorem case_cur (ctx : BranchCtx keys p current nib) :
    canonNodes (p :: keys) current =
      some (.branch
        (maskOfS (keys.filter (fun k => isPre current k)) current ||| (1 <<< nib))
        none) := by
  have hne : (p :: keys) ≠ ([] : List (List Nat)) := by simp
  have hS2 := ctx.hS2
  have hSne : keys.filter (fun k => isPre current k) ≠ [] := by
    intro h
    rw [h] at hS2
    simp at hS2
  have hpos : nodePosB (p :: keys) current = true := by
    rw [nodePos_iff]
    refine ⟨⟨p, List.mem_cons_self _ _, ctx.hcp⟩,
      Or.inr (Or.inl (branchPos_mono ctx.div_cur))⟩
  rw [canon_nodePos_some hne hpos, filter_cons_pre ctx.hcp]
  rw [canonNodeOf_two (by simp; omega)]
  rw [lcpList_cons_eq hSne (by rw [ctx.hlcp]; exact ctx.hcp), ctx.hlcp, if_pos rfl,
    ctx.mask_or]
  rfl

/-- No new branch position arises away from `current` itself. -/
theorem nodiv_b (ctx : BranchCtx keys p current nib) :
    ∀ c, c <+: p → c ≠ current →
      branchPosB (p :: keys) c = branchPosB keys c := by
  intro c hcpre hcne
  apply bool_eq_of_iff
  rw [branchPos_cons_iff]
  constructor
  · rintro (h | ⟨hcp', k, hk, hck, x, y, hgx, hgy, hxy⟩)
    · exact h
    · rcases Nat.lt_trichotomy c.length current.length with hlt | heq | hgt
      · obtain ⟨k', hk', hk'pre⟩ := ctx.hInv c.length hlt
        have hclp : c.length < p.length := by
          have := ctx.hcp.length_le
          have := ctx.cur_lt_p
          omega
        have hck' : c <+: k' :=
          (take_pre_of_pre hcpre (Nat.le_succ _)).trans hk'pre
        have hgk' : k'.get? c.length = some x := by
          rw [get?_of_pre hk'pre (by rw [length_take_of_le (by omega)]; omega)]
          rw [List.get?_take (Nat.lt_succ_self _)]
          exact hgx
        exact branchPos_iff.mpr ⟨k, hk, k', hk', hck, hck', y, x, hgy, hgk', hxy.symm⟩
      · exfalso
        apply hcne
        rw [List.prefix_iff_eq_take.mp hcpre, heq,
          ← List.prefix_iff_eq_take.mp ctx.hcp]
      · have hcur1 : current ++ [nib] <+: c := by
          rw [ctx.cur1_eq, List.prefix_iff_eq_take.mp hcpre]
          exact take_pre_take (by omega)
        have hck2 : current ++ [nib] <+: k := hcur1.trans hck
        have hgk2 : k.get? current.length = some nib := by
          rw [get?_of_pre hck2 (by simp)]
          exact get_snoc current nib
        exact absurd hgk2
          (ctx.hunset k hk ((List.prefix_append current [nib]).trans hck2))
  · intro h
    exact Or.inl h

end BranchCtx

namespace BranchCtx

variable {keys : List (List Nat)} {p current : List Nat} {nib : Nat}

theorem case_other_b (ctx : BranchCtx keys p current nib) (q : List Nat)
    (h1 : q ≠ current ++ [nib]) (h2 : q ≠ current) :
    canonNodes (p :: keys) q = canonNodes keys q := by
  have hne : (p :: keys) ≠ ([] : List (List Nat)) := by simp
  have hclp := ctx.cur_lt_p
  by_cases hqp : q <+: p
  · have hq_take : q = p.take q.length := List.prefix_iff_eq_take.mp hqp
    rcases Nat.lt_trichotomy q.length current.length with hql | hql | hql
    · -- q is a strict prefix of the cursor
      have hqc : q <+: current :=
        List.prefix_of_prefix_length_le hqp ctx.hcp (le_of_lt hql)
      have hbq := ctx.nodiv_b q hqp h2
      have hdl_ne : q.dropLast ≠ current := by
        intro he
        have hlen := congrArg List.length he
        rw [List.length_dropLast] at hlen
        omega
      have hbdl := ctx.nodiv_b q.dropLast ((dropLastPre q).trans hqp) hdl_ne
      obtain ⟨k1, hk1, k2, hk2, x, y, hg1, hg2, hxy⟩ :=
        lcp_diverge ctx.hS2 ctx.S_pf_b
      rw [ctx.hlcp] at hg1 hg2
      have hck1 : current <+: k1 := (mem_filter_pre.mp hk1).2
      have hck2 : current <+: k2 := (mem_filter_pre.mp hk2).2
      have hm1 : k1 ∈ keys := (mem_filter_pre.mp hk1).1
      have hm2 : k2 ∈ keys := (mem_filter_pre.mp hk2).1
      have hk1q : q <+: k1 := hqc.trans hck1
      have hk2q : q <+: k2 := hqc.trans hck2
      have hk12 : k1 ≠ k2 := by
        intro he
        rw [he, hg2] at hg1
        have hyx : y = x := by simpa using hg1
        exact hxy hyx.symm
      have hnpos_eq : nodePosB (p :: keys) q = nodePosB keys q := by
        apply bool_eq_of_iff
        rw [nodePos_iff, nodePos_iff, hbq, hbdl]
        constructor
        · rintro ⟨_, hd⟩
          exact ⟨⟨k1, hm1, hk1q⟩, hd⟩
        · rintro ⟨_, hd⟩
          exact ⟨⟨k1, List.mem_cons_of_mem _ hm1, hk1q⟩, hd⟩
      by_cases hnp : nodePosB keys q = true
      · rw [canon_nodePos_some hne (by rw [hnpos_eq]; exact hnp),
          canon_nodePos_some ctx.hkeys hnp, filter_cons_pre hqp]
        refine congrArg some (canonNodeOf_cons_eq ?_ ?_ ?_)
        · exact two_mem_le_length (mem_filter_pre.mpr ⟨hm1, hk1q⟩)
            (mem_filter_pre.mpr ⟨hm2, hk2q⟩) hk12
        · have hq1 : k1 ∈ keys.filter (fun k => isPre q k) :=
            mem_filter_pre.mpr ⟨hm1, hk1q⟩
          have hq2 : k2 ∈ keys.filter (fun k => isPre q k) :=
            mem_filter_pre.mpr ⟨hm2, hk2q⟩
          have hlcp1 := lcpList_pre k1 hq1
          have hlcp2 := lcpList_pre k2 hq2
          have hlen_le : (lcpList (keys.filter (fun k => isPre q k))).length ≤
              current.length := by
            by_contra hlt
            push_neg at hlt
            have e1 : k1.get? current.length =
                (lcpList (keys.filter (fun k => isPre q k))).get? current.length :=
              get?_of_pre hlcp1 hlt
            have e2 : k2.get? current.length =
                (lcpList (keys.filter (fun k => isPre q k))).get? current.length :=
              get?_of_pre hlcp2 hlt
            rw [hg1] at e1
            rw [hg2] at e2
            rw [← e1] at e2
            have hyx : y = x := by simpa using e2
            exact hxy hyx.symm
          have hlcp_c : lcpList (keys.filter (fun k => isPre q k)) <+: current :=
            List.prefix_of_prefix_length_le hlcp1 hck1 hlen_le
          exact hlcp_c.trans ctx.hcp
        · intro i hg
          obtain ⟨k', hk', hk'pre⟩ := ctx.hInv q.length (by omega)
          refine ⟨k', mem_filter_pre.mpr
            ⟨hk', (take_pre_of_pre hqp (Nat.le_succ _)).trans hk'pre⟩, ?_⟩
          rw [get?_of_pre hk'pre
            (by rw [length_take_of_le (by omega)]; omega)]
          rw [List.get?_take (Nat.lt_succ_self _)]
          exact hg
      · rw [canon_not_nodePos hne (by rw [hnpos_eq]; exact hnp),
          canon_not_nodePos ctx.hkeys hnp]
    · -- same length as the cursor: q = current, excluded
      exact absurd (by rw [hq_take, hql, ← List.prefix_iff_eq_take.mp ctx.hcp]) h2
    · -- strictly below the new leaf: no node on either side
      have hq_nil : q ≠ [] := by
        intro h
        rw [h] at hql
        simp at hql
      have hqlen : q.length ≤ p.length := hqp.length_le
      have hcur1_q : current ++ [nib] <+: q := by
        rw [ctx.cur1_eq, hq_take]
        exact take_pre_take (by omega)
      have hq_len2 : current.length + 2 ≤ q.length := by
        by_contra hlt
        push_neg at hlt
        apply h1
        have : q.length = current.length + 1 := by omega
        rw [hq_take, this, ← ctx.cur1_eq]
      have hnok : ∀ k ∈ keys, ¬ q <+: k := by
        intro k hk hqk
        have hck2 : current ++ [nib] <+: k := hcur1_q.trans hqk
        have hgk2 : k.get? current.length = some nib := by
          rw [get?_of_pre hck2 (by simp)]
          exact get_snoc current nib
        exact ctx.hunset k hk ((List.prefix_append current [nib]).trans hck2) hgk2
      have hdl_pre : q.dropLast <+: p := (dropLastPre q).trans hqp
      have hdl_eq : q.dropLast = p.take (q.length - 1) := by
        have he1 : q.dropLast = (p.take ((q.length - 1) + 1)).dropLast := by
          rw [show (q.length - 1) + 1 = q.length by omega, ← hq_take]
        rw [he1, dropLast_take (by omega)]
      have hnok_dl : ∀ k ∈ keys, ¬ q.dropLast <+: k := by
        intro k hk hqk
        have hcur1_dl : current ++ [nib] <+: q.dropLast := by
          rw [ctx.cur1_eq, hdl_eq]
          exact take_pre_take (by omega)
        have hck2 : current ++ [nib] <+: k := hcur1_dl.trans hqk
        have hgk2 : k.get? current.length = some nib := by
          rw [get?_of_pre hck2 (by simp)]
          exact get_snoc current nib
        exact ctx.hunset k hk ((List.prefix_append current [nib]).trans hck2) hgk2
      have hdl_ne : q.dropLast ≠ current := by
        intro he
        have hlen := congrArg List.length he
        rw [List.length_dropLast] at hlen
        omega
      have hnpos_old : ¬ nodePosB keys q = true := by
        intro h
        obtain ⟨⟨k, hk, hqk⟩, _⟩ := nodePos_iff.mp h
        exact hnok k hk hqk
      have hnpos_new : ¬ nodePosB (p :: keys) q = true := by
        intro h
        rcases (nodePos_iff.mp h).2 with h' | h' | h'
        · exact hq_nil h'
        · rw [ctx.nodiv_b q hqp h2, branchPos_false_of_no_keys hnok] at h'
          exact absurd h' (by simp)
        · rw [ctx.nodiv_b q.dropLast hdl_pre hdl_ne,
            branchPos_false_of_no_keys hnok_dl] at h'
          exact absurd h' (by simp)
      rw [canon_not_nodePos hne hnpos_new, canon_not_nodePos ctx.hkeys hnpos_old]
  · -- q is not a prefix of p
    by_cases hdl : q.dropLast <+: p
    · by_cases hdlc : q.dropLast = current
      · refine canon_cons_eq_of_same ctx.hkeys hqp ?_
        rw [hdlc]
        rw [branchPos_mono ctx.div_cur, ctx.div_cur]
      · exact canon_cons_eq_of_same ctx.hkeys hqp (ctx.nodiv_b q.dropLast hdl hdlc)
    · exact canon_cons_eq_of_same ctx.hkeys hqp (branchPos_cons_not_pre hdl)

theorem cur1_ne_cur (ctx : BranchCtx keys p current nib) :
    current ++ [nib] ≠ current := by
  intro h
  have := congrArg List.length h
  simp at this

/-- The canonical node table after inserting a fresh key that takes an
unset child slot of a canonical branch: exactly the two node-table writes
of the branch case of `update_leaf`. -/
theorem canon_insert_branch (ctx : BranchCtx keys p current nib) :
    canonNodes (p :: keys) =
      mset (mset (canonNodes keys)
        current (.branch
          (maskOfS (keys.filter (fun k => isPre current k)) current ||| (1 <<< nib))
          none))
        (current ++ [nib]) (SparseNode.new_leaf (p.drop (current.length + 1))) := by
  funext q
  by_cases hq1 : q = current ++ [nib]
  · subst hq1
    rw [mset_self]
    exact ctx.case_cur1
  · rw [mset_ne _ _ hq1]
    by_cases hq2 : q = current
    · subst hq2
      rw [mset_self]
      exact ctx.case_cur
    · rw [mset_ne _ _ hq2]
      exact ctx.case_other_b q hq1 hq2

end BranchCtx

/-! ### Forward computation of the walk steps, and the canonical master -/

theorem updateStep_of_leaf {path : List Nat} {nodes : NodeMap}
    {current ckey : List Nat} {hh : Option B256} {a b : Nat}
    (hn : nodes current = some (.leaf ckey hh))
    (hne : current ++ ckey ≠ path)
    (ha : (current ++ ckey).get? (cpl (current ++ ckey) path) = some a)
    (hb : path.get? (cpl (current ++ ckey) path) = some b) :
    updateStep path nodes current = .stop
      (mset (mset (mset (mset nodes current
        (SparseNode.new_ext (nslice (current ++ ckey)
          ((current ++ ckey).length - ckey.length) (cpl (current ++ ckey) path))))
        ((current ++ ckey).take (cpl (current ++ ckey) path))
        (SparseNode.new_split_branch a b))
        (path.take (cpl (current ++ ckey) path + 1))
        (SparseNode.new_leaf (path.drop (cpl (current ++ ckey) path + 1))))
        ((current ++ ckey).take (cpl (current ++ ckey) path + 1))
        (SparseNode.new_leaf ((current ++ ckey).drop (cpl (current ++ ckey) path + 1)))) := by
  unfold updateStep
  rw [hn]
  dsimp only
  rw [if_neg hne, ha, hb]

theorem updateStep_of_ext_cont {path : List Nat} {nodes : NodeMap}
    {current key : List Nat} {hh : Option B256}
    (hn : nodes current = some (.ext key hh))
    (hpre : isPre (current ++ key) path = true) :
    updateStep path nodes current = .cont (current ++ key) nodes := by
  unfold updateStep
  rw [hn]
  dsimp only
  rw [if_pos hpre]

theorem updateStep_of_ext_split {path : List Nat} {nodes : NodeMap}
    {current key : List Nat} {hh : Option B256} {a b : Nat}
    (hn : nodes current = some (.ext key hh))
    (hpre : ¬ isPre (current ++ key) path = true)
    (ha : (current ++ key).get? (cpl (current ++ key) path) = some a)
    (hb : path.get? (cpl (current ++ key) path) = some b) :
    updateStep path nodes current = .stop
      (if (current ++ key).drop (cpl (current ++ key) path + 1) = [] then
        mset (mset (mset nodes current
          (.ext (nslice (current ++ key)
            ((current ++ key).length - key.length) (cpl (current ++ key) path)) hh))
          ((current ++ key).take (cpl (current ++ key) path))
          (SparseNode.new_split_branch a b))
          (path.take (cpl (current ++ key) path + 1))
          (SparseNode.new_leaf (path.drop (cpl (current ++ key) path + 1)))
      else
        mset (mset (mset (mset nodes current
          (.ext (nslice (current ++ key)
            ((current ++ key).length - key.length) (cpl (current ++ key) path)) hh))
          ((current ++ key).take (cpl (current ++ key) path))
          (SparseNode.new_split_branch a b))
          (path.take (cpl (current ++ key) path + 1))
          (SparseNode.new_leaf (path.drop (cpl (current ++ key) path + 1))))
          ((current ++ key).take (cpl (current ++ key) path + 1))
          (SparseNode.new_ext ((current ++ key).drop (cpl (current ++ key) path + 1)))) := by
  unfold updateStep
  rw [hn]
  dsimp only
  rw [if_neg hpre, ha, hb]

theorem updateStep_of_branch_cont {path : List Nat} {nodes : NodeMap}
    {current : List Nat} {mask : Nat} {hh : Option B256} {nib : Nat}
    (hn : nodes current = some (.branch mask hh))
    (hg : path.get? current.length = some nib)
    (hbit : mask.testBit nib = true) :
    updateStep path nodes current = .cont (current ++ [nib]) nodes := by
  unfold updateStep
  rw [hn]
  dsimp only
  rw [hg]
  dsimp only
  rw [if_pos hbit]

theorem updateStep_of_branch_set {path : List Nat} {nodes : NodeMap}
    {current : List Nat} {mask : Nat} {hh : Option B256} {nib : Nat}
    (hn : nodes current = some (.branch mask hh))
    (hg : path.get? current.length = some nib)
    (hbit : ¬ mask.testBit nib = true) :
    updateStep path nodes current = .stop
      (mset (mset nodes current (.branch (mask ||| (1 <<< nib)) hh))
        (current ++ [nib])
        (SparseNode.new_leaf (path.drop (current ++ [nib]).length))) := by
  unfold updateStep
  rw [hn]
  dsimp only
  rw [hg]
  dsimp only
  rw [if_neg hbit]

theorem updateWalk_succ_stop {path : List Nat} {n : Nat} {nodes N : NodeMap}
    {current : List Nat}
    (h : updateStep path nodes current = .stop N) :
    updateWalk path (n + 1) nodes current = some (.okW N) := by
  unfold updateWalk
  rw [h]

theorem updateWalk_succ_cont {path : List Nat} {n : Nat} {nodes nn : NodeMap}
    {current c' : List Nat}
    (h : updateStep path nodes current = .cont c' nn) :
    updateWalk path (n + 1) nodes current = updateWalk path n nn c' := by
  conv_lhs => unfold updateWalk
  rw [h]

theorem append_drop_of_pre {c l : List Nat} (h : c <+: l) :
    c ++ l.drop c.length = l := by
  conv_rhs => rw [← List.take_append_drop c.length l]
  rw [← List.prefix_iff_eq_take.mp h]

theorem cpl_lt_left_of_not_pre {x y : List Nat} (h : ¬ x <+: y) :
    cpl x y < x.length := by
  rcases lt_or_eq_of_le (cpl_le_left x y) with hlt | heq
  · exact hlt
  · exact absurd (pre_of_cpl_eq_length heq) h

theorem get?_isSome_of_lt {l : List Nat} {i : Nat} (h : i < l.length) :
    ∃ x, l.get? i = some x := by
  rw [List.get?_eq_getElem?]
  exact ⟨l.get ⟨i, h⟩, List.getElem?_eq_getElem h⟩

/-- Shape of the canonical node at a node position: a leaf over a single
remaining key, a branch at the common-prefix point, or an extension towards
a longer common prefix. -/
theorem canon_node_shape {keys : List (List Nat)} {current : List Nat}
    (hkeys : keys ≠ []) (hpos : nodePosB keys current = true) :
    (∃ k0, keys.filter (fun k => isPre current k) = [k0] ∧
      canonNodes keys current = some (.leaf (k0.drop current.length) none)) ∨
    (2 ≤ (keys.filter (fun k => isPre current k)).length ∧
      lcpList (keys.filter (fun k => isPre current k)) = current ∧
      canonNodes keys current =
        some (.branch (maskOfS (keys.filter (fun k => isPre current k)) current) none)) ∨
    (2 ≤ (keys.filter (fun k => isPre current k)).length ∧
      current <+: lcpList (keys.filter (fun k => isPre current k)) ∧
      current.length < (lcpList (keys.filter (fun k => isPre current k))).length ∧
      canonNodes keys current =
        some (.ext ((lcpList (keys.filter (fun k => isPre current k))).drop
          current.length) none)) := by
  have hnode := canon_nodePos_some hkeys hpos
  have hSne : keys.filter (fun k => isPre current k) ≠ [] := by
    rw [filter_ne_nil_pre]
    exact (nodePos_iff.mp hpos).1
  have hc_pre : current <+: lcpList (keys.filter (fun k => isPre current k)) :=
    lcpList_filter_pre hSne
  rcases hl : keys.filter (fun k => isPre current k) with _ | ⟨k0, _ | ⟨k1, rest⟩⟩
  · exact absurd hl hSne
  · refine Or.inl ⟨k0, rfl, ?_⟩
    rw [hnode, hl]
    rfl
  · have h2 : 2 ≤ (k0 :: k1 :: rest : List (List Nat)).length := by simp
    rw [hl] at hc_pre
    by_cases hlen : (lcpList (k0 :: k1 :: rest)).length = current.length
    · refine Or.inr (Or.inl ⟨h2, ?_, ?_⟩)
      · exact (hc_pre.eq_of_length hlen.symm).symm
      · rw [hnode, hl, canonNodeOf_two (by simp), if_pos hlen]
        rfl
    · refine Or.inr (Or.inr ⟨h2, hc_pre, ?_, ?_⟩)
      · have := hc_pre.length_le
        omega
      · rw [hnode, hl, canonNodeOf_two (by simp), if_neg hlen]
        rfl

theorem branchPos_lcp_filter {keys : List (List Nat)} {current : List Nat}
    (hpf : PrefFree keys)
    (hS2 : 2 ≤ (keys.filter (fun k => isPre current k)).length) :
    branchPosB keys (lcpList (keys.filter (fun k => isPre current k))) = true := by
  obtain ⟨k1, hk1, k2, hk2, x, y, hg1, hg2, hxy⟩ :=
    lcp_diverge hS2 (hpf.filter_sub _)
  exact branchPos_iff.mpr ⟨k1, (mem_filter_pre.mp hk1).1, k2,
    (mem_filter_pre.mp hk2).1, lcpList_pre k1 hk1, lcpList_pre k2 hk2,
    x, y, hg1, hg2, hxy⟩

/-- The `update_leaf` walk on the canonical node table of a nonempty,
prefix-free key set, inserting a fresh prefix-free key, terminates
successfully with the canonical node table of the enlarged key set. -/
theorem updateWalk_canonical {keys : List (List Nat)} {p : List Nat}
    (hpf : PrefFree keys) (hnib : NibAll keys) (hnp : NibList p)
    (hfresh : FreshKey keys p) (hkeys : keys ≠ []) :
    ∀ fuel current, current <+: p → nodePosB keys current = true →
      (∀ j, j < current.length → ∃ k ∈ keys, p.take (j + 1) <+: k) →
      p.length + 2 - current.length ≤ fuel →
      updateWalk p fuel (canonNodes keys) current =
        some (.okW (canonNodes (p :: keys))) := by
  intro fuel
  induction fuel with
  | zero =>
    intro current hcp hpos hInv hfuel
    have := hcp.length_le
    omega
  | succ n ih =>
    intro current hcp hpos hInv hfuel
    have hclp : current.length ≤ p.length := hcp.length_le
    have hcur_ne_p : current ≠ p := by
      intro he
      obtain ⟨⟨k, hk, hck⟩, _⟩ := nodePos_iff.mp hpos
      exact (hfresh k hk).2 (he ▸ hck)
    have hclt : current.length < p.length := by
      rcases lt_or_eq_of_le hclp with h | h
      · exact h
      · exact absurd (hcp.eq_of_length h) hcur_ne_p
    rcases canon_node_shape hkeys hpos with
      ⟨k0, hfil, hnode⟩ | ⟨hS2, hlcp, hnode⟩ | ⟨hS2, hce, hlce, hnode⟩
    · -- the walk hits the leaf of the single remaining key: leaf split
      have hk0mem : k0 ∈ keys.filter (fun k => isPre current k) := by
        rw [hfil]
        exact List.mem_cons_self _ _
      have hk0m : k0 ∈ keys := (mem_filter_pre.mp hk0mem).1
      have hck0 : current <+: k0 := (mem_filter_pre.mp hk0mem).2
      have hcur' : current ++ k0.drop current.length = k0 := append_drop_of_pre hck0
      have hk0_ne_p : k0 ≠ p := by
        intro he
        exact (hfresh k0 hk0m).1 (he ▸ List.prefix_refl k0)
      have hd_k0 : cpl k0 p < k0.length :=
        cpl_lt_left_of_not_pre (fun hc => (hfresh k0 hk0m).1 hc)
      have hd_p : cpl k0 p < p.length := by
        rw [cpl_comm]
        exact cpl_lt_left_of_not_pre (fun hc => (hfresh k0 hk0m).2 hc)
      obtain ⟨a, ha⟩ := get?_isSome_of_lt hd_k0
      obtain ⟨b, hb⟩ := get?_isSome_of_lt hd_p
      have ctx : LeafCtx keys p current k0 a b :=
        ⟨hpf, hnib, hnp, hfresh, hkeys, hfil, hcp, hpos, hInv, ha, hb⟩
      have hne : current ++ k0.drop current.length ≠ p := by
        rw [hcur']
        exact hk0_ne_p
      have ha2 : (current ++ k0.drop current.length).get?
          (cpl (current ++ k0.drop current.length) p) = some a := by
        rw [hcur']
        exact ha
      have hb2 : p.get? (cpl (current ++ k0.drop current.length) p) = some b := by
        rw [hcur']
        exact hb
      have hstep := updateStep_of_leaf hnode hne ha2 hb2
      rw [hcur'] at hstep
      have hsl : k0.length - (k0.drop current.length).length = current.length := by
        rw [List.length_drop]
        have := hck0.length_le
        omega
      rw [hsl] at hstep
      unfold nslice at hstep
      rw [updateWalk_succ_stop hstep, ctx.canon_insert_leaf]
    · -- the walk is at a canonical branch
      obtain ⟨nib, hg⟩ := get?_isSome_of_lt hclt
      by_cases hbit : (maskOfS (keys.filter (fun k => isPre current k))
          current).testBit nib = true
      · -- child bit set: descend
        obtain ⟨hnib16, k, hkfil, hgk⟩ := maskOfS_testBit_iff.mp hbit
        have hkm : k ∈ keys := (mem_filter_pre.mp hkfil).1
        have hckk : current <+: k := (mem_filter_pre.mp hkfil).2
        have hstep := updateStep_of_branch_cont hnode hg hbit
        rw [updateWalk_succ_cont hstep]
        have hcur1p : current ++ [nib] <+: p := pre_get_snoc hcp hg
        have hcur1k : current ++ [nib] <+: k := pre_get_snoc hckk hgk
        have hcur1_take : p.take (current.length + 1) = current ++ [nib] := by
          rw [take_succ_get hg, ← List.prefix_iff_eq_take.mp hcp]
        refine ih (current ++ [nib]) hcur1p ?_ ?_ (by simp; omega)
        · rw [nodePos_iff]
          refine ⟨⟨k, hkm, hcur1k⟩, Or.inr (Or.inr ?_)⟩
          rw [List.dropLast_concat]
          rw [← hlcp]
          exact branchPos_lcp_filter hpf hS2
        · intro j hj
          rw [List.length_append, List.length_singleton] at hj
          rcases Nat.lt_or_ge j current.length with hjc | hjc
          · exact hInv j hjc
          · have hje : j = current.length := by omega
            subst hje
            rw [hcur1_take]
            exact ⟨k, hkm, hcur1k⟩
      · -- child bit unset: install the leaf under the branch
        have hunset : ∀ k ∈ keys, current <+: k →
            k.get? current.length ≠ some nib := by
          intro k hk hck hgk
          apply hbit
          rw [maskOfS_testBit_iff]
          exact ⟨hnp nib (List.get?_mem hg), k, mem_filter_pre.mpr ⟨hk, hck⟩, hgk⟩
        have ctx : BranchCtx keys p current nib :=
          ⟨hpf, hnib, hnp, hfresh, hkeys, hcp, hpos, hInv, hS2, hlcp, hg, hunset⟩
        have hstep := updateStep_of_branch_set hnode hg hbit
        have hlen1 : (current ++ [nib]).length = current.length + 1 := by simp
        rw [hlen1] at hstep
        rw [updateWalk_succ_stop hstep, ctx.canon_insert_branch]
    · -- the walk is at a canonical extension
      set E := lcpList (keys.filter (fun k => isPre current k)) with hEdef
      have hcurE : current ++ E.drop current.length = E := append_drop_of_pre hce
      have hSne : keys.filter (fun k => isPre current k) ≠ [] := by
        intro h
        rw [h] at hS2
        simp at hS2
      obtain ⟨kS, hkSfil⟩ : ∃ kS, kS ∈ keys.filter (fun k => isPre current k) :=
        List.exists_mem_of_ne_nil _ hSne
      have hkSm : kS ∈ keys := (mem_filter_pre.mp hkSfil).1
      have hEkS : E <+: kS := lcpList_pre kS hkSfil
      by_cases hpre : isPre (current ++ E.drop current.length) p = true
      · -- the extension target is on the way to the path: descend
        have hstep := updateStep_of_ext_cont hnode hpre
        rw [hcurE] at hstep
        rw [updateWalk_succ_cont hstep]
        have hEp : E <+: p := by
          rw [← hcurE]
          exact isPre_iff.mp hpre
        have hE_take : E = p.take E.length := List.prefix_iff_eq_take.mp hEp
        refine ih E hEp ?_ ?_ (by omega)
        · rw [nodePos_iff]
          exact ⟨⟨kS, hkSm, hEkS⟩, Or.inr (Or.inl (branchPos_lcp_filter hpf hS2))⟩
        · intro j hj
          refine ⟨kS, hkSm, ?_⟩
          have hpj : p.take (j + 1) = E.take (j + 1) := by
            rw [hE_take, List.take_take, min_eq_left (by omega)]
          rw [hpj]
          exact (takePre _ E).trans hEkS
      · -- the extension target diverges from the path: extension split
        have hnpre : ¬ E <+: p := by
          intro hc
          apply hpre
          rw [hcurE]
          exact isPre_iff.mpr hc
        have hd_E : cpl E p < E.length := cpl_lt_left_of_not_pre hnpre
        have hd_p : cpl E p < p.length := by
          rw [cpl_comm]
          refine cpl_lt_left_of_not_pre ?_
          intro hc
          exact (hfresh kS hkSm).2 (hc.trans hEkS)
        obtain ⟨a, ha⟩ := get?_isSome_of_lt hd_E
        obtain ⟨b, hb⟩ := get?_isSome_of_lt hd_p
        have ctx : ExtCtx keys p current E a b :=
          ⟨hpf, hnib, hnp, hfresh, hkeys, hcp, hpos, hInv, hce, hlce,
            hEdef.symm, hS2, hnpre, ha, hb⟩
        have ha2 : (current ++ E.drop current.length).get?
            (cpl (current ++ E.drop current.length) p) = some a := by
          rw [hcurE]
          exact ha
        have hb2 : p.get? (cpl (current ++ E.drop current.length) p) = some b := by
          rw [hcurE]
          exact hb
        have hstep := updateStep_of_ext_split hnode hpre ha2 hb2
        rw [hcurE] at hstep
        have hsl : E.length - (E.drop current.length).length = current.length := by
          rw [List.length_drop]
          omega
        rw [hsl] at hstep
        unfold nslice at hstep
        by_cases hk2 : E.drop (cpl E p + 1) = []
        · rw [if_pos hk2] at hstep
          rw [updateWalk_succ_stop hstep, ctx.canon_insert_ext_short hk2]
        · rw [if_neg hk2] at hstep
          rw [updateWalk_succ_stop hstep, ctx.canon_insert_ext_long hk2]

theorem branchPos_single {k0 c : List Nat} : branchPosB [k0] c = false := by
  apply branchPos_false_of_same
  intro k1 h1 k2 h2 _ _
  simp at h1 h2
  subst h1
  subst h2
  rfl

/-- Installing the first key into the empty canonical trie: the single
node-table write of the `Empty` case of `update_leaf`. -/
theorem canon_insert_empty (p : List Nat) :
    mset (canonNodes []) [] (SparseNode.new_leaf p) = canonNodes [p] := by
  funext q
  by_cases hq : q = []
  · subst hq
    rw [mset_self]
    have hpos : nodePosB [p] [] = true :=
      nodePos_iff.mpr ⟨⟨p, List.mem_cons_self _ _, nilPre p⟩, Or.inl rfl⟩
    rw [canon_nodePos_some (by simp) hpos, filter_cons_pre (nilPre p)]
    show some (SparseNode.new_leaf p) = some (canonNodeOf [p] [])
    unfold canonNodeOf
    dsimp only
    rw [List.length_nil, List.drop_zero]
  · rw [mset_ne _ _ hq]
    have hl : canonNodes [] q = none := by
      unfold canonNodes
      rw [if_pos (by simp), if_neg (by simpa using hq)]
    have hr : canonNodes [p] q = none := by
      apply canon_not_nodePos (by simp)
      intro hpos
      rcases (nodePos_iff.mp hpos).2 with h | h | h
      · exact hq h
      · rw [branchPos_single] at h
        exact absurd h (by simp)
      · rw [branchPos_single] at h
        exact absurd h (by simp)
    rw [hl, hr]

theorem updateStep_of_empty {path : List Nat} {nodes : NodeMap}
    {current : List Nat} (hn : nodes current = some .empty) :
    updateStep path nodes current =
      .stop (mset nodes current (SparseNode.new_leaf path)) := by
  unfold updateStep
  rw [hn]

/-- The `update_leaf` walk from the root of the canonical node table:
inserting a fresh prefix-free key always succeeds and produces the
canonical node table of the enlarged key set. -/
theorem updateWalk_canonical_root {keys : List (List Nat)} {p : List Nat}
    (hpf : PrefFree keys) (hnib : NibAll keys) (hnp : NibList p)
    (hfresh : FreshKey keys p) {fuel : Nat} (hfuel : p.length + 2 ≤ fuel) :
    updateWalk p fuel (canonNodes keys) [] =
      some (.okW (canonNodes (p :: keys))) := by
  by_cases hkeys : keys = []
  · subst hkeys
    obtain ⟨n, rfl⟩ : ∃ n, fuel = n + 1 := ⟨fuel - 1, by omega⟩
    have hroot : canonNodes [] [] = some .empty := by
      unfold canonNodes
      rw [if_pos (by simp), if_pos (by simp)]
    rw [updateWalk_succ_stop (updateStep_of_empty hroot), canon_insert_empty]
  · have hpos : nodePosB keys [] = true := by
      obtain ⟨k, hk⟩ := List.exists_mem_of_ne_nil _ hkeys
      exact nodePos_iff.mpr ⟨⟨k, hk, nilPre k⟩, Or.inl rfl⟩
    exact updateWalk_canonical hpf hnib hnp hfresh hkeys fuel [] (nilPre p)
      hpos (by intro j hj; simp at hj) (by simp; omega)

/-- `update_leaf` on a canonical trie with a fresh prefix-free key: returns
`Ok` and replaces the node table by the canonical table of the enlarged key
set; the value table and prefix set receive their unconditional updates. -/
theorem update_leaf_canonical {keys : List (List Nat)} {p v : List Nat}
    {vals : ValMap} {ps : List (List Nat)}
    (hpf : PrefFree keys) (hnib : NibAll keys) (hnp : NibList p)
    (hfresh : FreshKey keys p) (hvals : vals p = none)
    {fuel : Nat} (hfuel : p.length + 2 ≤ fuel) :
    update_leaf ⟨canonNodes keys, vals, ps⟩ p v fuel =
      some (.ok, ⟨canonNodes (p :: keys), mset vals p v, ps ++ [p]⟩) := by
  unfold update_leaf
  dsimp only
  rw [hvals]
  rw [if_neg (by simp)]
  rw [updateWalk_canonical_root hpf hnib hnp hfresh hfuel]

theorem updateWalk_succ_crash {path : List Nat} {n : Nat} {nodes N : NodeMap}
    {current : List Nat}
    (h : updateStep path nodes current = .crash N) :
    updateWalk path (n + 1) nodes current = some (.crashW N) := by
  unfold updateWalk
  rw [h]

theorem updateStep_leaf_crash1 {path : List Nat} {nodes : NodeMap}
    {current ckey : List Nat} {hh : Option B256}
    (hn : nodes current = some (.leaf ckey hh))
    (hne : current ++ ckey ≠ path)
    (h1 : (current ++ ckey).get? (cpl (current ++ ckey) path) = none) :
    ∃ N, updateStep path nodes current = .crash N := by
  unfold updateStep
  rw [hn]
  dsimp only
  rw [if_neg hne, h1]
  rcases hb : path.get? (cpl (current ++ ckey) path) with _ | b
  · exact ⟨_, rfl⟩
  · exact ⟨_, rfl⟩

theorem updateStep_leaf_crash2 {path : List Nat} {nodes : NodeMap}
    {current ckey : List Nat} {hh : Option B256}
    (hn : nodes current = some (.leaf ckey hh))
    (hne : current ++ ckey ≠ path)
    (h2 : path.get? (cpl (current ++ ckey) path) = none) :
    ∃ N, updateStep path nodes current = .crash N := by
  unfold updateStep
  rw [hn]
  dsimp only
  rw [if_neg hne, h2]
  rcases ha : (current ++ ckey).get? (cpl (current ++ ckey) path) with _ | a
  · exact ⟨_, rfl⟩
  · exact ⟨_, rfl⟩

theorem updateStep_ext_crash2 {path : List Nat} {nodes : NodeMap}
    {current key : List Nat} {hh : Option B256}
    (hn : nodes current = some (.ext key hh))
    (hpre : ¬ isPre (current ++ key) path = true)
    (h2 : path.get? (cpl (current ++ key) path) = none) :
    ∃ N, updateStep path nodes current = .crash N := by
  unfold updateStep
  rw [hn]
  dsimp only
  rw [if_neg hpre, h2]
  rcases ha : (current ++ key).get? (cpl (current ++ key) path) with _ | a
  · exact ⟨_, rfl⟩
  · exact ⟨_, rfl⟩

theorem updateStep_branch_crash {path : List Nat} {nodes : NodeMap}
    {current : List Nat} {mask : Nat} {hh : Option B256}
    (hn : nodes current = some (.branch mask hh))
    (hg : path.get? current.length = none) :
    ∃ N, updateStep path nodes current = .crash N := by
  unfold updateStep
  rw [hn]
  dsimp only
  rw [hg]
  exact ⟨_, rfl⟩

theorem get?_eq_none_of_le {l : List Nat} {i : Nat} (h : l.length ≤ i) :
    l.get? i = none := by
  rw [List.get?_eq_getElem?, List.getElem?_eq_none_iff]
  exact h

/-- The `update_leaf` walk on a canonical trie crashes (models the
out-of-range nibble indexing panic of the source) whenever the inserted
path is prefix-comparable with, but not equal to, a stored key. -/
theorem updateWalk_conflict {keys : List (List Nat)} {p : List Nat}
    (hpf : PrefFree keys) (hnp : NibList p) (hkeys : keys ≠ [])
    (hpnot : p ∉ keys) :
    ∀ fuel current, current <+: p → nodePosB keys current = true →
      (∃ k ∈ keys, current <+: k ∧ (k <+: p ∨ p <+: k)) →
      p.length + 2 - current.length ≤ fuel →
      ∃ N, updateWalk p fuel (canonNodes keys) current = some (.crashW N) := by
  intro fuel
  induction fuel with
  | zero =>
    intro current hcp hpos hconf hfuel
    have := hcp.length_le
    omega
  | succ n ih =>
    intro current hcp hpos hconf hfuel
    obtain ⟨kc, hkcm, hckc, hkcp⟩ := hconf
    have hkc_ne_p : kc ≠ p := by
      intro he
      exact hpnot (he ▸ hkcm)
    rcases canon_node_shape hkeys hpos with
      ⟨k0, hfil, hnode⟩ | ⟨hS2, hlcp, hnode⟩ | ⟨hS2, hce, hlce, hnode⟩
    · -- leaf of the single remaining key: the conflicting key is that key
      have hk0mem : k0 ∈ keys.filter (fun k => isPre current k) := by
        rw [hfil]
        exact List.mem_cons_self _ _
      have hck0 : current <+: k0 := (mem_filter_pre.mp hk0mem).2
      have hkck0 : kc = k0 := by
        have : kc ∈ keys.filter (fun k => isPre current k) :=
          mem_filter_pre.mpr ⟨hkcm, hckc⟩
        rw [hfil] at this
        simpa using this
      rw [hkck0] at hkc_ne_p hkcp
      have hcur' : current ++ k0.drop current.length = k0 := append_drop_of_pre hck0
      have hne : current ++ k0.drop current.length ≠ p := by
        rw [hcur']
        exact hkc_ne_p
      rcases hkcp with hkp | hpk
      · -- k0 is a proper prefix of p: cur'.get? common runs off the end
        have hcpl : cpl k0 p = k0.length := cpl_eq_length_of_pre hkp
        have h1 : (current ++ k0.drop current.length).get?
            (cpl (current ++ k0.drop current.length) p) = none := by
          rw [hcur', hcpl]
          exact get?_eq_none_of_le (le_refl _)
        obtain ⟨N, hstep⟩ := updateStep_leaf_crash1 hnode hne h1
        exact ⟨N, updateWalk_succ_crash hstep⟩
      · -- p is a proper prefix of k0: path.get? common runs off the end
        have hcpl : cpl k0 p = p.length := by
          rw [cpl_comm]
          exact cpl_eq_length_of_pre hpk
        have h2 : p.get? (cpl (current ++ k0.drop current.length) p) = none := by
          rw [hcur', hcpl]
          exact get?_eq_none_of_le (le_refl _)
        obtain ⟨N, hstep⟩ := updateStep_leaf_crash2 hnode hne h2
        exact ⟨N, updateWalk_succ_crash hstep⟩
    · -- canonical branch
      by_cases hcur_p : current = p
      · -- the path ends at the branch: indexing the path panics
        have hg : p.get? current.length = none := by
          rw [hcur_p]
          exact get?_eq_none_of_le (le_refl _)
        obtain ⟨N, hstep⟩ := updateStep_branch_crash hnode hg
        exact ⟨N, updateWalk_succ_crash hstep⟩
      · have hclt : current.length < p.length := by
          rcases lt_or_eq_of_le hcp.length_le with h | h
          · exact h
          · exact absurd (hcp.eq_of_length h) hcur_p
        obtain ⟨nib, hg⟩ := get?_isSome_of_lt hclt
        have hkc_long : current.length < kc.length := by
          rcases lt_or_eq_of_le hckc.length_le with h | h
          · exact h
          · exfalso
            have hkc_cur : kc = current := (hckc.eq_of_length h).symm
            obtain ⟨k1, hk1, k2, hk2, x, y, hg1, hg2, hxy⟩ :=
              lcp_diverge hS2 (hpf.filter_sub _)
            have hxk1 : kc <+: k1 := hkc_cur ▸ (mem_filter_pre.mp hk1).2
            have hxk2 : kc <+: k2 := hkc_cur ▸ (mem_filter_pre.mp hk2).2
            have hk12 : k1 ≠ k2 := by
              intro he
              rw [he, hg2] at hg1
              have : y = x := by simpa using hg1
              exact hxy this.symm
            have hne1 : kc ≠ k1 ∨ kc ≠ k2 := by
              by_cases h1 : kc = k1
              · subst h1
                exact Or.inr hk12
              · exact Or.inl h1
            rcases hne1 with h1 | h1
            · exact (pairwise_forall_ne hpf kc hkcm k1
                (mem_filter_pre.mp hk1).1 h1).1 hxk1
            · exact (pairwise_forall_ne hpf kc hkcm k2
                (mem_filter_pre.mp hk2).1 h1).1 hxk2
        have hkg : kc.get? current.length = some nib := by
          rcases hkcp with hkp | hpk
          · rw [← get?_of_pre hkp hkc_long]
            exact hg
          · rw [get?_of_pre hpk hclt]
            exact hg
        have hbit : (maskOfS (keys.filter (fun k => isPre current k))
            current).testBit nib = true := by
          rw [maskOfS_testBit_iff]
          exact ⟨hnp nib (List.get?_mem hg), kc,
            mem_filter_pre.mpr ⟨hkcm, hckc⟩, hkg⟩
        have hstep := updateStep_of_branch_cont hnode hg hbit
        rw [updateWalk_succ_cont hstep]
        refine ih (current ++ [nib]) (pre_get_snoc hcp hg) ?_ ?_ (by simp; omega)
        · rw [nodePos_iff]
          refine ⟨⟨kc, hkcm, pre_get_snoc hckc hkg⟩, Or.inr (Or.inr ?_)⟩
          rw [List.dropLast_concat, ← hlcp]
          exact branchPos_lcp_filter hpf hS2
        · exact ⟨kc, hkcm, pre_get_snoc hckc hkg, hkcp⟩
    · -- canonical extension
      set E := lcpList (keys.filter (fun k => isPre current k)) with hEdef
      have hcurE : current ++ E.drop current.length = E := append_drop_of_pre hce
      have hEkc : E <+: kc :=
        lcpList_pre kc (mem_filter_pre.mpr ⟨hkcm, hckc⟩)
      by_cases hpre : isPre (current ++ E.drop current.length) p = true
      · -- descend through the extension
        have hstep := updateStep_of_ext_cont hnode hpre
        rw [hcurE] at hstep
        rw [updateWalk_succ_cont hstep]
        have hEp : E <+: p := by
          rw [← hcurE]
          exact isPre_iff.mp hpre
        refine ih E hEp ?_ ?_ (by omega)
        · rw [nodePos_iff]
          exact ⟨⟨kc, hkcm, hEkc⟩, Or.inr (Or.inl (branchPos_lcp_filter hpf hS2))⟩
        · exact ⟨kc, hkcm, hEkc, hkcp⟩
      · -- the path ends inside the extension edge: indexing the path panics
        have hpE : p <+: E := by
          rcases hkcp with hkp | hpk
          · exact absurd (by rw [hcurE]; exact isPre_iff.mpr (hEkc.trans hkp)) hpre
          · rcases le_or_lt p.length E.length with hle | hlt2
            · exact List.prefix_of_prefix_length_le hpk hEkc hle
            · exact absurd (by
                rw [hcurE]
                exact isPre_iff.mpr
                  (List.prefix_of_prefix_length_le hEkc hpk (le_of_lt hlt2))) hpre
        have hcpl : cpl E p = p.length := by
          rw [cpl_comm]
          exact cpl_eq_length_of_pre hpE
        have h2 : p.get? (cpl (current ++ E.drop current.length) p) = none := by
          rw [hcurE, hcpl]
          exact get?_eq_none_of_le (le_refl _)
        obtain ⟨N, hstep⟩ := updateStep_ext_crash2 hnode hpre h2
        exact ⟨N, updateWalk_succ_crash hstep⟩

theorem updateWalk_mono {path : List Nat} {fuel fuel' : Nat} {nodes : NodeMap}
    {current : List Nat} {r : WalkRes}
    (h : updateWalk path fuel nodes current = some r) (hle : fuel ≤ fuel') :
    updateWalk path fuel' nodes current = some r := by
  induction fuel generalizing fuel' nodes current with
  | zero => simp [updateWalk] at h
  | succ n ih =>
    obtain ⟨m, rfl⟩ : ∃ m, fuel' = m + 1 := ⟨fuel' - 1, by omega⟩
    unfold updateWalk at h ⊢
    cases hstep : updateStep path nodes current with
    | cont c' nn =>
      rw [hstep] at h
      exact ih h (by omega)
    | stop nn =>
      rw [hstep] at h
      exact h
    | fail e nn =>
      rw [hstep] at h
      exact h
    | crash nn =>
      rw [hstep] at h
      exact h

theorem canonNodes_nil_eq : canonNodes [] = revealedEmpty.nodes := by
  funext q
  unfold canonNodes revealedEmpty
  dsimp only
  by_cases hq : q = []
  · subst hq
    rw [if_pos (by simp), if_pos (by simp), mset_self]
  · rw [if_pos (by simp), if_neg (by simpa using hq), mset_ne _ _ hq]
    rfl

/-- Every trie built by successful `update_leaf` calls carries the
canonical node table of a prefix-free nibble key set, and its value table
is supported exactly on that key set. -/
theorem UBuilt_canonical {t : RevealedSparseTrie} (h : UBuilt t) :
    ∃ keys, PrefFree keys ∧ NibAll keys ∧ t.nodes = canonNodes keys ∧
      (∀ q, (t.values q).isSome = true ↔ q ∈ keys) := by
  induction h with
  | base =>
    refine ⟨[], by simp [PrefFree], by simp [NibAll], canonNodes_nil_eq.symm, ?_⟩
    intro q
    simp [revealedEmpty, mempty]
  | step hb hnp hcall ih =>
    rename_i t p v fuel t'
    obtain ⟨keys, hpf, hnib, hnodes, hsupp⟩ := ih
    unfold update_leaf at hcall
    dsimp only at hcall
    by_cases hex : (t.values p).isSome = true
    · rw [if_pos hex] at hcall
      simp only [Option.some.injEq, Prod.mk.injEq] at hcall
      obtain ⟨-, rfl⟩ := hcall
      refine ⟨keys, hpf, hnib, hnodes, ?_⟩
      intro q
      by_cases hq : q = p
      · subst hq
        dsimp only
        rw [mset_self]
        exact ⟨fun _ => (hsupp q).mp hex, fun _ => rfl⟩
      · dsimp only
        rw [mset_ne _ _ hq]
        exact hsupp q
    · rw [if_neg hex] at hcall
      have hpnot : p ∉ keys := fun hc => hex ((hsupp p).mpr hc)
      rw [hnodes] at hcall
      rcases hwalk : updateWalk p fuel (canonNodes keys) [] with _ | res
      · rw [hwalk] at hcall
        exact absurd hcall (by simp)
      · rw [hwalk] at hcall
        cases res with
        | errW e n' =>
          have hcall2 : some ((RunResult.err e : RunResult),
              ({ nodes := n', values := mset t.values p v,
                 prefixSet := t.prefixSet ++ [p] } : RevealedSparseTrie)) =
              some (.ok, t') := hcall
          simp at hcall2
        | crashW n' =>
          have hcall2 : some ((RunResult.crashed : RunResult),
              ({ nodes := n', values := mset t.values p v,
                 prefixSet := t.prefixSet ++ [p] } : RevealedSparseTrie)) =
              some (.ok, t') := hcall
          simp at hcall2
        | okW n' =>
          have hcall2 : some ((RunResult.ok : RunResult),
              ({ nodes := n', values := mset t.values p v,
                 prefixSet := t.prefixSet ++ [p] } : RevealedSparseTrie)) =
              some (.ok, t') := hcall
          simp only [Option.some.injEq, Prod.mk.injEq, true_and] at hcall2
          subst hcall2
          have hfree : FreshKey keys p := by
            by_contra hnf
            unfold FreshKey at hnf
            push_neg at hnf
            obtain ⟨k, hk, hcomp⟩ := hnf
            have hconf : ∃ k ∈ keys, k <+: p ∨ p <+: k := by
              refine ⟨k, hk, ?_⟩
              by_cases h1 : k <+: p
              · exact Or.inl h1
              · exact Or.inr (by tauto)
            have hkeys : keys ≠ [] := by
              intro he
              rw [he] at hk
              simp at hk
            obtain ⟨N, hcrash⟩ := updateWalk_conflict hpf hnp hkeys hpnot
              (max fuel (p.length + 2)) [] (nilPre p)
              (by
                obtain ⟨k2, hk2⟩ := List.exists_mem_of_ne_nil _ hkeys
                exact nodePos_iff.mpr ⟨⟨k2, hk2, nilPre k2⟩, Or.inl rfl⟩)
              (by
                obtain ⟨k2, hk2, hc2⟩ := hconf
                exact ⟨k2, hk2, nilPre k2, hc2⟩)
              (by simp)
            have hok := updateWalk_mono hwalk (Nat.le_max_left fuel (p.length + 2))
            rw [hok] at hcrash
            exact absurd hcrash (by simp)
          have hmaster := updateWalk_canonical_root hpf hnib hnp hfree
            (show p.length + 2 ≤ max fuel (p.length + 2) from Nat.le_max_right _ _)
          have hok := updateWalk_mono hwalk (Nat.le_max_left fuel (p.length + 2))
          rw [hok] at hmaster
          simp only [Option.some.injEq, WalkRes.okW.injEq] at hmaster
          refine ⟨p :: keys, ?_, ?_, by dsimp only; rw [hmaster], ?_⟩
          · rw [PrefFree, List.pairwise_cons]
            exact ⟨fun k hk => ⟨(hfree k hk).2, (hfree k hk).1⟩, hpf⟩
          · intro k hk
            rcases List.mem_cons.mp hk with rfl | hk'
            · exact hnp
            · exact hnib k hk'
          · intro q
            dsimp only
            by_cases hq : q = p
            · subst hq
              rw [mset_self]
              simp
            · rw [mset_ne _ _ hq]
              rw [hsupp q]
              simp [hq]

/-- C10 (amended): on a trie actually built by successful `update_leaf`
calls (so its node table is canonical for its value-table keys), if every
stored key has the same nibble length as the new path, `update_leaf`
returns `Ok`; in particular no walk iteration reaches the out-of-range
nibble indexing (`crash`) of the leaf-split and extension-split cases. -/
theorem update_leaf_equal_lengths_safe {t : RevealedSparseTrie}
    (hb : UBuilt t) {p v : List Nat} {fuel : Nat} (hnp : NibList p)
    (hlen : ∀ q, (t.values q).isSome = true → q.length = p.length)
    (hfuel : p.length + 2 ≤ fuel) :
    ∃ t', update_leaf t p v fuel = some (.ok, t') := by
  obtain ⟨keys, hpf, hnib, hnodes, hsupp⟩ := UBuilt_canonical hb
  by_cases hex : (t.values p).isSome = true
  · refine ⟨⟨t.nodes, mset t.values p v, t.prefixSet ++ [p]⟩, ?_⟩
    unfold update_leaf
    dsimp only
    rw [if_pos hex]
  · have hpnot : p ∉ keys := fun hc => hex ((hsupp p).mpr hc)
    have hfree : FreshKey keys p := by
      intro k hk
      have hkl : k.length = p.length := hlen k ((hsupp k).mpr hk)
      constructor
      · intro hc
        have hkp : k = p := hc.eq_of_length hkl
        exact hpnot (hkp ▸ hk)
      · intro hc
        have hpk : p = k := hc.eq_of_length hkl.symm
        exact hpnot (hpk ▸ hk)
    have hvals : t.values p = none := by
      rcases hv : t.values p with _ | v'
      · rfl
      · rw [hv] at hex
        simp at hex
    have ht : t = ⟨canonNodes keys, t.values, t.prefixSet⟩ := by
      rw [← hnodes]
    rw [ht]
    exact ⟨_, update_leaf_canonical hpf hnib hnp hfree hvals hfuel⟩

/-- Witness for C10 (amended) at a concrete input: inserting `[1, 2]` into
the freshly revealed empty trie returns `Ok`. -/
theorem update_leaf_equal_lengths_safe_witness :
    NibList [1, 2] ∧
      (∀ q, (revealedEmpty.values q).isSome = true →
        q.length = ([1, 2] : List Nat).length) ∧
      ([1, 2] : List Nat).length + 2 ≤ 4 ∧
      (∃ t', update_leaf revealedEmpty [1, 2] [5] 4 = some (.ok, t')) :=
  ⟨by
    intro x hx
    rcases (by simpa using hx : x = 1 ∨ x = 2) with rfl | rfl <;> decide,
   fun q hq => absurd hq (by simp [revealedEmpty, mempty]),
   by decide,
   update_leaf_equal_lengths_safe UBuilt.base
     (by
       intro x hx
       rcases (by simpa using hx : x = 1 ∨ x = 2) with rfl | rfl <;> decide)
     (fun q hq => absurd hq (by simp [revealedEmpty, mempty])) (by decide)⟩

theorem two_mem_le_length_nat {S : List Nat} {a b : Nat}
    (h1 : a ∈ S) (h2 : b ∈ S) (hne : a ≠ b) : 2 ≤ S.length := by
  rcases S with _ | ⟨x, _ | ⟨y, rest⟩⟩
  · simp at h1
  · simp at h1 h2
    exact absurd (h1.trans h2.symm) hne
  · simp

theorem countBits16_two {m : Nat} {x y : Nat} (hx : x < 16) (hy : y < 16)
    (hmx : m.testBit x = true) (hmy : m.testBit y = true) (hxy : x ≠ y) :
    2 ≤ countBits16 m := by
  unfold countBits16
  refine two_mem_le_length_nat ?_ ?_ hxy
  · rw [List.mem_filter]
    exact ⟨by simpa [List.mem_range] using hx, hmx⟩
  · rw [List.mem_filter]
    exact ⟨by simpa [List.mem_range] using hy, hmy⟩

/-- The canonical node table of a nonempty prefix-free nibble key set
satisfies the branch invariant. -/
theorem canon_branchInv {keys : List (List Nat)}
    (hpf : PrefFree keys) (hnib : NibAll keys) :
    BranchInv (canonNodes keys) := by
  intro p mask hh hnode
  by_cases hkeys : keys = []
  · subst hkeys
    unfold canonNodes at hnode
    rw [if_pos (by simp)] at hnode
    split at hnode <;> simp at hnode
  obtain ⟨-, hpos, hS2, hmask, hlcp_len⟩ := canon_branch_inv hkeys hnode
  have hcp_lcp : p <+: lcpList (keys.filter (fun k => isPre p k)) :=
    lcpList_filter_pre (by
      intro h
      rw [h] at hS2
      simp at hS2)
  have hlcp : lcpList (keys.filter (fun k => isPre p k)) = p :=
    (hcp_lcp.eq_of_length hlcp_len.symm).symm
  obtain ⟨k1, hk1, k2, hk2, x, y, hg1, hg2, hxy⟩ :=
    lcp_diverge hS2 (hpf.filter_sub _)
  rw [hlcp] at hg1 hg2
  have hm1 : k1 ∈ keys := (mem_filter_pre.mp hk1).1
  have hm2 : k2 ∈ keys := (mem_filter_pre.mp hk2).1
  have hx16 : x < 16 := hnib k1 hm1 x (List.get?_mem hg1)
  have hy16 : y < 16 := hnib k2 hm2 y (List.get?_mem hg2)
  have hbx : mask.testBit x = true := by
    rw [hmask, maskOfS_testBit_iff]
    exact ⟨hx16, k1, hk1, hg1⟩
  have hby : mask.testBit y = true := by
    rw [hmask, maskOfS_testBit_iff]
    exact ⟨hy16, k2, hk2, hg2⟩
  refine ⟨countBits16_two hx16 hy16 hbx hby hxy, ?_⟩
  intro i hi16 hbit
  rw [hmask, maskOfS_testBit_iff] at hbit
  obtain ⟨-, k, hkfil, hgk⟩ := hbit
  have hkm : k ∈ keys := (mem_filter_pre.mp hkfil).1
  have hck : p <+: k := (mem_filter_pre.mp hkfil).2
  have hchild : p ++ [i] <+: k := pre_get_snoc hck hgk
  have hpos_child : nodePosB keys (p ++ [i]) = true := by
    rw [nodePos_iff]
    refine ⟨⟨k, hkm, hchild⟩, Or.inr (Or.inr ?_)⟩
    rw [List.dropLast_concat, ← hlcp]
    exact branchPos_lcp_filter hpf hS2
  rw [canon_nodePos_some hkeys hpos_child]
  rfl

/-- C6 (amended): the general claim is refuted by
`branch_invariant_counterexample` (reveal of a single-child branch; a
successful `remove_leaf` stranding the set bit of an unreachable branch).
For tries actually built from `revealed_empty()` by successful
`update_leaf` calls, the invariant does hold: every branch in the node
table has a state mask with at least two set bits, and a node exists at
`p ++ [i]` for each set bit `i`. -/
theorem update_built_branch_invariant {t : RevealedSparseTrie}
    (hb : UBuilt t) : BranchInv t.nodes := by
  obtain ⟨keys, hpf, hnib, hnodes, -⟩ := UBuilt_canonical hb
  rw [hnodes]
  exact canon_branchInv hpf hnib

/-- Witness for C6 (amended) at a concrete input: the freshly revealed
empty trie (trivially) satisfies the branch invariant. -/
theorem update_built_branch_invariant_witness :
    BranchInv revealedEmpty.nodes :=
  update_built_branch_invariant UBuilt.base

/-! ### Permutation invariance of the canonical node table -/

theorem lcpList_perm {S S' : List (List Nat)} (h : S.Perm S') (hne : S ≠ []) :
    lcpList S = lcpList S' := by
  have hne' : S' ≠ [] := by
    intro he
    exact hne (List.Perm.eq_nil (he ▸ h))
  apply lcpList_eq hne
  · intro k hk
    exact lcpList_pre k (h.mem_iff.mp hk)
  · intro c hc
    exact pre_lcpList hne' (fun k hk => hc k (h.mem_iff.mpr hk))

theorem maskOfS_perm {S S' : List (List Nat)} (h : S.Perm S') (p : List Nat) :
    maskOfS S p = maskOfS S' p := by
  apply Nat.eq_of_testBit_eq
  intro i
  apply bool_eq_of_iff
  rw [maskOfS_testBit_iff, maskOfS_testBit_iff]
  constructor
  · rintro ⟨hi, k, hk, hg⟩
    exact ⟨hi, k, h.mem_iff.mp hk, hg⟩
  · rintro ⟨hi, k, hk, hg⟩
    exact ⟨hi, k, h.mem_iff.mpr hk, hg⟩

theorem canonNodeOf_perm {S S' : List (List Nat)} (h : S.Perm S') (p : List Nat) :
    canonNodeOf S p = canonNodeOf S' p := by
  rcases S with _ | ⟨k, _ | ⟨k2, rest⟩⟩
  · rw [← List.Perm.nil_eq h]
  · have hS' : S' = [k] := List.Perm.eq_singleton h.symm
    rw [hS']
  · have h2 : 2 ≤ S'.length := by
      rw [← h.length_eq]
      simp
    rw [canonNodeOf_two (by simp), canonNodeOf_two h2,
      lcpList_perm h (by simp), maskOfS_perm h]

theorem branchPos_perm {keys keys' : List (List Nat)} (h : keys.Perm keys')
    (c : List Nat) : branchPosB keys c = branchPosB keys' c := by
  apply bool_eq_of_iff
  rw [branchPos_iff, branchPos_iff]
  constructor
  · rintro ⟨k1, h1, k2, h2, rest⟩
    exact ⟨k1, h.mem_iff.mp h1, k2, h.mem_iff.mp h2, rest⟩
  · rintro ⟨k1, h1, k2, h2, rest⟩
    exact ⟨k1, h.mem_iff.mpr h1, k2, h.mem_iff.mpr h2, rest⟩

theorem nodePos_perm {keys keys' : List (List Nat)} (h : keys.Perm keys')
    (p : List Nat) : nodePosB keys p = nodePosB keys' p := by
  apply bool_eq_of_iff
  rw [nodePos_iff, nodePos_iff, branchPos_perm h, branchPos_perm h]
  constructor
  · rintro ⟨⟨k, hk, hpk⟩, hd⟩
    exact ⟨⟨k, h.mem_iff.mp hk, hpk⟩, hd⟩
  · rintro ⟨⟨k, hk, hpk⟩, hd⟩
    exact ⟨⟨k, h.mem_iff.mpr hk, hpk⟩, hd⟩

/-- The canonical node table only depends on the key set, not on the order
in which the keys are listed. -/
theorem canonNodes_perm {keys keys' : List (List Nat)} (h : keys.Perm keys') :
    canonNodes keys = canonNodes keys' := by
  funext q
  unfold canonNodes
  have hemp : keys.isEmpty = keys'.isEmpty := by
    rcases keys with _ | ⟨k, rest⟩
    · rw [List.Perm.eq_nil h.symm]  -- keys' = []
    · have : keys' ≠ [] := by
        intro he
        exact absurd (List.Perm.eq_nil (he ▸ h)) (by simp)
      rcases keys' with _ | _
      · exact absurd rfl this
      · rfl
  rw [hemp, nodePos_perm h, canonNodeOf_perm (h.filter _)]

/-! ### Removal from a canonical trie: the spine walk -/

theorem takeNodesLoop_of_leaf {path : List Nat} {n : Nat} {N : NodeMap}
    {current : List Nat} {acc : List RemovedSparseNode} {k : List Nat}
    {hh : Option B256} (hn : N current = some (.leaf k hh)) :
    takeNodesLoop path (n + 1) N current acc =
      some (.okT (mdel N current) (acc ++ [⟨current, .leaf k hh, none⟩])) := by
  unfold takeNodesLoop
  rw [hn]

theorem takeNodesLoop_of_ext {path : List Nat} {n : Nat} {N : NodeMap}
    {current : List Nat} {acc : List RemovedSparseNode} {k : List Nat}
    {hh : Option B256} (hn : N current = some (.ext k hh)) :
    takeNodesLoop path (n + 1) N current acc =
      takeNodesLoop path n (mdel N current) (current ++ k)
        (acc ++ [⟨current, .ext k hh, none⟩]) := by
  conv_lhs => unfold takeNodesLoop
  rw [hn]

theorem takeNodesLoop_of_branch {path : List Nat} {n : Nat} {N : NodeMap}
    {current : List Nat} {acc : List RemovedSparseNode} {m : Nat}
    {hh : Option B256} {nib : Nat}
    (hn : N current = some (.branch m hh))
    (hg : path.get? current.length = some nib) :
    takeNodesLoop path (n + 1) N current acc =
      takeNodesLoop path n (mdel N current) (current ++ [nib])
        (acc ++ [⟨current, .branch m hh,
          (match mdel N current (current ++ [nib]) with
           | some (.leaf lk _) =>
             if (current ++ [nib]) ++ lk = path then some nib else none
           | _ => none)⟩]) := by
  conv_lhs => unfold takeNodesLoop
  rw [hn]
  dsimp only
  rw [hg]

theorem branchPos_false_above_singleton {keys : List (List Nat)}
    {current l r : List Nat} (hnd : keys.Nodup)
    (hfil : keys.filter (fun k => isPre current k) = [l])
    (hcr : current <+: r) : branchPosB keys r = false := by
  by_cases hrl : r <+: l
  · have hl_mem : l ∈ keys := by
      have : l ∈ keys.filter (fun k => isPre current k) := by
        rw [hfil]
        exact List.mem_cons_self _ _
      exact (mem_filter_pre.mp this).1
    have hfr : keys.filter (fun k => isPre r k) = [l] := by
      refine filter_eq_singleton hl_mem hnd hrl ?_
      intro k hk hrk
      have : k ∈ keys.filter (fun k => isPre current k) :=
        mem_filter_pre.mpr ⟨hk, hcr.trans hrk⟩
      rw [hfil] at this
      simpa using this
    exact no_branchPos_of_singleton hfr
  · refine branchPos_false_of_no_keys ?_
    intro k hk hrk
    have : k ∈ keys.filter (fun k => isPre current k) :=
      mem_filter_pre.mpr ⟨hk, hcr.trans hrk⟩
    rw [hfil] at this
    have hkl : k = l := by simpa using this
    exact hrl (hkl ▸ hrk)

theorem nodePos_false_above_singleton {keys : List (List Nat)}
    {current l r : List Nat} (hnd : keys.Nodup)
    (hfil : keys.filter (fun k => isPre current k) = [l])
    (hcr : current <+: r) (hne : r ≠ current) :
    nodePosB keys r = false := by
  cases hnp : nodePosB keys r with
  | false => rfl
  | true =>
    exfalso
    have hlen : current.length < r.length := by
      rcases lt_or_eq_of_le hcr.length_le with h | h
      · exact h
      · exact absurd ((hcr.eq_of_length h).symm) hne
    rcases (nodePos_iff.mp hnp).2 with h | h | h
    · rw [h] at hlen
      simp at hlen
    · rw [branchPos_false_above_singleton hnd hfil hcr] at h
      exact absurd h (by simp)
    · have hcr_dl : current <+: r.dropLast := by
        refine List.prefix_of_prefix_length_le hcr (dropLastPre r) ?_
        rw [List.length_dropLast]
        omega
      rw [branchPos_false_above_singleton hnd hfil hcr_dl] at h
      exact absurd h (by simp)

theorem branchPos_false_inside_edge {keys : List (List Nat)}
    {current r : List Nat}
    (hcr : current <+: r)
    (hrE : r <+: lcpList (keys.filter (fun k => isPre current k)))
    (hrlen : r.length <
      (lcpList (keys.filter (fun k => isPre current k))).length) :
    branchPosB keys r = false := by
  apply branchPos_false_of_same
  intro k1 h1 k2 h2 hp1 hp2
  have he1 : lcpList (keys.filter (fun k => isPre current k)) <+: k1 :=
    lcpList_pre k1 (mem_filter_pre.mpr ⟨h1, hcr.trans hp1⟩)
  have he2 : lcpList (keys.filter (fun k => isPre current k)) <+: k2 :=
    lcpList_pre k2 (mem_filter_pre.mpr ⟨h2, hcr.trans hp2⟩)
  rw [get?_of_pre he1 hrlen, get?_of_pre he2 hrlen]

theorem nodePos_false_inside_edge {keys : List (List Nat)}
    {current r : List Nat}
    (hcr : current <+: r) (hne : r ≠ current)
    (hrE : r <+: lcpList (keys.filter (fun k => isPre current k)))
    (hrlen : r.length <
      (lcpList (keys.filter (fun k => isPre current k))).length) :
    nodePosB keys r = false := by
  cases hnp : nodePosB keys r with
  | false => rfl
  | true =>
    exfalso
    have hlen : current.length < r.length := by
      rcases lt_or_eq_of_le hcr.length_le with h | h
      · exact h
      · exact absurd ((hcr.eq_of_length h).symm) hne
    rcases (nodePos_iff.mp hnp).2 with h | h | h
    · rw [h] at hlen
      simp at hlen
    · rw [branchPos_false_inside_edge hcr hrE hrlen] at h
      exact absurd h (by simp)
    · have hcr_dl : current <+: r.dropLast := by
        refine List.prefix_of_prefix_length_le hcr (dropLastPre r) ?_
        rw [List.length_dropLast]
        omega
      have hrE_dl : r.dropLast <+:
          lcpList (keys.filter (fun k => isPre current k)) :=
        (dropLastPre r).trans hrE
      have hrlen_dl : r.dropLast.length <
          (lcpList (keys.filter (fun k => isPre current k))).length := by
        rw [List.length_dropLast]
        omega
      rw [branchPos_false_inside_edge hcr_dl hrE_dl hrlen_dl] at h
      exact absurd h (by simp)

theorem mdel_shift {keys : List (List Nat)} {current E : List Nat}
    (hpos : nodePosB keys current = true)
    (hcE : current <+: E) (hnecE : current ≠ E)
    (hmid : ∀ r, current <+: r → r ≠ current → r ≠ E → r <+: E →
      nodePosB keys r = false) :
    mdel (fun q => if isPre q current = true ∧ q ≠ current ∧
        nodePosB keys q = true then none else canonNodes keys q) current =
      (fun q => if isPre q E = true ∧ q ≠ E ∧ nodePosB keys q = true
        then none else canonNodes keys q) := by
  have hlenE : current.length < E.length := by
    rcases lt_or_eq_of_le hcE.length_le with h | h
    · exact h
    · exact absurd (hcE.eq_of_length h) hnecE
  funext q
  by_cases hq : q = current
  · subst hq
    rw [mdel_self]
    rw [if_pos ⟨isPre_iff.mpr hcE, hnecE, hpos⟩]
  · rw [mdel_ne _ hq]
    by_cases hcond : isPre q current = true ∧ q ≠ current ∧
        nodePosB keys q = true
    · rw [if_pos hcond]
      have hqc : q <+: current := isPre_iff.mp hcond.1
      have hqlen : q.length < current.length := by
        rcases lt_or_eq_of_le hqc.length_le with h | h
        · exact h
        · exact absurd (hqc.eq_of_length h) hcond.2.1
      rw [if_pos ⟨isPre_iff.mpr (hqc.trans hcE),
        (by intro he; rw [he] at hqlen; omega), hcond.2.2⟩]
    · rw [if_neg hcond]
      by_cases hcondE : isPre q E = true ∧ q ≠ E ∧ nodePosB keys q = true
      · exfalso
        have hqE : q <+: E := isPre_iff.mp hcondE.1
        rcases le_or_lt q.length current.length with hle | hgt
        · exact hcond ⟨isPre_iff.mpr
            (List.prefix_of_prefix_length_le hqE hcE hle), hq, hcondE.2.2⟩
        · have hcq : current <+: q :=
            List.prefix_of_prefix_length_le hcE hqE (by omega)
          rw [hmid q hcq hq hcondE.2.1 hqE] at hcondE
          exact absurd hcondE.2.2 (by simp)
      · rw [if_neg hcondE]

theorem mdel_final {keys : List (List Nat)} {current l : List Nat}
    (hnd : keys.Nodup) (hcl : current <+: l)
    (hpos : nodePosB keys current = true)
    (hfil : keys.filter (fun k => isPre current k) = [l]) :
    mdel (fun q => if isPre q current = true ∧ q ≠ current ∧
        nodePosB keys q = true then none else canonNodes keys q) current =
      (fun q => if isPre q l = true ∧ nodePosB keys q = true
        then none else canonNodes keys q) := by
  funext q
  by_cases hq : q = current
  · subst hq
    rw [mdel_self]
    rw [if_pos ⟨isPre_iff.mpr hcl, hpos⟩]
  · rw [mdel_ne _ hq]
    by_cases hcond : isPre q current = true ∧ q ≠ current ∧
        nodePosB keys q = true
    · rw [if_pos hcond]
      rw [if_pos ⟨isPre_iff.mpr ((isPre_iff.mp hcond.1).trans hcl),
        hcond.2.2⟩]
    · rw [if_neg hcond]
      by_cases hcondL : isPre q l = true ∧ nodePosB keys q = true
      · exfalso
        have hql : q <+: l := isPre_iff.mp hcondL.1
        rcases le_or_lt q.length current.length with hle | hgt
        · exact hcond ⟨isPre_iff.mpr
            (List.prefix_of_prefix_length_le hql hcl hle), hq, hcondL.2⟩
        · have hcq : current <+: q :=
            List.prefix_of_prefix_length_le hcl hql (by omega)
          rw [nodePos_false_above_singleton hnd hfil hcq hq] at hcondL
          exact absurd hcondL.2 (by simp)
      · rw [if_neg hcondL]

/-- `take_nodes_for_path` on a canonical trie: starting from a node position
on the way to a stored key `l`, the loop ends at the leaf of `l`, returns
the table with the whole spine (every node position that is a prefix of
`l`) deleted, and records exactly the spine. -/
theorem takeNodes_canonical {keys : List (List Nat)} {l : List Nat}
    (hpf : PrefFree keys) (hl : l ∈ keys) :
    ∀ fuel current acc, current <+: l → nodePosB keys current = true →
      l.length + 2 - current.length ≤ fuel →
      ∃ recs, Spine keys l current recs ∧
        takeNodesLoop l fuel
          (fun q => if isPre q current = true ∧ q ≠ current ∧
              nodePosB keys q = true then none else canonNodes keys q)
          current acc =
        some (.okT
          (fun q => if isPre q l = true ∧ nodePosB keys q = true then none
            else canonNodes keys q)
          (acc ++ recs)) := by
  have hkeys : keys ≠ [] := by
    intro he
    rw [he] at hl
    simp at hl
  intro fuel
  induction fuel with
  | zero =>
    intro current acc hcl hpos hfuel
    have := hcl.length_le
    omega
  | succ n ih =>
    intro current acc hcl hpos hfuel
    have hNcur : (fun q => if isPre q current = true ∧ q ≠ current ∧
        nodePosB keys q = true then none else canonNodes keys q) current =
        canonNodes keys current := by
      dsimp only
      rw [if_neg (by rintro ⟨-, h2, -⟩; exact h2 rfl)]
    have hlfil : l ∈ keys.filter (fun k => isPre current k) :=
      mem_filter_pre.mpr ⟨hl, hcl⟩
    rcases canon_node_shape hkeys hpos with
      ⟨k0, hfil, hnode⟩ | ⟨hS2, hlcp, hnode⟩ | ⟨hS2, hce, hlce, hnode⟩
    · -- leaf: the spine ends here, and the leaf must be the leaf of l
      rw [hfil] at hlfil
      have hlk0 : l = k0 := by simpa using hlfil
      subst hlk0
      refine ⟨[⟨current, .leaf (l.drop current.length) none, none⟩],
        Spine.leafEnd hfil, ?_⟩
      rw [takeNodesLoop_of_leaf (hNcur.trans hnode)]
      rw [mdel_final hpf.ndup hcl hpos hfil]
    · -- branch: descend along l
      have hcur_ne_l : current ≠ l := by
        intro he
        obtain ⟨k1, hk1, k2, hk2, x, y, hg1, hg2, hxy⟩ :=
          lcp_diverge hS2 (hpf.filter_sub _)
        have hk12 : k1 ≠ k2 := by
          intro heq
          rw [heq, hg2] at hg1
          have : y = x := by simpa using hg1
          exact hxy this.symm
        have hl1 : l <+: k1 := he ▸ (mem_filter_pre.mp hk1).2
        have hl2 : l <+: k2 := he ▸ (mem_filter_pre.mp hk2).2
        have hle1 : l ≠ k1 ∨ l ≠ k2 := by
          by_cases h1 : l = k1
          · exact Or.inr (h1 ▸ hk12)
          · exact Or.inl h1
        rcases hle1 with h1 | h1
        · exact (pairwise_forall_ne hpf l hl k1 (mem_filter_pre.mp hk1).1 h1).1 hl1
        · exact (pairwise_forall_ne hpf l hl k2 (mem_filter_pre.mp hk2).1 h1).1 hl2
      have hclt : current.length < l.length := by
        rcases lt_or_eq_of_le hcl.length_le with h | h
        · exact h
        · exact absurd (hcl.eq_of_length h) hcur_ne_l
      obtain ⟨nib, hg⟩ := get?_isSome_of_lt hclt
      have hchild_l : current ++ [nib] <+: l := pre_get_snoc hcl hg
      have hchild_pos : nodePosB keys (current ++ [nib]) = true := by
        rw [nodePos_iff]
        refine ⟨⟨l, hl, hchild_l⟩, Or.inr (Or.inr ?_)⟩
        rw [List.dropLast_concat, ← hlcp]
        exact branchPos_lcp_filter hpf hS2
      have hne_child : current ≠ current ++ [nib] := by
        intro he
        have := congrArg List.length he
        simp at this
      have hshift := mdel_shift hpos (List.prefix_append current [nib])
        hne_child
        (by
          intro r hcr hrne hrE hrpre
          exfalso
          have h1 : current.length < r.length := by
            rcases lt_or_eq_of_le hcr.length_le with h | h
            · exact h
            · exact absurd ((hcr.eq_of_length h).symm) hrne
          have h2 : r.length ≤ current.length + 1 := by
            have := hrpre.length_le
            simpa using this
          have h3 : r.length = current.length + 1 := by omega
          exact hrE (hrpre.eq_of_length (by simpa using h3)))
      -- the canonical node at the child slot decides the unset nibble
      have hchild_node : (mdel (fun q => if isPre q current = true ∧
          q ≠ current ∧ nodePosB keys q = true then none
          else canonNodes keys q) current) (current ++ [nib]) =
          canonNodes keys (current ++ [nib]) := by
        rw [mdel_ne _ (Ne.symm hne_child)]
        rw [if_neg]
        rintro ⟨hp1, -, -⟩
        have := (isPre_iff.mp hp1).length_le
        simp at this
      have hrec : takeNodesLoop l (n + 1)
          (fun q => if isPre q current = true ∧ q ≠ current ∧
            nodePosB keys q = true then none else canonNodes keys q)
          current acc =
          takeNodesLoop l n
            (mdel (fun q => if isPre q current = true ∧ q ≠ current ∧
              nodePosB keys q = true then none else canonNodes keys q)
              current)
            (current ++ [nib])
            (acc ++ [⟨current,
              .branch (maskOfS (keys.filter (fun k => isPre current k))
                current) none,
              (match (mdel (fun q => if isPre q current = true ∧
                  q ≠ current ∧ nodePosB keys q = true then none
                  else canonNodes keys q) current) (current ++ [nib]) with
               | some (.leaf lk _) =>
                 if (current ++ [nib]) ++ lk = l then some nib else none
               | _ => none)⟩]) :=
        takeNodesLoop_of_branch (hNcur.trans hnode) hg
      have huns : (match (mdel (fun q => if isPre q current = true ∧
            q ≠ current ∧ nodePosB keys q = true then none
            else canonNodes keys q) current) (current ++ [nib]) with
          | some (.leaf lk _) =>
            if (current ++ [nib]) ++ lk = l then some nib else none
          | _ => none) =
          (if (keys.filter (fun k => isPre (current ++ [nib]) k)).length = 1
            then some nib else none) := by
        rw [hchild_node]
        have hlfil2 : l ∈ keys.filter (fun k => isPre (current ++ [nib]) k) :=
          mem_filter_pre.mpr ⟨hl, hchild_l⟩
        rcases canon_node_shape hkeys hchild_pos with
          ⟨k0, hfil2, hnode2⟩ | ⟨hS22, -, hnode2⟩ | ⟨hS22, -, -, hnode2⟩
        · rw [hfil2] at hlfil2
          have hlk0 : l = k0 := by simpa using hlfil2
          subst hlk0
          rw [hnode2]
          dsimp only
          rw [if_pos (append_drop_of_pre hchild_l), hfil2]
          rw [if_pos (by simp)]
        · rw [hnode2]
          dsimp only
          rw [if_neg (by omega)]
        · rw [hnode2]
          dsimp only
          rw [if_neg (by omega)]
      rw [huns, hshift] at hrec
      obtain ⟨recs2, hsp2, hloop2⟩ := ih (current ++ [nib])
        (acc ++ [⟨current,
          .branch (maskOfS (keys.filter (fun k => isPre current k)) current)
          none,
          (if (keys.filter (fun k => isPre (current ++ [nib]) k)).length = 1
            then some nib else none)⟩])
        hchild_l hchild_pos (by simp at hfuel ⊢; omega)
      refine ⟨⟨current,
        .branch (maskOfS (keys.filter (fun k => isPre current k)) current)
        none,
        (if (keys.filter (fun k => isPre (current ++ [nib]) k)).length = 1
          then some nib else none)⟩ :: recs2,
        Spine.branchStep hS2 hlcp hg rfl hsp2, ?_⟩
      rw [hrec, hloop2]
      simp [List.append_assoc]
    · -- extension: jump to the common-prefix point
      have hEl : lcpList (keys.filter (fun k => isPre current k)) <+: l :=
        lcpList_pre l hlfil
      have hcurE : current ++
          (lcpList (keys.filter (fun k => isPre current k))).drop
            current.length =
          lcpList (keys.filter (fun k => isPre current k)) :=
        append_drop_of_pre hce
      have hne_E : current ≠
          lcpList (keys.filter (fun k => isPre current k)) := by
        intro he
        rw [← he] at hlce
        omega
      have hEpos : nodePosB keys
          (lcpList (keys.filter (fun k => isPre current k))) = true := by
        rw [nodePos_iff]
        exact ⟨⟨l, hl, hEl⟩, Or.inr (Or.inl (branchPos_lcp_filter hpf hS2))⟩
      have hshift := mdel_shift hpos hce hne_E
        (by
          intro r hcr hrne hrE hrpre
          have hrlen : r.length <
              (lcpList (keys.filter (fun k => isPre current k))).length := by
            rcases lt_or_eq_of_le hrpre.length_le with h | h
            · exact h
            · exact absurd (hrpre.eq_of_length h) hrE
          exact nodePos_false_inside_edge hcr hrne hrpre hrlen)
      have hrec : takeNodesLoop l (n + 1)
          (fun q => if isPre q current = true ∧ q ≠ current ∧
            nodePosB keys q = true then none else canonNodes keys q)
          current acc =
          takeNodesLoop l n
            (mdel (fun q => if isPre q current = true ∧ q ≠ current ∧
              nodePosB keys q = true then none else canonNodes keys q)
              current)
            (current ++
              (lcpList (keys.filter (fun k => isPre current k))).drop
                current.length)
            (acc ++ [⟨current,
              .ext ((lcpList (keys.filter (fun k => isPre current k))).drop
                current.length) none, none⟩]) :=
        takeNodesLoop_of_ext (hNcur.trans hnode)
      rw [hshift, hcurE] at hrec
      obtain ⟨recs2, hsp2, hloop2⟩ := ih
        (lcpList (keys.filter (fun k => isPre current k)))
        (acc ++ [⟨current,
          .ext ((lcpList (keys.filter (fun k => isPre current k))).drop
            current.length) none, none⟩])
        hEl hEpos (by have := hEl.length_le; omega)
      refine ⟨⟨current,
        .ext ((lcpList (keys.filter (fun k => isPre current k))).drop
          current.length) none, none⟩ :: recs2,
        Spine.extStep hS2 hce hlce hsp2, ?_⟩
      rw [hrec, hloop2]
      simp [List.append_assoc]

/-! ### Removal from a canonical trie: the collapse walk -/

theorem filter_congr_sub {keys : List (List Nat)} {P E : List Nat}
    (hPE : P <+: E) (hall : ∀ k ∈ keys, P <+: k → E <+: k) :
    keys.filter (fun k => isPre E k) = keys.filter (fun k => isPre P k) := by
  apply List.filter_congr
  intro k hk
  apply bool_eq_of_iff
  rw [isPre_iff, isPre_iff]
  exact ⟨fun h => hPE.trans h, fun h => hall k hk h⟩

theorem drop_split {P E k : List Nat} (hEk : E <+: k) (hle : P.length ≤ E.length) :
    k.drop P.length = E.drop P.length ++ k.drop E.length := by
  obtain ⟨t, rfl⟩ := hEk
  rw [List.drop_append_of_le_length hle, List.drop_append_of_le_length (le_refl _)]
  simp

theorem drop_cons_get {k : List Nat} {n : Nat} {c : Nat}
    (h : k.get? n = some c) : k.drop n = c :: k.drop (n + 1) := by
  rw [List.get?_eq_getElem?] at h
  obtain ⟨hlt, hg⟩ := List.getElem?_eq_some_iff.mp h
  rw [List.drop_eq_getElem_cons hlt]
  rw [hg]

theorem find?_of_filter_singleton {l : List Nat} {p : Nat → Bool} {c : Nat}
    (h : l.filter p = [c]) : l.find? p = some c := by
  induction l with
  | nil => simp at h
  | cons a rest ih =>
    rw [List.filter_cons] at h
    by_cases hpa : p a = true
    · rw [if_pos hpa] at h
      simp only [List.cons.injEq] at h
      rw [List.find?_cons_of_pos _ hpa, h.1]
    · rw [if_neg hpa] at h
      rw [List.find?_cons_of_neg _ hpa]
      exact ih h

theorem countBits16_one {m : Nat} (h : countBits16 m = 1) :
    ∃ c, c < 16 ∧ m.testBit c = true ∧
      (∀ i, i < 16 → m.testBit i = true → i = c) ∧
      firstSetBit16 m = some c := by
  unfold countBits16 at h
  rcases hfil : (List.range 16).filter (fun i => m.testBit i) with _ | ⟨c, _ | ⟨d, r⟩⟩
  · rw [hfil] at h
    simp at h
  · have hc : c ∈ (List.range 16).filter (fun i => m.testBit i) := by
      rw [hfil]
      exact List.mem_cons_self _ _
    rw [List.mem_filter, List.mem_range] at hc
    refine ⟨c, hc.1, hc.2, ?_, ?_⟩
    · intro i hi hbit
      have : i ∈ (List.range 16).filter (fun j => m.testBit j) := by
        rw [List.mem_filter, List.mem_range]
        exact ⟨hi, hbit⟩
      rw [hfil] at this
      simpa using this
    · exact find?_of_filter_singleton hfil
  · rw [hfil] at h
    simp at h

theorem unsetBit_testBit {m nib : Nat} (hn : nib < 16) (i : Nat) :
    (unsetBit m nib).testBit i =
      (m.testBit i && (decide (i < 16) && decide (i ≠ nib))) := by
  unfold unsetBit
  rw [Nat.testBit_and]
  congr 1
  by_cases hi : i < 16
  · interval_cases nib <;> interval_cases i <;> decide
  · push_neg at hi
    have hX : Nat.pred (2 ^ 16) - (1 <<< nib) < 2 ^ i := by
      calc Nat.pred (2 ^ 16) - (1 <<< nib) < 2 ^ 16 :=
            lt_of_le_of_lt (Nat.sub_le _ _) (Nat.pred_lt (by norm_num))
        _ ≤ 2 ^ i := Nat.pow_le_pow_right (by norm_num) hi
    rw [Nat.testBit_lt_two_pow hX]
    have h1 : decide (i < 16) = false := by simpa using hi
    rw [h1]
    simp

theorem branchPos_false_of_all_pre {keys : List (List Nat)} {q E : List Nat}
    (hall : ∀ k ∈ keys, q <+: k → E <+: k) (hlen : q.length < E.length) :
    branchPosB keys q = false := by
  apply branchPos_false_of_same
  intro k1 h1 k2 h2 hp1 hp2
  rw [get?_of_pre (hall k1 h1 hp1) hlen, get?_of_pre (hall k2 h2 hp2) hlen]

theorem collapseTab_leaf_base {K0 : List (List Nat)} {l P : List Nat}
    (hpf : PrefFree (l :: K0))
    (hfil : (l :: K0).filter (fun k => isPre P k) = [l])
    (hcl : P <+: l) (hpos : nodePosB (l :: K0) P = true) :
    collapseTab K0 l P =
      (fun q => if isPre q l = true ∧ nodePosB (l :: K0) q = true
        then none else canonNodes (l :: K0) q) := by
  funext q
  unfold collapseTab
  by_cases h1 : isPre q P = true ∧ q ≠ P ∧ nodePosB (l :: K0) q = true
  · rw [if_pos h1,
      if_pos ⟨isPre_iff.mpr ((isPre_iff.mp h1.1).trans hcl), h1.2.2⟩]
  · rw [if_neg h1]
    by_cases h2 : q = P
    · subst h2
      rw [if_pos rfl, if_pos hfil, if_pos ⟨isPre_iff.mpr hcl, hpos⟩]
    · rw [if_neg h2]
      by_cases h3 : isPre P q = true
      · rw [if_pos h3]
        have hPq : P <+: q := isPre_iff.mp h3
        have hK0P : ∀ k ∈ K0, ¬ P <+: k := by
          intro k hk hPk
          have hm : k ∈ (l :: K0).filter (fun j => isPre P j) :=
            mem_filter_pre.mpr ⟨List.mem_cons_of_mem _ hk, hPk⟩
          rw [hfil] at hm
          have hkl : k = l := by simpa using hm
          subst hkl
          exact ((List.pairwise_cons.mp hpf).1 k hk).1 (List.prefix_refl k)
        have hqnil : q ≠ [] := by
          intro he
          subst he
          exact h2 (List.prefix_iff_eq_take.mp hPq ▸ by simp)
        have hlhs : canonNodes K0 q = none := by
          by_cases hK0nil : K0 = []
          · subst hK0nil
            unfold canonNodes
            rw [if_pos (by simp), if_neg (by simpa using hqnil)]
          · refine canon_not_nodePos hK0nil ?_
            intro hc
            obtain ⟨⟨k, hk, hqk⟩, -⟩ := nodePos_iff.mp hc
            exact hK0P k hk (hPq.trans hqk)
        rw [hlhs]
        by_cases h4 : isPre q l = true ∧ nodePosB (l :: K0) q = true
        · rw [if_pos h4]
        · rw [if_neg h4]
          have hnp := nodePos_false_above_singleton hpf.ndup hfil hPq h2
          rw [canon_not_nodePos (by simp)
            (by intro hc; rw [hnp] at hc; exact absurd hc (by simp))]
      · rw [if_neg h3, if_neg]
        rintro ⟨hql, hpos_q⟩
        have hq_l : q <+: l := isPre_iff.mp hql
        rcases le_or_lt q.length P.length with hle | hgt
        · exact h1 ⟨isPre_iff.mpr (List.prefix_of_prefix_length_le hq_l hcl hle),
            h2, hpos_q⟩
        · exact h3 (isPre_iff.mpr
            (List.prefix_of_prefix_length_le hcl hq_l (le_of_lt hgt)))

theorem collapseTab_merge_step {K0 : List (List Nat)} {l P E : List Nat}
    (hK0 : K0 ≠ [])
    (hPE : P <+: E) (hPEne : P ≠ E)
    (hallE : ∀ k ∈ l :: K0, P <+: k → E <+: k)
    (hmid : ∀ r, P <+: r → r ≠ P → r ≠ E → r <+: E →
      nodePosB (l :: K0) r = false)
    (hnone : canonNodes K0 E = none)
    (hfilPne : (l :: K0).filter (fun k => isPre P k) ≠ [l]) :
    mset (mdel (collapseTab K0 l E) E) P
      (canonNodeOf (K0.filter (fun k => isPre P k)) P) =
    collapseTab K0 l P := by
  have hlenPE : P.length < E.length := by
    rcases lt_or_eq_of_le hPE.length_le with h | h
    · exact h
    · exact absurd (hPE.eq_of_length h) hPEne
  funext q
  by_cases hqP : q = P
  · rw [hqP, mset_self]
    unfold collapseTab
    rw [if_neg (by rintro ⟨-, h2, -⟩; exact h2 rfl), if_pos rfl,
      if_neg hfilPne]
  · rw [mset_ne _ _ hqP]
    by_cases hqE : q = E
    · rw [hqE, mdel_self]
      unfold collapseTab
      rw [hqE] at hqP
      rw [if_neg (by
          rintro ⟨hp, -, -⟩
          have := (isPre_iff.mp hp).length_le
          omega),
        if_neg hqP, if_pos (isPre_iff.mpr hPE), hnone]
    · rw [mdel_ne _ hqE]
      show collapseTab K0 l E q = collapseTab K0 l P q
      unfold collapseTab
      by_cases ha : isPre q E = true ∧ q ≠ E ∧ nodePosB (l :: K0) q = true
      · rw [if_pos ha]
        have hqEpre : q <+: E := isPre_iff.mp ha.1
        have hqP_pre : q <+: P := by
          rcases le_or_lt q.length P.length with hle | hgt
          · exact List.prefix_of_prefix_length_le hqEpre hPE hle
          · exfalso
            have hPq : P <+: q :=
              List.prefix_of_prefix_length_le hPE hqEpre (le_of_lt hgt)
            rw [hmid q hPq hqP ha.2.1 hqEpre] at ha
            exact absurd ha.2.2 (by simp)
        rw [if_pos ⟨isPre_iff.mpr hqP_pre, hqP, ha.2.2⟩]
      · rw [if_neg ha, if_neg hqE]
        by_cases hb : isPre E q = true
        · rw [if_pos hb]
          have hEq : E <+: q := isPre_iff.mp hb
          rw [if_neg (by
              rintro ⟨hp, -, -⟩
              have h1 := (isPre_iff.mp hp).length_le
              have h2 := hEq.length_le
              omega),
            if_neg hqP, if_pos (isPre_iff.mpr (hPE.trans hEq))]
        · rw [if_neg hb]
          by_cases hc : isPre q P = true ∧ q ≠ P ∧ nodePosB (l :: K0) q = true
          · exfalso
            exact ha ⟨isPre_iff.mpr ((isPre_iff.mp hc.1).trans hPE), hqE,
              hc.2.2⟩
          · rw [if_neg hc, if_neg hqP]
            by_cases hd : isPre P q = true
            · rw [if_pos hd]
              have hPq : P <+: q := isPre_iff.mp hd
              have hqnil : q ≠ [] := by
                intro he
                subst he
                exact hqP (List.prefix_nil.mp hPq).symm
              by_cases he : q <+: E
              · -- strictly between P and E, not a node on either side
                have hnpq : nodePosB (l :: K0) q = false :=
                  hmid q hPq hqP hqE he
                have hql : canonNodes (l :: K0) q = none :=
                  canon_not_nodePos (by simp)
                    (by intro hcq; rw [hnpq] at hcq; exact absurd hcq (by simp))
                rw [hql]
                have hqlen : q.length < E.length := by
                  rcases lt_or_eq_of_le he.length_le with h | h
                  · exact h
                  · exact absurd (he.eq_of_length h) hqE
                have hK0q : canonNodes K0 q = none := by
                  refine canon_not_nodePos hK0 ?_
                  intro hcq
                  rcases (nodePos_iff.mp hcq).2 with h' | h' | h'
                  · exact hqnil h'
                  · rw [branchPos_false_of_all_pre
                        (fun k hk hqk => hallE k (List.mem_cons_of_mem _ hk)
                          (hPq.trans hqk)) hqlen] at h'
                    exact absurd h' (by simp)
                  · have hPdl : P <+: q.dropLast := by
                      refine List.prefix_of_prefix_length_le hPq
                        (dropLastPre q) ?_
                      rw [List.length_dropLast]
                      have h1 := hPq.length_le
                      rcases lt_or_eq_of_le h1 with h | h
                      · omega
                      · exact absurd ((hPq.eq_of_length h).symm) hqP
                    rw [branchPos_false_of_all_pre
                        (fun k hk hqk => hallE k (List.mem_cons_of_mem _ hk)
                          (hPdl.trans hqk))
                        (by rw [List.length_dropLast]; omega)] at h'
                    exact absurd h' (by simp)
                rw [hK0q]
              · -- below P, incomparable with E: empty on both sides
                have hnok : ∀ k ∈ l :: K0, ¬ q <+: k := by
                  intro k hk hqk
                  have hEk : E <+: k := hallE k hk (hPq.trans hqk)
                  rcases le_or_lt q.length E.length with hle | hgt
                  · exact he (List.prefix_of_prefix_length_le hqk hEk hle)
                  · exact hb (isPre_iff.mpr
                      (List.prefix_of_prefix_length_le hEk hqk (le_of_lt hgt)))
                have h1 : canonNodes (l :: K0) q = none := by
                  refine canon_not_nodePos (by simp) ?_
                  intro hcq
                  obtain ⟨⟨k, hk, hqk⟩, -⟩ := nodePos_iff.mp hcq
                  exact hnok k hk hqk
                have h2 : canonNodes K0 q = none := by
                  refine canon_not_nodePos hK0 ?_
                  intro hcq
                  obtain ⟨⟨k, hk, hqk⟩, -⟩ := nodePos_iff.mp hcq
                  exact hnok k (List.mem_cons_of_mem _ hk) hqk
                rw [h1, h2]
            · rw [if_neg hd]

theorem collapseTab_ext_keep {K0 : List (List Nat)} {l P E : List Nat}
    (hK0 : K0 ≠ [])
    (hPE : P <+: E) (hPEne : P ≠ E)
    (hallE : ∀ k ∈ l :: K0, P <+: k → E <+: k)
    (hmid : ∀ r, P <+: r → r ≠ P → r ≠ E → r <+: E →
      nodePosB (l :: K0) r = false)
    (hEval : canonNodes K0 E =
      (if (l :: K0).filter (fun k => isPre E k) = [l] then none
       else some (canonNodeOf (K0.filter (fun k => isPre E k)) E)))
    (hfilPne : (l :: K0).filter (fun k => isPre P k) ≠ [l]) :
    mset (collapseTab K0 l E) P
      (canonNodeOf (K0.filter (fun k => isPre P k)) P) =
    collapseTab K0 l P := by
  have hlenPE : P.length < E.length := by
    rcases lt_or_eq_of_le hPE.length_le with h | h
    · exact h
    · exact absurd (hPE.eq_of_length h) hPEne
  funext q
  by_cases hqP : q = P
  · rw [hqP, mset_self]
    unfold collapseTab
    rw [if_neg (by rintro ⟨-, h2, -⟩; exact h2 rfl), if_pos rfl,
      if_neg hfilPne]
  · rw [mset_ne _ _ hqP]
    by_cases hqE : q = E
    · rw [hqE]
      rw [hqE] at hqP
      show collapseTab K0 l E E = collapseTab K0 l P E
      unfold collapseTab
      have hnotEP : ¬ (isPre E P = true ∧ E ≠ P ∧
          nodePosB (l :: K0) E = true) := by
        rintro ⟨hp, -, -⟩
        have := (isPre_iff.mp hp).length_le
        omega
      conv_rhs => rw [if_neg hnotEP, if_neg hqP, if_pos (isPre_iff.mpr hPE)]
      rw [hEval]
      rw [if_neg (by rintro ⟨-, h2, -⟩; exact h2 rfl), if_pos rfl]
    · show collapseTab K0 l E q = collapseTab K0 l P q
      unfold collapseTab
      by_cases ha : isPre q E = true ∧ q ≠ E ∧ nodePosB (l :: K0) q = true
      · rw [if_pos ha]
        have hqEpre : q <+: E := isPre_iff.mp ha.1
        have hqP_pre : q <+: P := by
          rcases le_or_lt q.length P.length with hle | hgt
          · exact List.prefix_of_prefix_length_le hqEpre hPE hle
          · exfalso
            have hPq : P <+: q :=
              List.prefix_of_prefix_length_le hPE hqEpre (le_of_lt hgt)
            rw [hmid q hPq hqP ha.2.1 hqEpre] at ha
            exact absurd ha.2.2 (by simp)
        rw [if_pos ⟨isPre_iff.mpr hqP_pre, hqP, ha.2.2⟩]
      · rw [if_neg ha, if_neg hqE]
        by_cases hb : isPre E q = true
        · rw [if_pos hb]
          have hEq : E <+: q := isPre_iff.mp hb
          rw [if_neg (by
              rintro ⟨hp, -, -⟩
              have h1 := (isPre_iff.mp hp).length_le
              have h2 := hEq.length_le
              omega),
            if_neg hqP, if_pos (isPre_iff.mpr (hPE.trans hEq))]
        · rw [if_neg hb]
          by_cases hc : isPre q P = true ∧ q ≠ P ∧ nodePosB (l :: K0) q = true
          · exfalso
            exact ha ⟨isPre_iff.mpr ((isPre_iff.mp hc.1).trans hPE), hqE,
              hc.2.2⟩
          · rw [if_neg hc, if_neg hqP]
            by_cases hd : isPre P q = true
            · rw [if_pos hd]
              have hPq : P <+: q := isPre_iff.mp hd
              have hqnil : q ≠ [] := by
                intro he
                subst he
                exact hqP (List.prefix_nil.mp hPq).symm
              by_cases he : q <+: E
              · have hnpq : nodePosB (l :: K0) q = false :=
                  hmid q hPq hqP hqE he
                have hql : canonNodes (l :: K0) q = none :=
                  canon_not_nodePos (by simp)
                    (by intro hcq; rw [hnpq] at hcq; exact absurd hcq (by simp))
                rw [hql]
                have hqlen : q.length < E.length := by
                  rcases lt_or_eq_of_le he.length_le with h | h
                  · exact h
                  · exact absurd (he.eq_of_length h) hqE
                have hK0q : canonNodes K0 q = none := by
                  refine canon_not_nodePos hK0 ?_
                  intro hcq
                  rcases (nodePos_iff.mp hcq).2 with h' | h' | h'
                  · exact hqnil h'
                  · rw [branchPos_false_of_all_pre
                        (fun k hk hqk => hallE k (List.mem_cons_of_mem _ hk)
                          (hPq.trans hqk)) hqlen] at h'
                    exact absurd h' (by simp)
                  · have hPdl : P <+: q.dropLast := by
                      refine List.prefix_of_prefix_length_le hPq
                        (dropLastPre q) ?_
                      rw [List.length_dropLast]
                      have h1 := hPq.length_le
                      rcases lt_or_eq_of_le h1 with h | h
                      · omega
                      · exact absurd ((hPq.eq_of_length h).symm) hqP
                    rw [branchPos_false_of_all_pre
                        (fun k hk hqk => hallE k (List.mem_cons_of_mem _ hk)
                          (hPdl.trans hqk))
                        (by rw [List.length_dropLast]; omega)] at h'
                    exact absurd h' (by simp)
                rw [hK0q]
              · have hnok : ∀ k ∈ l :: K0, ¬ q <+: k := by
                  intro k hk hqk
                  have hEk : E <+: k := hallE k hk (hPq.trans hqk)
                  rcases le_or_lt q.length E.length with hle | hgt
                  · exact he (List.prefix_of_prefix_length_le hqk hEk hle)
                  · exact hb (isPre_iff.mpr
                      (List.prefix_of_prefix_length_le hEk hqk (le_of_lt hgt)))
                have h1 : canonNodes (l :: K0) q = none := by
                  refine canon_not_nodePos (by simp) ?_
                  intro hcq
                  obtain ⟨⟨k, hk, hqk⟩, -⟩ := nodePos_iff.mp hcq
                  exact hnok k hk hqk
                have h2 : canonNodes K0 q = none := by
                  refine canon_not_nodePos hK0 ?_
                  intro hcq
                  obtain ⟨⟨k, hk, hqk⟩, -⟩ := nodePos_iff.mp hcq
                  exact hnok k (List.mem_cons_of_mem _ hk) hqk
                rw [h1, h2]
            · rw [if_neg hd]

theorem collapseTab_branch_keep {K0 : List (List Nat)} {l P : List Nat}
    {nib : Nat} {nP : SparseNode}
    (hCval : canonNodes K0 (P ++ [nib]) =
      (if (l :: K0).filter (fun k => isPre (P ++ [nib]) k) = [l] then none
       else some (canonNodeOf (K0.filter (fun k => isPre (P ++ [nib]) k))
         (P ++ [nib]))))
    (hnP : nP = canonNodeOf (K0.filter (fun k => isPre P k)) P)
    (hsib : ∀ q, P <+: q → q ≠ P → ¬ (P ++ [nib]) <+: q →
      canonNodes (l :: K0) q = canonNodes K0 q)
    (hfilPne : (l :: K0).filter (fun k => isPre P k) ≠ [l]) :
    mset (collapseTab K0 l (P ++ [nib])) P nP = collapseTab K0 l P := by
  have hPC : P <+: P ++ [nib] := List.prefix_append P [nib]
  have hlenC : (P ++ [nib]).length = P.length + 1 := by simp
  funext q
  by_cases hqP : q = P
  · rw [hqP, mset_self, hnP]
    unfold collapseTab
    rw [if_neg (by rintro ⟨-, h2, -⟩; exact h2 rfl), if_pos rfl,
      if_neg hfilPne]
  · rw [mset_ne _ _ hqP]
    show collapseTab K0 l (P ++ [nib]) q = collapseTab K0 l P q
    unfold collapseTab
    by_cases ha : isPre q (P ++ [nib]) = true ∧ q ≠ P ++ [nib] ∧
        nodePosB (l :: K0) q = true
    · rw [if_pos ha]
      have hqC : q <+: P ++ [nib] := isPre_iff.mp ha.1
      have hqlen : q.length < (P ++ [nib]).length := by
        rcases lt_or_eq_of_le hqC.length_le with h | h
        · exact h
        · exact absurd (hqC.eq_of_length h) ha.2.1
      have hqPpre : q <+: P :=
        List.prefix_of_prefix_length_le hqC hPC (by omega)
      rw [if_pos ⟨isPre_iff.mpr hqPpre, hqP, ha.2.2⟩]
    · rw [if_neg ha]
      by_cases hqC : q = P ++ [nib]
      · rw [if_pos hqC]
        have hnq : ¬ (isPre q P = true ∧ q ≠ P ∧
            nodePosB (l :: K0) q = true) := by
          rintro ⟨hp, -, -⟩
          have := (isPre_iff.mp hp).length_le
          rw [hqC] at this
          simp at this
        conv_rhs => rw [if_neg hnq, if_neg hqP,
          if_pos (isPre_iff.mpr (hqC ▸ hPC))]
        rw [hqC, hCval]
      · rw [if_neg hqC]
        by_cases hb : isPre (P ++ [nib]) q = true
        · rw [if_pos hb]
          have hCq : P ++ [nib] <+: q := isPre_iff.mp hb
          have hnq : ¬ (isPre q P = true ∧ q ≠ P ∧
              nodePosB (l :: K0) q = true) := by
            rintro ⟨hp, -, -⟩
            have h1 := (isPre_iff.mp hp).length_le
            have h2 := hCq.length_le
            rw [hlenC] at h2
            omega
          rw [if_neg hnq, if_neg hqP, if_pos (isPre_iff.mpr (hPC.trans hCq))]
        · rw [if_neg hb]
          by_cases hc : isPre q P = true ∧ q ≠ P ∧
              nodePosB (l :: K0) q = true
          · exfalso
            exact ha ⟨isPre_iff.mpr ((isPre_iff.mp hc.1).trans hPC), hqC,
              hc.2.2⟩
          · rw [if_neg hc, if_neg hqP]
            by_cases hd : isPre P q = true
            · rw [if_pos hd]
              exact hsib q (isPre_iff.mp hd) hqP
                (fun hcq => hb (isPre_iff.mpr hcq))
            · rw [if_neg hd]

theorem collapseTab_branch_collapse {K0 : List (List Nat)} {l P : List Nat}
    {nib cs : Nat} {nP : SparseNode}
    (hnibc : nib ≠ cs)
    (hCnone : canonNodes K0 (P ++ [nib]) = none)
    (hCfil : (l :: K0).filter (fun k => isPre (P ++ [nib]) k) = [l])
    (hSnone : canonNodes K0 (P ++ [cs]) = none)
    (hnP : nP = canonNodeOf (K0.filter (fun k => isPre P k)) P)
    (hsib : ∀ q, P <+: q → q ≠ P → ¬ (P ++ [nib]) <+: q → q ≠ P ++ [cs] →
      canonNodes (l :: K0) q = canonNodes K0 q)
    (hfilPne : (l :: K0).filter (fun k => isPre P k) ≠ [l]) :
    mset (mdel (collapseTab K0 l (P ++ [nib])) (P ++ [cs])) P nP =
      collapseTab K0 l P := by
  have hPC : P <+: P ++ [nib] := List.prefix_append P [nib]
  have hPS : P <+: P ++ [cs] := List.prefix_append P [cs]
  have hlenC : (P ++ [nib]).length = P.length + 1 := by simp
  have hCS : P ++ [cs] ≠ P ++ [nib] := by
    intro h
    have := List.append_cancel_left h
    have : cs = nib := by simpa using this
    exact hnibc this.symm
  funext q
  by_cases hqP : q = P
  · rw [hqP, mset_self, hnP]
    unfold collapseTab
    rw [if_neg (by rintro ⟨-, h2, -⟩; exact h2 rfl), if_pos rfl,
      if_neg hfilPne]
  · rw [mset_ne _ _ hqP]
    by_cases hqS : q = P ++ [cs]
    · rw [hqS, mdel_self]
      rw [hqS] at hqP
      show _ = collapseTab K0 l P (P ++ [cs])
      unfold collapseTab
      rw [if_neg (by
          rintro ⟨hp, -, -⟩
          have := (isPre_iff.mp hp).length_le
          simp at this),
        if_neg hqP, if_pos (isPre_iff.mpr hPS), hSnone]
    · rw [mdel_ne _ hqS]
      show collapseTab K0 l (P ++ [nib]) q = collapseTab K0 l P q
      unfold collapseTab
      by_cases ha : isPre q (P ++ [nib]) = true ∧ q ≠ P ++ [nib] ∧
          nodePosB (l :: K0) q = true
      · rw [if_pos ha]
        have hqC : q <+: P ++ [nib] := isPre_iff.mp ha.1
        have hqlen : q.length < (P ++ [nib]).length := by
          rcases lt_or_eq_of_le hqC.length_le with h | h
          · exact h
          · exact absurd (hqC.eq_of_length h) ha.2.1
        have hqPpre : q <+: P :=
          List.prefix_of_prefix_length_le hqC hPC (by omega)
        rw [if_pos ⟨isPre_iff.mpr hqPpre, hqP, ha.2.2⟩]
      · rw [if_neg ha]
        by_cases hqC : q = P ++ [nib]
        · rw [if_pos hqC]
          have hnq : ¬ (isPre q P = true ∧ q ≠ P ∧
              nodePosB (l :: K0) q = true) := by
            rintro ⟨hp, -, -⟩
            have := (isPre_iff.mp hp).length_le
            rw [hqC] at this
            simp at this
          conv_rhs => rw [if_neg hnq, if_neg hqP,
            if_pos (isPre_iff.mpr (hqC ▸ hPC))]
          rw [hqC, hCnone, if_pos hCfil]
        · rw [if_neg hqC]
          by_cases hb : isPre (P ++ [nib]) q = true
          · rw [if_pos hb]
            have hCq : P ++ [nib] <+: q := isPre_iff.mp hb
            have hnq : ¬ (isPre q P = true ∧ q ≠ P ∧
                nodePosB (l :: K0) q = true) := by
              rintro ⟨hp, -, -⟩
              have h1 := (isPre_iff.mp hp).length_le
              have h2 := hCq.length_le
              rw [hlenC] at h2
              omega
            rw [if_neg hnq, if_neg hqP,
              if_pos (isPre_iff.mpr (hPC.trans hCq))]
          · rw [if_neg hb]
            by_cases hc : isPre q P = true ∧ q ≠ P ∧
                nodePosB (l :: K0) q = true
            · exfalso
              exact ha ⟨isPre_iff.mpr ((isPre_iff.mp hc.1).trans hPC), hqC,
                hc.2.2⟩
            · rw [if_neg hc, if_neg hqP]
              by_cases hd : isPre P q = true
              · rw [if_pos hd]
                exact hsib q (isPre_iff.mp hd) hqP
                  (fun hcq => hb (isPre_iff.mpr hcq)) hqS
              · rw [if_neg hd]

theorem collapseLoop_ext_leaf {rp k lk : List Nat} {hh lh : Option B256}
    {ru cu : Option Nat} {cp : List Nat}
    {B : List RemovedSparseNode} {nodes : NodeMap} :
    collapseLoop (⟨rp, .ext k hh, ru⟩ :: B) ⟨cp, .leaf lk lh, cu⟩ nodes =
      collapseLoop B ⟨rp, SparseNode.new_leaf (k ++ lk), none⟩
        (mset (mdel nodes cp) rp (SparseNode.new_leaf (k ++ lk))) := rfl

theorem collapseLoop_ext_ext {rp k ek : List Nat} {hh eh : Option B256}
    {ru cu : Option Nat} {cp : List Nat}
    {B : List RemovedSparseNode} {nodes : NodeMap} :
    collapseLoop (⟨rp, .ext k hh, ru⟩ :: B) ⟨cp, .ext ek eh, cu⟩ nodes =
      collapseLoop B ⟨rp, SparseNode.new_ext (k ++ ek), none⟩
        (mset (mdel nodes cp) rp (SparseNode.new_ext (k ++ ek))) := rfl

theorem collapseLoop_ext_branch {rp k : List Nat} {hh bh : Option B256}
    {m : Nat} {ru cu : Option Nat} {cp : List Nat}
    {B : List RemovedSparseNode} {nodes : NodeMap} :
    collapseLoop (⟨rp, .ext k hh, ru⟩ :: B) ⟨cp, .branch m bh, cu⟩ nodes =
      collapseLoop B ⟨rp, .ext k hh, none⟩ (mset nodes rp (.ext k hh)) := rfl

theorem collapseLoop_branch_many {rp : List Nat} {m m1 : Nat}
    {hh : Option B256} {ru : Option Nat} {child : RemovedSparseNode}
    {B : List RemovedSparseNode} {nodes : NodeMap}
    (hm1 : (match ru with | some nib => unsetBit m nib | none => m) = m1)
    (hcnt : ¬ countBits16 m1 = 1) :
    collapseLoop (⟨rp, .branch m hh, ru⟩ :: B) child nodes =
      collapseLoop B ⟨rp, SparseNode.new_branch m1, none⟩
        (mset nodes rp (SparseNode.new_branch m1)) := by
  conv_lhs => unfold collapseLoop
  dsimp only
  rw [hm1, if_neg hcnt]

theorem collapseLoop_branch_one_leaf {rp : List Nat} {m m1 c : Nat}
    {hh ch : Option B256} {ru : Option Nat} {ck : List Nat}
    {child : RemovedSparseNode} {B : List RemovedSparseNode} {nodes : NodeMap}
    (hm1 : (match ru with | some nib => unsetBit m nib | none => m) = m1)
    (hcnt : countBits16 m1 = 1)
    (hfst : firstSetBit16 m1 = some c)
    (hread : nodes (rp ++ [c]) = some (.leaf ck ch)) :
    collapseLoop (⟨rp, .branch m hh, ru⟩ :: B) child nodes =
      collapseLoop B ⟨rp, SparseNode.new_leaf (c :: ck), none⟩
        (mset (mdel nodes (rp ++ [c])) rp (SparseNode.new_leaf (c :: ck))) := by
  conv_lhs => unfold collapseLoop
  dsimp only
  rw [hm1, if_pos hcnt, hfst]
  dsimp only
  rw [hread]

theorem collapseLoop_branch_one_ext {rp : List Nat} {m m1 c : Nat}
    {hh eh : Option B256} {ru : Option Nat} {ek : List Nat}
    {child : RemovedSparseNode} {B : List RemovedSparseNode} {nodes : NodeMap}
    (hm1 : (match ru with | some nib => unsetBit m nib | none => m) = m1)
    (hcnt : countBits16 m1 = 1)
    (hfst : firstSetBit16 m1 = some c)
    (hread : nodes (rp ++ [c]) = some (.ext ek eh)) :
    collapseLoop (⟨rp, .branch m hh, ru⟩ :: B) child nodes =
      collapseLoop B ⟨rp, SparseNode.new_ext (c :: ek), none⟩
        (mset (mdel nodes (rp ++ [c])) rp (SparseNode.new_ext (c :: ek))) := by
  conv_lhs => unfold collapseLoop
  dsimp only
  rw [hm1, if_pos hcnt, hfst]
  dsimp only
  rw [hread]

theorem collapseLoop_branch_one_branch {rp : List Nat} {m m1 c bm : Nat}
    {hh bh : Option B256} {ru : Option Nat}
    {child : RemovedSparseNode} {B : List RemovedSparseNode} {nodes : NodeMap}
    (hm1 : (match ru with | some nib => unsetBit m nib | none => m) = m1)
    (hcnt : countBits16 m1 = 1)
    (hfst : firstSetBit16 m1 = some c)
    (hread : nodes (rp ++ [c]) = some (.branch bm bh)) :
    collapseLoop (⟨rp, .branch m hh, ru⟩ :: B) child nodes =
      collapseLoop B ⟨rp, SparseNode.new_ext [c], none⟩
        (mset nodes rp (SparseNode.new_ext [c])) := by
  conv_lhs => unfold collapseLoop
  dsimp only
  rw [hm1, if_pos hcnt, hfst]
  dsimp only
  rw [hread]

theorem Spine.ne_nil {keys : List (List Nat)} {l P : List Nat}
    {recs : List RemovedSparseNode} (h : Spine keys l P recs) : recs ≠ [] := by
  cases h <;> simp

theorem singleton_of_length_one_mem {α : Type} {xs : List α} {a : α}
    (h1 : xs.length = 1) (h2 : a ∈ xs) : xs = [a] := by
  rcases xs with _ | ⟨x, _ | ⟨y, t⟩⟩
  · simp at h2
  · have : a = x := by simpa using h2
    rw [this]
  · simp at h1

theorem filter_eq_single_of_unique {α : Type} {xs : List α} {p : α → Bool}
    {c : α} (hnd : xs.Nodup) (hc : c ∈ xs) (hpc : p c = true)
    (huniq : ∀ d ∈ xs, p d = true → d = c) : xs.filter p = [c] := by
  induction xs with
  | nil => simp at hc
  | cons a t ih =>
    rw [List.filter_cons]
    rcases List.mem_cons.mp hc with rfl | hct
    · rw [if_pos hpc]
      have ht : t.filter p = [] := by
        rw [List.filter_eq_nil]
        intro d hd hpd
        have hda := huniq d (List.mem_cons_of_mem _ hd) hpd
        subst hda
        exact (List.nodup_cons.mp hnd).1 hd
      rw [ht]
    · have hna : ¬ p a = true := by
        intro hpa
        have := huniq a (List.mem_cons_self _ _) hpa
        subst this
        exact (List.nodup_cons.mp hnd).1 hct
      rw [if_neg hna]
      exact ih (List.nodup_cons.mp hnd).2 hct
        (fun d hd hpd => huniq d (List.mem_cons_of_mem _ hd) hpd)

theorem countBits16_ne_one {m : Nat} (h1 : countBits16 m ≠ 1) {c : Nat}
    (hc : c < 16) (hbit : m.testBit c = true) :
    ∃ d, d < 16 ∧ m.testBit d = true ∧ d ≠ c := by
  by_contra hno
  push_neg at hno
  apply h1
  unfold countBits16
  rw [filter_eq_single_of_unique (List.nodup_range 16)
    (List.mem_range.mpr hc) hbit
    (fun d hd hpd => hno d (List.mem_range.mp hd) hpd)]
  rfl

/-- Every key of `K0` that extends a proper prefix `cur` of the removed key
`l` is strictly longer than `cur` and yields a nibble there. -/
theorem key_get_of_filter {K0 : List (List Nat)} {l cur : List Nat}
    (hpf : PrefFree (l :: K0)) (hnib : NibAll (l :: K0)) (hcl : cur <+: l) :
    ∀ k ∈ K0, cur <+: k → ∃ x, x < 16 ∧ k.get? cur.length = some x := by
  intro k hk hck
  have hlen : cur.length < k.length := by
    rcases lt_or_eq_of_le hck.length_le with h | h
    · exact h
    · exfalso
      have hkc : cur = k := hck.eq_of_length h
      exact ((List.pairwise_cons.mp hpf).1 k hk).2 (hkc ▸ hcl)
  obtain ⟨x, hx⟩ := get?_isSome_of_lt hlen
  exact ⟨x, hnib k (List.mem_cons_of_mem _ hk) x (List.get?_mem hx), hx⟩

theorem canon_both_none {K0 : List (List Nat)} {l q : List Nat} (hK0 : K0 ≠ [])
    (hnone : ∀ k ∈ l :: K0, ¬ q <+: k) :
    canonNodes (l :: K0) q = none ∧ canonNodes K0 q = none := by
  constructor
  · refine canon_not_nodePos (by simp) ?_
    intro hc
    obtain ⟨⟨k, hk, hqk⟩, -⟩ := nodePos_iff.mp hc
    exact hnone k hk hqk
  · refine canon_not_nodePos hK0 ?_
    intro hc
    obtain ⟨⟨k, hk, hqk⟩, -⟩ := nodePos_iff.mp hc
    exact hnone k (List.mem_cons_of_mem _ hk) hqk

/-- Sibling region of the last branch of the removal spine when the removed
leaf was the branch's only other child: away from the deleted child slot
`cur ++ [nib]` and from the surviving child slot `cur ++ [c]`, the canonical
tables with and without `l` agree. -/
theorem canon_sib_of_cover {K0 : List (List Nat)} {l cur : List Nat}
    {nib c : Nat}
    (hpf : PrefFree (l :: K0)) (hK0 : K0 ≠ [])
    (hcl : cur <+: l)
    (hg : l.get? cur.length = some nib)
    (hnc : nib ≠ c)
    (hallS : ∀ k ∈ K0, cur <+: k → cur ++ [c] <+: k) :
    ∀ q, cur <+: q → q ≠ cur → ¬ (cur ++ [nib]) <+: q → q ≠ cur ++ [c] →
      canonNodes (l :: K0) q = canonNodes K0 q := by
  intro q hcq hqcur hnCq hqS
  have hqlen : cur.length < q.length := by
    rcases lt_or_eq_of_le hcq.length_le with h | h
    · exact h
    · exact absurd (hcq.eq_of_length h).symm hqcur
  have hnql : ¬ q <+: l := by
    intro hql
    rcases pre_trans_cases hql (pre_get_snoc hcl hg) with h | h
    · have h1 := h.length_le
      simp only [List.length_append, List.length_singleton] at h1
      have hlq : q.length = cur.length + 1 := by omega
      have hqe : q = cur ++ [nib] := h.eq_of_length (by simpa using hlq)
      exact hnCq (by rw [hqe])
    · exact hnCq h
  by_cases hex : ∃ k ∈ K0, q <+: k
  · obtain ⟨k, hk, hqk⟩ := hex
    have hSk : cur ++ [c] <+: k := hallS k hk (hcq.trans hqk)
    rcases pre_trans_cases hqk hSk with h | h
    · exfalso
      have h1 := h.length_le
      simp only [List.length_append, List.length_singleton] at h1
      have hlq : q.length = cur.length + 1 := by omega
      exact hqS (h.eq_of_length (by simpa using hlq))
    · have hqSlen : cur.length + 1 < q.length := by
        have h1 := h.length_le
        simp only [List.length_append, List.length_singleton] at h1
        rcases lt_or_eq_of_le h1 with h2 | h2
        · exact h2
        · exact absurd (h.eq_of_length (by simpa using h2)).symm hqS
      have hSdl : cur ++ [c] <+: q.dropLast := by
        refine List.prefix_of_prefix_length_le h (dropLastPre q) ?_
        rw [List.length_dropLast]
        have hl1 : (cur ++ [c]).length = cur.length + 1 := by simp
        omega
      have hndl : ¬ q.dropLast <+: l := by
        intro hdl
        have hScl : cur ++ [c] <+: l := hSdl.trans hdl
        have h1 : l.get? cur.length = some c := by
          rw [get?_of_pre hScl (by simp)]
          exact get_snoc cur c
        rw [hg] at h1
        exact hnc (Option.some.inj h1)
      exact canon_cons_eq_of_same hK0 hnql (branchPos_cons_not_pre hndl)
  · push_neg at hex
    have hnone : ∀ k ∈ l :: K0, ¬ q <+: k := by
      intro k hk
      rcases List.mem_cons.mp hk with rfl | hk'
      · exact hnql
      · exact hex k hk'
    rw [(canon_both_none hK0 hnone).1, (canon_both_none hK0 hnone).2]

/-- Sibling region of a branch of the removal spine that keeps at least two
children after the removal: away from the child slot `cur ++ [nib]` towards
the removed key, the canonical tables with and without `l` agree. -/
theorem canon_sib_of_branch {K0 : List (List Nat)} {l cur : List Nat}
    {nib : Nat}
    (hK0 : K0 ≠ [])
    (hcl : cur <+: l)
    (hg : l.get? cur.length = some nib)
    (hbr : branchPosB (l :: K0) cur = true)
    (hbrK0 : branchPosB K0 cur = true) :
    ∀ q, cur <+: q → q ≠ cur → ¬ (cur ++ [nib]) <+: q →
      canonNodes (l :: K0) q = canonNodes K0 q := by
  intro q hcq hqcur hnCq
  have hqlen : cur.length < q.length := by
    rcases lt_or_eq_of_le hcq.length_le with h | h
    · exact h
    · exact absurd (hcq.eq_of_length h).symm hqcur
  have hnql : ¬ q <+: l := by
    intro hql
    rcases pre_trans_cases hql (pre_get_snoc hcl hg) with h | h
    · have h1 := h.length_le
      simp only [List.length_append, List.length_singleton] at h1
      have hlq : q.length = cur.length + 1 := by omega
      have hqe : q = cur ++ [nib] := h.eq_of_length (by simpa using hlq)
      exact hnCq (by rw [hqe])
    · exact hnCq h
  by_cases hdl : q.dropLast = cur
  · exact canon_cons_eq_of_same hK0 hnql (by rw [hdl, hbr, hbrK0])
  · have hcdl : cur <+: q.dropLast := by
      refine List.prefix_of_prefix_length_le hcq (dropLastPre q) ?_
      rw [List.length_dropLast]
      omega
    have hndl : ¬ q.dropLast <+: l := by
      intro hdll
      rcases pre_trans_cases hdll (pre_get_snoc hcl hg) with h | h
      · have h1 := h.length_le
        simp only [List.length_append, List.length_singleton] at h1
        have h3 : q.dropLast.length ≠ cur.length := by
          intro he
          exact hdl (hcdl.eq_of_length he.symm).symm
        have h2 := hcdl.length_le
        have hlq : q.dropLast.length = cur.length + 1 := by omega
        have hqe : q.dropLast = cur ++ [nib] := h.eq_of_length (by simpa using hlq)
        exact hnCq (hqe ▸ dropLastPre q)
      · exact hnCq (h.trans (dropLastPre q))
    exact canon_cons_eq_of_same hK0 hnql (branchPos_cons_not_pre hndl)

/-- Processing one extension record of the removal spine: re-inserting the
extension over the already-collapsed child of its target `E` yields the
collapsed state at the extension's own path `cur`. -/
theorem collapse_ext_step {K0 : List (List Nat)} {l cur E : List Nat}
    {B : List RemovedSparseNode}
    (hpf : PrefFree (l :: K0)) (hK0 : K0 ≠ [])
    (hcl : cur <+: l)
    (hce : cur <+: E) (hlce : cur.length < E.length)
    (hEdef : lcpList ((l :: K0).filter (fun k => isPre cur k)) = E)
    (hS2 : 2 ≤ ((l :: K0).filter (fun k => isPre cur k)).length) :
    collapseLoop (⟨cur, .ext (E.drop cur.length) none, none⟩ :: B)
      ⟨E, childNode K0 l E, none⟩ (collapseTab K0 l E) =
    collapseLoop B ⟨cur, childNode K0 l cur, none⟩ (collapseTab K0 l cur) := by
  have hndK0 : K0.Nodup := PrefFree.ndup ((List.pairwise_cons.mp hpf).2)
  have hfilPne : (l :: K0).filter (fun k => isPre cur k) ≠ [l] := by
    intro h
    rw [h] at hS2
    simp at hS2
  have hPEne : cur ≠ E := by
    intro h
    rw [h] at hlce
    exact lt_irrefl _ hlce
  have hallE : ∀ k ∈ l :: K0, cur <+: k → E <+: k := by
    intro k hk hck
    have h1 := lcpList_pre k (mem_filter_pre.mpr ⟨hk, hck⟩)
    rw [hEdef] at h1
    exact h1
  have hmid : ∀ r, cur <+: r → r ≠ cur → r ≠ E → r <+: E →
      nodePosB (l :: K0) r = false := by
    intro r hcr hrc hrE hre
    have hrlen : r.length < E.length := by
      rcases lt_or_eq_of_le hre.length_le with h | h
      · exact h
      · exact absurd (hre.eq_of_length h) hrE
    exact nodePos_false_inside_edge hcr hrc (hEdef.symm ▸ hre)
      (hEdef.symm ▸ hrlen)
  have hfilE : (l :: K0).filter (fun k => isPre E k) =
      (l :: K0).filter (fun k => isPre cur k) := filter_congr_sub hce hallE
  have hfilEne : (l :: K0).filter (fun k => isPre E k) ≠ [l] := by
    rw [hfilE]
    exact hfilPne
  have hF0eq : K0.filter (fun k => isPre E k) = K0.filter (fun k => isPre cur k) :=
    filter_congr_sub hce (fun k hk hck => hallE k (List.mem_cons_of_mem _ hk) hck)
  have hfilK : (l :: K0).filter (fun k => isPre cur k) =
      l :: K0.filter (fun k => isPre cur k) := filter_cons_pre hcl
  have hcP' : childNode K0 l cur =
      canonNodeOf (K0.filter (fun k => isPre cur k)) cur := by
    unfold childNode
    rw [if_neg hfilPne]
  have hEnil : E ≠ [] := by
    intro h
    rw [h] at hlce
    simp at hlce
  have hcEeq : childNode K0 l E =
      canonNodeOf (K0.filter (fun k => isPre cur k)) E := by
    unfold childNode
    rw [if_neg hfilEne, hF0eq]
  rcases hF0 : K0.filter (fun k => isPre cur k) with _ | ⟨k1, F1⟩
  · exfalso
    apply hfilPne
    rw [hfilK, hF0]
  · rcases F1 with _ | ⟨k2, F2⟩
    · -- exactly one surviving key below cur: the child is a leaf, merge it
      have hk1 : k1 ∈ K0.filter (fun k => isPre cur k) := by
        rw [hF0]
        exact List.mem_cons_self _ _
      have hk1K0 : k1 ∈ K0 := (mem_filter_pre.mp hk1).1
      have hck1 : cur <+: k1 := (mem_filter_pre.mp hk1).2
      have hEk1 : E <+: k1 :=
        hallE k1 (List.mem_cons_of_mem _ hk1K0) hck1
      have hcE : childNode K0 l E = SparseNode.leaf (k1.drop E.length) none := by
        rw [hcEeq, hF0]
        rfl
      rw [hcE, collapseLoop_ext_leaf]
      have hdrop : E.drop cur.length ++ k1.drop E.length = k1.drop cur.length :=
        (drop_split hEk1 hce.length_le).symm
      rw [hdrop]
      have hval : canonNodeOf (K0.filter (fun k => isPre cur k)) cur =
          SparseNode.new_leaf (k1.drop cur.length) := by
        rw [hF0]
        rfl
      rw [← hval]
      have hnone : canonNodes K0 E = none := by
        refine canon_not_nodePos hK0 ?_
        intro hc
        rcases (nodePos_iff.mp hc).2 with h | h | h
        · exact hEnil h
        · rw [no_branchPos_of_singleton
            (show K0.filter (fun k => isPre E k) = [k1] by rw [hF0eq, hF0])] at h
          exact absurd h (by simp)
        · have hcdl : cur <+: E.dropLast := by
            refine List.prefix_of_prefix_length_le hce (dropLastPre E) ?_
            rw [List.length_dropLast]
            omega
          have hfil_dl : K0.filter (fun k => isPre E.dropLast k) = [k1] := by
            refine filter_eq_singleton hk1K0 hndK0 ((dropLastPre E).trans hEk1) ?_
            intro k hk hdlk
            have hmem : k ∈ K0.filter (fun j => isPre cur j) :=
              mem_filter_pre.mpr ⟨hk, hcdl.trans hdlk⟩
            rw [hF0] at hmem
            simpa using hmem
          rw [no_branchPos_of_singleton hfil_dl] at h
          exact absurd h (by simp)
      rw [collapseTab_merge_step hK0 hce hPEne hallE hmid hnone hfilPne, hcP']
    · -- at least two surviving keys below cur
      have h2len : 2 ≤ (K0.filter (fun k => isPre cur k)).length := by
        rw [hF0]
        simp
      have hF0ne : K0.filter (fun k => isPre cur k) ≠ [] := by
        rw [hF0]
        simp
      have hED : E <+: lcpList (K0.filter (fun k => isPre cur k)) := by
        refine pre_lcpList hF0ne ?_
        intro k hk
        exact hallE k (List.mem_cons_of_mem _ (mem_filter_pre.mp hk).1)
          (mem_filter_pre.mp hk).2
      by_cases hDE : (lcpList (K0.filter (fun k => isPre cur k))).length = E.length
      · -- the surviving child at E is a branch: re-insert the extension as is
        have hEeqD : E = lcpList (K0.filter (fun k => isPre cur k)) :=
          hED.eq_of_length hDE.symm
        have hcE : childNode K0 l E =
            SparseNode.branch (maskOfS (K0.filter (fun k => isPre cur k)) E) none := by
          rw [hcEeq, canonNodeOf_two h2len, if_pos hDE]
          rfl
        rw [hcE, collapseLoop_ext_branch]
        have hval : canonNodeOf (K0.filter (fun k => isPre cur k)) cur =
            SparseNode.ext (E.drop cur.length) none := by
          rw [canonNodeOf_two h2len,
            if_neg (show ¬ (lcpList (K0.filter (fun k => isPre cur k))).length
              = cur.length by omega), ← hEeqD]
          rfl
        rw [← hval]
        have hEval : canonNodes K0 E =
            (if (l :: K0).filter (fun k => isPre E k) = [l] then none
             else some (canonNodeOf (K0.filter (fun k => isPre E k)) E)) := by
          rw [if_neg hfilEne]
          refine canon_nodePos_some hK0 ?_
          obtain ⟨ka, hka, kb, hkb, x, y, hgx, hgy, hxy⟩ :=
            lcp_diverge h2len (PrefFree.filter_sub ((List.pairwise_cons.mp hpf).2) _)
          rw [hDE] at hgx hgy
          refine nodePos_iff.mpr
            ⟨⟨ka, (mem_filter_pre.mp hka).1, hEeqD.symm ▸ lcpList_pre ka hka⟩,
              Or.inr (Or.inl ?_)⟩
          refine branchPos_iff.mpr ⟨ka, (mem_filter_pre.mp hka).1, kb,
            (mem_filter_pre.mp hkb).1, hEeqD.symm ▸ lcpList_pre ka hka,
            hEeqD.symm ▸ lcpList_pre kb hkb, x, y, hgx, hgy, hxy⟩
        rw [collapseTab_ext_keep hK0 hce hPEne hallE hmid hEval hfilPne, hcP']
      · -- the surviving child at E is an extension: merge the two extensions
        have hEltD : E.length <
            (lcpList (K0.filter (fun k => isPre cur k))).length := by
          have := hED.length_le
          omega
        have hcE : childNode K0 l E =
            SparseNode.ext
              ((lcpList (K0.filter (fun k => isPre cur k))).drop E.length)
              none := by
          rw [hcEeq, canonNodeOf_two h2len, if_neg hDE]
          rfl
        rw [hcE, collapseLoop_ext_ext]
        have hdrop : E.drop cur.length ++
            (lcpList (K0.filter (fun k => isPre cur k))).drop E.length
            = (lcpList (K0.filter (fun k => isPre cur k))).drop cur.length :=
          (drop_split hED hce.length_le).symm
        rw [hdrop]
        have hval : canonNodeOf (K0.filter (fun k => isPre cur k)) cur =
            SparseNode.new_ext
              ((lcpList (K0.filter (fun k => isPre cur k))).drop cur.length) := by
          rw [canonNodeOf_two h2len,
            if_neg (show ¬ (lcpList (K0.filter (fun k => isPre cur k))).length
              = cur.length by omega)]
        rw [← hval]
        have hnone : canonNodes K0 E = none := by
          refine canon_not_nodePos hK0 ?_
          intro hc
          rcases (nodePos_iff.mp hc).2 with h | h | h
          · exact hEnil h
          · rw [branchPos_false_of_all_pre
              (fun k hk hEk =>
                lcpList_pre k (mem_filter_pre.mpr ⟨hk, hce.trans hEk⟩))
              hEltD] at h
            exact absurd h (by simp)
          · have hcdl : cur <+: E.dropLast := by
              refine List.prefix_of_prefix_length_le hce (dropLastPre E) ?_
              rw [List.length_dropLast]
              omega
            rw [branchPos_false_of_all_pre
              (fun k hk hdlk =>
                lcpList_pre k (mem_filter_pre.mpr ⟨hk, hcdl.trans hdlk⟩))
              (by rw [List.length_dropLast]; omega)] at h
            exact absurd h (by simp)
        rw [collapseTab_merge_step hK0 hce hPEne hallE hmid hnone hfilPne, hcP']

/-- Processing one branch record of the removal spine whose only other
child is the single surviving subtree: the branch collapses into its
survivor (leaf merge, extension merge, or a fresh one-nibble extension over
a surviving branch). -/
theorem collapse_branch_one_step {K0 : List (List Nat)} {l cur : List Nat}
    {nib : Nat} {B : List RemovedSparseNode}
    (hpf : PrefFree (l :: K0)) (hnib : NibAll (l :: K0)) (hK0 : K0 ≠ [])
    (hcl : cur <+: l) (hg : l.get? cur.length = some nib)
    (hlcp : lcpList ((l :: K0).filter (fun k => isPre cur k)) = cur)
    (hS2 : 2 ≤ ((l :: K0).filter (fun k => isPre cur k)).length)
    (hF0C : K0.filter (fun k => isPre (cur ++ [nib]) k) = [])
    (hcnt : countBits16 (maskOfS (K0.filter (fun k => isPre cur k)) cur) = 1) :
    collapseLoop
      (⟨cur, .branch (maskOfS ((l :: K0).filter (fun k => isPre cur k)) cur) none,
        some nib⟩ :: B)
      ⟨cur ++ [nib], childNode K0 l (cur ++ [nib]), none⟩
      (collapseTab K0 l (cur ++ [nib])) =
    collapseLoop B ⟨cur, childNode K0 l cur, none⟩ (collapseTab K0 l cur) := by
  have hnibl : nib < 16 := hnib l (List.mem_cons_self _ _) nib (List.get?_mem hg)
  have hndK0 : K0.Nodup := PrefFree.ndup ((List.pairwise_cons.mp hpf).2)
  have hCl : cur ++ [nib] <+: l := pre_get_snoc hcl hg
  have hfilPne : (l :: K0).filter (fun k => isPre cur k) ≠ [l] := by
    intro h
    rw [h] at hS2
    simp at hS2
  have hF0Pne : K0.filter (fun k => isPre cur k) ≠ [] := by
    intro h
    apply hfilPne
    rw [filter_cons_pre hcl, h]
  have hcP' : childNode K0 l cur =
      canonNodeOf (K0.filter (fun k => isPre cur k)) cur := by
    unfold childNode
    rw [if_neg hfilPne]
  have hbr : branchPosB (l :: K0) cur = true := by
    have h := branchPos_lcp_filter hpf hS2
    rw [hlcp] at h
    exact h
  have hm1 : unsetBit (maskOfS ((l :: K0).filter (fun k => isPre cur k)) cur) nib
      = maskOfS (K0.filter (fun k => isPre cur k)) cur := by
    apply Nat.eq_of_testBit_eq
    intro i
    rw [unsetBit_testBit hnibl]
    apply bool_eq_of_iff
    simp only [Bool.and_eq_true, decide_eq_true_eq, maskOfS_testBit_iff]
    constructor
    · rintro ⟨⟨hi16, k, hk, hgk⟩, -, hinib⟩
      rcases List.mem_cons.mp (mem_filter_pre.mp hk).1 with rfl | hkK0
      · rw [hg] at hgk
        exact absurd (Option.some.inj hgk).symm hinib
      · exact ⟨hi16, k, mem_filter_pre.mpr ⟨hkK0, (mem_filter_pre.mp hk).2⟩, hgk⟩
    · rintro ⟨hi16, k, hk, hgk⟩
      refine ⟨⟨hi16, k, mem_filter_pre.mpr
        ⟨List.mem_cons_of_mem _ (mem_filter_pre.mp hk).1,
          (mem_filter_pre.mp hk).2⟩, hgk⟩, hi16, ?_⟩
      intro hinib
      subst hinib
      have hCk : cur ++ [i] <+: k := pre_get_snoc (mem_filter_pre.mp hk).2 hgk
      have hmem : k ∈ K0.filter (fun j => isPre (cur ++ [i]) j) :=
        mem_filter_pre.mpr ⟨(mem_filter_pre.mp hk).1, hCk⟩
      rw [hF0C] at hmem
      simp at hmem
  obtain ⟨c, hc16, hcbit, hcuniq, hcfst⟩ := countBits16_one hcnt
  obtain ⟨-, k', hk'F0, hgk'⟩ := maskOfS_testBit_iff.mp hcbit
  have hk'K0 : k' ∈ K0 := (mem_filter_pre.mp hk'F0).1
  have hck' : cur <+: k' := (mem_filter_pre.mp hk'F0).2
  have hcnib : c ≠ nib := by
    intro h
    subst h
    have hCk' : cur ++ [c] <+: k' := pre_get_snoc hck' hgk'
    have hmem : k' ∈ K0.filter (fun j => isPre (cur ++ [c]) j) :=
      mem_filter_pre.mpr ⟨hk'K0, hCk'⟩
    rw [hF0C] at hmem
    simp at hmem
  have hSk' : cur ++ [c] <+: k' := pre_get_snoc hck' hgk'
  have hallS : ∀ k ∈ K0, cur <+: k → cur ++ [c] <+: k := by
    intro k hk hck
    obtain ⟨z, hz16, hgz⟩ := key_get_of_filter hpf hnib hcl k hk hck
    have hbitz : (maskOfS (K0.filter (fun j => isPre cur j)) cur).testBit z = true :=
      maskOfS_testBit_iff.mpr ⟨hz16, k, mem_filter_pre.mpr ⟨hk, hck⟩, hgz⟩
    have hzc : z = c := hcuniq z hz16 hbitz
    subst hzc
    exact pre_get_snoc hck hgz
  have hF0S : K0.filter (fun k => isPre (cur ++ [c]) k) =
      K0.filter (fun k => isPre cur k) :=
    filter_congr_sub (List.prefix_append cur [c]) (fun k hk hck => hallS k hk hck)
  have hnSl : ¬ (cur ++ [c]) <+: l := by
    intro h
    have h1 : l.get? cur.length = some c := by
      rw [get?_of_pre h (by simp)]
      exact get_snoc cur c
    rw [hg] at h1
    exact hcnib (Option.some.inj h1).symm
  have hfilS : (l :: K0).filter (fun k => isPre (cur ++ [c]) k) =
      K0.filter (fun k => isPre (cur ++ [c]) k) := filter_cons_not hnSl
  have hSno : cur ++ [c] ≠ cur ++ [nib] := by
    intro h
    exact hcnib (by simpa using List.append_cancel_left h)
  have hnpre1 : ¬ (cur ++ [c]) <+: (cur ++ [nib]) := by
    intro h
    have he := h.eq_of_length (by simp)
    exact hcnib (by simpa using List.append_cancel_left he)
  have hnpre2 : ¬ (cur ++ [nib]) <+: (cur ++ [c]) := by
    intro h
    have he := h.eq_of_length (by simp)
    have he2 : nib = c := by simpa using List.append_cancel_left he
    exact hcnib he2.symm
  have hread : collapseTab K0 l (cur ++ [nib]) (cur ++ [c]) =
      canonNodes (l :: K0) (cur ++ [c]) := by
    unfold collapseTab
    rw [if_neg (by rintro ⟨h1, -, -⟩; exact hnpre1 (isPre_iff.mp h1)),
      if_neg hSno,
      if_neg (by intro h1; exact hnpre2 (isPre_iff.mp h1))]
  have hnpS : nodePosB (l :: K0) (cur ++ [c]) = true :=
    nodePos_iff.mpr ⟨⟨k', List.mem_cons_of_mem _ hk'K0, hSk'⟩,
      Or.inr (Or.inr (by rw [List.dropLast_concat]; exact hbr))⟩
  have hcanS : canonNodes (l :: K0) (cur ++ [c]) =
      some (canonNodeOf (K0.filter (fun k => isPre cur k)) (cur ++ [c])) := by
    rw [canon_nodePos_some (by simp) hnpS, hfilS, hF0S]
  have hCnone : canonNodes K0 (cur ++ [nib]) = none := by
    refine canon_not_nodePos hK0 ?_
    intro hc
    obtain ⟨⟨k, hk, hqk⟩, -⟩ := nodePos_iff.mp hc
    have hmem : k ∈ K0.filter (fun j => isPre (cur ++ [nib]) j) :=
      mem_filter_pre.mpr ⟨hk, hqk⟩
    rw [hF0C] at hmem
    simp at hmem
  have hCfil : (l :: K0).filter (fun k => isPre (cur ++ [nib]) k) = [l] := by
    rw [filter_cons_pre hCl, hF0C]
  have hsibA := canon_sib_of_cover hpf hK0 hcl hg hcnib.symm hallS
  rcases hF0 : K0.filter (fun k => isPre cur k) with _ | ⟨s1, F1⟩
  · exact absurd hF0 hF0Pne
  · rcases F1 with _ | ⟨s2, F2⟩
    · -- single survivor below cur: the sibling is a leaf; merge into it
      have hk's1 : k' = s1 := by
        have h := hk'F0
        rw [hF0] at h
        simpa using h
      subst hk's1
      have hnodeS : collapseTab K0 l (cur ++ [nib]) (cur ++ [c]) =
          some (SparseNode.leaf (k'.drop (cur.length + 1)) none) := by
        rw [hread, hcanS, hF0]
        show some (SparseNode.leaf (k'.drop (cur ++ [c]).length) none) = _
        rw [(by simp : (cur ++ [c]).length = cur.length + 1)]
      have hstep := @collapseLoop_branch_one_leaf cur
        (maskOfS ((l :: K0).filter (fun k => isPre cur k)) cur)
        (maskOfS (K0.filter (fun k => isPre cur k)) cur) c none none (some nib)
        (k'.drop (cur.length + 1))
        ⟨cur ++ [nib], childNode K0 l (cur ++ [nib]), none⟩ B
        (collapseTab K0 l (cur ++ [nib])) hm1 hcnt hcfst hnodeS
      rw [hstep]
      have hdropc : c :: k'.drop (cur.length + 1) = k'.drop cur.length :=
        (drop_cons_get hgk').symm
      rw [hdropc]
      have hval : canonNodeOf (K0.filter (fun k => isPre cur k)) cur =
          SparseNode.new_leaf (k'.drop cur.length) := by
        rw [hF0]
        rfl
      rw [← hval]
      have hSnone : canonNodes K0 (cur ++ [c]) = none := by
        refine canon_not_nodePos hK0 ?_
        intro hc2
        rcases (nodePos_iff.mp hc2).2 with h | h | h
        · exact absurd h (by simp)
        · rw [no_branchPos_of_singleton
            (show K0.filter (fun k => isPre (cur ++ [c]) k) = [k'] by
              rw [hF0S, hF0])] at h
          exact absurd h (by simp)
        · rw [List.dropLast_concat] at h
          rw [no_branchPos_of_singleton hF0] at h
          exact absurd h (by simp)
      rw [collapseTab_branch_collapse hcnib.symm hCnone hCfil hSnone rfl
        hsibA hfilPne, hcP']
    · -- at least two survivors below cur
      have h2len : 2 ≤ (K0.filter (fun k => isPre cur k)).length := by
        rw [hF0]
        simp
      have hSD : cur ++ [c] <+: lcpList (K0.filter (fun k => isPre cur k)) := by
        refine pre_lcpList hF0Pne ?_
        intro k hk
        exact hallS k (mem_filter_pre.mp hk).1 (mem_filter_pre.mp hk).2
      by_cases hDS : (lcpList (K0.filter (fun k => isPre cur k))).length
          = (cur ++ [c]).length
      · -- the sibling is a branch: keep it, re-point with a one-nibble ext
        have hDeq : cur ++ [c] = lcpList (K0.filter (fun k => isPre cur k)) :=
          hSD.eq_of_length hDS.symm
        have hnodeS : collapseTab K0 l (cur ++ [nib]) (cur ++ [c]) =
            some (SparseNode.branch
              (maskOfS (K0.filter (fun k => isPre cur k)) (cur ++ [c])) none) := by
          rw [hread, hcanS, canonNodeOf_two h2len, if_pos hDS]
          rfl
        have hstep := @collapseLoop_branch_one_branch cur
          (maskOfS ((l :: K0).filter (fun k => isPre cur k)) cur)
          (maskOfS (K0.filter (fun k => isPre cur k)) cur) c
          (maskOfS (K0.filter (fun k => isPre cur k)) (cur ++ [c])) none none
          (some nib)
          ⟨cur ++ [nib], childNode K0 l (cur ++ [nib]), none⟩ B
          (collapseTab K0 l (cur ++ [nib])) hm1 hcnt hcfst hnodeS
        rw [hstep]
        have hval : canonNodeOf (K0.filter (fun k => isPre cur k)) cur =
            SparseNode.new_ext [c] := by
          rw [canonNodeOf_two h2len,
            if_neg (show ¬ (lcpList (K0.filter (fun k => isPre cur k))).length
              = cur.length by rw [← hDeq]; simp), ← hDeq]
          congr 1
          rw [List.drop_append_of_le_length (le_refl _)]
          simp
        rw [← hval]
        have hCval : canonNodes K0 (cur ++ [nib]) =
            (if (l :: K0).filter (fun k => isPre (cur ++ [nib]) k) = [l] then none
             else some (canonNodeOf (K0.filter (fun k => isPre (cur ++ [nib]) k))
               (cur ++ [nib]))) := by
          rw [if_pos hCfil]
          exact hCnone
        have hsibB : ∀ q, cur <+: q → q ≠ cur → ¬ (cur ++ [nib]) <+: q →
            canonNodes (l :: K0) q = canonNodes K0 q := by
          intro q hq1 hq2 hq3
          by_cases hq4 : q = cur ++ [c]
          · subst hq4
            rw [hcanS]
            have hnpK0 : nodePosB K0 (cur ++ [c]) = true := by
              refine nodePos_iff.mpr ⟨⟨k', hk'K0, hSk'⟩, Or.inr (Or.inl ?_)⟩
              obtain ⟨ka, hka, kb, hkb, x, y, hgx, hgy, hxy⟩ :=
                lcp_diverge h2len
                  (PrefFree.filter_sub ((List.pairwise_cons.mp hpf).2) _)
              rw [hDS] at hgx hgy
              exact branchPos_iff.mpr ⟨ka, (mem_filter_pre.mp hka).1, kb,
                (mem_filter_pre.mp hkb).1,
                hDeq.symm ▸ lcpList_pre ka hka, hDeq.symm ▸ lcpList_pre kb hkb,
                x, y, hgx, hgy, hxy⟩
            rw [canon_nodePos_some hK0 hnpK0, hF0S]
          · exact hsibA q hq1 hq2 hq3 hq4
        rw [collapseTab_branch_keep hCval rfl hsibB hfilPne, hcP']
      · -- the sibling is an extension: prepend the nibble and collapse it
        have hSltD : (cur ++ [c]).length <
            (lcpList (K0.filter (fun k => isPre cur k))).length := by
          have := hSD.length_le
          omega
        have hnodeS : collapseTab K0 l (cur ++ [nib]) (cur ++ [c]) =
            some (SparseNode.ext
              ((lcpList (K0.filter (fun k => isPre cur k))).drop (cur.length + 1))
              none) := by
          rw [hread, hcanS, canonNodeOf_two h2len, if_neg hDS]
          show some (SparseNode.ext
            ((lcpList (K0.filter (fun k => isPre cur k))).drop
              (cur ++ [c]).length) none) = _
          rw [(by simp : (cur ++ [c]).length = cur.length + 1)]
        have hstep := @collapseLoop_branch_one_ext cur
          (maskOfS ((l :: K0).filter (fun k => isPre cur k)) cur)
          (maskOfS (K0.filter (fun k => isPre cur k)) cur) c none none (some nib)
          ((lcpList (K0.filter (fun k => isPre cur k))).drop (cur.length + 1))
          ⟨cur ++ [nib], childNode K0 l (cur ++ [nib]), none⟩ B
          (collapseTab K0 l (cur ++ [nib])) hm1 hcnt hcfst hnodeS
        rw [hstep]
        have hDget : (lcpList (K0.filter (fun k => isPre cur k))).get? cur.length
            = some c := by
          rw [get?_of_pre hSD (by simp)]
          exact get_snoc cur c
        have hdropc :
            c :: (lcpList (K0.filter (fun k => isPre cur k))).drop (cur.length + 1)
            = (lcpList (K0.filter (fun k => isPre cur k))).drop cur.length :=
          (drop_cons_get hDget).symm
        rw [hdropc]
        have hval : canonNodeOf (K0.filter (fun k => isPre cur k)) cur =
            SparseNode.new_ext
              ((lcpList (K0.filter (fun k => isPre cur k))).drop cur.length) := by
          rw [canonNodeOf_two h2len,
            if_neg (show ¬ (lcpList (K0.filter (fun k => isPre cur k))).length
              = cur.length by
                have h1 : (cur ++ [c]).length = cur.length + 1 := by simp
                omega)]
        rw [← hval]
        have hSnone : canonNodes K0 (cur ++ [c]) = none := by
          refine canon_not_nodePos hK0 ?_
          intro hc2
          rcases (nodePos_iff.mp hc2).2 with h | h | h
          · exact absurd h (by simp)
          · rw [branchPos_false_of_all_pre
              (fun k hk hSk =>
                lcpList_pre k (mem_filter_pre.mpr
                  ⟨hk, (List.prefix_append cur [c]).trans hSk⟩))
              hSltD] at h
            exact absurd h (by simp)
          · rw [List.dropLast_concat] at h
            rw [branchPos_false_of_all_pre
              (fun k hk hck => lcpList_pre k (mem_filter_pre.mpr ⟨hk, hck⟩))
              (by
                have h1 : (cur ++ [c]).length = cur.length + 1 := by simp
                omega)] at h
            exact absurd h (by simp)
        rw [collapseTab_branch_collapse hcnib.symm hCnone hCfil hSnone rfl
          hsibA hfilPne, hcP']

/-- Processing one branch record of the removal spine that keeps at least
two children after the removed key's bit is cleared: the branch is written
back with the reduced mask. -/
theorem collapse_branch_many_step {K0 : List (List Nat)} {l cur : List Nat}
    {nib : Nat} {B : List RemovedSparseNode}
    (hpf : PrefFree (l :: K0)) (hK0 : K0 ≠ [])
    (hcl : cur <+: l) (hg : l.get? cur.length = some nib)
    (hTwo : ∃ ka, ka ∈ K0.filter (fun k => isPre cur k) ∧
      ∃ kb, kb ∈ K0.filter (fun k => isPre cur k) ∧
      ∃ x y, ka.get? cur.length = some x ∧ kb.get? cur.length = some y ∧
        x ≠ y) :
    collapseLoop B
      ⟨cur, SparseNode.new_branch
        (maskOfS (K0.filter (fun k => isPre cur k)) cur), none⟩
      (mset (collapseTab K0 l (cur ++ [nib])) cur
        (SparseNode.new_branch (maskOfS (K0.filter (fun k => isPre cur k)) cur)))
    = collapseLoop B ⟨cur, childNode K0 l cur, none⟩ (collapseTab K0 l cur) := by
  obtain ⟨ka, hka, kb, hkb, x, y, hgx, hgy, hxy⟩ := hTwo
  have hkane : ka ≠ kb := by
    intro h
    rw [h, hgy] at hgx
    exact hxy (Option.some.inj hgx).symm
  have h2len : 2 ≤ (K0.filter (fun k => isPre cur k)).length :=
    two_mem_le_length hka hkb hkane
  have hkaK0 : ka ∈ K0 := (mem_filter_pre.mp hka).1
  have hkbK0 : kb ∈ K0 := (mem_filter_pre.mp hkb).1
  have hcka : cur <+: ka := (mem_filter_pre.mp hka).2
  have hckb : cur <+: kb := (mem_filter_pre.mp hkb).2
  have hfilPne : (l :: K0).filter (fun k => isPre cur k) ≠ [l] := by
    intro h
    have hmem : ka ∈ (l :: K0).filter (fun k => isPre cur k) :=
      mem_filter_pre.mpr ⟨List.mem_cons_of_mem _ hkaK0, hcka⟩
    rw [h] at hmem
    have hkal : ka = l := by simpa using hmem
    subst hkal
    exact (List.nodup_cons.mp (PrefFree.ndup hpf)).1 hkaK0
  have hcP' : childNode K0 l cur =
      canonNodeOf (K0.filter (fun k => isPre cur k)) cur := by
    unfold childNode
    rw [if_neg hfilPne]
  have hlcpcur : (lcpList (K0.filter (fun k => isPre cur k))).length
      = cur.length := by
    have hcurlcp : cur <+: lcpList (K0.filter (fun k => isPre cur k)) :=
      pre_lcpList (List.ne_nil_of_mem hka) (fun k hk => (mem_filter_pre.mp hk).2)
    have hnlt : ¬ cur.length <
        (lcpList (K0.filter (fun k => isPre cur k))).length := by
      intro hlt
      have h1 := get?_of_pre (lcpList_pre ka hka) hlt
      have h2 := get?_of_pre (lcpList_pre kb hkb) hlt
      rw [hgx] at h1
      rw [hgy] at h2
      rw [← h2] at h1
      exact hxy (Option.some.inj h1)
    have := hcurlcp.length_le
    omega
  have hval : canonNodeOf (K0.filter (fun k => isPre cur k)) cur =
      SparseNode.new_branch (maskOfS (K0.filter (fun k => isPre cur k)) cur) := by
    rw [canonNodeOf_two h2len, if_pos hlcpcur]
  have hbr : branchPosB (l :: K0) cur = true :=
    branchPos_iff.mpr ⟨ka, List.mem_cons_of_mem _ hkaK0, kb,
      List.mem_cons_of_mem _ hkbK0, hcka, hckb, x, y, hgx, hgy, hxy⟩
  have hbrK0 : branchPosB K0 cur = true :=
    branchPos_iff.mpr ⟨ka, hkaK0, kb, hkbK0, hcka, hckb, x, y, hgx, hgy, hxy⟩
  have hCl : cur ++ [nib] <+: l := pre_get_snoc hcl hg
  have hCval : canonNodes K0 (cur ++ [nib]) =
      (if (l :: K0).filter (fun k => isPre (cur ++ [nib]) k) = [l] then none
       else some (canonNodeOf (K0.filter (fun k => isPre (cur ++ [nib]) k))
         (cur ++ [nib]))) := by
    by_cases hFCl : (l :: K0).filter (fun k => isPre (cur ++ [nib]) k) = [l]
    · rw [if_pos hFCl]
      have hF0C : K0.filter (fun k => isPre (cur ++ [nib]) k) = [] := by
        have h := hFCl
        rw [filter_cons_pre hCl] at h
        simpa using h
      refine canon_not_nodePos hK0 ?_
      intro hc
      obtain ⟨⟨k, hk, hqk⟩, -⟩ := nodePos_iff.mp hc
      have hmem : k ∈ K0.filter (fun j => isPre (cur ++ [nib]) j) :=
        mem_filter_pre.mpr ⟨hk, hqk⟩
      rw [hF0C] at hmem
      simp at hmem
    · rw [if_neg hFCl]
      have hF0Cne : K0.filter (fun k => isPre (cur ++ [nib]) k) ≠ [] := by
        intro h0
        apply hFCl
        rw [filter_cons_pre hCl, h0]
      obtain ⟨k', t, hne⟩ := List.exists_cons_of_ne_nil hF0Cne
      have hk' : k' ∈ K0.filter (fun k => isPre (cur ++ [nib]) k) := by
        rw [hne]
        exact List.mem_cons_self _ _
      refine canon_nodePos_some hK0 (nodePos_iff.mpr
        ⟨⟨k', (mem_filter_pre.mp hk').1, (mem_filter_pre.mp hk').2⟩,
          Or.inr (Or.inr ?_)⟩)
      rw [List.dropLast_concat]
      exact hbrK0
  have hsib := canon_sib_of_branch hK0 hcl hg hbr hbrK0
  rw [← hval, collapseTab_branch_keep hCval rfl hsib hfilPne, hcP']

/-- Clearing the removed key's child bit of a canonical branch mask yields
the mask over the surviving keys, provided no surviving key shares that
child slot. -/
theorem unset_mask_of_no_child {K0 : List (List Nat)} {l cur : List Nat}
    {nib : Nat}
    (hpf : PrefFree (l :: K0)) (hnib : NibAll (l :: K0))
    (hcl : cur <+: l) (hg : l.get? cur.length = some nib)
    (hF0C : K0.filter (fun k => isPre (cur ++ [nib]) k) = []) :
    unsetBit (maskOfS ((l :: K0).filter (fun k => isPre cur k)) cur) nib
      = maskOfS (K0.filter (fun k => isPre cur k)) cur := by
  have hnibl : nib < 16 := hnib l (List.mem_cons_self _ _) nib (List.get?_mem hg)
  apply Nat.eq_of_testBit_eq
  intro i
  rw [unsetBit_testBit hnibl]
  apply bool_eq_of_iff
  simp only [Bool.and_eq_true, decide_eq_true_eq, maskOfS_testBit_iff]
  constructor
  · rintro ⟨⟨hi16, k, hk, hgk⟩, -, hinib⟩
    rcases List.mem_cons.mp (mem_filter_pre.mp hk).1 with rfl | hkK0
    · rw [hg] at hgk
      exact absurd (Option.some.inj hgk).symm hinib
    · exact ⟨hi16, k, mem_filter_pre.mpr ⟨hkK0, (mem_filter_pre.mp hk).2⟩, hgk⟩
  · rintro ⟨hi16, k, hk, hgk⟩
    refine ⟨⟨hi16, k, mem_filter_pre.mpr
      ⟨List.mem_cons_of_mem _ (mem_filter_pre.mp hk).1,
        (mem_filter_pre.mp hk).2⟩, hgk⟩, hi16, ?_⟩
    intro hinib
    subst hinib
    have hCk : cur ++ [i] <+: k := pre_get_snoc (mem_filter_pre.mp hk).2 hgk
    have hmem : k ∈ K0.filter (fun j => isPre (cur ++ [i]) j) :=
      mem_filter_pre.mpr ⟨(mem_filter_pre.mp hk).1, hCk⟩
    rw [hF0C] at hmem
    simp at hmem

/-- The collapse loop of `remove_leaf` run over the removal spine records
of a canonical trie transforms the phase-one table into the collapsed state
at the top of the spine. -/
theorem collapse_spine {K0 : List (List Nat)} {l : List Nat}
    (hpf : PrefFree (l :: K0)) (hnib : NibAll (l :: K0)) (hK0 : K0 ≠ []) :
    ∀ {P recs}, Spine (l :: K0) l P recs → P <+: l →
      nodePosB (l :: K0) P = true →
      ∀ B leafrec, recs.getLast? = some leafrec →
      collapseLoop (recs.dropLast.reverse ++ B) leafrec
        (fun q => if isPre q l = true ∧ nodePosB (l :: K0) q = true then none
          else canonNodes (l :: K0) q) =
      collapseLoop B ⟨P, childNode K0 l P, none⟩ (collapseTab K0 l P) := by
  intro P recs hsp
  induction hsp with
  | @leafEnd cur hfil =>
    intro hcl hpos B leafrec hlast
    have hleaf : leafrec =
        (⟨cur, .leaf (l.drop cur.length) none, none⟩ : RemovedSparseNode) := by
      have h1 : ([(⟨cur, .leaf (l.drop cur.length) none, none⟩ :
          RemovedSparseNode)]).getLast?
          = some ⟨cur, .leaf (l.drop cur.length) none, none⟩ := rfl
      rw [h1] at hlast
      exact (Option.some.inj hlast).symm
    subst hleaf
    have hre : ([(⟨cur, SparseNode.leaf (l.drop cur.length) none, none⟩ :
        RemovedSparseNode)]).dropLast.reverse ++ B = B := rfl
    have hcn : childNode K0 l cur = SparseNode.leaf (l.drop cur.length) none := by
      unfold childNode
      rw [if_pos hfil]
    rw [hre, hcn, collapseTab_leaf_base hpf hfil hcl hpos]
  | @extStep cur recs hS2 hce hlce hsp ih =>
    intro hcl hpos B leafrec hlast
    obtain ⟨E, hEdef⟩ :
        ∃ E, lcpList ((l :: K0).filter (fun k => isPre cur k)) = E := ⟨_, rfl⟩
    rw [hEdef] at hce hlce hsp ih ⊢
    have hlmem : l ∈ (l :: K0).filter (fun k => isPre cur k) :=
      mem_filter_pre.mpr ⟨List.mem_cons_self _ _, hcl⟩
    have hEl : E <+: l := by
      have h := lcpList_pre l hlmem
      rw [hEdef] at h
      exact h
    have hposE : nodePosB (l :: K0) E = true := by
      refine nodePos_iff.mpr ⟨⟨l, List.mem_cons_self _ _, hEl⟩,
        Or.inr (Or.inl ?_)⟩
      have h := branchPos_lcp_filter hpf hS2
      rw [hEdef] at h
      exact h
    have hrne : recs ≠ [] := Spine.ne_nil hsp
    obtain ⟨r0, recs0, rfl⟩ := List.exists_cons_of_ne_nil hrne
    rw [List.getLast?_cons_cons] at hlast
    have hdl : ((⟨cur, SparseNode.ext (E.drop cur.length) none, none⟩ ::
          r0 :: recs0) : List RemovedSparseNode).dropLast
        = (⟨cur, SparseNode.ext (E.drop cur.length) none, none⟩ :
            RemovedSparseNode) :: (r0 :: recs0).dropLast := rfl
    have hstep := ih hEl hposE
      ((⟨cur, SparseNode.ext (E.drop cur.length) none, none⟩ :
        RemovedSparseNode) :: B) leafrec hlast
    rw [hdl, List.reverse_cons, List.append_assoc, List.singleton_append, hstep]
    exact collapse_ext_step hpf hK0 hcl hce hlce hEdef hS2
  | @branchStep cur nib u recs hS2 hlcp hg hu hsp ih =>
    intro hcl hpos B leafrec hlast
    subst hu
    have hCl : cur ++ [nib] <+: l := pre_get_snoc hcl hg
    have hbrcur : branchPosB (l :: K0) cur = true := by
      have h := branchPos_lcp_filter hpf hS2
      rw [hlcp] at h
      exact h
    have hposC : nodePosB (l :: K0) (cur ++ [nib]) = true :=
      nodePos_iff.mpr ⟨⟨l, List.mem_cons_self _ _, hCl⟩,
        Or.inr (Or.inr (by rw [List.dropLast_concat]; exact hbrcur))⟩
    have hrne : recs ≠ [] := Spine.ne_nil hsp
    obtain ⟨r0, recs0, rfl⟩ := List.exists_cons_of_ne_nil hrne
    rw [List.getLast?_cons_cons] at hlast
    have hdl : ((⟨cur, SparseNode.branch
          (maskOfS ((l :: K0).filter (fun k => isPre cur k)) cur) none,
          if ((l :: K0).filter (fun k => isPre (cur ++ [nib]) k)).length = 1
          then some nib else none⟩ :: r0 :: recs0)
          : List RemovedSparseNode).dropLast
        = (⟨cur, SparseNode.branch
          (maskOfS ((l :: K0).filter (fun k => isPre cur k)) cur) none,
          if ((l :: K0).filter (fun k => isPre (cur ++ [nib]) k)).length = 1
          then some nib else none⟩ : RemovedSparseNode)
          :: (r0 :: recs0).dropLast := rfl
    have hstep := ih hCl hposC
      ((⟨cur, SparseNode.branch
        (maskOfS ((l :: K0).filter (fun k => isPre cur k)) cur) none,
        if ((l :: K0).filter (fun k => isPre (cur ++ [nib]) k)).length = 1
        then some nib else none⟩ : RemovedSparseNode) :: B) leafrec hlast
    rw [hdl, List.reverse_cons, List.append_assoc, List.singleton_append, hstep]
    by_cases hone : ((l :: K0).filter (fun k => isPre (cur ++ [nib]) k)).length = 1
    · rw [if_pos hone]
      have hFCl : (l :: K0).filter (fun k => isPre (cur ++ [nib]) k) = [l] :=
        singleton_of_length_one_mem hone
          (mem_filter_pre.mpr ⟨List.mem_cons_self _ _, hCl⟩)
      have hF0C : K0.filter (fun k => isPre (cur ++ [nib]) k) = [] := by
        have h := hFCl
        rw [filter_cons_pre hCl] at h
        simpa using h
      by_cases hcnt : countBits16
          (maskOfS (K0.filter (fun k => isPre cur k)) cur) = 1
      · exact collapse_branch_one_step hpf hnib hK0 hcl hg hlcp hS2 hF0C hcnt
      · have hfilPne : (l :: K0).filter (fun k => isPre cur k) ≠ [l] := by
          intro h
          rw [h] at hS2
          simp at hS2
        have hF0Pne : K0.filter (fun k => isPre cur k) ≠ [] := by
          intro h
          apply hfilPne
          rw [filter_cons_pre hcl, h]
        obtain ⟨ka, t0, hF0⟩ := List.exists_cons_of_ne_nil hF0Pne
        have hka : ka ∈ K0.filter (fun k => isPre cur k) := by
          rw [hF0]
          exact List.mem_cons_self _ _
        obtain ⟨xa, hxa16, hgxa⟩ := key_get_of_filter hpf hnib hcl ka
          (mem_filter_pre.mp hka).1 (mem_filter_pre.mp hka).2
        have hbita : (maskOfS (K0.filter (fun k => isPre cur k)) cur).testBit xa
            = true := maskOfS_testBit_iff.mpr ⟨hxa16, ka, hka, hgxa⟩
        obtain ⟨d, hd16, hbitd, hdxa⟩ := countBits16_ne_one hcnt hxa16 hbita
        obtain ⟨-, kb, hkb, hgkb⟩ := maskOfS_testBit_iff.mp hbitd
        have hm1 := unset_mask_of_no_child hpf hnib hcl hg hF0C
        have hstep2 := @collapseLoop_branch_many cur
          (maskOfS ((l :: K0).filter (fun k => isPre cur k)) cur)
          (maskOfS (K0.filter (fun k => isPre cur k)) cur) none (some nib)
          ⟨cur ++ [nib], childNode K0 l (cur ++ [nib]), none⟩ B
          (collapseTab K0 l (cur ++ [nib])) hm1 hcnt
        rw [hstep2]
        exact collapse_branch_many_step hpf hK0 hcl hg
          ⟨ka, hka, kb, hkb, xa, d, hgxa, hgkb, Ne.symm hdxa⟩
    · rw [if_neg hone]
      have hF0Cne : K0.filter (fun k => isPre (cur ++ [nib]) k) ≠ [] := by
        intro h0
        apply hone
        rw [filter_cons_pre hCl, h0]
        rfl
      obtain ⟨k', t', hne'⟩ := List.exists_cons_of_ne_nil hF0Cne
      have hk' : k' ∈ K0.filter (fun k => isPre (cur ++ [nib]) k) := by
        rw [hne']
        exact List.mem_cons_self _ _
      have hk'K0 : k' ∈ K0 := (mem_filter_pre.mp hk').1
      have hCk' : cur ++ [nib] <+: k' := (mem_filter_pre.mp hk').2
      have hck' : cur <+: k' := (List.prefix_append cur [nib]).trans hCk'
      have hgk' : k'.get? cur.length = some nib := by
        rw [get?_of_pre hCk' (by simp)]
        exact get_snoc cur nib
      have hm1 : maskOfS ((l :: K0).filter (fun k => isPre cur k)) cur
          = maskOfS (K0.filter (fun k => isPre cur k)) cur := by
        apply Nat.eq_of_testBit_eq
        intro i
        apply bool_eq_of_iff
        rw [maskOfS_testBit_iff, maskOfS_testBit_iff]
        constructor
        · rintro ⟨hi16, k, hk, hgk⟩
          rcases List.mem_cons.mp (mem_filter_pre.mp hk).1 with rfl | hkK0
          · rw [hg] at hgk
            have hinib : i = nib := (Option.some.inj hgk).symm
            subst hinib
            exact ⟨hi16, k', mem_filter_pre.mpr ⟨hk'K0, hck'⟩, hgk'⟩
          · exact ⟨hi16, k, mem_filter_pre.mpr
              ⟨hkK0, (mem_filter_pre.mp hk).2⟩, hgk⟩
        · rintro ⟨hi16, k, hk, hgk⟩
          exact ⟨hi16, k, mem_filter_pre.mpr
            ⟨List.mem_cons_of_mem _ (mem_filter_pre.mp hk).1,
              (mem_filter_pre.mp hk).2⟩, hgk⟩
      obtain ⟨k1, hk1, k2, hk2, x, y, hgx, hgy, hxy⟩ :=
        lcp_diverge hS2 (PrefFree.filter_sub hpf _)
      rw [hlcp] at hgx hgy
      have hmk : ∀ k ∈ (l :: K0).filter (fun j => isPre cur j), k ≠ l →
          k ∈ K0.filter (fun j => isPre cur j) := by
        intro k hk hknl
        rcases List.mem_cons.mp (mem_filter_pre.mp hk).1 with rfl | hkK0
        · exact absurd rfl hknl
        · exact mem_filter_pre.mpr ⟨hkK0, (mem_filter_pre.mp hk).2⟩
      have hTwo : ∃ ka, ka ∈ K0.filter (fun k => isPre cur k) ∧
          ∃ kb, kb ∈ K0.filter (fun k => isPre cur k) ∧
          ∃ a b, ka.get? cur.length = some a ∧ kb.get? cur.length = some b ∧
            a ≠ b := by
        by_cases h1l : k1 = l
        · by_cases h2l : k2 = l
          · exfalso
            rw [h1l, hg] at hgx
            rw [h2l, hg] at hgy
            exact hxy ((Option.some.inj hgx).symm.trans (Option.some.inj hgy))
          · rw [h1l, hg] at hgx
            have hxnib : x = nib := (Option.some.inj hgx).symm
            subst hxnib
            exact ⟨k', mem_filter_pre.mpr ⟨hk'K0, hck'⟩, k2, hmk k2 hk2 h2l,
              x, y, hgk', hgy, hxy⟩
        · by_cases h2l : k2 = l
          · rw [h2l, hg] at hgy
            have hynib : y = nib := (Option.some.inj hgy).symm
            subst hynib
            exact ⟨k1, hmk k1 hk1 h1l, k', mem_filter_pre.mpr ⟨hk'K0, hck'⟩,
              x, y, hgx, hgk', hxy⟩
          · exact ⟨k1, hmk k1 hk1 h1l, k2, hmk k2 hk2 h2l, x, y, hgx, hgy, hxy⟩
      have hcnt : ¬ countBits16
          (maskOfS (K0.filter (fun k => isPre cur k)) cur) = 1 := by
        obtain ⟨ka, hka, kb, hkb, a, b, hga, hgb, hab⟩ := hTwo
        have ha16 : a < 16 := hnib ka
          (List.mem_cons_of_mem _ (mem_filter_pre.mp hka).1) a (List.get?_mem hga)
        have hb16 : b < 16 := hnib kb
          (List.mem_cons_of_mem _ (mem_filter_pre.mp hkb).1) b (List.get?_mem hgb)
        intro h1
        obtain ⟨c0, -, -, hcuniq, -⟩ := countBits16_one h1
        have hac : a = c0 :=
          hcuniq a ha16 (maskOfS_testBit_iff.mpr ⟨ha16, ka, hka, hga⟩)
        have hbc : b = c0 :=
          hcuniq b hb16 (maskOfS_testBit_iff.mpr ⟨hb16, kb, hkb, hgb⟩)
        exact hab (hac.trans hbc.symm)
      have hstep2 := @collapseLoop_branch_many cur
        (maskOfS ((l :: K0).filter (fun k => isPre cur k)) cur)
        (maskOfS (K0.filter (fun k => isPre cur k)) cur) none none
        ⟨cur ++ [nib], childNode K0 l (cur ++ [nib]), none⟩ B
        (collapseTab K0 l (cur ++ [nib])) hm1 hcnt
      rw [hstep2]
      exact collapse_branch_many_step hpf hK0 hcl hg hTwo

/-- `remove_leaf` of a stored key on the canonical trie of `l :: K0`
succeeds and leaves the canonical trie of the surviving keys `K0`. -/
theorem remove_leaf_canonical {K0 : List (List Nat)} {l : List Nat}
    {vals : ValMap} {ps : List (List Nat)} {w : List Nat} {fuel : Nat}
    (hpf : PrefFree (l :: K0)) (hnib : NibAll (l :: K0))
    (hval : vals l = some w)
    (hfuel : l.length + 2 ≤ fuel) :
    remove_leaf ⟨canonNodes (l :: K0), vals, ps⟩ l fuel =
      some (.ok, ⟨canonNodes K0, mdel vals l, ps ++ [l]⟩) := by
  have hpos0 : nodePosB (l :: K0) [] = true :=
    nodePos_iff.mpr ⟨⟨l, List.mem_cons_self _ _, nilPre l⟩, Or.inl rfl⟩
  obtain ⟨recs, hspine, htake⟩ := takeNodes_canonical hpf
    (List.mem_cons_self l K0) fuel [] [] (nilPre l) hpos0 (by omega)
  have htab0 : (fun q => if isPre q ([] : List Nat) = true ∧ q ≠ [] ∧
      nodePosB (l :: K0) q = true then none else canonNodes (l :: K0) q)
      = canonNodes (l :: K0) := by
    funext q
    rw [if_neg]
    rintro ⟨h1, h2, -⟩
    exact h2 (List.prefix_nil.mp (isPre_iff.mp h1))
  rw [htab0, List.nil_append] at htake
  by_cases hK0e : K0 = []
  · subst hK0e
    cases hspine with
    | leafEnd hfil =>
      have htabnil : mset (fun q => if isPre q l = true ∧
          nodePosB (l :: ([] : List (List Nat))) q = true
          then none else canonNodes (l :: ([] : List (List Nat))) q)
          [] SparseNode.empty = canonNodes ([] : List (List Nat)) := by
        funext q
        by_cases hq : q = []
        · subst hq
          rw [mset_self]
          unfold canonNodes
          rw [if_pos (by simp), if_pos (by simp)]
        · rw [mset_ne _ _ hq]
          have hr : canonNodes ([] : List (List Nat)) q = none := by
            unfold canonNodes
            rw [if_pos (by simp), if_neg (by simpa using hq)]
          rw [hr]
          by_cases hnp : nodePosB (l :: ([] : List (List Nat))) q = true
          · obtain ⟨⟨k, hk, hqk⟩, -⟩ := nodePos_iff.mp hnp
            have hkl : k = l := by simpa using hk
            subst hkl
            rw [if_pos ⟨isPre_iff.mpr hqk, hnp⟩]
          · rw [if_neg (by rintro ⟨-, h2⟩; exact hnp h2)]
            exact canon_not_nodePos (by simp) hnp
      unfold remove_leaf
      dsimp only
      rw [if_neg (by simp [hval]), htake]
      show some (RunResult.ok,
        (⟨mset (fun q => if isPre q l = true ∧
            nodePosB (l :: ([] : List (List Nat))) q = true then none
            else canonNodes (l :: ([] : List (List Nat))) q) [] SparseNode.empty,
          mdel vals l, ps ++ [l]⟩ : RevealedSparseTrie))
        = some (RunResult.ok,
          (⟨canonNodes ([] : List (List Nat)), mdel vals l, ps ++ [l]⟩ :
            RevealedSparseTrie))
      rw [htabnil]
    | extStep hS2 hce hlce hsp' =>
      exfalso
      have hle : ((l :: ([] : List (List Nat))).filter
          (fun k => isPre ([] : List Nat) k)).length ≤ 1 := by
        simpa using List.length_filter_le (fun k => isPre ([] : List Nat) k) [l]
      omega
    | branchStep hS2 hlcp hg hu hsp' =>
      exfalso
      have hle : ((l :: ([] : List (List Nat))).filter
          (fun k => isPre ([] : List Nat) k)).length ≤ 1 := by
        simpa using List.length_filter_le (fun k => isPre ([] : List Nat) k) [l]
      omega
  · -- at least one surviving key
    rcases hlast : recs.getLast? with _ | lr
    · exfalso
      exact Spine.ne_nil hspine (List.getLast?_eq_none.mp hlast)
    have hdlne : recs.dropLast ≠ [] := by
      have hsp2 := hspine
      cases hsp2 with
      | leafEnd hfil =>
        exfalso
        have hfull : (l :: K0).filter (fun k => isPre ([] : List Nat) k)
            = l :: K0 :=
          List.filter_eq_self.mpr (fun k hk => isPre_iff.mpr (nilPre k))
        rw [hfull] at hfil
        exact hK0e (by simpa using hfil)
      | extStep hS2 hce hlce hsp' =>
        obtain ⟨r1, recs1, hre⟩ := List.exists_cons_of_ne_nil (Spine.ne_nil hsp')
        rw [hre]
        simp
      | branchStep hS2 hlcp hg hu hsp' =>
        obtain ⟨r1, recs1, hre⟩ := List.exists_cons_of_ne_nil (Spine.ne_nil hsp')
        rw [hre]
        simp
    have hfull : (l :: K0).filter (fun k => isPre ([] : List Nat) k) = l :: K0 :=
      List.filter_eq_self.mpr (fun k hk => isPre_iff.mpr (nilPre k))
    have hfilne : (l :: K0).filter (fun k => isPre ([] : List Nat) k) ≠ [l] := by
      rw [hfull]
      intro h
      exact hK0e (by simpa using h)
    obtain ⟨k0, K1, hK0c⟩ := List.exists_cons_of_ne_nil hK0e
    have hnp0K0 : nodePosB K0 [] = true :=
      nodePos_iff.mpr ⟨⟨k0, by rw [hK0c]; exact List.mem_cons_self _ _,
        nilPre k0⟩, Or.inl rfl⟩
    have hfin : collapseTab K0 l [] = canonNodes K0 := by
      funext q
      unfold collapseTab
      by_cases hq : q = []
      · subst hq
        rw [if_neg (by rintro ⟨-, h2, -⟩; exact h2 rfl), if_pos rfl,
          if_neg hfilne, canon_nodePos_some hK0e hnp0K0]
      · rw [if_neg (by
            rintro ⟨h1, -, -⟩
            exact hq (List.prefix_nil.mp (isPre_iff.mp h1))),
          if_neg hq, if_pos (isPre_iff.mpr (nilPre q))]
    have hcs := collapse_spine hpf hnib hK0e hspine (nilPre l) hpos0 [] lr hlast
    rw [List.append_nil] at hcs
    have hcoll : collapseLoop recs.dropLast.reverse lr
        (fun q => if isPre q l = true ∧ nodePosB (l :: K0) q = true then none
          else canonNodes (l :: K0) q) = (.ok, canonNodes K0) := by
      rw [hcs]
      show (RunResult.ok, collapseTab K0 l []) = _
      rw [hfin]
    unfold remove_leaf
    dsimp only
    rw [if_neg (by simp [hval]), htake]
    dsimp only
    rw [hlast]
    try dsimp only
    rw [if_neg (by simpa using hdlne), hcoll]

/-- Sequentially removing an enumeration of the key set from the canonical
trie succeeds and ends at the canonical empty trie. -/
theorem removeSeq_canonical :
    ∀ (order keys : List (List Nat)) (vals : ValMap) (ps : List (List Nat)),
      PrefFree keys → NibAll keys → List.Perm order keys →
      (∀ q, (vals q).isSome = true ↔ q ∈ keys) →
      ∃ vals' ps', removeSeq ⟨canonNodes keys, vals, ps⟩ order =
          some ⟨canonNodes [], vals', ps'⟩ ∧ ∀ q, vals' q = none := by
  intro order
  induction order with
  | nil =>
    intro keys vals ps hpf hnib hperm hsupp
    have hkeys : keys = [] := List.Perm.eq_nil hperm.symm
    subst hkeys
    refine ⟨vals, ps, rfl, ?_⟩
    intro q
    have hs := hsupp q
    simp only [List.not_mem_nil, iff_false] at hs
    exact Option.not_isSome_iff_eq_none.mp hs
  | cons p rest ih =>
    intro keys vals ps hpf hnib hperm hsupp
    have hpmem : p ∈ keys := hperm.mem_iff.mp (List.mem_cons_self _ _)
    obtain ⟨K0, hper2⟩ : ∃ K0, List.Perm keys (p :: K0) :=
      ⟨_, List.perm_cons_erase hpmem⟩
    have hpfE : PrefFree (p :: K0) :=
      (List.Perm.pairwise_iff (fun hab => ⟨hab.2, hab.1⟩) hper2).mp hpf
    have hnibE : NibAll (p :: K0) := fun k hk => hnib k (hper2.mem_iff.mpr hk)
    obtain ⟨w, hw⟩ := Option.isSome_iff_exists.mp ((hsupp p).mpr hpmem)
    have heq : canonNodes keys = canonNodes (p :: K0) := canonNodes_perm hper2
    have hrm := @remove_leaf_canonical K0 p vals ps w (p.length + 2)
      hpfE hnibE hw (le_refl (p.length + 2))
    rw [heq]
    have hstep : removeSeq ⟨canonNodes (p :: K0), vals, ps⟩ (p :: rest)
        = removeSeq ⟨canonNodes K0, mdel vals p, ps ++ [p]⟩ rest := by
      conv_lhs => unfold removeSeq
      rw [hrm]
    rw [hstep]
    refine ih K0 (mdel vals p) (ps ++ [p]) (List.Pairwise.of_cons hpfE)
      (fun k hk => hnibE k (List.mem_cons_of_mem _ hk))
      (List.Perm.cons_inv (hperm.trans hper2)) ?_
    intro q
    by_cases hq : q = p
    · subst hq
      rw [mdel_self]
      constructor
      · intro h
        simp at h
      · intro h
        exfalso
        have hnd2 : (q :: K0).Nodup := hper2.nodup_iff.mp (PrefFree.ndup hpf)
        exact (List.nodup_cons.mp hnd2).1 h
    · rw [mdel_ne _ hq, hsupp q, hper2.mem_iff]
      simp [hq]

/-- C5: removing every key stored in the value table of an update-built
trie — in any enumeration order of the value table's support — succeeds
call by call and leaves the node table holding exactly the single entry
mapping the empty path to `Empty`, with an empty value table. -/
theorem remove_all_leaves_empty {t : RevealedSparseTrie} (hb : UBuilt t)
    {order : List (List Nat)} (hnd : order.Nodup)
    (hsupp : ∀ q, (t.values q).isSome = true ↔ q ∈ order) :
    ∃ t', removeSeq t order = some t' ∧
      t'.nodes = mset mempty [] SparseNode.empty ∧
      ∀ q, t'.values q = none := by
  obtain ⟨keys, hpf, hnib, hnodes, hsupp2⟩ := UBuilt_canonical hb
  obtain ⟨N, V, P⟩ := t
  dsimp only at hnodes hsupp hsupp2
  subst hnodes
  have hperm : List.Perm order keys := by
    refine (List.perm_ext_iff_of_nodup hnd (PrefFree.ndup hpf)).mpr ?_
    intro a
    exact (hsupp a).symm.trans (hsupp2 a)
  obtain ⟨vals', ps', hrun, hempty⟩ :=
    removeSeq_canonical order keys V P hpf hnib hperm hsupp2
  refine ⟨⟨canonNodes [], vals', ps'⟩, hrun, ?_, hempty⟩
  show canonNodes [] = mset mempty [] SparseNode.empty
  rw [canonNodes_nil_eq]
  rfl

/-- Witness for C5 on a concrete one-key trie: insert the key `[1]` into
the revealed empty trie, remove it again, and land on the empty node table
and empty value table. -/
theorem remove_all_leaves_empty_witness :
    ∃ t', removeSeq ⟨mset (mset mempty [] SparseNode.empty) []
          (SparseNode.new_leaf [1]), mset mempty [1] [7], [[1]]⟩ [[1]]
        = some t' ∧ t'.nodes = mset mempty [] SparseNode.empty ∧
        ∀ q, t'.values q = none := by
  have hup : update_leaf revealedEmpty [1] [7] 3 =
      some (.ok, ⟨mset (mset mempty [] SparseNode.empty) []
        (SparseNode.new_leaf [1]), mset mempty [1] [7], [[1]]⟩) := rfl
  refine remove_all_leaves_empty (UBuilt.step UBuilt.base ?_ hup) ?_ ?_
  · intro x hx
    have hx1 : x = 1 := by simpa using hx
    omega
  · simp
  · intro q
    show (mset mempty [1] [7] q).isSome = true ↔ q ∈ [[1]]
    unfold mset mempty
    by_cases hq : q = [1]
    · subst hq
      simp
    · rw [if_neg hq]
      simp [hq]

theorem hbSteps_nil (P : Prims) (M : List (List Nat × List Nat)) (fuel : Nat) :
    hbSteps P M fuel [] = some [] := by
  cases fuel <;> rfl

theorem hbSteps_zero_cons (P : Prims) (M : List (List Nat × List Nat))
    (p : List Nat) (t : List (List Nat)) : hbSteps P M 0 (p :: t) = none := rfl

theorem hbSteps_cons_iff {P : Prims} {M : List (List Nat × List Nat)}
    {fuel : Nat} {p : List Nat} {prest : List (List Nat)}
    {rs : List (List Nat)} :
    hbSteps P M (fuel + 1) (p :: prest) = some rs ↔
      ∃ cs r rs', hbSteps P M fuel (hbChildPaths (M.map Prod.fst) p) = some cs ∧
        hbAssemble P M p cs = some r ∧ hbSteps P M fuel prest = some rs' ∧
        rs = r :: rs' := by
  constructor
  · intro h
    unfold hbSteps at h
    rcases hc : hbSteps P M fuel (hbChildPaths (M.map Prod.fst) p) with _ | cs <;>
      rw [hc] at h
    · simp at h
    · dsimp only at h
      rcases ha : hbAssemble P M p cs with _ | r <;>
        rcases hb : hbSteps P M fuel prest with _ | rs' <;>
          rw [ha, hb] at h
      · simp at h
      · simp at h
      · simp at h
      · exact ⟨cs, r, rs', rfl, ha, rfl, (Option.some.inj h).symm⟩
  · rintro ⟨cs, r, rs', hc, ha, hb, rfl⟩
    unfold hbSteps
    rw [hc]
    dsimp only
    rw [ha, hb]

theorem hbSteps_mono {P : Prims} {M : List (List Nat × List Nat)} :
    ∀ {fuel : Nat} {l rs : List (List Nat)},
      hbSteps P M fuel l = some rs → hbSteps P M (fuel + 1) l = some rs := by
  intro fuel
  induction fuel with
  | zero =>
    intro l rs h
    cases l with
    | nil =>
      rw [hbSteps_nil] at h
      rw [hbSteps_nil]
      exact h
    | cons p t =>
      rw [hbSteps_zero_cons] at h
      simp at h
  | succ n ih =>
    intro l rs h
    cases l with
    | nil =>
      rw [hbSteps_nil] at h
      rw [hbSteps_nil]
      exact h
    | cons p t =>
      rw [hbSteps_cons_iff] at h ⊢
      obtain ⟨cs, r, rs', hc, ha, hb, rfl⟩ := h
      exact ⟨cs, r, rs', ih hc, ha, ih hb, rfl⟩

theorem hbSteps_mono_le {P : Prims} {M : List (List Nat × List Nat)}
    {f1 f2 : Nat} (h : f1 ≤ f2) {l rs : List (List Nat)}
    (hs : hbSteps P M f1 l = some rs) : hbSteps P M f2 l = some rs := by
  induction h with
  | refl => exact hs
  | step _ ih => exact hbSteps_mono ih

theorem hbSteps_forall₂ {P : Prims} {M : List (List Nat × List Nat)} :
    ∀ {fuel : Nat} {l rs : List (List Nat)},
      hbSteps P M fuel l = some rs →
      List.Forall₂ (fun p r => hbSteps P M fuel [p] = some [r]) l rs := by
  intro fuel
  induction fuel with
  | zero =>
    intro l rs h
    cases l with
    | nil =>
      rw [hbSteps_nil] at h
      obtain rfl : rs = [] := (Option.some.inj h).symm
      exact List.Forall₂.nil
    | cons p t =>
      rw [hbSteps_zero_cons] at h
      simp at h
  | succ n ih =>
    intro l rs h
    cases l with
    | nil =>
      rw [hbSteps_nil] at h
      obtain rfl : rs = [] := (Option.some.inj h).symm
      exact List.Forall₂.nil
    | cons p t =>
      rw [hbSteps_cons_iff] at h
      obtain ⟨cs, r, rs', hc, ha, hb, rfl⟩ := h
      refine List.Forall₂.cons ?_ ?_
      · rw [hbSteps_cons_iff]
        exact ⟨cs, r, [], hc, ha, hbSteps_nil P M n, rfl⟩
      · exact (ih hb).imp (fun a b hx => hbSteps_mono hx)

theorem hbSteps_of_forall₂ {P : Prims} {M : List (List Nat × List Nat)}
    {fuel : Nat} : ∀ {l rs : List (List Nat)},
    List.Forall₂ (fun p r => hbSteps P M fuel [p] = some [r]) l rs →
    hbSteps P M (fuel + l.length) l = some rs := by
  intro l rs hf
  induction hf with
  | nil => rw [hbSteps_nil]
  | @cons p r t ts hh _ ih =>
    cases fuel with
    | zero =>
      rw [hbSteps_zero_cons] at hh
      simp at hh
    | succ f' =>
      rw [hbSteps_cons_iff] at hh
      obtain ⟨cs, r0, rs0, hc, ha, hb0, heq⟩ := hh
      have h1 := heq
      simp only [List.cons.injEq] at h1
      rw [h1.1.symm] at ha
      have hgoal : (f' + 1) + (p :: t).length = ((f' + 1) + t.length) + 1 := by
        rw [List.length_cons]
        omega
      rw [hgoal, hbSteps_cons_iff]
      exact ⟨cs, r, ts,
        hbSteps_mono_le (by omega) hc, ha, ih, rfl⟩

theorem forall₂_reverse {α β : Type} {R : α → β → Prop} {l : List α}
    {r : List β} (h : List.Forall₂ R l r) :
    List.Forall₂ R l.reverse r.reverse :=
  List.forall₂_reverse_iff.mpr h

theorem zip_reverse_of_length {α β : Type} : ∀ {l : List α} {r : List β},
    l.length = r.length → l.reverse.zip r.reverse = (l.zip r).reverse := by
  intro l
  induction l with
  | nil =>
    intro r hlen
    cases r with
    | nil => rfl
    | cons b s => simp at hlen
  | cons a t ih =>
    intro r hlen
    cases r with
    | nil => simp at hlen
    | cons b s =>
      have hlen' : t.length = s.length := by simpa using hlen
      simp only [List.reverse_cons, List.zip_cons_cons]
      rw [List.zip_append (by simp [hlen']), ih hlen']
      rfl

theorem popChildren_zip : ∀ (l rs : List (List Nat))
    (stk : List (List Nat × List Nat)) (acc : List (List Nat)),
    l.length = rs.length →
    popChildren l (l.zip rs ++ stk) acc = (some (acc ++ rs), stk) := by
  intro l
  induction l with
  | nil =>
    intro rs stk acc hlen
    obtain rfl : rs = [] := by
      cases rs with
      | nil => rfl
      | cons b s => simp at hlen
    show popChildren [] stk acc = _
    unfold popChildren
    simp
  | cons c ct ih =>
    intro rs stk acc hlen
    cases rs with
    | nil => simp at hlen
    | cons r rt =>
      show popChildren (c :: ct) ((c, r) :: (ct.zip rt ++ stk)) acc = _
      unfold popChildren
      rw [if_pos rfl, ih rt stk (acc ++ [r]) (by simpa using hlen),
        List.append_assoc]
      rfl

theorem rlpLoop_finish {P : Prims} {values : ValMap} {ps : List (List Nat)}
    {fuel : Nat} {N : NodeMap} {q r : List Nat}
    {stk : List (List Nat × List Nat)} :
    rlpLoop P values ps (fuel + 1) N [] ((q, r) :: stk) =
      some (.okR r N) := rfl

theorem rlpLoop_step_empty {P : Prims} {values : ValMap} {ps : List (List Nat)}
    {fuel : Nat} {N : NodeMap} {path : List Nat} {rest : List (List Nat)}
    {stk : List (List Nat × List Nat)}
    (hN : N path = some .empty) :
    rlpLoop P values ps (fuel + 1) N (path :: rest) stk =
      rlpLoop P values ps fuel N rest
        ((path, P.wordRlp P.emptyRootHash) :: stk) := by
  conv_lhs => unfold rlpLoop
  dsimp only
  rw [hN]

theorem rlpLoop_step_leaf {P : Prims} {values : ValMap} {ps : List (List Nat)}
    {fuel : Nat} {N : NodeMap} {path key v : List Nat}
    {rest : List (List Nat)} {stk : List (List Nat × List Nat)}
    (hN : N path = some (.leaf key none))
    (hv : values (path ++ key) = some v) :
    rlpLoop P values ps (fuel + 1) N (path :: rest) stk =
      rlpLoop P values ps fuel
        (mset N path (.leaf key (P.asHash (P.leafRlp key v)))) rest
        ((path, P.leafRlp key v) :: stk) := by
  conv_lhs => unfold rlpLoop
  dsimp only
  rw [hN]
  dsimp only
  rw [hv]

theorem rlpLoop_step_ext_pop {P : Prims} {values : ValMap}
    {ps : List (List Nat)} {fuel : Nat} {N : NodeMap} {path key c : List Nat}
    {rest : List (List Nat)} {stk : List (List Nat × List Nat)}
    (hN : N path = some (.ext key none)) :
    rlpLoop P values ps (fuel + 1) N (path :: rest) ((path ++ key, c) :: stk) =
      rlpLoop P values ps fuel
        (mset N path (.ext key (P.asHash (P.extRlp key c)))) rest
        ((path, P.extRlp key c) :: stk) := by
  conv_lhs => unfold rlpLoop
  dsimp only
  rw [hN]
  dsimp only
  rw [if_pos rfl]

theorem rlpLoop_step_ext_push_nil {P : Prims} {values : ValMap}
    {ps : List (List Nat)} {fuel : Nat} {N : NodeMap} {path key : List Nat}
    {rest : List (List Nat)}
    (hN : N path = some (.ext key none)) :
    rlpLoop P values ps (fuel + 1) N (path :: rest) [] =
      rlpLoop P values ps fuel N ((path ++ key) :: path :: rest) [] := by
  conv_lhs => unfold rlpLoop
  dsimp only
  rw [hN]

theorem rlpLoop_step_ext_push_ne {P : Prims} {values : ValMap}
    {ps : List (List Nat)} {fuel : Nat} {N : NodeMap} {path key q c : List Nat}
    {rest : List (List Nat)} {stk : List (List Nat × List Nat)}
    (hN : N path = some (.ext key none)) (hne : q ≠ path ++ key) :
    rlpLoop P values ps (fuel + 1) N (path :: rest) ((q, c) :: stk) =
      rlpLoop P values ps fuel N ((path ++ key) :: path :: rest)
        ((q, c) :: stk) := by
  conv_lhs => unfold rlpLoop
  dsimp only
  rw [hN]
  dsimp only
  rw [if_neg hne]

theorem rlpLoop_step_branch_push {P : Prims} {values : ValMap}
    {ps : List (List Nat)} {fuel : Nat} {N : NodeMap} {path : List Nat}
    {mask : Nat} {rest : List (List Nat)} {stk : List (List Nat × List Nat)}
    (hN : N path = some (.branch mask none))
    (hpop : popChildren ((List.range 16).filterMap
        (fun i => if mask.testBit i then some (path ++ [i]) else none)) stk []
      = (none, stk)) :
    rlpLoop P values ps (fuel + 1) N (path :: rest) stk =
      rlpLoop P values ps fuel N
        (((List.range 16).filterMap
            (fun i => if mask.testBit i then some (path ++ [i]) else none)).reverse
          ++ path :: rest) stk := by
  conv_lhs => unfold rlpLoop
  dsimp only
  rw [hN]
  dsimp only
  rw [hpop]

theorem rlpLoop_step_branch_pop {P : Prims} {values : ValMap}
    {ps : List (List Nat)} {fuel : Nat} {N : NodeMap} {path : List Nat}
    {mask : Nat} {cs : List (List Nat)} {rest : List (List Nat)}
    {stk stk' : List (List Nat × List Nat)}
    (hN : N path = some (.branch mask none))
    (hpop : popChildren ((List.range 16).filterMap
        (fun i => if mask.testBit i then some (path ++ [i]) else none)) stk []
      = (some cs, stk')) :
    rlpLoop P values ps (fuel + 1) N (path :: rest) stk =
      rlpLoop P values ps fuel
        (mset N path (.branch mask (P.asHash (P.branchRlp cs mask)))) rest
        ((path, P.branchRlp cs mask) :: stk') := by
  conv_lhs => unfold rlpLoop
  dsimp only
  rw [hN]
  dsimp only
  rw [hpop]

/-! ### The encoder on a canonical table computes the reference encodings -/

theorem snoc_not_pre {path : List Nat} {i j : Nat} (hij : i ≠ j) :
    ¬ path ++ [i] <+: path ++ [j] := by
  intro h
  have heq := h.eq_of_length (by simp)
  exact hij (by simpa using List.append_cancel_left heq)

theorem childPaths_mem {mask : Nat} {path q : List Nat} :
    q ∈ (List.range 16).filterMap
        (fun i => if mask.testBit i then some (path ++ [i]) else none) ↔
      ∃ i, i < 16 ∧ mask.testBit i = true ∧ q = path ++ [i] := by
  rw [List.mem_filterMap]
  constructor
  · rintro ⟨i, hi, hcond⟩
    by_cases hb : mask.testBit i = true
    · rw [if_pos hb] at hcond
      exact ⟨i, List.mem_range.mp hi, hb, (Option.some.inj hcond).symm⟩
    · rw [if_neg hb] at hcond
      simp at hcond
  · rintro ⟨i, hi16, hb, rfl⟩
    exact ⟨i, List.mem_range.mpr hi16, by rw [if_pos hb]⟩

theorem childPaths_pairwise {mask : Nat} {path : List Nat} :
    List.Pairwise (fun a b => ¬ a <+: b ∧ ¬ b <+: a)
      ((List.range 16).filterMap
        (fun i => if mask.testBit i then some (path ++ [i]) else none)) := by
  rw [List.pairwise_filterMap]
  refine List.Pairwise.imp ?_ (List.nodup_range 16)
  intro i j hij b hb bb hbb
  by_cases h1 : mask.testBit i = true
  · rw [if_pos h1] at hb
    by_cases h2 : mask.testBit j = true
    · rw [if_pos h2] at hbb
      simp only [Option.mem_def, Option.some.injEq] at hb hbb
      subst hb
      subst hbb
      exact ⟨snoc_not_pre hij, snoc_not_pre (Ne.symm hij)⟩
    · rw [if_neg h2] at hbb
      simp at hbb
  · rw [if_neg h1] at hb
    simp at hb

theorem popChildren_none {l : List (List Nat)} {stk : List (List Nat × List Nat)}
    (hne : l ≠ []) (hstk : ∀ e ∈ stk, e.1 ∉ l) :
    popChildren l stk [] = (none, stk) := by
  obtain ⟨c, cs, rfl⟩ := List.exists_cons_of_ne_nil hne
  cases stk with
  | nil => rfl
  | cons e es =>
    obtain ⟨q, r⟩ := e
    have hqc : ¬ q = c := by
      intro hq
      exact hstk (q, r) (List.mem_cons_self _ _)
        (by rw [hq]; exact List.mem_cons_self _ _)
    show popChildren (c :: cs) ((q, r) :: es) [] = _
    unfold popChildren
    rw [if_neg hqc]

theorem canon_keys_ne_nil {keys : List (List Nat)} {p : List Nat}
    {n : SparseNode} (h : canonNodes keys p = some n) (hno : n ≠ .empty) :
    keys ≠ [] := by
  intro hk
  subst hk
  unfold canonNodes at h
  split at h
  · split at h
    · exact hno (Option.some.inj h).symm
    · simp at h
  · rename_i hne
    exact hne rfl

theorem childPaths_ne_nil {keys : List (List Nat)} {p : List Nat} {mask : Nat}
    (hpf : PrefFree keys) (hnib : NibAll keys)
    (h2 : 2 ≤ (keys.filter (fun k => isPre p k)).length)
    (hmask : mask = maskOfS (keys.filter (fun k => isPre p k)) p) :
    (List.range 16).filterMap
      (fun i => if mask.testBit i then some (p ++ [i]) else none) ≠ [] := by
  have hndk : keys.Nodup := by
    refine List.Pairwise.imp ?_ hpf
    intro a b h
    intro heq
    exact h.1 (by rw [heq])
  have hnd : (keys.filter (fun k => isPre p k)).Nodup :=
    List.Nodup.filter _ hndk
  obtain ⟨a, b, t, hS⟩ : ∃ a b t,
      keys.filter (fun k => isPre p k) = a :: b :: t := by
    rcases hS0 : keys.filter (fun k => isPre p k) with _ | ⟨a, _ | ⟨b, t⟩⟩
    · rw [hS0] at h2; simp at h2
    · rw [hS0] at h2; simp at h2
    · exact ⟨a, b, t, rfl⟩
  have hndS := hnd
  rw [hS] at hndS
  have hab : a ≠ b := (List.pairwise_cons.mp hndS).1 b (List.mem_cons_self _ _)
  have haS : a ∈ keys.filter (fun k => isPre p k) := by
    rw [hS]; exact List.mem_cons_self _ _
  have hbS : b ∈ keys.filter (fun k => isPre p k) := by
    rw [hS]; exact List.mem_cons_of_mem _ (List.mem_cons_self _ _)
  have hpick : ∃ k ∈ keys.filter (fun k => isPre p k), k ≠ p := by
    by_cases hap : a = p
    · exact ⟨b, hbS, fun h => hab (hap.trans h.symm)⟩
    · exact ⟨a, haS, hap⟩
  obtain ⟨k, hkS, hkp⟩ := hpick
  have hkkeys : k ∈ keys := List.mem_of_mem_filter hkS
  have hppre : p <+: k := isPre_iff.mp (List.of_mem_filter hkS)
  have hlt : p.length < k.length := by
    rcases lt_or_eq_of_le hppre.length_le with h | h
    · exact h
    · exact absurd (hppre.eq_of_length h) (fun he => hkp he.symm)
  obtain ⟨i, hi⟩ := get?_isSome_of_lt hlt
  have hi16 : i < 16 := hnib k hkkeys i (List.get?_mem hi)
  have hbit : mask.testBit i = true := by
    rw [hmask]
    exact maskOfS_testBit_iff.mpr ⟨hi16, k, hkS, hi⟩
  exact List.ne_nil_of_mem (childPaths_mem.mpr ⟨i, hi16, hbit, rfl⟩)

theorem rlpLoop_canonical_steps {M : List (List Nat × List Nat)} {P : Prims}
    {values : ValMap} {ps : List (List Nat)}
    (hpf : PrefFree (M.map Prod.fst)) (hnib : NibAll (M.map Prod.fst))
    (hv : ∀ k ∈ M.map Prod.fst, values k = lookupV M k) :
    ∀ fb : Nat, ∀ todo rs : List (List Nat),
      List.Forall₂ (fun p r => hbSteps P M fb [p] = some [r]) todo rs →
      ∀ N : NodeMap, ∀ stk : List (List Nat × List Nat),
        (∀ p ∈ todo, ∀ q, p <+: q → N q = canonNodes (M.map Prod.fst) q) →
        List.Pairwise (fun a b => ¬ a <+: b ∧ ¬ b <+: a) todo →
        (∀ e ∈ stk, ∀ p ∈ todo, ¬ p <+: e.1) →
        ∃ c : Nat, ∃ N2 : NodeMap,
          (∀ q, (∀ p ∈ todo, ¬ p <+: q) → N2 q = N q) ∧
          ∀ rest fuel,
            rlpLoop P values ps (c + fuel) N (todo ++ rest) stk =
            rlpLoop P values ps fuel N2 rest ((todo.zip rs).reverse ++ stk) := by
  intro fb
  induction fb with
  | zero =>
    intro todo rs hf N stk hfresh hdisj hstk
    cases hf with
    | nil =>
      exact ⟨0, N, fun q _ => rfl, fun rest fuel => by rw [Nat.zero_add]; rfl⟩
    | cons hh _ =>
      rw [hbSteps_zero_cons] at hh
      simp at hh
  | succ fb ihfb =>
    intro todo rs hf
    induction hf with
    | nil =>
      intro N stk hfresh hdisj hstk
      exact ⟨0, N, fun q _ => rfl, fun rest fuel => by rw [Nat.zero_add]; rfl⟩
    | @cons p r prest rs' hhead htail ihtail =>
      intro N stk hfresh hdisj hstk
      rw [hbSteps_cons_iff] at hhead
      obtain ⟨cs, r0, rs0, hcs, hasm, -, heq0⟩ := hhead
      have h01 : r0 = r := by
        simp only [List.cons.injEq] at heq0
        exact heq0.1.symm
      rw [h01] at hasm
      have hNp : N p = canonNodes (M.map Prod.fst) p :=
        hfresh p (List.mem_cons_self _ _) p (List.prefix_refl p)
      have hmain : ∃ c1 : Nat, ∃ N1 : NodeMap,
          (∀ q, ¬ p <+: q → N1 q = N q) ∧
          ∀ rest fuel,
            rlpLoop P values ps (c1 + fuel) N (p :: rest) stk =
            rlpLoop P values ps fuel N1 rest ((p, r) :: stk) := by
        unfold hbAssemble at hasm
        rcases hcan : canonNodes (M.map Prod.fst) p with
          _ | (_ | dg | ⟨key, hh⟩ | ⟨key, hh⟩ | ⟨mask, hh⟩)
        · rw [hcan] at hasm
          simp at hasm
        · -- the canonical node at the head position is Empty
          rw [hcan] at hasm hNp
          dsimp only at hasm
          obtain rfl : P.wordRlp P.emptyRootHash = r := Option.some.inj hasm
          refine ⟨1, N, fun q _ => rfl, fun rest fuel => ?_⟩
          rw [Nat.add_comm 1 fuel, rlpLoop_step_empty hNp]
        · -- a canonical table never stores a Hash placeholder
          exact absurd hcan canon_no_hash
        · -- Leaf head: one step, encoding the stored value
          have hkne : M.map Prod.fst ≠ [] := canon_keys_ne_nil hcan (by simp)
          obtain ⟨hh0, hpos, k0, hfil, hkey⟩ := canon_leaf_inv hkne hcan
          subst hh0
          rw [hcan] at hasm hNp
          dsimp only at hasm
          have hk0mem : k0 ∈ (M.map Prod.fst).filter (fun k => isPre p k) := by
            rw [hfil]
            exact List.mem_cons_self _ _
          have hk0keys : k0 ∈ M.map Prod.fst := List.mem_of_mem_filter hk0mem
          have hfull : p ++ key = k0 := by
            rw [hkey]
            exact append_drop_of_pre (isPre_iff.mp (List.of_mem_filter hk0mem))
          rcases hlv : lookupV M (p ++ key) with _ | v
          · rw [hlv] at hasm
            simp at hasm
          · rw [hlv] at hasm
            dsimp only at hasm
            obtain rfl : P.leafRlp key v = r := Option.some.inj hasm
            have hval : values (p ++ key) = some v := by
              rw [hfull, hv k0 hk0keys, ← hfull, hlv]
            refine ⟨1, mset N p (.leaf key (P.asHash (P.leafRlp key v))), ?_, ?_⟩
            · intro q hq
              have hqp : q ≠ p := by
                intro hx
                exact hq (by rw [hx])
              exact mset_ne N _ hqp
            · intro rest fuel
              rw [Nat.add_comm 1 fuel, rlpLoop_step_leaf hNp hval]
        · -- Extension head: recurse into the single child, then pop it
          have hkne : M.map Prod.fst ≠ [] := canon_keys_ne_nil hcan (by simp)
          obtain ⟨hh0, hpos, hS2, hkeyeq, hlne⟩ := canon_ext_inv hkne hcan
          subst hh0
          rw [hcan] at hNp
          have hcp : hbChildPaths (M.map Prod.fst) p = [p ++ key] := by
            unfold hbChildPaths
            rw [hcan]
          rw [hcp] at hcs
          rw [hcan] at hasm
          dsimp only at hasm
          have hfilne : (M.map Prod.fst).filter (fun k => isPre p k) ≠ [] := by
            intro h0
            rw [h0] at hS2
            simp at hS2
          have hple : p.length ≤
              (lcpList ((M.map Prod.fst).filter (fun k => isPre p k))).length :=
            (lcpList_filter_pre hfilne).length_le
          have hkeyne : key ≠ [] := by
            intro hk
            have hd : (lcpList ((M.map Prod.fst).filter
                (fun k => isPre p k))).drop p.length = [] := by
              rw [← hkeyeq, hk]
            have h0 : (lcpList ((M.map Prod.fst).filter
                (fun k => isPre p k))).length - p.length = 0 := by
              rw [← List.length_drop, hd]
              rfl
            exact hlne (le_antisymm (Nat.le_of_sub_eq_zero h0) hple)
          have hnpp : ¬ (p ++ key) <+: p := by
            intro hx
            have hxl := hx.length_le
            rw [List.length_append] at hxl
            have hk0 : key.length = 0 := by omega
            exact hkeyne (List.eq_nil_of_length_eq_zero hk0)
          rcases cs with _ | ⟨c, _ | ⟨c2, cs2⟩⟩
          · dsimp only at hasm
            exact absurd hasm (by simp)
          · dsimp only at hasm
            obtain rfl : P.extRlp key c = r := Option.some.inj hasm
            have hfz : List.Forall₂ (fun q s => hbSteps P M fb [q] = some [s])
                [p ++ key] [c] := List.Forall₂.cons hcs List.Forall₂.nil
            have hfz1 : ∀ pp ∈ [p ++ key], ∀ q, pp <+: q →
                N q = canonNodes (M.map Prod.fst) q := by
              intro pp hpp q hpq
              obtain rfl : pp = p ++ key := by simpa using hpp
              exact hfresh p (List.mem_cons_self _ _) q
                ((List.prefix_append p key).trans hpq)
            have hfz2 : List.Pairwise (fun a b => ¬ a <+: b ∧ ¬ b <+: a)
                [p ++ key] := List.Pairwise.cons (by simp) List.Pairwise.nil
            have hfz3 : ∀ e ∈ stk, ∀ pp ∈ [p ++ key], ¬ pp <+: e.1 := by
              intro e he pp hpp hpe
              obtain rfl : pp = p ++ key := by simpa using hpp
              exact hstk e he p (List.mem_cons_self _ _)
                ((List.prefix_append p key).trans hpe)
            obtain ⟨cc, Nc, hfrc, heqc⟩ := ihfb [p ++ key] [c] hfz N stk hfz1 hfz2 hfz3
            have hNc : Nc p = some (.ext key none) := by
              rw [hfrc p ?_]
              · exact hNp
              · intro pp hpp
                obtain rfl : pp = p ++ key := by simpa using hpp
                exact hnpp
            refine ⟨cc + 2, mset Nc p (.ext key (P.asHash (P.extRlp key c))), ?_, ?_⟩
            · intro q hq
              have hqp : q ≠ p := by
                intro hx
                exact hq (by rw [hx])
              rw [mset_ne Nc _ hqp]
              refine hfrc q ?_
              intro pp hpp hx
              obtain rfl : pp = p ++ key := by simpa using hpp
              exact hq ((List.prefix_append p key).trans hx)
            · intro rest fuel
              have harith : (cc + 2) + fuel = (cc + (fuel + 1)) + 1 := by omega
              rw [harith]
              have e2 := heqc (p :: rest) (fuel + 1)
              simp only [List.cons_append, List.nil_append, List.zip_cons_cons,
                List.zip_nil_left, List.zip_nil_right, List.reverse_cons,
                List.reverse_nil] at e2
              rcases stk with _ | ⟨⟨q0, c0⟩, stk2⟩
              · rw [rlpLoop_step_ext_push_nil hNp, e2, rlpLoop_step_ext_pop hNc]
              · have hq0 : q0 ≠ p ++ key := by
                  intro hx
                  refine hstk (q0, c0) (List.mem_cons_self _ _) p
                    (List.mem_cons_self _ _) ?_
                  rw [hx]
                  exact List.prefix_append p key
                rw [rlpLoop_step_ext_push_ne hNp hq0, e2, rlpLoop_step_ext_pop hNc]
          · dsimp only at hasm
            exact absurd hasm (by simp)
        · -- Branch head: recurse into all children, then pop them in order
          have hkne : M.map Prod.fst ≠ [] := canon_keys_ne_nil hcan (by simp)
          obtain ⟨hh0, hpos, hS2, hmask, hlcp⟩ := canon_branch_inv hkne hcan
          subst hh0
          rw [hcan] at hNp
          have hcp : hbChildPaths (M.map Prod.fst) p =
              (List.range 16).filterMap
                (fun i => if mask.testBit i then some (p ++ [i]) else none) := by
            unfold hbChildPaths
            rw [hcan]
          rw [hcp] at hcs
          rw [hcan] at hasm
          dsimp only at hasm
          obtain rfl : P.branchRlp cs mask = r := Option.some.inj hasm
          have hf2 := hbSteps_forall₂ hcs
          have hlen : ((List.range 16).filterMap
              (fun i => if mask.testBit i then some (p ++ [i]) else none)).length
              = cs.length := hf2.length_eq
          have hmemP : ∀ q ∈ (List.range 16).filterMap
              (fun i => if mask.testBit i then some (p ++ [i]) else none),
              p <+: q ∧ ¬ q <+: p := by
            intro q hq
            obtain ⟨i, hi16, hbit, rfl⟩ := childPaths_mem.mp hq
            refine ⟨List.prefix_append p [i], ?_⟩
            intro hx
            have hxl := hx.length_le
            rw [List.length_append, List.length_singleton] at hxl
            omega
          have hf2r := forall₂_reverse hf2
          have hfb1 : ∀ pp ∈ ((List.range 16).filterMap
              (fun i => if mask.testBit i then some (p ++ [i]) else none)).reverse,
              ∀ q, pp <+: q → N q = canonNodes (M.map Prod.fst) q := by
            intro pp hpp q hpq
            exact hfresh p (List.mem_cons_self _ _) q
              ((hmemP pp (List.mem_reverse.mp hpp)).1.trans hpq)
          have hfb2 : List.Pairwise (fun a b => ¬ a <+: b ∧ ¬ b <+: a)
              ((List.range 16).filterMap
                (fun i => if mask.testBit i then some (p ++ [i]) else none)).reverse :=
            (List.pairwise_reverse).mpr (childPaths_pairwise.imp
              (fun h => ⟨h.2, h.1⟩))
          have hfb3 : ∀ e ∈ stk, ∀ pp ∈ ((List.range 16).filterMap
              (fun i => if mask.testBit i then some (p ++ [i]) else none)).reverse,
              ¬ pp <+: e.1 := by
            intro e he pp hpp hx
            exact hstk e he p (List.mem_cons_self _ _)
              ((hmemP pp (List.mem_reverse.mp hpp)).1.trans hx)
          obtain ⟨cc, Nc, hfrc, heqc⟩ := ihfb _ _ hf2r N stk hfb1 hfb2 hfb3
          have hNc : Nc p = some (.branch mask none) := by
            rw [hfrc p ?_]
            · exact hNp
            · intro pp hpp
              exact (hmemP pp (List.mem_reverse.mp hpp)).2
          have hcne : (List.range 16).filterMap
              (fun i => if mask.testBit i then some (p ++ [i]) else none) ≠ [] :=
            childPaths_ne_nil hpf hnib hS2 hmask
          have hpop1 : popChildren ((List.range 16).filterMap
              (fun i => if mask.testBit i then some (p ++ [i]) else none)) stk []
              = (none, stk) := by
            refine popChildren_none hcne ?_
            intro e he hmem
            exact hstk e he p (List.mem_cons_self _ _) (hmemP e.1 hmem).1
          have hpop2 := popChildren_zip
            ((List.range 16).filterMap
              (fun i => if mask.testBit i then some (p ++ [i]) else none))
            cs stk [] hlen
          rw [List.nil_append] at hpop2
          refine ⟨cc + 2,
            mset Nc p (.branch mask (P.asHash (P.branchRlp cs mask))), ?_, ?_⟩
          · intro q hq
            have hqp : q ≠ p := by
              intro hx
              exact hq (by rw [hx])
            rw [mset_ne Nc _ hqp]
            refine hfrc q ?_
            intro pp hpp hx
            exact hq ((hmemP pp (List.mem_reverse.mp hpp)).1.trans hx)
          · intro rest fuel
            have harith : (cc + 2) + fuel = (cc + (fuel + 1)) + 1 := by omega
            rw [harith, rlpLoop_step_branch_push hNp hpop1]
            have e2 := heqc (p :: rest) (fuel + 1)
            rw [zip_reverse_of_length hlen, List.reverse_reverse] at e2
            rw [e2, rlpLoop_step_branch_pop hNc hpop2]
      obtain ⟨c1, N1, hfr1, heq1⟩ := hmain
      have hfresh2 : ∀ pp ∈ prest, ∀ q, pp <+: q →
          N1 q = canonNodes (M.map Prod.fst) q := by
        intro pp hpp q hpq
        have hnotp : ¬ p <+: q := by
          intro hpq2
          rcases pre_trans_cases hpq2 hpq with h | h
          · exact ((List.pairwise_cons.mp hdisj).1 pp hpp).1 h
          · exact ((List.pairwise_cons.mp hdisj).1 pp hpp).2 h
        rw [hfr1 q hnotp]
        exact hfresh pp (List.mem_cons_of_mem _ hpp) q hpq
      have hdisj2 : List.Pairwise (fun a b => ¬ a <+: b ∧ ¬ b <+: a) prest :=
        (List.pairwise_cons.mp hdisj).2
      have hstk2 : ∀ e ∈ (p, r) :: stk, ∀ pp ∈ prest, ¬ pp <+: e.1 := by
        intro e he pp hpp
        rcases List.mem_cons.mp he with rfl | he2
        · exact ((List.pairwise_cons.mp hdisj).1 pp hpp).2
        · exact hstk e he2 pp (List.mem_cons_of_mem _ hpp)
      obtain ⟨c2, N2, hfr2, heq2⟩ := ihtail N1 ((p, r) :: stk) hfresh2 hdisj2 hstk2
      refine ⟨c1 + c2, N2, ?_, ?_⟩
      · intro q hq
        rw [hfr2 q (fun pp hpp => hq pp (List.mem_cons_of_mem _ hpp)),
          hfr1 q (hq p (List.mem_cons_self _ _))]
      · intro rest fuel
        have harith : (c1 + c2) + fuel = c1 + (c2 + fuel) := by omega
        have hstack : ((p :: prest).zip (r :: rs')).reverse ++ stk
            = (prest.zip rs').reverse ++ ((p, r) :: stk) := by
          rw [List.zip_cons_cons, List.reverse_cons, List.append_assoc]
          rfl
        rw [harith, hstack, List.cons_append, heq1 (prest ++ rest) (c2 + fuel),
          heq2 rest fuel]

/-! ### Totality of the reference builder on a canonical trie -/

theorem canon_ext_child_some {keys : List (List Nat)}
    (hpf : PrefFree keys) {p key : List Nat} {hh : Option B256}
    (hcan : canonNodes keys p = some (.ext key hh)) :
    (canonNodes keys (p ++ key)).isSome = true := by
  have hkne : keys ≠ [] := canon_keys_ne_nil hcan (by simp)
  obtain ⟨hh0, hpos, hS2, hkeyeq, hlne⟩ := canon_ext_inv hkne hcan
  have hfilne : keys.filter (fun k => isPre p k) ≠ [] := by
    intro h0
    rw [h0] at hS2
    simp at hS2
  have hfull : p ++ key = lcpList (keys.filter (fun k => isPre p k)) := by
    rw [hkeyeq]
    exact append_drop_of_pre (lcpList_filter_pre hfilne)
  have hbp : branchPosB keys (p ++ key) = true := by
    rw [hfull]
    exact branchPos_lcp_filter hpf hS2
  obtain ⟨k1, hk1⟩ := List.exists_mem_of_ne_nil _ hfilne
  have hnode : nodePosB keys (p ++ key) = true := by
    rw [nodePos_iff]
    refine ⟨⟨k1, (mem_filter_pre.mp hk1).1, ?_⟩, Or.inr (Or.inl hbp)⟩
    rw [hfull]
    exact lcpList_pre k1 hk1
  rw [canon_nodePos_some hkne hnode]
  rfl

theorem canon_pos_len {keys : List (List Nat)} {p : List Nat} {L : Nat}
    (hL : ∀ k ∈ keys, k.length ≤ L)
    (hsome : (canonNodes keys p).isSome = true) : p.length ≤ L := by
  by_cases hk : keys = []
  · subst hk
    unfold canonNodes at hsome
    split at hsome
    · split at hsome
      · rename_i hp
        rw [List.isEmpty_iff.mp hp]
        exact Nat.zero_le L
      · simp at hsome
    · rename_i hne
      exact absurd rfl hne
  · have hpos : nodePosB keys p = true := by
      unfold canonNodes at hsome
      split at hsome
      · rename_i he
        exact absurd (List.isEmpty_iff.mp he) hk
      · split at hsome
        · rename_i h
          exact h
        · simp at hsome
    obtain ⟨⟨k, hkm, hkp⟩, -⟩ := nodePos_iff.mp hpos
    exact le_trans hkp.length_le (hL k hkm)

theorem canon_root_some {keys : List (List Nat)} :
    (canonNodes keys []).isSome = true := by
  by_cases hk : keys = []
  · subst hk
    rfl
  · obtain ⟨k, hkm⟩ := List.exists_mem_of_ne_nil _ hk
    have hpos : nodePosB keys [] = true :=
      nodePos_iff.mpr ⟨⟨k, hkm, List.nil_prefix⟩, Or.inl rfl⟩
    rw [canon_nodePos_some hk hpos]
    rfl

theorem forall₂_of_pointwise {α β : Type} {R : α → β → Prop} :
    ∀ {l : List α}, (∀ a ∈ l, ∃ b, R a b) → ∃ rs, List.Forall₂ R l rs := by
  intro l
  induction l with
  | nil => exact fun _ => ⟨[], List.Forall₂.nil⟩
  | cons a t ih =>
    intro h
    obtain ⟨b, hb⟩ := h a (List.mem_cons_self _ _)
    obtain ⟨rs, hrs⟩ := ih (fun x hx => h x (List.mem_cons_of_mem _ hx))
    exact ⟨b :: rs, List.Forall₂.cons hb hrs⟩

theorem lookupV_of_mem {k v : List Nat} :
    ∀ {M : List (List Nat × List Nat)}, (M.map Prod.fst).Nodup →
      (k, v) ∈ M → lookupV M k = some v := by
  intro M
  induction M with
  | nil =>
    intro _ h
    simp at h
  | cons kv rest ih =>
    intro hnd h
    rw [List.map_cons] at hnd
    rcases List.mem_cons.mp h with rfl | h2
    · unfold lookupV
      rw [List.find?_cons_of_pos _ (by simp)]
      rfl
    · have hne : kv.1 ≠ k := by
        refine (List.pairwise_cons.mp hnd).1 k ?_
        exact List.mem_map.mpr ⟨(k, v), h2, rfl⟩
      have htail := ih (List.pairwise_cons.mp hnd).2 h2
      unfold lookupV
      rw [List.find?_cons_of_neg _ (by simp [hne])]
      exact htail

theorem hbSteps_total {P : Prims} {M : List (List Nat × List Nat)}
    (hpf : PrefFree (M.map Prod.fst)) (hnib : NibAll (M.map Prod.fst)) {L : Nat}
    (hL : ∀ k ∈ M.map Prod.fst, k.length ≤ L) :
    ∀ d p, (canonNodes (M.map Prod.fst) p).isSome = true →
      L + 1 - p.length ≤ d →
      ∃ r, hbSteps P M (18 ^ d) [p] = some [r] := by
  intro d
  induction d with
  | zero =>
    intro p hsome hle
    have := canon_pos_len hL hsome
    omega
  | succ dd ih =>
    intro p hsome hle
    have hone : 1 ≤ (18 : Nat) ^ (dd + 1) := Nat.one_le_pow _ _ (by norm_num)
    have honedd : 1 ≤ (18 : Nat) ^ dd := Nat.one_le_pow _ _ (by norm_num)
    have hpow : (18 : Nat) ^ (dd + 1) = 18 ^ dd * 18 := pow_succ 18 dd
    have hX : (18 : Nat) ^ (dd + 1) = ((18 : Nat) ^ (dd + 1) - 1) + 1 := by
      omega
    rcases hc : canonNodes (M.map Prod.fst) p with _ | nd
    · rw [hc] at hsome
      simp at hsome
    rcases nd with _ | dg | ⟨key, hh⟩ | ⟨key, hh⟩ | ⟨mask, hh⟩
    · -- Empty node: no children
      refine ⟨P.wordRlp P.emptyRootHash, ?_⟩
      rw [hX, hbSteps_cons_iff]
      refine ⟨[], P.wordRlp P.emptyRootHash, [], ?_, ?_, hbSteps_nil P M _, rfl⟩
      · have hcp : hbChildPaths (M.map Prod.fst) p = [] := by
          unfold hbChildPaths
          rw [hc]
        rw [hcp, hbSteps_nil]
      · unfold hbAssemble
        rw [hc]
    · exact absurd hc canon_no_hash
    · -- Leaf node: its key is stored in M
      have hkne : M.map Prod.fst ≠ [] := canon_keys_ne_nil hc (by simp)
      obtain ⟨hh0, hpos, k0, hfil, hkey⟩ := canon_leaf_inv hkne hc
      have hk0mem : k0 ∈ (M.map Prod.fst).filter (fun k => isPre p k) := by
        rw [hfil]
        exact List.mem_cons_self _ _
      have hfull : p ++ key = k0 := by
        rw [hkey]
        exact append_drop_of_pre (isPre_iff.mp (List.of_mem_filter hk0mem))
      have hk0keys : k0 ∈ M.map Prod.fst := List.mem_of_mem_filter hk0mem
      obtain ⟨kv, hkvM, hkv1⟩ := List.mem_map.mp hk0keys
      have hlv : ∃ v, lookupV M (p ++ key) = some v := by
        unfold lookupV
        rw [hfull]
        cases hf : M.find? (fun kvp => kvp.1 = k0) with
        | none =>
          exfalso
          have hnone := List.find?_eq_none.mp hf kv hkvM
          simp [hkv1] at hnone
        | some kvp => exact ⟨kvp.2, rfl⟩
      obtain ⟨v, hv0⟩ := hlv
      refine ⟨P.leafRlp key v, ?_⟩
      rw [hX, hbSteps_cons_iff]
      refine ⟨[], P.leafRlp key v, [], ?_, ?_, hbSteps_nil P M _, rfl⟩
      · have hcp : hbChildPaths (M.map Prod.fst) p = [] := by
          unfold hbChildPaths
          rw [hc]
        rw [hcp, hbSteps_nil]
      · unfold hbAssemble
        rw [hc]
        dsimp only
        rw [hv0]
    · -- Extension node: recurse into the strictly longer single child
      have hkne : M.map Prod.fst ≠ [] := canon_keys_ne_nil hc (by simp)
      obtain ⟨hh0, hpos, hS2, hkeyeq, hlne⟩ := canon_ext_inv hkne hc
      have hfilne : (M.map Prod.fst).filter (fun k => isPre p k) ≠ [] := by
        intro h0
        rw [h0] at hS2
        simp at hS2
      have hple : p.length ≤
          (lcpList ((M.map Prod.fst).filter (fun k => isPre p k))).length :=
        (lcpList_filter_pre hfilne).length_le
      have hfull : p ++ key =
          lcpList ((M.map Prod.fst).filter (fun k => isPre p k)) := by
        rw [hkeyeq]
        exact append_drop_of_pre (lcpList_filter_pre hfilne)
      have hchildlen : p.length < (p ++ key).length := by
        have hlf := congrArg List.length hfull
        omega
      have hcsome := canon_ext_child_some hpf hc
      obtain ⟨rc, hrc⟩ := ih (p ++ key) hcsome (by omega)
      refine ⟨P.extRlp key rc, ?_⟩
      rw [hX, hbSteps_cons_iff]
      refine ⟨[rc], P.extRlp key rc, [], ?_, ?_, hbSteps_nil P M _, rfl⟩
      · have hcp : hbChildPaths (M.map Prod.fst) p = [p ++ key] := by
          unfold hbChildPaths
          rw [hc]
        rw [hcp]
        exact hbSteps_mono_le (by omega) hrc
      · unfold hbAssemble
        rw [hc]
    · -- Branch node: recurse into every child slot
      have hkne : M.map Prod.fst ≠ [] := canon_keys_ne_nil hc (by simp)
      obtain ⟨-, hchild⟩ := canon_branchInv hpf hnib p mask hh hc
      have hpoint : ∀ q ∈ (List.range 16).filterMap
          (fun i => if mask.testBit i then some (p ++ [i]) else none),
          ∃ s, hbSteps P M (18 ^ dd) [q] = some [s] := by
        intro q hq
        obtain ⟨i, hi16, hbit, rfl⟩ := childPaths_mem.mp hq
        have hqsome := hchild i hi16 hbit
        refine ih (p ++ [i]) hqsome ?_
        rw [List.length_append, List.length_singleton]
        omega
      obtain ⟨cs, hf2⟩ := forall₂_of_pointwise hpoint
      have hsteps := hbSteps_of_forall₂ hf2
      have hlen16 : ((List.range 16).filterMap
          (fun i => if mask.testBit i then some (p ++ [i]) else none)).length
          ≤ 16 := by
        have h1 := List.length_filterMap_le
          (fun i => if mask.testBit i then some (p ++ [i]) else none)
          (List.range 16)
        rw [List.length_range] at h1
        exact h1
      refine ⟨P.branchRlp cs mask, ?_⟩
      rw [hX, hbSteps_cons_iff]
      refine ⟨cs, P.branchRlp cs mask, [], ?_, ?_, hbSteps_nil P M _, rfl⟩
      · have hcp : hbChildPaths (M.map Prod.fst) p =
            (List.range 16).filterMap
              (fun i => if mask.testBit i then some (p ++ [i]) else none) := by
          unfold hbChildPaths
          rw [hc]
        rw [hcp]
        exact hbSteps_mono_le (by omega) hsteps
      · unfold hbAssemble
        rw [hc]

/-! ### Sequential insertion of a fresh prefix-free batch -/

theorem insertSeq_canonical :
    ∀ (todo : List (List Nat × List Nat)) (keys : List (List Nat))
      (vals : ValMap) (ps : List (List Nat)),
      PrefFree (keys ++ todo.map Prod.fst) →
      NibAll (keys ++ todo.map Prod.fst) →
      (∀ kv ∈ todo, vals kv.1 = none) →
      ∃ vals2 ps2,
        insertSeq ⟨canonNodes keys, vals, ps⟩ todo =
          some ⟨canonNodes ((todo.map Prod.fst).reverse ++ keys), vals2, ps2⟩ ∧
        (∀ kv ∈ todo, vals2 kv.1 = some kv.2) ∧
        (∀ q, (∀ kv ∈ todo, q ≠ kv.1) → vals2 q = vals q) := by
  intro todo
  induction todo with
  | nil =>
    intro keys vals ps hpf hnib hnone
    refine ⟨vals, ps, rfl, ?_, ?_⟩
    · intro kv hkv
      simp at hkv
    · intro q _
      rfl
  | cons kv rest ih =>
    intro keys vals ps hpf hnib hnone
    have hpfK : PrefFree keys :=
      List.Pairwise.sublist (List.sublist_append_left keys _) hpf
    have hnibK : NibAll keys := by
      intro k hk
      exact hnib k (List.mem_append.mpr (Or.inl hk))
    have hnp : NibList kv.1 := by
      refine hnib kv.1 (List.mem_append.mpr (Or.inr ?_))
      rw [List.map_cons]
      exact List.mem_cons_self _ _
    have hxr : ∀ a ∈ keys, ∀ b ∈ (kv :: rest).map Prod.fst,
        ¬ a <+: b ∧ ¬ b <+: a := (List.pairwise_append.mp hpf).2.2
    have hfresh : FreshKey keys kv.1 := by
      intro k hk
      exact hxr k hk kv.1 (by rw [List.map_cons]; exact List.mem_cons_self _ _)
    have hvals : vals kv.1 = none := hnone kv (List.mem_cons_self _ _)
    have hstep := @update_leaf_canonical keys kv.1 kv.2 vals ps hpfK hnibK hnp
      hfresh hvals (kv.1.length + 2) (le_refl (kv.1.length + 2))
    have hpfR : List.Pairwise (fun a b => ¬ a <+: b ∧ ¬ b <+: a)
        ((kv :: rest).map Prod.fst) := (List.pairwise_append.mp hpf).2.1
    rw [List.map_cons] at hpfR
    have hne_rest : ∀ kv2 ∈ rest, kv2.1 ≠ kv.1 := by
      intro kv2 hkv2 he
      have hx := (List.pairwise_cons.mp hpfR).1 kv2.1
        (List.mem_map.mpr ⟨kv2, hkv2, rfl⟩)
      exact hx.1 (by rw [he])
    have hpf2 : PrefFree ((kv.1 :: keys) ++ rest.map Prod.fst) := by
      have hperm : (keys ++ (kv :: rest).map Prod.fst).Perm
          (kv.1 :: (keys ++ rest.map Prod.fst)) := by
        rw [List.map_cons]
        exact List.perm_middle
      exact (List.Perm.pairwise_iff (fun hab => ⟨hab.2, hab.1⟩) hperm).mp hpf
    have hnib2 : NibAll ((kv.1 :: keys) ++ rest.map Prod.fst) := by
      intro k hk
      apply hnib
      rw [List.map_cons]
      simp only [List.cons_append, List.mem_cons, List.mem_append] at hk ⊢
      tauto
    have hnone2 : ∀ kv2 ∈ rest, mset vals kv.1 kv.2 kv2.1 = none := by
      intro kv2 hkv2
      rw [mset_ne vals _ (hne_rest kv2 hkv2)]
      exact hnone kv2 (List.mem_cons_of_mem _ hkv2)
    obtain ⟨vals2, ps2, hseq, hv1, hv2⟩ :=
      ih (kv.1 :: keys) (mset vals kv.1 kv.2) (ps ++ [kv.1]) hpf2 hnib2 hnone2
    refine ⟨vals2, ps2, ?_, ?_, ?_⟩
    · show insertSeq ⟨canonNodes keys, vals, ps⟩ (kv :: rest) = _
      unfold insertSeq
      rw [hstep]
      dsimp only
      rw [hseq]
      have hkl : (rest.map Prod.fst).reverse ++ (kv.1 :: keys)
          = ((kv :: rest).map Prod.fst).reverse ++ keys := by
        rw [List.map_cons, List.reverse_cons, List.append_assoc]
        rfl
      rw [hkl]
    · intro kv2 hkv2
      rcases List.mem_cons.mp hkv2 with rfl | h2
      · rw [hv2 kv2.1 (fun kv3 hkv3 => (hne_rest kv3 hkv3).symm)]
        exact mset_self vals kv2.1 kv2.2
      · exact hv1 kv2 h2
    · intro q hq
      rw [hv2 q (fun kv3 hkv3 => hq kv3 (List.mem_cons_of_mem _ hkv3))]
      exact mset_ne vals _ (hq kv (List.mem_cons_self _ _))

/-- C1: inserting the pairs of a finite mapping `M` whose keys are distinct
equal-length nibble paths into a fresh `revealed_empty()` trie in any order
via `update_leaf` succeeds, and `root()` then returns exactly the digest the
reference full-trie hash builder computes over `M`, for every choice of the
RLP/keccak encoding primitives. -/
theorem insert_root_matches_hash_builder (P : Prims)
    {M order : List (List Nat × List Nat)} {L : Nat}
    (hlen : ∀ k ∈ M.map Prod.fst, k.length = L)
    (hnib : NibAll (M.map Prod.fst))
    (hnd : (M.map Prod.fst).Nodup)
    (hperm : order.Perm M) :
    ∃ t fuel d t2 fb,
      insertSeq revealedEmpty order = some t ∧
      root P t fuel = some (.okRoot d t2) ∧
      hbRoot P M fb = some d := by
  have hpfM : PrefFree (M.map Prod.fst) := by
    refine List.Pairwise.imp_of_mem ?_ hnd
    intro a b ha hb hne
    constructor
    · intro hpre
      exact hne (hpre.eq_of_length (by rw [hlen a ha, hlen b hb]))
    · intro hpre
      exact hne ((hpre.eq_of_length (by rw [hlen b hb, hlen a ha])).symm)
  have hmp : (order.map Prod.fst).Perm (M.map Prod.fst) := hperm.map Prod.fst
  have hpfO : PrefFree ([] ++ order.map Prod.fst) := by
    rw [List.nil_append]
    exact (List.Perm.pairwise_iff (fun hab => ⟨hab.2, hab.1⟩) hmp).mpr hpfM
  have hnibO : NibAll ([] ++ order.map Prod.fst) := by
    intro k hk
    rw [List.nil_append] at hk
    exact hnib k (hmp.mem_iff.mp hk)
  obtain ⟨vals2, ps2, hseq, hv1, hv2⟩ :=
    insertSeq_canonical order [] mempty [] hpfO hnibO (fun kv _ => rfl)
  have hre : revealedEmpty = ⟨canonNodes [], mempty, []⟩ := by
    rw [canonNodes_nil_eq]
    rfl
  rw [← hre] at hseq
  have hkperm : ((order.map Prod.fst).reverse ++ []).Perm (M.map Prod.fst) := by
    rw [List.append_nil]
    exact (List.reverse_perm _).trans hmp
  have hcanon : canonNodes ((order.map Prod.fst).reverse ++ []) =
      canonNodes (M.map Prod.fst) := canonNodes_perm hkperm
  have hvv : ∀ k ∈ M.map Prod.fst, vals2 k = lookupV M k := by
    intro k hk
    obtain ⟨kv, hkvM, rfl⟩ := List.mem_map.mp hk
    have hkvO : kv ∈ order := hperm.mem_iff.mpr hkvM
    rw [hv1 kv hkvO]
    exact (lookupV_of_mem hnd hkvM).symm
  have hLle : ∀ k ∈ M.map Prod.fst, k.length ≤ L :=
    fun k hk => le_of_eq (hlen k hk)
  obtain ⟨r, hr⟩ := hbSteps_total hpfM hnib hLle (L + 1) []
    canon_root_some (by simp)
  have hfz : List.Forall₂
      (fun p s => hbSteps P M (18 ^ (L + 1)) [p] = some [s]) [[]] [r] :=
    List.Forall₂.cons hr List.Forall₂.nil
  obtain ⟨c, N2, -, heq⟩ := @rlpLoop_canonical_steps M P vals2 ps2 hpfM hnib hvv
    (18 ^ (L + 1)) [[]] [r] hfz (canonNodes (M.map Prod.fst)) []
    (fun p hp q hq => rfl)
    (List.Pairwise.cons (by simp) List.Pairwise.nil)
    (fun e he => absurd he (List.not_mem_nil e))
  have hrun := heq [] (0 + 1)
  simp only [List.append_nil, List.zip_cons_cons, List.zip_nil_left,
    List.zip_nil_right, List.reverse_cons, List.reverse_nil,
    List.nil_append] at hrun
  rw [rlpLoop_finish] at hrun
  have hroot : root P
      ⟨canonNodes ((order.map Prod.fst).reverse ++ []), vals2, ps2⟩
      (c + (0 + 1)) = some (.okRoot
        (match P.asHash r with | some h => h | none => P.keccak r)
        ⟨N2, vals2, []⟩) := by
    unfold root rlp_node
    dsimp only
    rw [hcanon, hrun]
  have hhb : hbRoot P M (18 ^ (L + 1)) = some
      (match P.asHash r with | some h => h | none => P.keccak r) := by
    unfold hbRoot
    rw [hr]
  exact ⟨_, _, _, _, _, hseq, hroot, hhb⟩


/-- Witness for C1 at a concrete input: the mapping `[1] ↦ [7], [2] ↦ [9]`
with 1-nibble keys, inserted in the swapped order. -/
theorem insert_root_matches_hash_builder_witness :
    ∃ t fuel d t2 fb,
      insertSeq revealedEmpty [([2], [9]), ([1], [7])] = some t ∧
      root prims0 t fuel = some (.okRoot d t2) ∧
      hbRoot prims0 [([1], [7]), ([2], [9])] fb = some d :=
  @insert_root_matches_hash_builder prims0 [([1], [7]), ([2], [9])]
    [([2], [9]), ([1], [7])] 1 (by decide)
    (by unfold NibAll NibList; decide) (by decide) (by decide)
